import Mathlib

/-!
# VoiceForge: request pipeline and playback scheduler

A shallow embedding of the text pipeline (`electron/services/textProcessor.js`),
the moderation orchestrator (`electron/services/gptProcessor.js`) and the queue
scheduler (`electron/main/index.js`), followed by the properties proved of them.

JavaScript strings are modelled as their sequence of UTF-16 code units, so that
`length`, `substring` and the regular expressions without the `u` flag mean what
they mean in the source.
-/

namespace VoiceForge

/-! ## JavaScript strings -/

/-- A JavaScript string, as the list of its UTF-16 code units. -/
abbrev Str := List Nat

/-- The UTF-16 code units of one Unicode scalar value. -/
def utf16Char (c : Char) : List Nat :=
  if c.toNat < 0x10000 then [c.toNat]
  else [0xD800 + (c.toNat - 0x10000) / 0x400, 0xDC00 + (c.toNat - 0x10000) % 0x400]

/-- The JavaScript string written by a literal. -/
def js (s : String) : Str := (s.toList.map utf16Char).flatten

/-- The class `\s` of a regular expression, which is also what `trim` removes:
white space and line terminators. -/
def isSpace (c : Nat) : Bool :=
  c == 9 || c == 10 || c == 11 || c == 12 || c == 13 || c == 32 || c == 0xA0 ||
  c == 0x1680 || (0x2000 ≤ c && c ≤ 0x200A) || c == 0x2028 || c == 0x2029 ||
  c == 0x202F || c == 0x205F || c == 0x3000 || c == 0xFEFF

/-- The class `\d`. -/
def isDigit (c : Nat) : Bool := 48 ≤ c && c ≤ 57

/-- The class `\w` (no `u` flag): ASCII letters, digits and the underscore. -/
def isWordChar (c : Nat) : Bool :=
  (65 ≤ c && c ≤ 90) || (97 ≤ c && c ≤ 122) || isDigit c || c == 95

/-- The canonical form under which a regular expression with the `i` flag (and
no `u` flag) compares code units, on the ASCII range: lower-case letters are
mapped to upper case. A code unit of 128 or more is never canonicalised to an
ASCII one, so it is left as it is here: every pattern compared this way in the
source is ASCII. -/
def canon (c : Nat) : Nat := if 97 ≤ c && c ≤ 122 then c - 32 else c

/-- ASCII lower-casing of one code unit. -/
def asciiLower (c : Nat) : Nat := if 65 ≤ c && c ≤ 90 then c + 32 else c

/-- `String.prototype.trim`. -/
def trim (s : Str) : Str := ((s.dropWhile isSpace).reverse.dropWhile isSpace).reverse

/-- The worker of `collapseSpaces`: `inRun` tells whether the previous code unit
was white space. -/
def collapseSpacesAux : Bool → Str → Str
  | _, [] => []
  | inRun, c :: cs =>
    if isSpace c then (if inRun then collapseSpacesAux true cs else 32 :: collapseSpacesAux true cs)
    else c :: collapseSpacesAux false cs

/-- `s.replace(/\s+/g, ' ')`: every maximal run of white space becomes one space. -/
def collapseSpaces (s : Str) : Str := collapseSpacesAux false s

/-- `s.replace(/\s+/g, ' ').trim()`, the whitespace normalisation that ends the
sanitizer steps. -/
def normalizeSpaces (s : Str) : Str := trim (collapseSpaces s)

/-- The worker of `splitWords`: `cur` is the word being read. -/
def splitWordsAux : Str → Str → List Str
  | cur, [] => if cur = [] then [] else [cur]
  | cur, c :: cs =>
    if isSpace c then (if cur = [] then splitWordsAux [] cs else cur :: splitWordsAux [] cs)
    else splitWordsAux (cur ++ [c]) cs

/-- `s.split(/\s+/).filter(Boolean)` (equally `.filter(w => w.length > 0)`): the
maximal runs of code units that are not white space. -/
def splitWords (s : Str) : List Str := splitWordsAux [] s

/-- `words.join(' ')`. -/
def joinSpace : List Str → Str
  | [] => []
  | [w] => w
  | w :: ws => w ++ 32 :: joinSpace ws

/-- `s.startsWith(p)`. -/
def startsWith : Str → Str → Bool
  | _, [] => true
  | [], _ :: _ => false
  | c :: cs, p :: ps => c == p && startsWith cs ps

/-- `s.includes(p)`. -/
def includes : Str → Str → Bool
  | [], p => p.isEmpty
  | c :: cs, p => startsWith (c :: cs) p || includes cs p

/-- `s.lastIndexOf(' ')`, with `none` for the result -1. -/
def lastIndexOfSpace (s : Str) : Option Nat :=
  match s.reverse.indexOf? 32 with
  | some i => some (s.length - 1 - i)
  | none => none

/-- `s.substring(0, n)`. -/
def substring0 (s : Str) (n : Nat) : Str := s.take n

/-- The builtins whose tables are not part of the repository: the Unicode case
mappings behind `toLowerCase` and `toUpperCase`, and the general category `Mn`
behind `\p{Mn}`. Every definition below takes them as a parameter, with the one
law the source relies on: ASCII text is lower-cased letter by letter. -/
structure Unicode where
  /-- `String.prototype.toLowerCase`. -/
  toLowerCase : Str → Str
  /-- `String.prototype.toUpperCase`. -/
  toUpperCase : Str → Str
  /-- Whether a code point is a nonspacing mark (general category `Mn`). -/
  isMn : Nat → Bool
  /-- ASCII text is lower-cased code unit by code unit. -/
  lower_ascii : ∀ s : Str, (∀ c ∈ s, c < 128) → toLowerCase s = s.map asciiLower

/-- The builtins on ASCII text, where they coincide with JavaScript's: letters
A to Z change case, nothing below 128 is a nonspacing mark. Code units of 128 and
more are left alone, so this instance is only used on ASCII inputs. -/
def asciiUnicode : Unicode where
  toLowerCase := fun s => s.map asciiLower
  toUpperCase := fun s => s.map canon
  isMn := fun _ => false
  lower_ascii := fun _ _ => rfl

/-! ## Global replacement -/

/-- The worker of `replaceAll`. `skip` counts the code units of the current match
still to be passed over, `prev` is the code unit before the current position. -/
def replaceAllAux (m : Option Nat → Str → Option (Nat × Str)) : Nat → Option Nat → Str → Str
  | _, _, [] => []
  | skip + 1, _, c :: cs => replaceAllAux m skip (some c) cs
  | 0, prev, c :: cs =>
    match m prev (c :: cs) with
    | some (n + 1, r) => r ++ replaceAllAux m n (some c) cs
    | _ => c :: replaceAllAux m 0 (some c) cs

/-- `s.replace(re, ...)` for a regular expression with the `g` flag. The pattern is
given by its anchored matcher: `m prev t` tells, for a position whose remaining
text is `t` and whose preceding code unit is `prev`, how many code units the
pattern matches there (at least one: no pattern of the source matches the empty
string) and what replaces them. Matches are taken leftmost first and do not
overlap, as in JavaScript. -/
def replaceAll (m : Option Nat → Str → Option (Nat × Str)) (s : Str) : Str :=
  replaceAllAux m 0 none s

/-- The number of code units of the match of `[^x]*x` at the start of a text: up
to and including the first `x`. -/
def untilClose (x : Nat) : Str → Option Nat
  | [] => none
  | c :: cs => if c == x then some 1 else (untilClose x cs).map (· + 1)

/-- The number of code units of the match of `[^x]+x` at the start of a text. -/
def untilClose1 (x : Nat) : Str → Option Nat
  | [] => none
  | c :: cs => if c == x then none else (untilClose x cs).map (· + 1)

/-- The matcher of a literal pattern, compared exactly: `s.split(p).join(r)`
replaces the occurrences this finds, for a non-empty `p`. -/
def matchLiteral (p r : Str) (_ : Option Nat) (s : Str) : Option (Nat × Str) :=
  if startsWith s p then some (p.length, r) else none

/-- The matcher of an ASCII literal pattern under the `i` flag. -/
def matchLiteralCI (p r : Str) (_ : Option Nat) (s : Str) : Option (Nat × Str) :=
  if startsWith (s.map canon) (p.map canon) then some (p.length, r) else none

/-! ## Sanitizer (`textProcessor.js`) -/

/-- The allow-list `VALID_EMOTION_TAGS`. -/
def VALID_EMOTION_TAGS : List Str := [
  js "[laughs]", js "[laugh]", js "[laughter]",
  js "[sighs]", js "[sigh]",
  js "[gasps]", js "[gasp]",
  js "[whispers]", js "[whisper]",
  js "[gulps]", js "[gulp]",
  js "[excited]", js "[nervous]", js "[frustrated]", js "[calm]", js "[sorrowful]",
  js "[pauses]", js "[pause]", js "[hesitates]",
  js "[cheerfully]", js "[flatly]", js "[deadpan]", js "[playfully]", js "[sarcastically]"]

/-- The matcher of `/<[^>]*>/`, replaced by the empty string. -/
def matchHtmlTag (_ : Option Nat) : Str → Option (Nat × Str)
  | 60 :: cs => (untilClose 62 cs).map fun n => (n + 1, [])
  | _ => none

/-- The source function `stripHtmlTags`: tags are removed, then seven entities are
decoded one after the other. -/
def stripHtmlTags (text : Str) : Str :=
  let result := replaceAll matchHtmlTag text
  let result := replaceAll (matchLiteralCI (js "&nbsp;") (js " ")) result
  let result := replaceAll (matchLiteralCI (js "&amp;") (js "&")) result
  let result := replaceAll (matchLiteralCI (js "&lt;") (js "<")) result
  let result := replaceAll (matchLiteralCI (js "&gt;") (js ">")) result
  let result := replaceAll (matchLiteralCI (js "&quot;") (js "\"")) result
  let result := replaceAll (matchLiteralCI (js "&#39;") [39]) result
  replaceAll (matchLiteralCI (js "&apos;") [39]) result

/-- The position of the first occurrence of three backticks in a text. -/
def findFence : Str → Option Nat
  | [] => none
  | c :: cs => if startsWith (c :: cs) [96, 96, 96] then some 0 else (findFence cs).map (· + 1)

/-- The matcher of the fenced-code pattern: three backticks, the shortest text,
three backticks. -/
def matchFence (_ : Option Nat) : Str → Option (Nat × Str)
  | 96 :: 96 :: 96 :: cs => (findFence cs).map fun n => (n + 6, [])
  | _ => none

/-- The matcher of the inline-code pattern: a backtick, one or more code units
that are not backticks, a backtick. -/
def matchInlineCode (_ : Option Nat) : Str → Option (Nat × Str)
  | 96 :: cs => (untilClose1 96 cs).map fun n => (n + 1, [])
  | _ => none

/-- The source function `stripCodeBlocks`. -/
def stripCodeBlocks (text : Str) : Str :=
  replaceAll matchInlineCode (replaceAll matchFence text)

/-- Whether a code unit is a high (leading) surrogate. -/
def isHighSurrogate (c : Nat) : Bool := 0xD800 ≤ c && c ≤ 0xDBFF

/-- Whether a code unit is a low (trailing) surrogate. -/
def isLowSurrogate (c : Nat) : Bool := 0xDC00 ≤ c && c ≤ 0xDFFF

/-- The matcher of a one-code-point class under the `u` flag, replaced by the
empty string: a surrogate pair is read as one code point, and no match starts
on the second half of a pair. -/
def matchCodePoint (p : Nat → Bool) (prev : Option Nat) : Str → Option (Nat × Str)
  | [] => none
  | c :: cs =>
    if isHighSurrogate c then
      match cs with
      | d :: _ =>
        if isLowSurrogate d then
          (if p (0x10000 + (c - 0xD800) * 0x400 + (d - 0xDC00)) then some (2, []) else none)
        else (if p c then some (1, []) else none)
      | [] => if p c then some (1, []) else none
    else if isLowSurrogate c && (prev.map isHighSurrogate == some true) then none
    else if p c then some (1, []) else none

/-- The source function `stripZalgoText`: every code point of category `Mn` is
removed. -/
def stripZalgoText (U : Unicode) (text : Str) : Str :=
  replaceAll (matchCodePoint U.isMn) text

/-- The table `EMOJI_MAP`, in the order of its keys. -/
def EMOJI_MAP : List (Str × Str) := [
  ([0xD83D, 0xDE02], js "crying laughing"),
  ([0xD83E, 0xDD23], js "rolling on the floor laughing"),
  ([0xD83D, 0xDE04], js "grinning"),
  ([0xD83D, 0xDE01], js "beaming"),
  ([0xD83D, 0xDE06], js "laughing"),
  ([0xD83D, 0xDE0A], js "smiling"),
  ([0xD83D, 0xDE42], js "slightly smiling"),
  ([0xD83D, 0xDE09], js "winky face"),
  ([0xD83D, 0xDE0D], js "heart eyes"),
  ([0xD83E, 0xDD70], js "smiling with hearts"),
  ([0xD83D, 0xDE18], js "blowing a kiss"),
  ([0xD83D, 0xDE0E], js "cool sunglasses"),
  ([0xD83E, 0xDD29], js "star struck"),
  ([0xD83E, 0xDD73], js "party face"),
  ([0xD83D, 0xDE0F], js "smirking"),
  ([0xD83D, 0xDE22], js "crying"),
  ([0xD83D, 0xDE2D], js "sobbing"),
  ([0xD83D, 0xDE31], js "screaming"),
  ([0xD83D, 0xDE21], js "angry face"),
  ([0xD83E, 0xDD2C], js "swearing"),
  ([0xD83D, 0xDE24], js "huffing"),
  ([0xD83D, 0xDE44], js "eye roll"),
  ([0xD83D, 0xDE11], js "expressionless"),
  ([0xD83E, 0xDD14], js "thinking"),
  ([0xD83E, 0xDD2F], js "mind blown"),
  ([0xD83D, 0xDE33], js "flushed"),
  ([0xD83D, 0xDE2C], js "grimacing"),
  ([0xD83E, 0xDEE0], js "melting face"),
  ([0xD83D, 0xDC80], js "skull"),
  ([0x2620, 0xFE0F], js "skull and crossbones"),
  ([0xD83E, 0xDD21], js "clown"),
  ([0xD83D, 0xDC7B], js "ghost"),
  ([0xD83D, 0xDE34], js "sleeping"),
  ([0xD83D, 0xDC4D], js "thumbs up"),
  ([0xD83D, 0xDC4E], js "thumbs down"),
  ([0xD83D, 0xDC4F], js "clapping"),
  ([0xD83D, 0xDE4F], js "praying hands"),
  ([0xD83E, 0xDD1D], js "handshake"),
  ([0x270C, 0xFE0F], js "peace sign"),
  ([0xD83E, 0xDD19], js "call me hand"),
  ([0xD83D, 0xDC4B], js "waving"),
  ([0xD83E, 0xDEE1], js "salute"),
  ([0xD83D, 0xDD95], js "middle finger"),
  ([0x2764, 0xFE0F], js "heart"),
  ([0xD83E, 0xDDE1], js "orange heart"),
  ([0xD83D, 0xDC9B], js "yellow heart"),
  ([0xD83D, 0xDC9A], js "green heart"),
  ([0xD83D, 0xDC99], js "blue heart"),
  ([0xD83D, 0xDC9C], js "purple heart"),
  ([0xD83D, 0xDDA4], js "black heart"),
  ([0xD83E, 0xDD0D], js "white heart"),
  ([0xD83D, 0xDC94], js "broken heart"),
  ([0xD83D, 0xDCAF], js "hundred"),
  ([0x2705], js "check mark"),
  ([0x274C], js "X mark"),
  ([0x2B50], js "star"),
  ([0xD83C, 0xDF1F], js "glowing star"),
  ([0x2728], js "sparkles"),
  ([0xD83D, 0xDD25], js "fire"),
  ([0xD83D, 0xDCAA], js "flexing"),
  ([0xD83C, 0xDF89], js "party popper"),
  ([0xD83C, 0xDF8A], js "confetti"),
  ([0xD83C, 0xDFC6], js "trophy"),
  ([0xD83E, 0xDD47], js "gold medal"),
  ([0xD83C, 0xDFAE], js "game controller"),
  ([0xD83C, 0xDFAF], js "bullseye"),
  ([0xD83D, 0xDCB0], js "money bag"),
  ([0xD83D, 0xDC8E], js "gem"),
  ([0xD83D, 0xDE80], js "rocket"),
  ([0xD83D, 0xDCA3], js "bomb"),
  ([0x26A1], js "lightning"),
  ([0xD83D, 0xDD14], js "bell"),
  ([0xD83C, 0xDFB5], js "music note"),
  ([0xD83C, 0xDFB6], js "music notes"),
  ([0xD83D, 0xDC40], js "eyes"),
  ([0xD83D, 0xDC41, 0xFE0F], js "eye"),
  ([0xD83E, 0xDDE0], js "brain"),
  ([0xD83D, 0xDCA4], js "zzz"),
  ([0xD83D, 0xDC10], js "goat"),
  ([0xD83D, 0xDC0D], js "snake"),
  ([0xD83E, 0xDD8A], js "fox"),
  ([0xD83D, 0xDC38], js "frog"),
  ([0xD83D, 0xDC36], js "dog"),
  ([0xD83D, 0xDC31], js "cat"),
  ([0xD83E, 0xDD81], js "lion"),
  ([0xD83D, 0xDC3B], js "bear"),
  ([0xD83C, 0xDFF3, 0xFE0F], js "white flag"),
  ([0xD83D, 0xDEA9], js "red flag"),
  ([0xD83D, 0xDCA9], js "poop"),
  ([0xD83E, 0xDD16], js "robot"),
  ([0xD83D, 0xDC51], js "crown"),
  ([0xD83E, 0xDDE2], js "cap")
]

/-- The count made by the `indexOf` loop of `replaceEmojis`: occurrences of
`emoji` in `text`, found left to right without overlap. -/
def countOccurrencesAux (emoji : Str) : Nat → Str → Nat
  | _, [] => 0
  | skip + 1, _ :: cs => countOccurrencesAux emoji skip cs
  | 0, c :: cs =>
    if startsWith (c :: cs) emoji then 1 + countOccurrencesAux emoji (emoji.length - 1) cs
    else countOccurrencesAux emoji 0 cs

/-- The occurrences of `emoji` in `text`, left to right without overlap. -/
def countOccurrences (emoji text : Str) : Nat := countOccurrencesAux emoji 0 text

/-- The number of code units matched at the start of a text by as many
repetitions of "the emoji, then any white space" as there are, and the number
of repetitions. `fuel` bounds the repetitions. -/
def emojiRun (emoji : Str) : Nat → Str → Nat × Nat
  | 0, _ => (0, 0)
  | fuel + 1, s =>
    if emoji ≠ [] ∧ startsWith s emoji then
      let rest := s.drop emoji.length
      let spaces := (rest.takeWhile isSpace).length
      let r := emojiRun emoji fuel (rest.drop spaces)
      (emoji.length + spaces + r.1, r.2 + 1)
    else (0, 0)

/-- The phrase that replaces a run of `count` copies of an emoji. -/
def emojiRunPhrase (description : Str) (count : Nat) : Str :=
  if count ≥ 7 then js " a whole wall of " ++ description ++ js " "
  else if count ≥ 4 then js " so many " ++ description ++ js " "
  else if count ≥ 3 then js " " ++ description ++ js " times " ++ js (toString count) ++ js " "
  else js " double " ++ description ++ js " "

/-- The matcher of the pattern built in phase 1 of `replaceEmojis`: two or more
repetitions of the emoji, each followed by any white space. -/
def matchEmojiRun (emoji description : Str) (_ : Option Nat) (s : Str) : Option (Nat × Str) :=
  let r := emojiRun emoji s.length s
  if r.2 ≥ 2 then some (r.1, emojiRunPhrase description (countOccurrences emoji (s.take r.1)))
  else none

/-- The class stripped in phase 3 of `replaceEmojis`. -/
def isEmojiCodePoint (c : Nat) : Bool :=
  (0x1F600 ≤ c && c ≤ 0x1F64F) || (0x1F300 ≤ c && c ≤ 0x1F5FF) ||
  (0x1F680 ≤ c && c ≤ 0x1F6FF) || (0x1F1E0 ≤ c && c ≤ 0x1F1FF) ||
  (0x2600 ≤ c && c ≤ 0x26FF) || (0x2700 ≤ c && c ≤ 0x27BF) ||
  (0xFE00 ≤ c && c ≤ 0xFE0F) || (0x1F900 ≤ c && c ≤ 0x1F9FF) ||
  (0x1FA00 ≤ c && c ≤ 0x1FA6F) || (0x1FA70 ≤ c && c ≤ 0x1FAFF) ||
  c == 0x200D || c == 0x20E3 || (0xE0020 ≤ c && c ≤ 0xE007F)

/-- Phase 1 of `replaceEmojis` for one entry of the table. -/
def collapseEmojiRuns (result : Str) (entry : Str × Str) : Str :=
  if includes result entry.1 then replaceAll (matchEmojiRun entry.1 entry.2) result else result

/-- Phase 2 of `replaceEmojis` for one entry of the table. -/
def replaceSingleEmoji (result : Str) (entry : Str × Str) : Str :=
  replaceAll (matchLiteral entry.1 (js " " ++ entry.2 ++ js " ")) result

/-- The source function `replaceEmojis`. -/
def replaceEmojis (text : Str) : Str :=
  if text = [] then text else
  let result := EMOJI_MAP.foldl collapseEmojiRuns text
  let result := EMOJI_MAP.foldl replaceSingleEmoji result
  let result := replaceAll (matchCodePoint isEmojiCodePoint) result
  normalizeSpaces result

/-- The matcher of `/\d{10,}/` with its replacement. -/
def matchDigitRun (_ : Option Nat) (s : Str) : Option (Nat × Str) :=
  let run := s.takeWhile isDigit
  if run.length ≥ 10 then
    let preview := substring0 run 3
    if run.length ≥ 30 then some (run.length, preview ++ js "... an absurdly long number")
    else if run.length ≥ 15 then some (run.length, preview ++ js "... a very long number")
    else some (run.length, preview ++ js "... a long number")
  else none

/-- The repetitions `(?:\s+\1)` found at the start of a text, for the captured
word: the number of code units after each repetition, innermost last. `fuel`
bounds their number. -/
def wordRepeats (word : Str) : Nat → Str → List Nat
  | 0, _ => []
  | fuel + 1, s =>
    let spaces := (s.takeWhile isSpace).length
    let rest := s.drop spaces
    if spaces ≥ 1 ∧ startsWith (rest.map canon) (word.map canon) then
      let n := spaces + word.length
      n :: (wordRepeats word fuel (rest.drop word.length)).map (· + n)
    else []

/-- `s.split(/\s+/).length` for a text that neither starts nor ends with white
space and is not empty, as every match of the repeated-word pattern is. -/
def countSplitPieces (s : Str) : Nat := (splitWords s).length

/-- The replacement of a repeated word. -/
def wordRepeatPhrase (word : Str) (count : Nat) : Str :=
  if count ≥ 10 then word ++ js ", a whole wall of them"
  else if count ≥ 7 then word ++ js ", so many of them"
  else word ++ js ", times " ++ js (toString count)

/-- The matcher of `/\b(\w+)(?:\s+\1){5,}\b/i`. The capture is the whole word
at the position (a shorter one is not followed by white space); the repetitions
are taken greedily, and the last is given back when a word character follows
it, so that the closing `\b` holds. -/
def matchWordRepeat (prev : Option Nat) (s : Str) : Option (Nat × Str) :=
  let word := s.takeWhile isWordChar
  if word = [] ∨ prev.map isWordChar == some true then none else
  let ends := wordRepeats word s.length (s.drop word.length)
  let ends := match ends.getLast? with
    | some n => if ((s.drop (word.length + n)).head?.map isWordChar == some true)
                then ends.dropLast else ends
    | none => ends
  match ends.getLast? with
  | some n =>
    if ends.length ≥ 5 then
      some (word.length + n, wordRepeatPhrase word (countSplitPieces (s.take (word.length + n))))
    else none
  | none => none

/-- The source function `collapseRepetition`. -/
def collapseRepetition (text : Str) : Str :=
  if text = [] then text else
  normalizeSpaces (replaceAll matchWordRepeat (replaceAll matchDigitRun text))

/-- The matcher of `/\[[^\]]*\]/` with the replacement of `stripUserBracketTags`:
an allow-listed tag is kept in lower case, any other group is removed. -/
def matchUserBracketTag (U : Unicode) (_ : Option Nat) : Str → Option (Nat × Str)
  | 91 :: cs =>
    (untilClose 93 cs).map fun n =>
      let lowered := U.toLowerCase ((91 :: cs).take (n + 1))
      (n + 1, if lowered ∈ VALID_EMOTION_TAGS then lowered else [])
  | _ => none

/-- The source function `stripUserBracketTags`. -/
def stripUserBracketTags (U : Unicode) (text : Str) : Str :=
  replaceAll (matchUserBracketTag U) text

/-- The toggles read by `sanitizeInput`: each field tells whether the property of
that name is anything but `false` (a missing config or property counts as on). -/
structure SanitizationConfig where
  stripHtmlTags : Bool
  stripCodeBlocks : Bool
  stripZalgoText : Bool
  replaceEmojis : Bool
  stripUserBracketTags : Bool
  deriving DecidableEq, Repr

/-- The result of `sanitizeInput`. -/
structure SanitizeResult where
  result : Str
  sanitizationApplied : List String
  deriving DecidableEq, Repr

/-- One step of `sanitizeInput`: run `f` when the step is on, and record `name`
when the text changed. -/
def sanitizeStep (enabled : Bool) (f : Str → Str) (name : String) (r : SanitizeResult) :
    SanitizeResult :=
  if enabled then
    let after := f r.result
    if r.result ≠ after then ⟨after, r.sanitizationApplied ++ [name]⟩ else ⟨after, r.sanitizationApplied⟩
  else r

/-- The source function `sanitizeInput`. -/
def sanitizeInput (U : Unicode) (text : Str) (config : SanitizationConfig) : SanitizeResult :=
  if text = [] then ⟨[], []⟩ else
  let r : SanitizeResult := ⟨text, []⟩
  let r := sanitizeStep config.stripHtmlTags stripHtmlTags "html" r
  let r := sanitizeStep config.stripCodeBlocks stripCodeBlocks "code" r
  let r := sanitizeStep config.stripZalgoText (stripZalgoText U) "zalgo" r
  let r := sanitizeStep config.replaceEmojis replaceEmojis "emojis" r
  let r := sanitizeStep true collapseRepetition "spam" r
  let r := sanitizeStep config.stripUserBracketTags (stripUserBracketTags U) "brackets" r
  ⟨normalizeSpaces r.result, r.sanitizationApplied⟩

/-- The global sanitization settings, as `getEffectiveSanitization` reads them:
`none` for a property that is missing (or `null`), in which case the default
`true` is taken. A missing config has every property missing. -/
structure GlobalSanitization where
  stripHtmlTags : Option Bool
  stripCodeBlocks : Option Bool
  stripZalgoText : Option Bool
  replaceEmojis : Option Bool
  stripUserBracketTags : Option Bool
  deriving DecidableEq, Repr

/-- The flags of a voice config that `getEffectiveSanitization` reads, each by
truthiness. A missing voice config has every flag `false`. -/
structure VoiceSanitization where
  ignoreSanitization : Bool
  allowUserBracketTags : Bool
  allowZalgoText : Bool
  allowEmojis : Bool
  deriving DecidableEq, Repr

/-- The source function `getEffectiveSanitization`. -/
def getEffectiveSanitization (voiceConfig : VoiceSanitization)
    (globalConfig : GlobalSanitization) : SanitizationConfig :=
  if voiceConfig.ignoreSanitization then ⟨false, false, false, false, false⟩
  else
    let config : SanitizationConfig :=
      ⟨globalConfig.stripHtmlTags.getD true, globalConfig.stripCodeBlocks.getD true,
        globalConfig.stripZalgoText.getD true, globalConfig.replaceEmojis.getD true,
        globalConfig.stripUserBracketTags.getD true⟩
    let config :=
      if voiceConfig.allowUserBracketTags then { config with stripUserBracketTags := false }
      else config
    let config :=
      if voiceConfig.allowZalgoText then { config with stripZalgoText := false } else config
    if voiceConfig.allowEmojis then { config with replaceEmojis := false } else config

/-! ## Replacement rules (`textProcessor.js`) -/

/-- A replacement rule, as `applyReplacements` reads it: each flag tells whether
the property is truthy, `pattern` is the empty string when it is missing, and
`replacement` is `rule.replacement || ''`. -/
structure ReplacementRule where
  enabled : Bool
  pattern : Str
  replacement : Str
  isRegex : Bool
  caseSensitive : Bool
  deriving DecidableEq, Repr

/-- The regular-expression builtins, which are not part of the repository:
`compile pattern flags` is `new RegExp(pattern, flags)`, `none` when the
constructor throws, and otherwise the function that takes `text` and
`replacement` to `text.replace(regex, replacement)`. -/
structure RegExpEngine where
  compile : Str → Str → Option (Str → Str → Str)

/-- The class `[imsuxy]` of `parseInlineFlags`. -/
def isInlineFlag (c : Nat) : Bool :=
  c == 105 || c == 109 || c == 115 || c == 117 || c == 120 || c == 121

/-- The source function `parseInlineFlags`: `(cleanPattern, flags)`. An inline
flag group `(?…)` at the start of the pattern is cut off, and of its letters
`i`, `m` and `s` are kept, in this order. -/
def parseInlineFlags (pattern : Str) : Str × Str :=
  match pattern with
  | 40 :: 63 :: rest =>
    let inlineFlags := rest.takeWhile isInlineFlag
    if inlineFlags ≠ [] ∧ (rest.drop inlineFlags.length).head? = some 41 then
      (rest.drop (inlineFlags.length + 1),
        (if 105 ∈ inlineFlags then [105] else []) ++ (if 109 ∈ inlineFlags then [109] else []) ++
        (if 115 ∈ inlineFlags then [115] else []))
    else (pattern, [])
  | _ => (pattern, [])

/-- The flags `applyReplacements` gives to the regular expression of a regex
rule: global always, case-insensitive by the inline flag or unless the rule is
case-sensitive, and the inline flags `m` and `s`. -/
def regexFlags (rule : ReplacementRule) (inlineFlags : Str) : Str :=
  [103] ++ (if 105 ∈ inlineFlags then [105] else if !rule.caseSensitive then [105] else []) ++
  (if 109 ∈ inlineFlags then [109] else []) ++ (if 115 ∈ inlineFlags then [115] else [])

/-- The class `[.*+?^${}()|[\]\\]` of `escapeRegExp`. -/
def isRegExpSpecial (c : Nat) : Bool :=
  c == 46 || c == 42 || c == 43 || c == 63 || c == 94 || c == 36 || c == 123 || c == 125 ||
  c == 40 || c == 41 || c == 124 || c == 91 || c == 93 || c == 92

/-- The source function `escapeRegExp`: a backslash goes before every special
character. -/
def escapeRegExp (str : Str) : Str :=
  (str.map fun c => if isRegExpSpecial c then [92, c] else [c]).flatten

/-- The body of the `try` block of `applyReplacements` for one rule: the new
text, or `none` when the body throws, which it does when the regular expression
of the rule does not compile. A plain case-sensitive rule builds none:
`split(pattern).join(replacement)` replaces the occurrences of the pattern. -/
def applyRule (E : RegExpEngine) (rule : ReplacementRule) (result : Str) : Option Str :=
  if rule.isRegex then
    let parsed := parseInlineFlags rule.pattern
    (E.compile parsed.1 (regexFlags rule parsed.2)).map fun replace =>
      replace result rule.replacement
  else if rule.caseSensitive then
    some (replaceAll (matchLiteral rule.pattern rule.replacement) result)
  else
    (E.compile (escapeRegExp rule.pattern) [103, 105]).map fun replace =>
      replace result rule.replacement

/-- One turn of the loop of `applyReplacements`: a disabled rule and a rule with
an empty pattern are skipped, and so is, by the `catch`, a rule whose body
throws. -/
def applyReplacementStep (E : RegExpEngine) (result : Str) (rule : ReplacementRule) : Str :=
  if rule.enabled = false then result
  else if rule.pattern = [] then result
  else
    match applyRule E rule result with
    | some replaced => replaced
    | none => result

/-- The source function `applyReplacements`; a missing rule list is the empty
one. -/
def applyReplacements (E : RegExpEngine) (text : Str) (replacements : List ReplacementRule) :
    Str :=
  if text = [] ∨ replacements.length = 0 then text
  else replacements.foldl (applyReplacementStep E) text

/-- The voice config, as `processText` reads it: a missing flag is `false`, a
missing rule list is empty; `aliasName` is the property `alias`. -/
structure VoiceConfig where
  aliasName : Str
  ignoreGlobalReplacements : Bool
  replacements : List ReplacementRule
  deriving DecidableEq, Repr

/-- An entry of `appliedRules`: `kind` is its `type` (`'global'` or `'voice'`),
`aliasName` the `alias` of a voice entry, `count` the number of enabled rules of
the list. -/
structure AppliedRules where
  kind : String
  aliasName : Option Str
  count : Nat
  deriving DecidableEq, Repr

/-- The result of `processText`. -/
structure ProcessTextResult where
  processedText : Str
  appliedRules : List AppliedRules
  deriving DecidableEq, Repr

/-- Step 1 of `processText`: the global rules, unless the voice ignores them or
there is none. -/
def globalStage (E : RegExpEngine) (text : Str) (voiceConfig : Option VoiceConfig)
    (globalReplacements : List ReplacementRule) : ProcessTextResult :=
  let ignoreGlobal := match voiceConfig with
    | some v => v.ignoreGlobalReplacements
    | none => false
  if ignoreGlobal = false ∧ globalReplacements.length > 0 then
    let processedText := applyReplacements E text globalReplacements
    if text ≠ processedText then
      ⟨processedText, [⟨"global", none, (globalReplacements.filter fun r => r.enabled).length⟩]⟩
    else ⟨processedText, []⟩
  else ⟨text, []⟩

/-- Step 2 of `processText`: the rules of the voice, if it has any. -/
def voiceStage (E : RegExpEngine) (voiceConfig : Option VoiceConfig) (r : ProcessTextResult) :
    ProcessTextResult :=
  match voiceConfig with
  | some v =>
    if v.replacements.length > 0 then
      let processedText := applyReplacements E r.processedText v.replacements
      if r.processedText ≠ processedText then
        ⟨processedText, r.appliedRules ++
          [⟨"voice", some v.aliasName, (v.replacements.filter fun r => r.enabled).length⟩]⟩
      else ⟨processedText, r.appliedRules⟩
    else r
  | none => r

/-- The source function `processText`; a missing voice config is `none`. -/
def processText (E : RegExpEngine) (text : Str) (voiceConfig : Option VoiceConfig)
    (globalReplacements : List ReplacementRule) : ProcessTextResult :=
  if text = [] then ⟨[], []⟩
  else voiceStage E voiceConfig (globalStage E text voiceConfig globalReplacements)

/-! ## Length limiter (`textProcessor.js`) -/

/-- One limit of the dual config: `{ enabled, value }`. A missing limit reads as
not enabled. The value is a non-negative integer. -/
structure LengthLimit where
  enabled : Bool
  value : Nat
  deriving DecidableEq, Repr

/-- The config of `applyMaxLength`: `{ characters, words }`. -/
structure MaxLengthConfig where
  characters : LengthLimit
  words : LengthLimit
  deriving DecidableEq, Repr

/-- The attribution `truncatedBy`; `null` is `none`. -/
inductive TruncatedBy where
  | characters
  | words
  deriving DecidableEq, Repr

/-- The result of `applyMaxLength`. -/
structure MaxLengthResult where
  result : Str
  wasTruncated : Bool
  truncatedBy : Option TruncatedBy
  charCount : Nat
  wordCount : Nat
  deriving DecidableEq, Repr

/-- The character step of `applyMaxLength`, taken when the limit is enabled and
exceeded: cut at `value` code units, then back to the last space when that space
lies beyond 80% of the limit. The test `lastSpace > value * 0.8` of the source is
written `4 * value < 5 * lastSpace`; the two agree for every limit a string
length can reach, the product by the double nearest 0.8 being rounded to the
integer `4 * value / 5` whenever that is one. -/
def truncateAtCharacters (result : Str) (value : Nat) : Str :=
  let truncated := substring0 result value
  match lastIndexOfSpace truncated with
  | some lastSpace =>
    if 4 * value < 5 * lastSpace then substring0 truncated lastSpace else truncated
  | none => truncated

/-- The variables `result`, `wasTruncated` and `truncatedBy` of `applyMaxLength`. -/
structure Truncation where
  result : Str
  wasTruncated : Bool
  truncatedBy : Option TruncatedBy
  deriving DecidableEq, Repr

/-- The character check of `applyMaxLength`. -/
def characterStage (charLimit : LengthLimit) (t : Truncation) : Truncation :=
  if charLimit.enabled = true ∧ t.result.length > charLimit.value then
    ⟨truncateAtCharacters t.result charLimit.value, true, some TruncatedBy.characters⟩
  else t

/-- The word check of `applyMaxLength`. -/
def wordStage (wordLimit : LengthLimit) (t : Truncation) : Truncation :=
  if wordLimit.enabled = true ∧ (splitWords t.result).length > wordLimit.value then
    ⟨joinSpace ((splitWords t.result).take wordLimit.value), true,
      if t.truncatedBy.isNone then some TruncatedBy.words else t.truncatedBy⟩
  else t

/-- The source function `applyMaxLength`. -/
def applyMaxLength (text : Str) (maxLengthConfig : MaxLengthConfig) : MaxLengthResult :=
  if text = [] then ⟨[], false, none, 0, 0⟩ else
  let charLimit := maxLengthConfig.characters
  let wordLimit := maxLengthConfig.words
  if charLimit.enabled = false ∧ wordLimit.enabled = false then
    ⟨text, false, none, text.length, (splitWords text).length⟩
  else
    let t := wordStage wordLimit (characterStage charLimit ⟨text, false, none⟩)
    ⟨t.result, t.wasTruncated, t.truncatedBy, t.result.length, (splitWords t.result).length⟩

/-- The source function `postProcessEmotionTags` and its pieces follow. The
matcher of `/\[[^\]]+\]/` with its replacement: the group in lower case. -/
def matchPerformanceTag (U : Unicode) (_ : Option Nat) : Str → Option (Nat × Str)
  | 91 :: cs =>
    (untilClose1 93 cs).map fun n => (n + 1, U.toLowerCase ((91 :: cs).take (n + 1)))
  | _ => none

/-- The groups `/\[[^\]]+\]/g` finds in a text, in lower case: `tagsFound`. -/
def findPerformanceTagsAux (U : Unicode) : Nat → Str → List Str
  | _, [] => []
  | skip + 1, _ :: cs => findPerformanceTagsAux U skip cs
  | 0, c :: cs =>
    match matchPerformanceTag U none (c :: cs) with
    | some (n + 1, r) => r :: findPerformanceTagsAux U n cs
    | _ => findPerformanceTagsAux U 0 cs

/-- Whether `/\s*\[[^\]]+\]\s*$/` matches a text from its first code unit to its
end. -/
def isTrailingTag (s : Str) : Bool :=
  match s.dropWhile isSpace with
  | 91 :: cs =>
    match untilClose1 93 cs with
    | some n => (cs.drop n).all isSpace
    | none => false
  | _ => false

/-- `s.replace(/\s*\[[^\]]+\]\s*$/, '')`: the text from the leftmost position at
which the pattern matches is removed. -/
def stripTrailingTag : Str → Str
  | [] => []
  | c :: cs => if isTrailingTag (c :: cs) then [] else c :: stripTrailingTag cs

/-- The result of `postProcessEmotionTags`. -/
structure EmotionTagsResult where
  result : Str
  tagsFound : List Str
  tagsRemoved : List Str
  deriving DecidableEq, Repr

/-- The source function `postProcessEmotionTags`. -/
def postProcessEmotionTags (U : Unicode) (text : Str) : EmotionTagsResult :=
  if text = [] then ⟨[], [], []⟩ else
  let result := replaceAll (matchPerformanceTag U) text
  let result := stripTrailingTag result
  ⟨normalizeSpaces result, findPerformanceTagsAux U 0 text, []⟩

/-! ## Moderation orchestrator (`gptProcessor.js`) -/

/-- `words.join(sep)`. -/
def joinWith (sep : Str) : List Str → Str
  | [] => []
  | [w] => w
  | w :: ws => w ++ sep ++ joinWith sep ws

/-- The strictness levels `STRICTNESS_LEVELS`. -/
inductive Level where
  | off
  | standard
  | strict
  deriving DecidableEq, Repr

/-- The config of one moderation rule: its `level` when set, and the older
`enabled` flag when set. -/
structure RuleConfig where
  level : Option Level
  enabled : Option Bool
  deriving DecidableEq, Repr

/-- The config of the profanity rule, `rules.profanity`. -/
structure ProfanityConfig where
  mode : Str
  level : Option Level
  replacementWord : Option Str
  exceptions : List Str
  deriving DecidableEq, Repr

/-- The map `moderationConfig.rules`; a rule that is not configured is `none`. -/
structure ModerationRules where
  sexualContent : Option RuleConfig
  hateSpeech : Option RuleConfig
  violence : Option RuleConfig
  doxxing : Option RuleConfig
  misinformation : Option RuleConfig
  songLyrics : Option RuleConfig
  mediaQuotes : Option RuleConfig
  profanity : Option ProfanityConfig
  deriving DecidableEq, Repr

/-- The topics config `blockedTopics`: the presets in the order of their keys,
each with its value (`some true`, `some false`, or `none` for anything else),
and the custom topics. -/
structure BlockedTopics where
  presets : List (String × Option Bool)
  custom : List Str
  deriving DecidableEq, Repr

/-- One entry of `RULE_DEFINITIONS`: the name, the risk tier when there is one, and
the prompt text of the levels `standard` and `strict` (the level `off` has none). -/
structure RuleDefinition where
  name : Str
  riskLevel : Option Str
  standardPrompt : Str
  strictPrompt : Str

/-- The entry `RULE_DEFINITIONS.sexualContent`. -/
def RULE_DEFINITIONS_sexualContent : RuleDefinition where
  name := js "Sexual Content"
  riskLevel := none
  standardPrompt := js "explicitly graphic sexual descriptions, pornographic content, or sexual harassment directed at someone. Mild or suggestive content (like \"twerking\", dance references, innuendos, mild flirting) should PASS at standard. Only block content that is genuinely graphic, pornographic, or constitutes sexual harassment"
  strictPrompt := js "ANY sexual content including: explicit material, innuendo, suggestive themes, flirting, sexual jokes, double entendres, mild sexual references, \"that's what she said\" jokes"

/-- The entry `RULE_DEFINITIONS.hateSpeech`. -/
def RULE_DEFINITIONS_hateSpeech : RuleDefinition where
  name := js "Hate Speech"
  riskLevel := none
  standardPrompt := js "explicit and severe hate speech: racial slurs (n-word, etc.), homophobic slurs (f-word for gay, etc.), direct calls for violence against identity groups, targeted harassment using identity-based insults, dehumanizing language comparing groups to animals/objects. DO NOT block: stereotypes, microaggressions, backhanded compliments, or subtle bias - these require STRICT mode. DO NOT block gaming language: \"kill the boss\", \"destroy that team\", \"get wrecked\", \"owned\", \"obliterated\". Competitive banter and trash talk that does NOT target protected identity groups is NOT hate speech"
  strictPrompt := js "ALL standard hate speech violations PLUS subtle discrimination: dog-whistles, coded bigotry (\"despite being 13%\", triple parentheses, \"globalists\"), microaggressions, harmful stereotypes, backhanded compliments targeting identity (\"smart for a girl\"), and exclusionary language"

/-- The entry `RULE_DEFINITIONS.violence`. -/
def RULE_DEFINITIONS_violence : RuleDefinition where
  name := js "Violence & Threats"
  riskLevel := none
  standardPrompt := js "credible, real-world threats to harm a SPECIFIC NAMED person, detailed instructions for real-world violence, self-harm or suicide encouragement, terroristic threats. DO NOT block: in-game violence (boss fights, PvP, \"I'll kill you\", raid wipes, \"clutch or kick\"), meme/joke phrases (\"burn the witch\", \"off with his head\", \"kill it with fire\"), general violent expressions without a specific real target. A threat must name or clearly identify a REAL person to be blocked — vague or fictional violence is NOT a violation"
  strictPrompt := js "ANY violent or threatening content including: direct threats, implied threats (\"watch your back\"), aggressive language (\"I'll destroy you\"), violent imagery, fight descriptions, weapon references in threatening context"

/-- The entry `RULE_DEFINITIONS.doxxing`. -/
def RULE_DEFINITIONS_doxxing : RuleDefinition where
  name := js "Personal Information"
  riskLevel := none
  standardPrompt := js "full real-world addresses, phone numbers, social security numbers, credit card numbers, private personal data that could identify someone, doxxing attempts"
  strictPrompt := js "ANY potentially identifying information including: full or partial addresses, phone numbers, workplace names, school names, neighborhood details, license plates, relative names combined with locations"

/-- The entry `RULE_DEFINITIONS.misinformation`. -/
def RULE_DEFINITIONS_misinformation : RuleDefinition where
  name := js "Misinformation"
  riskLevel := none
  standardPrompt := js "dangerous medical advice that could cause harm (e.g., \"drink bleach to cure X\"), dangerous legal advice, safety misinformation that could lead to injury"
  strictPrompt := js "ANY potentially harmful misinformation including: dangerous medical/legal/safety advice, conspiracy theories (flat earth, anti-vax misinformation), unverified claims presented as fact, misleading statistics"

/-- The entry `RULE_DEFINITIONS.songLyrics`. -/
def RULE_DEFINITIONS_songLyrics : RuleDefinition where
  name := js "Song Lyrics"
  riskLevel := some (js "high")
  standardPrompt := js "PRIMARY GOAL: Block text containing 2+ consecutive lines of song lyrics.\n\n        BLOCKING LOGIC:\n        1. If text has lyrical structure (rhythm, rhyme, verse-like) AND contains 2+ lines → likely song lyrics\n        2. If lyrics are NOT on the public domain list below → BLOCK (assume copyrighted)\n        3. When unsure if copyrighted: BLOCK to be safe\n\n        PUBLIC DOMAIN (always allow):\n        • Nursery rhymes: \"Twinkle Twinkle\", \"Row Row Row Your Boat\", \"If You're Happy and You Know It\", etc.\n        • Traditional/folk: \"Amazing Grace\", \"Auld Lang Syne\", \"Greensleeves\"\n        • Holiday classics: \"Jingle Bells\", \"Silent Night\", \"Deck the Halls\"\n        • National anthems, patriotic songs\n\n        ALSO ALLOW: Song titles alone, artist names, parody lyrics, single isolated lines"
  strictPrompt := js "ANY recognizable song lyrics from copyrighted songs, even single iconic lines.\n        Block memorable single lines like: \"Never gonna give you up\", \"Hello from the other side\", \"We will rock you\"\n        DO NOT block public domain songs: nursery rhymes, traditional folk songs, \"Happy Birthday\", \"Jingle Bells\", Christmas carols, national anthems\n        Still allow: Song titles alone, artist names, discussing songs without quoting lyrics"

/-- The entry `RULE_DEFINITIONS.mediaQuotes`. -/
def RULE_DEFINITIONS_mediaQuotes : RuleDefinition where
  name := js "Movie/TV/Book Quotes"
  riskLevel := some (js "medium")
  standardPrompt := js "substantial verbatim quotes from movies, TV shows, or books - full monologues, multiple consecutive lines of dialogue.\n        DO NOT block: Short iconic one-liners (\"I'll be back\", \"May the Force be with you\"), character names, plot discussions, common phrases that originated in media"
  strictPrompt := js "ANY recognizable quotes from copyrighted media including:\n        - Famous one-liners: \"I'll be back\", \"You can't handle the truth\", \"Here's Johnny\"\n        - Iconic phrases: \"May the Force be with you\", \"You're a wizard, Harry\", \"One ring to rule them all\"\n        - Book quotes: \"It was the best of times\", \"Call me Ishmael\"\n        Still allow: Character names (trademark, not copyright), plot discussions, paraphrasing"

/-- The entry `RULE_DEFINITIONS.profanity`. -/
def RULE_DEFINITIONS_profanity : RuleDefinition where
  name := js "Profanity"
  riskLevel := none
  standardPrompt := js "strong profanity: f-word and variants, s-word, c-word, hard slurs, and other severe swear words"
  strictPrompt := js "ANY profanity including: strong swear words (f-word, s-word, c-word), mild profanity (damn, hell, crap, ass, bastard), religious profanity, and crude language"

/-- The table `TOPIC_PRESETS`: key, name and description of each preset topic. -/
def TOPIC_PRESETS : List (String × Str × Str) := [
  ("politics", js "Politics",
    js "genuinely divisive political discussion: partisan arguments, political debates, campaign promotion, political trolling. NOT casual mentions of countries or hyperbolic phrases like \"that should be illegal\""),
  ("religion", js "Religion",
    js "genuinely divisive religious debates, proselytizing, theological arguments, religious trolling. NOT exclamations like \"Oh my God!\", \"Jesus Christ!\", \"Glory to [name]!\", \"bless you\", or cultural/holiday references"),
  ("streamerDrama", js "Streamer/Creator Drama",
    js "controversies involving other streamers or content creators, inter-community drama, gossip about creators"),
  ("spoilers", js "Spoilers & Backseating",
    js "plot spoilers, game solutions, unsolicited gameplay advice, telling the streamer what to do"),
  ("traumaDumping", js "Trauma Dumping",
    js "heavy personal trauma, deeply emotional confessions, therapy-level personal issues shared publicly"),
  ("cryptoFinance", js "Crypto & Financial Schemes",
    js "cryptocurrency, NFTs, trading advice, get-rich-quick schemes, investment tips, financial promotions"),
  ("consoleWars", js "Console/Platform Wars",
    js "PlayStation vs Xbox debates, PC master race, platform tribalism, console superiority arguments"),
  ("bodyImage", js "Body Image & Appearance",
    js "comments about weight, physical appearance, body shaming, unsolicited appearance opinions"),
  ("relationshipStatus", js "Relationship Status",
    js "questions about dating, marriage, romantic partners, parasocial relationship inquiries"),
  ("ageLocation", js "Age & Location",
    js "actual attempts to extract real personal identifying information or doxx someone. NOT casual \"where are you from?\", \"what timezone?\", or age references in gaming context"),
  ("competitorMentions", js "Competitor Mentions",
    js "promoting other streamers, mentioning rival channels, advertising competing content"),
  ("realWorldTragedies", js "Real-World Tragedies",
    js "current disasters, mass shootings, terrorist attacks, ongoing tragedies in the news")]

/-- The fixed text of the safety prompt before its rule lines. -/
def safetyPromptHead : Str :=
  js "You are a content safety classifier. Analyze the text and determine if it violates any safety rules.\n\nCONTEXT: This is a Text-to-Speech system on a Twitch livestream. Viewers send messages for FUN.\n\nKEY PRINCIPLES:\n- INTENT matters more than literal words. Most messages are humor, gaming banter, or excitement.\n- Common exclamations (\"Oh my God!\", \"Jesus Christ!\", \"Holy crap!\") are expressions, NOT violations.\n- Gaming language (\"Kill the boss!\", \"I'll destroy you!\", \"Get rekt!\", \"We obliterated them!\") is normal competitive talk, NOT real violence or hate.\n- Twitch culture includes memes, hype, edgy humor, and banter. This is expected and normal.\n- Only block content that is GENUINELY harmful, hateful, threatening, or explicit.\n- When in doubt, PASS. False blocks ruin the fun. The streamer can manually moderate if needed.\n\nSAFETY RULES - Block if ANY rule is violated:\n"

/-- The fixed text of the safety prompt after its rule lines. -/
def safetyPromptTail : Str :=
  js "\n\nEVASION DETECTION - IMPORTANT:\nUsers WILL try to sneak banned content past you using obfuscation. You MUST catch these:\n- Words split with spaces/punctuation: \"s ex\" = \"sex\", \"vi ol ence\" = \"violence\", \"n aked\" = \"naked\"\n- Character substitution: \"s3x\", \"h8\", \"k1ll\", \"pr0n\", \"a$$\"\n- Words hidden inside innocent phrases\n- Phonetic spelling: \"fuk\", \"suk\", \"ess ee ex\"\n- Leetspeak and unicode tricks\n- Near-miss / deliberate misspellings: \"fagg\" = slur, \"seggs\" = \"sex\", \"pr0n\" = \"porn\", \"r@pe\" = \"rape\", \"n1gga\" = slur, \"phuck\" = profanity, \"b00bs\" = sexual\n- If a misspelled word is clearly meant to represent blocked content, treat it as the original word\nALWAYS mentally reconstruct the message by removing/rearranging spaces and decode substitutions. If the reconstructed meaning violates any of the ABOVE safety rules, block it using that rule's name (not \"evasion detection\"). Only flag evasion for rules that are actually listed above.\n\nRESPONSE FORMAT:\n- If ANY rule is violated: respond ONLY with \"BLOCKED: [RULE NAME] - [brief reason]\"\n- If content is safe: respond ONLY with \"PASS\"\n\nAnalyze this text:"

/-- The fixed text of the copyright prompt before its rule lines. -/
def copyrightPromptHead : Str :=
  js "You are a copyright protection classifier. Analyze the text for potential copyright violations.\n\nCOPYRIGHT RULES - Block if ANY rule is violated:\n"

/-- The fixed text of the copyright prompt after its rule lines. -/
def copyrightPromptTail : Str :=
  js "\n\nRESPONSE FORMAT:\n- If copyright violation detected: respond ONLY with \"BLOCKED: [CATEGORY] - [brief reason]\"\n- If content is safe: respond ONLY with \"PASS\"\n\nAnalyze this text:"

/-- The first section of the topics prompt. -/
def topicsPromptHead : Str :=
  js "You are a topic classifier. Analyze if the text is primarily about any blocked topics.\n\nCONTEXT: This is TTS on a Twitch livestream. Viewers are having fun, not writing essays.\n\nKEY PRINCIPLES:\n- Only block messages that are GENUINELY, DEEPLY about a blocked topic — divisive discussions, trolling, debate-starters, or hate speeches.\n- Casual mentions, exclamations, jokes, and cultural references should PASS.\n- INTENT matters: fun/humor/gaming references are NOT violations.\n- \"Glory to [streamer]!\" is hype, not religious. \"Oh my God\" is an exclamation, not theology. \"That's criminal!\" is hyperbole, not politics.\n- When in doubt, PASS."


/-- The level a rule config resolves to in the prompt builders: `level`, or else
`standard` or `off` after the `enabled` flag. -/
def resolveLevel (ruleConfig : RuleConfig) : Option Level :=
  match ruleConfig.level with
  | some level => some level
  | none => ruleConfig.enabled.map fun e => if e then Level.standard else Level.off

/-- The prompt text `ruleDef.levels[level]` of a level, `none` for `off`. -/
def levelPrompt (ruleDef : RuleDefinition) : Level → Option Str
  | Level.off => none
  | Level.standard => some ruleDef.standardPrompt
  | Level.strict => some ruleDef.strictPrompt

/-- The label added to a rule line at level `strict`. -/
def levelLabel (level : Level) : Str := if level = Level.strict then js " [STRICT]" else []

/-- The line a safety rule contributes to `activeRules`, if it is active. -/
def safetyRuleLine (U : Unicode) (ruleDef : RuleDefinition) (ruleConfig : Option RuleConfig) :
    Option Str :=
  match ruleConfig with
  | none => none
  | some rc =>
    match resolveLevel rc with
    | none => none
    | some level =>
      match levelPrompt ruleDef level with
      | none => none
      | some prompt =>
        some (js "• " ++ U.toUpperCase ruleDef.name ++ levelLabel level ++ js ": " ++ prompt)

/-- The rule lines of the safety prompt, over `safetyRuleKeys` in order. -/
def safetyActiveRules (U : Unicode) (rules : ModerationRules) : List Str :=
  [safetyRuleLine U RULE_DEFINITIONS_sexualContent rules.sexualContent,
   safetyRuleLine U RULE_DEFINITIONS_hateSpeech rules.hateSpeech,
   safetyRuleLine U RULE_DEFINITIONS_violence rules.violence,
   safetyRuleLine U RULE_DEFINITIONS_doxxing rules.doxxing,
   safetyRuleLine U RULE_DEFINITIONS_misinformation rules.misinformation].filterMap id

/-- The source function `buildSafetyModerationPrompt`; `null` is `none`. -/
def buildSafetyModerationPrompt (U : Unicode) (rules : ModerationRules) : Option Str :=
  let activeRules := safetyActiveRules U rules
  if activeRules.length = 0 then none
  else some (safetyPromptHead ++ joinWith (js "\n") activeRules ++ safetyPromptTail)

/-- A topic of the topics prompt: name and description. -/
structure Topic where
  name : Str
  description : Str
  deriving DecidableEq, Repr

/-- The entry of `TOPIC_PRESETS` under a key. -/
def lookupTopicPreset (key : String) : Option Topic :=
  (TOPIC_PRESETS.find? fun e => e.1 == key).map fun e => ⟨e.2.1, e.2.2⟩

/-- The preset topics whose value is `want`, in the order of the config. -/
def presetTopics (presets : List (String × Option Bool)) (want : Bool) : List Topic :=
  presets.filterMap fun e =>
    match lookupTopicPreset e.1 with
    | some t => if e.2 = some want then some t else none
    | none => none

/-- The custom topics that are not blank, trimmed. -/
def customTopics (custom : List Str) : List Topic :=
  custom.filterMap fun topic =>
    if trim topic = [] then none
    else some ⟨trim topic, js "anything related to \"" ++ trim topic ++ js "\""⟩

/-- The line of a topic in the topics prompt. -/
def topicLine (t : Topic) : Str := js "• " ++ t.name ++ js ": " ++ t.description

/-- The source function `buildTopicsModerationPrompt`; `null` is `none`. -/
def buildTopicsModerationPrompt (blockedTopics : BlockedTopics) (customInstructions : Str) :
    Option Str :=
  let blockedTopicsList := presetTopics blockedTopics.presets true ++ customTopics blockedTopics.custom
  let allowedTopicsList := presetTopics blockedTopics.presets false
  let hasCustomInstructions := decide ((trim customInstructions).length > 0)
  if blockedTopicsList.length = 0 ∧ hasCustomInstructions = false then none else
  let sections := [topicsPromptHead]
  let sections := if blockedTopicsList.length > 0 then
      sections ++ [js "\nBLOCKED TOPICS - Block if message is primarily about:"] ++
        blockedTopicsList.map topicLine
    else sections
  let sections := if allowedTopicsList.length > 0 then
      sections ++ [js "\nALLOWED TOPICS - Do NOT block these:"] ++ allowedTopicsList.map topicLine
    else sections
  let sections := if hasCustomInstructions then
      sections ++ [js "\nCUSTOM RULES FROM STREAMER:\n" ++ trim customInstructions]
    else sections
  let sections := sections ++ [
    js "\nMETA-RULE: Topics not listed above are ALLOWED by default.",
    js "\nRESPONSE FORMAT:",
    js "- If blocked topic detected: respond ONLY with \"BLOCKED: [TOPIC] - [brief reason]\"",
    js "- If content is allowed: respond ONLY with \"PASS\"",
    js "\nAnalyze this text:"]
  some (joinWith (js "\n") sections)

/-- The line a copyright rule contributes to `activeRules`, if it is active. -/
def copyrightRuleLine (U : Unicode) (ruleDef : RuleDefinition) (ruleConfig : Option RuleConfig) :
    Option Str :=
  match ruleConfig with
  | none => none
  | some rc =>
    match resolveLevel rc with
    | none => none
    | some level =>
      match levelPrompt ruleDef level with
      | none => none
      | some prompt =>
        let riskLabel := match ruleDef.riskLevel with
          | some risk => if risk = [] then [] else js " [" ++ U.toUpperCase risk ++ js " RISK]"
          | none => []
        some (js "• " ++ U.toUpperCase ruleDef.name ++ levelLabel level ++ riskLabel ++
          js ":\n  " ++ prompt)

/-- The rule lines of the copyright prompt, over `copyrightRuleKeys` in order. -/
def copyrightActiveRules (U : Unicode) (rules : ModerationRules) : List Str :=
  [copyrightRuleLine U RULE_DEFINITIONS_songLyrics rules.songLyrics,
   copyrightRuleLine U RULE_DEFINITIONS_mediaQuotes rules.mediaQuotes].filterMap id

/-- The source function `buildCopyrightModerationPrompt`; `null` is `none`. -/
def buildCopyrightModerationPrompt (U : Unicode) (rules : ModerationRules) : Option Str :=
  let activeRules := copyrightActiveRules U rules
  if activeRules.length = 0 then none
  else some (copyrightPromptHead ++ joinWith (js "\n\n") activeRules ++ copyrightPromptTail)

/-- The result of `checkIfBlocked`. -/
structure BlockCheck where
  blocked : Bool
  reason : Option Str
  deriving DecidableEq, Repr

/-- The source function `checkIfBlocked`. -/
def checkIfBlocked (U : Unicode) (response : Str) : BlockCheck :=
  if response = [] then ⟨false, none⟩ else
  let trimmed := trim response
  if startsWith (U.toUpperCase trimmed) (js "BLOCKED:") then
    let reason := trim (trimmed.drop 8)
    ⟨true, some (if reason = [] then js "Content flagged as inappropriate" else reason)⟩
  else ⟨false, none⟩

/-- The matcher of `/\[[^\]]*\]/`, replaced by the empty string. -/
def matchBracketGroup (_ : Option Nat) : Str → Option (Nat × Str)
  | 91 :: cs => (untilClose 93 cs).map fun n => (n + 1, [])
  | _ => none

/-- The matcher of `/\*[^*]*\*/`, replaced by the empty string. -/
def matchVocalization (_ : Option Nat) : Str → Option (Nat × Str)
  | 42 :: cs => (untilClose 42 cs).map fun n => (n + 1, [])
  | _ => none

/-- The matcher of `/[♪~]/`, replaced by the empty string. -/
def matchSingingGlyph (_ : Option Nat) : Str → Option (Nat × Str)
  | c :: _ => if c == 0x266A || c == 126 then some (1, []) else none
  | [] => none

/-- The source function `extractSpokenWords`. -/
def extractSpokenWords (U : Unicode) (text : Str) : Str :=
  if text = [] then [] else
  U.toLowerCase (normalizeSpaces (replaceAll matchSingingGlyph
    (replaceAll matchVocalization (replaceAll matchBracketGroup text))))

/-- The set `smallWords` of `getSignificantWords`. -/
def smallWords : List Str := [
  js "a", js "an", js "the", js "is", js "are", js "was", js "were", js "be", js "been",
  js "being", js "i", js "you", js "he", js "she", js "it", js "we", js "they", js "my",
  js "your", js "his", js "her", js "its", js "our", js "their", js "to", js "of", js "in",
  js "for", js "on", js "at", js "by", js "with", js "as", js "and", js "or", js "but",
  js "so", js "if", js "then", js "that", js "this", js "what", js "which", js "who",
  js "when", js "where", js "how", js "why", js "just", js "not", js "no", js "yes"]

/-- The source function `getSignificantWords`. The `Set` it returns is the list
of its distinct members. -/
def getSignificantWords (U : Unicode) (text : Str) : List Str :=
  let words := splitWords ((U.toLowerCase text).filter fun c => isWordChar c || isSpace c)
  (words.filter fun w => !(smallWords.contains w) && decide (w.length > 2)).dedup

/-- The result of `checkWordPreservation`, without its `warning` text (a log
message). `preservationRatio` is the exact quotient, which the source holds
rounded to a double. -/
structure Preservation where
  preserved : Bool
  preservationRatio : ℚ
  deriving DecidableEq

/-- The replacement word `checkWordPreservation` looks for: the configured one in
lower case when the mode is `replace`. An empty one counts as none. -/
def replacementWordOf (U : Unicode) (profanityConfig : Option ProfanityConfig) : Option Str :=
  match profanityConfig with
  | some pc =>
    if pc.mode = js "replace" then
      match pc.replacementWord with
      | some w => if U.toLowerCase w = [] then none else some (U.toLowerCase w)
      | none => none
    else none
  | none => none

/-- The source function `checkWordPreservation`. The test `preservationRatio < 0.6`
is made on the exact quotient; the double quotient compares the same way with
the double 0.6 for every text of fewer than 2^51 code units. -/
def checkWordPreservation (U : Unicode) (original processed : Str)
    (profanityConfig : Option ProfanityConfig) : Preservation :=
  let originalSpoken := extractSpokenWords U original
  let processedSpoken := extractSpokenWords U processed
  if processedSpoken.length > originalSpoken.length * 2 ∧ originalSpoken.length > 20 then
    ⟨false, (originalSpoken.length : ℚ) / processedSpoken.length⟩
  else
  let originalWords := getSignificantWords U originalSpoken
  let processedWords := getSignificantWords U processedSpoken
  if originalWords.length = 0 then ⟨true, 1⟩ else
  let hasReplacement : Bool := match replacementWordOf U profanityConfig with
    | some w => processedWords.contains w
    | none => false
  let preserved := (originalWords.filter fun w => processedWords.contains w).length
  let profanityReplaced :=
    (originalWords.filter fun w => !(processedWords.contains w) && hasReplacement).length
  let totalPreserved := preserved + profanityReplaced
  let preservationRatio : ℚ := (totalPreserved : ℚ) / originalWords.length
  if preservationRatio < 3 / 5 then ⟨false, preservationRatio⟩ else ⟨true, preservationRatio⟩

/-- The labels `taskLabels` of the parallel tasks. -/
inductive TaskLabel where
  | safety
  | topics
  | copyright
  | voice
  deriving DecidableEq, Repr

/-- What `makeGPTCall` resolves to, without its timing: on a provider answer
`success` with the trimmed content as `output` (possibly empty), on a transport
or provider failure no success, no output and the error message. -/
structure GPTCallResult where
  success : Bool
  output : Option Str
  error : Option Str
  deriving DecidableEq, Repr

/-- The failure policy `onFailure`; any value other than `'block'` acts as
`skip`. -/
inductive OnFailure where
  | block
  | skip
  deriving DecidableEq, Repr

/-- The moderation config `contentModeration` of the effective GPT config. -/
structure ModerationConfig where
  enabled : Bool
  onFailure : OnFailure
  rules : ModerationRules
  blockedTopics : BlockedTopics
  customInstructions : Str
  deriving DecidableEq, Repr

/-- The `config` argument of `processWithGPTParallel`. -/
structure GPTConfig where
  contentModeration : Bool
  moderationConfig : ModerationConfig
  emotionEnhancement : Bool
  isEmotionCapable : Bool
  deriving DecidableEq, Repr

/-- The result of `processWithGPTParallel`, without timing and the prompts kept
for debugging; `taskLabels` is the `debug.taskLabels` of the source, the tasks
that were run. -/
structure GPTResult where
  success : Bool
  text : Option Str
  blocked : Bool
  blockReason : Option Str
  tagsAdded : List Str
  error : Option Str
  preservationRatio : Option ℚ
  taskLabels : List TaskLabel
  deriving DecidableEq

/-- The tasks `processWithGPTParallel` starts, in order: a classifier for every
prompt that is built while content moderation is on, then the voice task. -/
def parallelTaskLabels (U : Unicode) (config : GPTConfig) : List TaskLabel :=
  let rules := config.moderationConfig.rules
  (if config.contentModeration ∧ (buildSafetyModerationPrompt U rules).isSome
    then [TaskLabel.safety] else []) ++
  (if config.contentModeration ∧ (buildTopicsModerationPrompt config.moderationConfig.blockedTopics
      config.moderationConfig.customInstructions).isSome
    then [TaskLabel.topics] else []) ++
  (if config.contentModeration ∧ (buildCopyrightModerationPrompt U rules).isSome
    then [TaskLabel.copyright] else []) ++
  [TaskLabel.voice]

/-- The variables of the aggregation loop of `processWithGPTParallel`. -/
structure Aggregate where
  blocked : Bool
  blockReason : Option Str
  voiceResult : Option GPTCallResult
  deriving DecidableEq, Repr

/-- `result.output || 'PASS'`: a missing or empty classifier answer reads as
PASS. -/
def outputOrPass (result : GPTCallResult) : Str :=
  match result.output with
  | some o => if o = [] then js "PASS" else o
  | none => js "PASS"

/-- One turn of the aggregation loop, for the task `label` settled as `result`. -/
def aggregateStep (U : Unicode) (acc : Aggregate) (task : TaskLabel × GPTCallResult) : Aggregate :=
  if task.2.success = false then acc
  else if task.1 = TaskLabel.voice then { acc with voiceResult := some task.2 }
  else
    if (checkIfBlocked U (outputOrPass task.2)).blocked then
      { acc with blocked := true, blockReason := (checkIfBlocked U (outputOrPass task.2)).reason }
    else acc

/-- The aggregation loop of `processWithGPTParallel` over the settled tasks. -/
def aggregateResults (U : Unicode) (tasks : List (TaskLabel × GPTCallResult)) : Aggregate :=
  tasks.foldl (aggregateStep U) ⟨false, none, none⟩

/-- What `processWithGPTParallel` returns once its tasks have settled as `tasks`
(label and result, in task order). -/
def finishParallel (U : Unicode) (text : Str) (config : GPTConfig)
    (tasks : List (TaskLabel × GPTCallResult)) : GPTResult :=
  let agg := aggregateResults U tasks
  let taskLabels := tasks.map Prod.fst
  if agg.blocked then ⟨true, none, true, agg.blockReason, [], none, none, taskLabels⟩ else
  let finalText := match agg.voiceResult with
    | some r => (match r.output with
      | some o => if o = [] then text else o
      | none => text)
    | none => text
  let hasSpamInstruction := includes text (js "**Spam detected:")
  let preservation : Preservation :=
    if hasSpamInstruction then ⟨true, 1⟩
    else checkWordPreservation U text finalText config.moderationConfig.rules.profanity
  let finalText :=
    if !hasSpamInstruction && !preservation.preserved then
      (if config.emotionEnhancement then js "[neutral] " ++ text else text)
    else finalText
  let cleaned := postProcessEmotionTags U finalText
  ⟨true, some cleaned.result, false, none, cleaned.tagsFound, none,
    some preservation.preservationRatio, taskLabels⟩

/-- The source function `processWithGPTParallel`. The provider is the function
`provider`, giving for each task what its `makeGPTCall` resolves to; `apiKey`
tells whether a key is configured. -/
def processWithGPTParallel (U : Unicode) (text : Str) (apiKey : Bool) (config : GPTConfig)
    (provider : TaskLabel → GPTCallResult) : GPTResult :=
  if text = [] then ⟨true, some [], false, none, [], none, none, []⟩ else
  if apiKey = false then
    ⟨false, some text, false, none, [], some (js "No OpenAI API key configured"), none, []⟩
  else
    finishParallel U text config ((parallelTaskLabels U config).map fun l => (l, provider l))

/-- The moderation stage of `processQueue` once `processWithGPTParallel` has
returned `gptResult` for the truncated text: whether the item is blocked, the
reason, and the text that goes on to synthesis. -/
structure ModerationOutcome where
  gptBlocked : Bool
  gptBlockReason : Option Str
  gptProcessedText : Str
  deriving DecidableEq, Repr

/-- The branches of `processQueue` on the result of `processWithGPTParallel`:
blocked by a classifier, success, or failure resolved by `onFailure`. -/
def moderationOutcome (truncatedText : Str) (contentModeration : ModerationConfig)
    (gptResult : GPTResult) : ModerationOutcome :=
  if gptResult.blocked then ⟨true, gptResult.blockReason, truncatedText⟩
  else if gptResult.success then ⟨false, none, gptResult.text.getD []⟩
  else if contentModeration.enabled ∧ contentModeration.onFailure = OnFailure.block then
    ⟨true, some (js "Content moderation unavailable: " ++ gptResult.error.getD []), truncatedText⟩
  else ⟨false, none, truncatedText⟩

/-! ## Effective GPT config (`gptProcessor.js`)

JavaScript objects are lists of keys with their values, in property order and
without a repeated key. Of the effective config, the fields that the topic
layering touches are kept: the rules, the failure behaviour, the custom
instructions and the model are left out. -/

/-- `obj[key] = value`: the value of a key the object has is replaced in place,
a new key goes to the end. -/
def setKey (obj : List (String × Option Bool)) (key : String) (value : Option Bool) :
    List (String × Option Bool) :=
  match obj with
  | [] => [(key, value)]
  | (k, v) :: rest => if k = key then (k, value) :: rest else (k, v) :: setKey rest key value

/-- The object spread `{ ...a, ...b }`. -/
def spread (a b : List (String × Option Bool)) : List (String × Option Bool) :=
  b.foldl (fun acc entry => setKey acc entry.1 entry.2) a

/-- The voice's `gptProcessingOverride.contentModeration.blockedTopics`: `mode`
is the empty string when the property is missing, and missing `presets` and
`custom` read as empty. -/
structure TopicsOverride where
  mode : Str
  presets : List (String × Option Bool)
  custom : List Str
  deriving DecidableEq, Repr

/-- The voice's `gptProcessingOverride`, as far as it is read here: `none` for a
property that is `undefined`. -/
structure GPTProcessingOverride where
  moderationEnabled : Option Bool
  blockedTopics : Option TopicsOverride
  emotionEnhancement : Option Bool
  deriving DecidableEq, Repr

/-- The voice config, as `getEffectiveGPTConfig` reads it. -/
structure VoiceGPTConfig where
  ignoreGPTProcessing : Bool
  gptProcessingOverride : Option GPTProcessingOverride
  deriving DecidableEq, Repr

/-- The global GPT settings, as far as they are read here: `none` for a property
that is missing, and missing topics read as empty. -/
structure GlobalGPTConfig where
  enabled : Option Bool
  moderationEnabled : Option Bool
  blockedTopics : BlockedTopics
  emotionEnhancement : Option Bool
  deriving DecidableEq, Repr

/-- The effective GPT config, as far as it is modelled. -/
structure EffectiveGPTConfig where
  enabled : Bool
  ignoreGPTProcessing : Bool
  moderationEnabled : Bool
  blockedTopics : BlockedTopics
  emotionEnhancement : Bool
  deriving DecidableEq, Repr

/-- The value `defaultBlockedTopics`: nothing is blocked by default. -/
def defaultBlockedTopics : BlockedTopics := ⟨[], []⟩

/-- The blocked-topics override of `getEffectiveGPTConfig`, applied to the
topics built from the global config. Without a mode the voice's topics are
merged additively (the legacy behaviour). -/
def applyTopicsOverride (topics : BlockedTopics) (topicsOverride : Option TopicsOverride) :
    BlockedTopics :=
  match topicsOverride with
  | none => topics
  | some o =>
    if o.mode ≠ [] then
      if o.mode = js "override" then ⟨o.presets, o.custom⟩
      else if o.mode = js "additive" then
        ⟨spread topics.presets o.presets, topics.custom ++ o.custom⟩
      else topics
    else ⟨spread topics.presets o.presets, topics.custom ++ o.custom⟩

/-- The source function `getEffectiveGPTConfig`; `apiKey` tells whether a key is
given. -/
def getEffectiveGPTConfig (voiceConfig : Option VoiceGPTConfig) (globalConfig : GlobalGPTConfig)
    (apiKey : Bool) : EffectiveGPTConfig :=
  let ignore := match voiceConfig with
    | some v => v.ignoreGPTProcessing
    | none => false
  if apiKey = false then ⟨false, ignore, false, defaultBlockedTopics, false⟩
  else if ignore then ⟨false, true, false, defaultBlockedTopics, false⟩
  else
    let config : EffectiveGPTConfig :=
      ⟨globalConfig.enabled.getD false, false, globalConfig.moderationEnabled.getD true,
        ⟨spread defaultBlockedTopics.presets globalConfig.blockedTopics.presets,
          globalConfig.blockedTopics.custom⟩,
        globalConfig.emotionEnhancement.getD true⟩
    match voiceConfig.bind VoiceGPTConfig.gptProcessingOverride with
    | none => config
    | some override =>
      { config with
        moderationEnabled := override.moderationEnabled.getD config.moderationEnabled,
        blockedTopics := applyTopicsOverride config.blockedTopics override.blockedTopics,
        emotionEnhancement := override.emotionEnhancement.getD config.emotionEnhancement }

/-! ## Queue scheduler (`electron/main/index.js`)

The scheduler is modelled as a transition system over the module's variables
(`ttsQueue`, `isProcessing`, `isPaused`, `currentTtsId`, `lingerTimeoutId`,
`ttsHistory`). Queue items are objects shared by reference between the queue and
the handlers that are suspended on an `await`, so the state holds the objects by
id and the queue as a list of ids. Every `await` and every timer is a separate
event of the environment. What the handlers send out (overlay, renderer, refund,
history, replies) is appended to a log. Of an item, the fields that the control
flow reads are kept; its texts and audio are left out. -/

/-- The `status` of a queue item. -/
inductive Status where
  | queued
  | processing
  | ready
  | playing
  | lingering
  | pending_moderation
  | blocked
  | error
  deriving DecidableEq, Repr

/-- The `source` of a queue item; a normal request has none. -/
inductive Source where
  | normal
  | replay
  | moderated
  deriving DecidableEq, Repr

/-- The `position` argument of the moderator actions: `'front'` or anything else. -/
inductive Position where
  | front
  | back
  deriving DecidableEq, Repr

/-- A queue item, without its `id`: the state holds the item objects by id.
`refundable` tells whether it carries both `redemptionId` and `rewardId`. -/
structure Item where
  status : Status
  source : Source
  useShowHide : Bool
  refundable : Bool
  refunded : Bool
  blockReason : Option Str
  error : Option Str
  historyItemId : Option Nat
  moderationOverride : Bool
  deriving DecidableEq, Repr

/-- The `status` of a history entry. -/
inductive HistoryStatus where
  | completed
  | error
  | blocked
  | cancelled
  deriving DecidableEq, Repr

/-- A history entry, as far as `createHistoryEntry` fills it from these fields. -/
structure HistoryEntry where
  id : Nat
  status : HistoryStatus
  error : Option Str
  blockReason : Option Str
  refunded : Bool
  refundable : Bool
  historyItemId : Option Nat
  moderationOverride : Bool
  deriving DecidableEq, Repr

/-- The source function `createHistoryEntry`, for the item object of this id. -/
def createHistoryEntry (id : Nat) (queueItem : Item) (status : HistoryStatus)
    (error : Option Str) : HistoryEntry :=
  ⟨id, status, error, queueItem.blockReason, queueItem.refunded, queueItem.refundable,
    queueItem.historyItemId, queueItem.moderationOverride⟩

/-- What the handlers send out. -/
inductive Effect where
  /-- `sendShowAction(item.text)` for the item of this id. -/
  | show (id : Nat)
  /-- `sendHideAction()`; `owner` is the item whose linger timer ended, by expiry
  or by interruption. -/
  | hide (owner : Option Nat)
  /-- A refund request sent by `sendRefundAction`. -/
  | refund (id : Nat)
  /-- The message `audio:play` to the renderer. -/
  | audioPlay (id : Nat)
  /-- A call of `addToHistory`. -/
  | history (entry : HistoryEntry)
  /-- The acknowledgment `TTS_QUEUED`. -/
  | queued (id position : Nat)
  /-- The value an IPC handler returns: `success` and, on failure, the error. -/
  | reply (success : Bool) (error : Option String)
  deriving DecidableEq, Repr

/-- A handler suspended on an `await`. -/
inductive Cont where
  /-- `processQueue` waiting for `processWithGPTParallel`. -/
  | afterGPT (id : Nat)
  /-- `processQueue` waiting for `generateTTS`. -/
  | afterTTS (id : Nat)
  /-- `processQueue` waiting for the overlay animation after an interruption. -/
  | afterAnimation (id : Nat)
  /-- `queue:moderate` with action `allow`, waiting for `generateTTS`. -/
  | allowTTS (id index : Nat) (position : Position)
  /-- `history:replay` waiting for the audio download. -/
  | replayFetch (entry : HistoryEntry) (position : Position) (useShowHide : Bool)
  deriving DecidableEq, Repr

/-- The settings and connections the scheduler reads. -/
structure Settings where
  /-- Whether `processQueue` calls the moderation stage: GPT processing enabled
  with an API key and one of its features on. -/
  gptStage : Bool
  /-- The setting `manualModerationEnabled`. -/
  manualModerationEnabled : Bool
  /-- Whether a refund action is configured and the actuator socket is open. -/
  refundChannel : Bool
  /-- The setting `historyInAppLimit`. -/
  historyInAppLimit : Nat
  /-- Whether a synthesis API key is configured. -/
  elevenLabsApiKey : Bool
  deriving DecidableEq, Repr

/-- The state of the scheduler and of its environment. -/
structure State where
  /-- The item objects, by id. -/
  item : Nat → Item
  ttsQueue : List Nat
  isProcessing : Bool
  isPaused : Bool
  currentTtsId : Option Nat
  /-- The handle of the linger timer, `null` being `none`. -/
  lingerTimeoutId : Option Nat
  ttsHistory : List HistoryEntry
  settings : Settings
  /-- The next id `uuidv4()` gives: ids are fresh. -/
  nextId : Nat
  /-- The next handle `setTimeout` gives. -/
  nextTimer : Nat
  /-- The linger timers that are set and have neither fired nor been cleared:
  handle and item id. -/
  timers : List (Nat × Nat)
  /-- The handlers suspended on an `await`. -/
  pending : List Cont
  /-- The audio handed to the renderer whose end has not been signalled. -/
  audio : List Nat
  /-- What has been sent out, oldest first. -/
  log : List Effect

/-- A new item object: queued, from a normal request, nothing else set. -/
def blankItem : Item :=
  ⟨Status.queued, Source.normal, false, false, false, none, none, none, false⟩

/-- The scheduler at start: nothing queued, nothing in flight. -/
def State.empty (settings : Settings) : State :=
  { item := fun _ => blankItem, ttsQueue := [], isProcessing := false, isPaused := false,
    currentTtsId := none, lingerTimeoutId := none, ttsHistory := [], settings := settings,
    nextId := 0, nextTimer := 0, timers := [], pending := [], audio := [], log := [] }

/-- An assignment to fields of the item object `id`. -/
def State.setItem (s : State) (id : Nat) (f : Item → Item) : State :=
  { s with item := Function.update s.item id (f (s.item id)) }

/-- `item.status = status`. -/
def State.setStatus (s : State) (id : Nat) (status : Status) : State :=
  s.setItem id fun it => { it with status := status }

/-- Append to the log. -/
def State.emit (s : State) (e : Effect) : State := { s with log := s.log ++ [e] }

/-- `ttsQueue.findIndex(i => i.id === id)`, with `none` for the result -1. -/
def findIndexById (id : Nat) : List Nat → Option Nat
  | [] => none
  | i :: rest => if i = id then some 0 else (findIndexById id rest).map (· + 1)

/-- A suspended handler is resumed: it leaves the list of those suspended. -/
def State.settle (s : State) (c : Cont) : State := { s with pending := s.pending.erase c }

/-- `ttsQueue.findIndex(i => i.status === status)` with the removal of that
element: the first item of the status leaves the queue. -/
def removeFirstWithStatus (item : Nat → Item) (status : Status) : List Nat → List Nat
  | [] => []
  | i :: rest =>
    if (item i).status = status then rest else i :: removeFirstWithStatus item status rest

/-- `ttsQueue.findIndex(i => i.status === 'queued')` followed by
`splice(insertIndex, 0, x)`, or `push(x)` when there is no queued item. -/
def insertBeforeFirstQueued (item : Nat → Item) (x : Nat) : List Nat → List Nat
  | [] => [x]
  | i :: rest =>
    if (item i).status = Status.queued then x :: i :: rest
    else i :: insertBeforeFirstQueued item x rest

/-- The source function `sendRefundAction`: a refund is sent, and `true` returned,
when the refund channel is up and the item carries its redemption ids. -/
def sendRefundAction (s : State) (id : Nat) : State × Bool :=
  if s.settings.refundChannel ∧ (s.item id).refundable then (s.emit (Effect.refund id), true)
  else (s, false)

/-- The source function `addToHistory`: newest first, cut at the limit. -/
def addToHistory (s : State) (entry : HistoryEntry) : State :=
  let limit := if s.settings.historyInAppLimit = 0 then 100 else s.settings.historyInAppLimit
  { s with ttsHistory := (entry :: s.ttsHistory).take limit, log := s.log ++ [Effect.history entry] }

/-- `setTimeout` for the linger of item `id`, with `lingerTimeoutId` set to the
new handle. -/
def startLingerTimer (s : State) (id : Nat) : State :=
  { s with lingerTimeoutId := some s.nextTimer, timers := s.timers ++ [(s.nextTimer, id)],
           nextTimer := s.nextTimer + 1 }

/-- The end of `processQueue` for a synthesized item: `playing`, show, play. -/
def startPlaying (s : State) (id : Nat) : State :=
  let s := s.setStatus id Status.playing
  let s := s.emit (Effect.show id)
  { s with audio := s.audio ++ [id], log := s.log ++ [Effect.audioPlay id] }

/-- The part of `processQueue` that follows the choice of the item: the slot is
taken, and the item either plays at once (replay and moderated items, which
carry their audio) or enters the pipeline, where `processQueue` suspends on its
first `await`. -/
def startItem (s : State) (id : Nat) : State :=
  let s := { s with isProcessing := true, currentTtsId := some id }
  let s := s.setStatus id Status.processing
  if (s.item id).source = Source.replay ∨ (s.item id).source = Source.moderated then
    let s := s.setStatus id Status.playing
    let s := if (s.item id).source = Source.moderated ∨ (s.item id).useShowHide = true
      then s.emit (Effect.show id) else s
    { s with audio := s.audio ++ [id], log := s.log ++ [Effect.audioPlay id] }
  else
    { s with pending := s.pending ++
        [if s.settings.gptStage = true then Cont.afterGPT id else Cont.afterTTS id] }

/-- The source function `processQueue`, up to its first `await`. -/
def processQueue (s : State) : State :=
  if s.isProcessing = true ∨ s.ttsQueue.length = 0 then s else
  if s.isPaused = true then s else
  match s.ttsQueue.find? fun i => (s.item i).status = Status.queued with
  | none => s
  | some id => startItem s id

/-- `processQueue` after the moderation stage has settled for item `id`, blocked
with a reason or not. -/
def resumeAfterGPT (s : State) (id : Nat) (gptBlocked : Option Str) : State :=
  match gptBlocked with
  | none => { s with pending := s.pending ++ [Cont.afterTTS id] }
  | some reason =>
    let s := s.setItem id fun it => { it with blockReason := some reason }
    if s.settings.manualModerationEnabled then
      let s := s.setStatus id Status.pending_moderation
      processQueue { s with isProcessing := false }
    else
      let s := s.setStatus id Status.blocked
      let r := sendRefundAction s id
      let s := r.1.setItem id fun it => { it with refunded := r.2 }
      let s := addToHistory s (createHistoryEntry id (s.item id) HistoryStatus.blocked (some reason))
      processQueue { s with ttsQueue := s.ttsQueue.erase id, isProcessing := false }

/-- What `generateTTS` settles to: the audio with the provider's history id, if
any, or a failure with its message. -/
inductive TtsOutcome where
  | ok (historyItemId : Option Nat)
  | failed (message : Str)
  deriving DecidableEq, Repr

/-- `processQueue` after `generateTTS` has settled for item `id`. -/
def resumeAfterTTS (s : State) (id : Nat) (outcome : TtsOutcome) : State :=
  match outcome with
  | TtsOutcome.ok historyItemId =>
    let s := s.setItem id fun it => { it with status := Status.ready, historyItemId := historyItemId }
    match s.lingerTimeoutId with
    | some handle =>
      let owner := (s.timers.find? fun t => t.1 = handle).map Prod.snd
      let s := { s with timers := s.timers.filter fun t => t.1 ≠ handle, lingerTimeoutId := none }
      let s := { s with ttsQueue := removeFirstWithStatus s.item Status.lingering s.ttsQueue }
      let s := s.emit (Effect.hide owner)
      { s with pending := s.pending ++ [Cont.afterAnimation id] }
    | none => startPlaying s id
  | TtsOutcome.failed message =>
    let s := s.setItem id fun it => { it with status := Status.error, error := some message }
    let r := sendRefundAction s id
    let s := r.1.setItem id fun it => { it with refunded := r.2 }
    let s := addToHistory s (createHistoryEntry id (s.item id) HistoryStatus.error (some message))
    processQueue { s with ttsQueue := s.ttsQueue.erase id, isProcessing := false }

/-- The callback of a linger timer: hide, forget the handle, remove the item. -/
def lingerTimeout (s : State) (handle id : Nat) : State :=
  let s := s.emit (Effect.hide (some id))
  { s with lingerTimeoutId := none, ttsQueue := s.ttsQueue.erase id,
           timers := s.timers.filter fun t => t.1 ≠ handle }

/-- The item turns `lingering` and its linger timer is set. -/
def beginLinger (s : State) (id : Nat) : State :=
  startLingerTimer (s.setStatus id Status.lingering) id

/-- The first statements of the `audio:finished` handler: the slot is released.
That the audio `id` is no longer playing in the renderer is recorded too. -/
def State.release (s : State) (id : Nat) : State :=
  { s with isProcessing := false, currentTtsId := none, audio := s.audio.erase id }

/-- The last statements of the `audio:finished` handler: `processQueue` is
called when some item is queued. -/
def processQueueIfQueued (s : State) : State :=
  if (s.ttsQueue.any fun i => (s.item i).status = Status.queued) = true then processQueue s else s

/-- The handler of `audio:finished`. A moderated item gets its history entry and
lingers; a replay item gets none, and lingers only with show/hide, else it
leaves the queue at once; a normal item gets its entry and lingers. -/
def audioFinished (s : State) (id : Nat) : State :=
  if id ∈ s.ttsQueue then
    if (s.item id).source = Source.moderated then
      processQueue (beginLinger (addToHistory (s.release id)
        (createHistoryEntry id (s.item id) HistoryStatus.completed none)) id)
    else if (s.item id).source = Source.replay then
      if (s.item id).useShowHide = true then processQueue (beginLinger (s.release id) id)
      else processQueue { s.release id with ttsQueue := s.ttsQueue.erase id }
    else
      processQueueIfQueued (beginLinger (addToHistory (s.release id)
        (createHistoryEntry id (s.item id) HistoryStatus.completed none)) id)
  else processQueueIfQueued (s.release id)

/-- The WebSocket handler of a `TTS` message. -/
def enqueue (s : State) (refundable : Bool) : State :=
  let id := s.nextId
  let s := { s with nextId := s.nextId + 1,
                    item := Function.update s.item id { blankItem with refundable := refundable },
                    ttsQueue := s.ttsQueue ++ [id] }
  let s := s.emit (Effect.queued id s.ttsQueue.length)
  if s.isProcessing = false then processQueue s else s

/-- The action argument of `queue:moderate`. -/
inductive ModerateAction where
  | refund
  | allow
  | other
  deriving DecidableEq, Repr

/-- The handler of `queue:moderate`, up to its `await`. -/
def moderate (s : State) (id : Nat) (action : ModerateAction) (position : Position) : State :=
  match findIndexById id s.ttsQueue with
  | none => s.emit (Effect.reply false (some "Item not found in queue"))
  | some index =>
    if (s.item id).status ≠ Status.pending_moderation then
      s.emit (Effect.reply false (some "Item is not pending moderation"))
    else
      match action with
      | ModerateAction.refund =>
        let r := sendRefundAction s id
        let s := r.1.setItem id fun it => { it with refunded := r.2, status := Status.blocked }
        let s := addToHistory s
          (createHistoryEntry id (s.item id) HistoryStatus.blocked (s.item id).blockReason)
        let s := { s with ttsQueue := s.ttsQueue.eraseIdx index }
        s.emit (Effect.reply true none)
      | ModerateAction.allow => { s with pending := s.pending ++ [Cont.allowTTS id index position] }
      | ModerateAction.other => s.emit (Effect.reply false (some "Unknown action"))

/-- The handler of `queue:moderate` with action `allow` after `generateTTS` has
settled. The index it removes at is the one found before the `await`. -/
def resumeAllow (s : State) (id index : Nat) (position : Position) (outcome : TtsOutcome) :
    State :=
  match outcome with
  | TtsOutcome.failed _ => s.emit (Effect.reply false (some "synthesis failed"))
  | TtsOutcome.ok historyItemId =>
    let s := s.setItem id fun it =>
      { it with source := Source.moderated, moderationOverride := true, status := Status.queued,
                historyItemId := historyItemId }
    let s := { s with ttsQueue := s.ttsQueue.eraseIdx index }
    let s := match position with
      | Position.front => { s with ttsQueue := insertBeforeFirstQueued s.item id s.ttsQueue }
      | Position.back => { s with ttsQueue := s.ttsQueue ++ [id] }
    let s := if s.isPaused = false ∧ s.isProcessing = false then processQueue s else s
    s.emit (Effect.reply true none)

/-- The handler of `queue:cancel`. -/
def cancel (s : State) (id : Nat) : State :=
  match findIndexById id s.ttsQueue with
  | none => s.emit (Effect.reply false (some "Item not found in queue"))
  | some index =>
    if (s.item id).status ≠ Status.queued ∧ (s.item id).status ≠ Status.pending_moderation then
      s.emit (Effect.reply false (some "Can only cancel queued or pending items"))
    else
      let r := sendRefundAction s id
      let s := r.1.setItem id fun it => { it with refunded := r.2 }
      let s := addToHistory s
        (createHistoryEntry id (s.item id) HistoryStatus.cancelled (some (js "Cancelled by streamer")))
      let s := { s with ttsQueue := s.ttsQueue.eraseIdx index }
      s.emit (Effect.reply true none)

/-- The handler of `history:replay`, up to its `await`. -/
def replay (s : State) (historyId : Nat) (position : Position) (useShowHide : Bool) : State :=
  match s.ttsHistory.find? fun e => e.id = historyId with
  | none => s.emit (Effect.reply false (some "History entry not found"))
  | some entry =>
    if entry.historyItemId.isNone then
      s.emit (Effect.reply false (some "No ElevenLabs history ID available"))
    else if s.settings.elevenLabsApiKey = false then
      s.emit (Effect.reply false (some "ElevenLabs API key not configured"))
    else { s with pending := s.pending ++ [Cont.replayFetch entry position useShowHide] }

/-- The handler of `history:replay` after the download has settled. -/
def resumeReplay (s : State) (position : Position) (useShowHide : Bool) (ok : Bool) : State :=
  if ok = false then s.emit (Effect.reply false (some "download failed")) else
  let id := s.nextId
  let replayItem : Item :=
    { blankItem with source := Source.replay, useShowHide := useShowHide }
  let s := { s with nextId := s.nextId + 1, item := Function.update s.item id replayItem }
  let s := match position with
    | Position.front => { s with ttsQueue := insertBeforeFirstQueued s.item id s.ttsQueue }
    | Position.back => { s with ttsQueue := s.ttsQueue ++ [id] }
  let s := if s.isPaused = false ∧ s.isProcessing = false then processQueue s else s
  s.emit (Effect.reply true none)

/-- What the environment does to the scheduler: messages and IPC calls, and the
settling of what a handler awaits. -/
inductive Event where
  /-- A `TTS` message, with or without redemption ids. -/
  | enqueue (refundable : Bool)
  /-- The moderation stage awaited for item `id` settles. -/
  | gptDone (id : Nat) (gptBlocked : Option Str)
  /-- The synthesis awaited by `processQueue` for item `id` settles. -/
  | ttsDone (id : Nat) (outcome : TtsOutcome)
  /-- The animation wait of `processQueue` for item `id` ends. -/
  | animationDone (id : Nat)
  /-- The renderer signals `audio:finished` for `id`. -/
  | audioFinished (id : Nat)
  /-- The linger timer with this handle fires. -/
  | lingerTimeout (handle : Nat)
  | clear
  | pause
  | resume
  | moderate (id : Nat) (action : ModerateAction) (position : Position)
  /-- The synthesis awaited by an `allow` settles. -/
  | allowDone (id index : Nat) (position : Position) (outcome : TtsOutcome)
  | cancel (id : Nat)
  | replay (historyId : Nat) (position : Position) (useShowHide : Bool)
  /-- The download awaited by a replay settles. -/
  | replayDone (entry : HistoryEntry) (position : Position) (useShowHide : Bool) (ok : Bool)
  /-- The user changes the settings, or a connection changes. -/
  | configure (settings : Settings)
  deriving DecidableEq, Repr

/-- One step of the scheduler. An event that settles an `await`, or fires a
timer, that is not outstanding does nothing. -/
def step (s : State) : Event → State
  | Event.enqueue refundable => enqueue s refundable
  | Event.gptDone id gptBlocked =>
    if Cont.afterGPT id ∈ s.pending then
      resumeAfterGPT (s.settle (Cont.afterGPT id)) id gptBlocked
    else s
  | Event.ttsDone id outcome =>
    if Cont.afterTTS id ∈ s.pending then
      resumeAfterTTS (s.settle (Cont.afterTTS id)) id outcome
    else s
  | Event.animationDone id =>
    if Cont.afterAnimation id ∈ s.pending then
      startPlaying (s.settle (Cont.afterAnimation id)) id
    else s
  | Event.audioFinished id => audioFinished s id
  | Event.lingerTimeout handle =>
    match s.timers.find? fun t => t.1 = handle with
    | some t => lingerTimeout s handle t.2
    | none => s
  | Event.clear => { s with ttsQueue := [] }
  | Event.pause => { s with isPaused := true }
  | Event.resume => processQueue { s with isPaused := false }
  | Event.moderate id action position => moderate s id action position
  | Event.allowDone id index position outcome =>
    if Cont.allowTTS id index position ∈ s.pending then
      resumeAllow (s.settle (Cont.allowTTS id index position)) id index position outcome
    else s
  | Event.cancel id => cancel s id
  | Event.replay historyId position useShowHide => replay s historyId position useShowHide
  | Event.replayDone entry position useShowHide ok =>
    if Cont.replayFetch entry position useShowHide ∈ s.pending then
      resumeReplay (s.settle (Cont.replayFetch entry position useShowHide)) position useShowHide ok
    else s
  | Event.configure settings => { s with settings := settings }

/-- The scheduler after a sequence of events. -/
def run (s : State) (events : List Event) : State := events.foldl step s

/-- The statuses of an item that occupies the processing slot. -/
def Status.active (st : Status) : Bool :=
  st = Status.processing ∨ st = Status.ready ∨ st = Status.playing


/-! ## Definitions used to state the properties -/

/-- A rule config at a given level. -/
def ruleAt (level : Level) : Option RuleConfig := some ⟨some level, none⟩

/-- The rule map in which no rule is configured. -/
def noRules : ModerationRules := ⟨none, none, none, none, none, none, none, none⟩

/-- A moderation config that is enabled and fail-closed, with the given rules and
neither topics nor custom instructions. -/
def failClosedModeration (rules : ModerationRules) : ModerationConfig :=
  ⟨true, OnFailure.block, rules, ⟨[], []⟩, []⟩

/-- The request config built by `processQueue` from a moderation config, for a
voice without emotion enhancement. -/
def moderationOnly (contentModeration : ModerationConfig) : GPTConfig :=
  ⟨contentModeration.enabled, contentModeration, false, false⟩

/-- A provider answer: the call succeeded with this content. -/
def answered (output : String) : GPTCallResult := ⟨true, some (js output), none⟩

/-- A provider failure: the call threw with this message. -/
def failedCall (message : String) : GPTCallResult := ⟨false, none, some (js message)⟩

/-- A provider whose safety classifier fails in transport while the voice task
answers the text unchanged. -/
def safetyDownProvider : TaskLabel → GPTCallResult
  | TaskLabel.voice => answered "hello there"
  | _ => failedCall "API returned 500"

/-- A provider whose safety and copyright classifiers both block, with
different reasons. -/
def bothBlockProvider : TaskLabel → GPTCallResult
  | TaskLabel.safety => answered "BLOCKED: HATE SPEECH - slur"
  | TaskLabel.copyright => answered "BLOCKED: SONG LYRICS - chorus"
  | _ => answered "PASS"

/-- What a settled classifier task signals: `some reason` when it succeeded with
a `BLOCKED:` answer, `none` when it passed, failed, or is the voice task. -/
def blockSignal (U : Unicode) (task : TaskLabel × GPTCallResult) : Option (Option Str) :=
  if task.2.success = true ∧ task.1 ≠ TaskLabel.voice then
    (if (checkIfBlocked U (outputOrPass task.2)).blocked
      then some (checkIfBlocked U (outputOrPass task.2)).reason else none)
  else none

/-- The block signals of the settled tasks, in task order. -/
def blockSignals (U : Unicode) (tasks : List (TaskLabel × GPTCallResult)) :
    List (Option Str) :=
  tasks.filterMap (blockSignal U)

/-- A rule is active when its config resolves to `standard` or `strict`. -/
def ruleActive (ruleConfig : Option RuleConfig) : Bool :=
  match ruleConfig with
  | some rc => resolveLevel rc = some Level.standard || resolveLevel rc = some Level.strict
  | none => false

/-- Every rule the classifiers read is off. -/
def allRulesOff (rules : ModerationRules) : Prop :=
  ruleActive rules.sexualContent = false ∧ ruleActive rules.hateSpeech = false ∧
  ruleActive rules.violence = false ∧ ruleActive rules.doxxing = false ∧
  ruleActive rules.misinformation = false ∧ ruleActive rules.songLyrics = false ∧
  ruleActive rules.mediaQuotes = false

/-- No topic is blocked: no preset is set to `true` and there is no custom topic. -/
def noBlockedTopics (blockedTopics : BlockedTopics) : Prop :=
  (∀ e ∈ blockedTopics.presets, e.2 ≠ some true) ∧ blockedTopics.custom = []

/-- A config with every rule explicitly off and two presets explicitly allowed. -/
def rulesOffConfig : GPTConfig :=
  ⟨true,
   ⟨true, OnFailure.block,
    ⟨ruleAt Level.off, some ⟨none, some false⟩, none, ruleAt Level.off, none, ruleAt Level.off,
      none, none⟩,
    ⟨[("politics", some false), ("religion", none)], []⟩, []⟩,
   true, true⟩

/-- A word: not empty and free of white space. -/
def IsWord (w : Str) : Prop := w ≠ [] ∧ ∀ c ∈ w, isSpace c = false

/-- The length rule of `checkWordPreservation` fires: the spoken form of the
transformed text is more than twice as long as that of the original, which is
longer than 20 code units. -/
def lengthRuleFires (U : Unicode) (original processed : Str) : Prop :=
  (extractSpokenWords U processed).length > (extractSpokenWords U original).length * 2 ∧
  (extractSpokenWords U original).length > 20

/-- The distinct significant words of the spoken form of a text. -/
def spokenSignificantWords (U : Unicode) (text : Str) : List Str :=
  getSignificantWords U (extractSpokenWords U text)

/-- The significant words of the original that occur among those of the
transformed text. -/
def sharedWords (U : Unicode) (original processed : Str) : List Str :=
  (spokenSignificantWords U original).filter fun w => w ∈ spokenSignificantWords U processed

/-- A request config without moderation, with emotion enhancement as given. -/
def voiceOnlyConfig (emotionEnhancement : Bool) : GPTConfig :=
  ⟨false, ⟨false, OnFailure.skip, noRules, ⟨[], []⟩, []⟩, emotionEnhancement, emotionEnhancement⟩

/-- A provider whose voice task rewrites the text. -/
def rewritingProvider : TaskLabel → GPTCallResult
  | _ => answered "goodbye everyone"

/-- A text of ASCII code units. -/
def IsAscii (s : Str) : Prop := ∀ c ∈ s, c < 128

instance (s : Str) : Decidable (IsAscii s) :=
  inferInstanceAs (Decidable (∀ c ∈ s, c < 128))

/-- No two white-space code units are adjacent, and every one is a space. -/
def SpacesNormal (s : Str) : Prop :=
  (∀ c ∈ s, isSpace c = true → c = 32) ∧
  s.Chain' fun a b => ¬ (isSpace a = true ∧ isSpace b = true)

/-- The worker of `rewrites`, along the scan of `replaceAllAux`. -/
def rewritesAux (m : Option Nat → Str → Option (Nat × Str)) : Nat → Option Nat → Str → Bool
  | _, _, [] => false
  | skip + 1, _, c :: cs => rewritesAux m skip (some c) cs
  | 0, prev, c :: cs =>
    match m prev (c :: cs) with
    | some (n + 1, r) => (r != (c :: cs).take (n + 1)) || rewritesAux m n (some c) cs
    | _ => rewritesAux m 0 (some c) cs

/-- Whether `replaceAll m` finds in the text a match that it replaces by a
different text. -/
def rewrites (m : Option Nat → Str → Option (Nat × Str)) (s : Str) : Bool :=
  rewritesAux m 0 none s

/-- The entities decoded by `stripHtmlTags`, with what replaces them. -/
def htmlEntities : List (Str × Str) := [
  (js "&nbsp;", js " "), (js "&amp;", js "&"), (js "&lt;", js "<"), (js "&gt;", js ">"),
  (js "&quot;", js "\""), (js "&#39;", [39]), (js "&apos;", [39])]

/-- A text holds nothing that a sanitizer step enabled in `config` rewrites: no
markup tag or listed entity, no code span, no combining mark, no emoji, no run
of ten digits, no word repeated six times, no bracket group other than an
allow-listed tag in lower case. -/
def NothingToSanitize (U : Unicode) (config : SanitizationConfig) (r : Str) : Prop :=
  (config.stripHtmlTags = true →
    rewrites matchHtmlTag r = false ∧
    ∀ e ∈ htmlEntities, rewrites (matchLiteralCI e.1 e.2) r = false) ∧
  (config.stripCodeBlocks = true →
    rewrites matchFence r = false ∧ rewrites matchInlineCode r = false) ∧
  (config.stripZalgoText = true → rewrites (matchCodePoint U.isMn) r = false) ∧
  (config.replaceEmojis = true →
    (∀ e ∈ EMOJI_MAP, includes r e.1 = false) ∧
    rewrites (matchCodePoint isEmojiCodePoint) r = false) ∧
  rewrites matchDigitRun r = false ∧
  rewrites matchWordRepeat r = false ∧
  (config.stripUserBracketTags = true → rewrites (matchUserBracketTag U) r = false)

/-- The sanitization config with every toggle on, the default. -/
def sanitizeAll : SanitizationConfig := ⟨true, true, true, true, true⟩

/-- Settings without a moderation stage: synthesis follows the text pipeline
directly. -/
def plainSettings : Settings := ⟨false, false, false, 100, true⟩

/-- Settings with the moderation stage and manual moderation on. -/
def manualSettings : Settings := ⟨true, true, false, 100, true⟩

/-- The show and hide signals of a log, in order. -/
def overlaySignals (log : List Effect) : List Effect :=
  log.filter fun e =>
    match e with
    | Effect.show _ => true
    | Effect.hide _ => true
    | _ => false

/-- The history entries added in a log, in order. -/
def historyEntries (log : List Effect) : List HistoryEntry :=
  log.filterMap fun e =>
    match e with
    | Effect.history entry => some entry
    | _ => none

/-- The history entries an operation adds: those logged between two states. -/
def historyAdded (before after : State) : List HistoryEntry :=
  historyEntries (after.log.drop before.log.length)

/-- The history entry of the first completed request, as a replay reads it. -/
def firstCompletedEntry : HistoryEntry :=
  ⟨0, HistoryStatus.completed, none, none, false, false, some 7, false⟩

/-- The renderer's side of the protocol: `audio:finished` is signalled for an
audio that was handed over by `audio:play` and whose end has not been
signalled yet. -/
def Event.inProtocol (s : State) : Event → Prop
  | Event.audioFinished id => id ∈ s.audio
  | _ => True

/-- Every `audio:finished` of the run answers an `audio:play`. -/
def runInProtocol : State → List Event → Prop
  | _, [] => True
  | s, e :: es => e.inProtocol s ∧ runInProtocol (step s e) es

/-- The item a suspended `processQueue` is working on. -/
def Cont.slotId : Cont → Option Nat
  | Cont.afterGPT id => some id
  | Cont.afterTTS id => some id
  | Cont.afterAnimation id => some id
  | _ => none

/-- The items that hold the processing slot outside the queue statuses: those a
suspended `processQueue` works on and those playing in the renderer. -/
def slotIds (s : State) : List Nat := s.pending.filterMap Cont.slotId ++ s.audio

/-- The invariant behind the single slot, for runs in protocol. -/
structure SlotInvariant (s : State) : Prop where
  active : ∀ i ∈ s.ttsQueue, (s.item i).status.active = true →
    s.isProcessing = true ∧ s.currentTtsId = some i
  idle : s.isProcessing = false → slotIds s = []
  current : ∀ i ∈ slotIds s, s.currentTtsId = some i
  single : (slotIds s).length ≤ 1
  fresh : ∀ i ∈ s.ttsQueue, i < s.nextId
  freshAllow : ∀ id index position, Cont.allowTTS id index position ∈ s.pending → id < s.nextId
  replayOnce : ∀ i, (s.item i).source = Source.replay → s.ttsQueue.count i ≤ 1

/-- At most one item of the work list is `processing`, `ready` or `playing`, and
the flag `isProcessing` is up when there is one. The items are the item
objects: an object the list holds twice is one item. -/
def SingleSlot (s : State) : Prop :=
  (∀ i ∈ s.ttsQueue, ∀ j ∈ s.ttsQueue,
    (s.item i).status.active = true → (s.item j).status.active = true → i = j) ∧
  (∀ i ∈ s.ttsQueue, (s.item i).status.active = true → s.isProcessing = true)

instance (s : State) : Decidable (SingleSlot s) :=
  inferInstanceAs (Decidable (_ ∧ _))

/-- Whether an event is in protocol can be computed. -/
def Event.decInProtocol (s : State) : (e : Event) → Decidable (e.inProtocol s)
  | Event.audioFinished id => inferInstanceAs (Decidable (id ∈ s.audio))
  | Event.enqueue _ => isTrue trivial
  | Event.gptDone _ _ => isTrue trivial
  | Event.ttsDone _ _ => isTrue trivial
  | Event.animationDone _ => isTrue trivial
  | Event.lingerTimeout _ => isTrue trivial
  | Event.clear => isTrue trivial
  | Event.pause => isTrue trivial
  | Event.resume => isTrue trivial
  | Event.moderate _ _ _ => isTrue trivial
  | Event.allowDone _ _ _ _ => isTrue trivial
  | Event.cancel _ => isTrue trivial
  | Event.replay _ _ _ => isTrue trivial
  | Event.replayDone _ _ _ _ => isTrue trivial
  | Event.configure _ => isTrue trivial

/-- Whether a run is in protocol can be computed. -/
def decRunInProtocol : (s : State) → (events : List Event) → Decidable (runInProtocol s events)
  | _, [] => isTrue trivial
  | s, e :: es =>
    @instDecidableAnd _ _ (Event.decInProtocol s e) (decRunInProtocol (step s e) es)

instance (s : State) (events : List Event) : Decidable (runInProtocol s events) :=
  decRunInProtocol s events

/-- Rules in which only profanity is configured, in mode `block` at level
`strict`. -/
def profanityBlockOnly : ModerationRules :=
  { noRules with profanity := some ⟨js "block", some Level.strict, none, []⟩ }

/-- The regular expression a rule builds does not compile: `new RegExp` throws
for it. A plain case-sensitive rule builds none. -/
def failsToCompile (E : RegExpEngine) (rule : ReplacementRule) : Bool :=
  if rule.isRegex then
    (E.compile (parseInlineFlags rule.pattern).1
      (regexFlags rule (parseInlineFlags rule.pattern).2)).isNone
  else if rule.caseSensitive then false
  else (E.compile (escapeRegExp rule.pattern) [103, 105]).isNone

/-- A rule that `applyReplacements` does not skip at sight: enabled, with a
pattern. -/
def ReplacementRule.active (rule : ReplacementRule) : Bool :=
  rule.enabled && !rule.pattern.isEmpty

/-- The global rules `processText` applies: none when the voice opts out. -/
def effectiveGlobals (voiceConfig : Option VoiceConfig)
    (globalReplacements : List ReplacementRule) : List ReplacementRule :=
  match voiceConfig with
  | some v => if v.ignoreGlobalReplacements then [] else globalReplacements
  | none => globalReplacements

/-- The voice rules `processText` applies: none without a voice config. -/
def voiceReplacements (voiceConfig : Option VoiceConfig) : List ReplacementRule :=
  match voiceConfig with
  | some v => v.replacements
  | none => []

/-- The voice config with its rule list filtered. -/
def VoiceConfig.keep (p : ReplacementRule → Bool) (v : VoiceConfig) : VoiceConfig :=
  { v with replacements := v.replacements.filter p }

/-- The pattern without its escapes, when it is made of ordinary characters and
escaped special characters only. -/
def literalOfPattern : Str → Option Str
  | [] => some []
  | 92 :: c :: cs => if isRegExpSpecial c then (literalOfPattern cs).map (c :: ·) else none
  | c :: cs => if isRegExpSpecial c then none else (literalOfPattern cs).map (c :: ·)

/-- A small engine, for evaluation: it knows the patterns made of ordinary
characters and escaped special characters, which match literally (under the
flag `i` up to ASCII case), and a replacement without `$`. It refuses every
other pattern, as JavaScript does for the malformed ones, `(` among them. -/
def literalEngine : RegExpEngine where
  compile := fun pattern flags =>
    match literalOfPattern pattern with
    | some lit =>
      if lit = [] then none
      else some fun text replacement =>
        if 105 ∈ flags then replaceAll (matchLiteralCI lit replacement) text
        else replaceAll (matchLiteral lit replacement) text
    | none => none

/-- A rule list with a malformed regex rule between two plain rules. -/
def rulesWithMalformed : List ReplacementRule :=
  [⟨true, js "cat", js "dog", false, true⟩, ⟨true, js "(", js "x", true, false⟩,
   ⟨true, js "DOG", js "bird", false, false⟩]

/-- The last space of a text is at position `p`: a space (U+0020) stands there
and none after it. -/
def IsLastSpaceAt (s : Str) (p : Nat) : Prop :=
  s[p]? = some 32 ∧ ∀ q, p < q → s[q]? ≠ some 32

/-- The text the voice task hands to the aggregation: `voiceResult?.output ||
text`, the input standing in for a failed task or an empty answer. -/
def voiceTextOr (U : Unicode) (text : Str) (tasks : List (TaskLabel × GPTCallResult)) : Str :=
  match (aggregateResults U tasks).voiceResult with
  | some r =>
    (match r.output with
    | some o => if o = [] then text else o
    | none => text)
  | none => text

/-- The marker of the spam-rewrite directive. -/
def spamMarker : Str := js "**Spam detected:"

/-- The text that stands in for a rejected voice output: the input, behind the
tag `[neutral]` when emotion enhancement is on. -/
def rejectionFallback (text : Str) (config : GPTConfig) : Str :=
  if config.emotionEnhancement then js "[neutral] " ++ text else text

/-- The refund requests of a log, in order: the ids of the items they are for. -/
def refundsSent (log : List Effect) : List Nat :=
  log.filterMap fun e =>
    match e with
    | Effect.refund id => some id
    | _ => none

/-- The refund requests an operation sends: those logged between two states. -/
def refundsAdded (before after : State) : List Nat :=
  refundsSent (after.log.drop before.log.length)

/-- Whether `sendRefundAction` can send a refund for the item: the refund channel
is up and the item carries its redemption ids. -/
def canRefund (s : State) (id : Nat) : Bool :=
  s.settings.refundChannel && (s.item id).refundable

/-- Settings with the moderation stage on, automatic blocking, and the refund
channel up. -/
def autoSettings : Settings := ⟨true, false, true, 100, true⟩

/-- The severity phrase for a run of `n` digits. -/
def digitRunPhrase (n : Nat) : Str :=
  if n ≥ 30 then js "an absurdly long number"
  else if n ≥ 15 then js "a very long number"
  else js "a long number"

/-- What stands for a maximal run of digits: its first three digits, `... ` and
the severity phrase when the run has ten digits or more, the run itself
otherwise. -/
def collapseDigitRun (run : Str) : Str :=
  if run.length ≥ 10 then run.take 3 ++ js "... " ++ digitRunPhrase run.length else run

/-- The worker of `collapseDigitRuns`: `run` holds the digits of the run being
read. -/
def collapseDigitRunsAux : Str → Str → Str
  | run, [] => collapseDigitRun run
  | run, c :: cs =>
    if isDigit c then collapseDigitRunsAux (run ++ [c]) cs
    else collapseDigitRun run ++ c :: collapseDigitRunsAux [] cs

/-- The text in which every maximal run of ASCII digits is replaced by what
stands for it, and nothing else is changed. -/
def collapseDigitRuns (text : Str) : Str := collapseDigitRunsAux [] text

/-- A word in the sense of `\w+`: not empty, of ASCII letters, digits and
underscores. -/
def IsWordChars (w : Str) : Prop := w ≠ [] ∧ ∀ c ∈ w, isWordChar c = true

/-- A separator: white space, at least one code unit of it. -/
def IsSeparator (sep : Str) : Prop := sep ≠ [] ∧ ∀ c ∈ sep, isSpace c = true

/-- The text holds no run of ten or more digits. -/
def NoLongDigitRun (s : Str) : Prop := ∀ i, ((s.drop i).takeWhile isDigit).length < 10

/-- The word `w` repeated, with the given separators between its copies: one
copy more than there are separators. -/
def repeatedWord (w : Str) (seps : List Str) : Str := w ++ (seps.map (· ++ w)).flatten

/-- The count phrase for `n ≥ 6` repeats. -/
def repeatCountPhrase (n : Nat) : Str :=
  if n ≥ 10 then js "a whole wall of them"
  else if n ≥ 7 then js "so many of them"
  else js "times 6"

/-- What stands for a bracketed group: its lower-cased form when that is on the
allow-list, nothing otherwise. -/
def keepOrDropTag (U : Unicode) (group : Str) : Str :=
  if U.toLowerCase group ∈ VALID_EMOTION_TAGS then U.toLowerCase group else []

/-- The worker of `replaceBracketGroups`: `group` holds the code units of the
group being read, from its `[` on, when one is open. -/
def replaceBracketGroupsAux (U : Unicode) : Option Str → Str → Str
  | none, [] => []
  | some group, [] => group
  | none, c :: cs =>
    if c = 91 then replaceBracketGroupsAux U (some [91]) cs
    else c :: replaceBracketGroupsAux U none cs
  | some group, c :: cs =>
    if c = 93 then keepOrDropTag U (group ++ [93]) ++ replaceBracketGroupsAux U none cs
    else replaceBracketGroupsAux U (some (group ++ [c])) cs

/-- The text in which every bracketed group, from a `[` to the next `]`, is
replaced by what stands for it, and the text outside the groups (a `[` that is
never closed included) is unchanged. -/
def replaceBracketGroups (U : Unicode) (text : Str) : Str :=
  replaceBracketGroupsAux U none text

/-- A text whose bracketed groups are all on the allow-list: it is made of code
units other than `[`, of allow-listed tags, and of an end without `]`. -/
inductive TagsClean : Str → Prop where
  | nil : TagsClean []
  | char (c : Nat) (s : Str) : c ≠ 91 → TagsClean s → TagsClean (c :: s)
  | tag (t s : Str) : t ∈ VALID_EMOTION_TAGS → TagsClean s → TagsClean (t ++ s)
  | rest (s : Str) : 93 ∉ s → TagsClean s

/-- The values the IPC handlers return between two states: `success` and, on
failure, the error. -/
def repliesAdded (before after : State) : List (Bool × Option String) :=
  (after.log.drop before.log.length).filterMap fun e =>
    match e with
    | Effect.reply success error => some (success, error)
    | _ => none

/-- An item that `queue:cancel` accepts: it is in the work list, `queued` or
`pending_moderation`. -/
def Cancellable (s : State) (id : Nat) : Prop :=
  id ∈ s.ttsQueue ∧
    ((s.item id).status = Status.queued ∨ (s.item id).status = Status.pending_moderation)

instance (s : State) (id : Nat) : Decidable (Cancellable s id) :=
  inferInstanceAs (Decidable (_ ∧ _))

/-- Nothing is started between two states: no item has turned `processing`, and
the processing slot has not been taken. -/
def NothingStarted (s s' : State) : Prop :=
  (∀ id, (s'.item id).status = Status.processing → (s.item id).status = Status.processing) ∧
  (s'.isProcessing = true → s.isProcessing = true)

/-- An event that leaves the arrival order of the work list alone: anything but
a moderator `allow` and a replay inserted at the front. -/
def Event.keepsArrivalOrder : Event → Bool
  | Event.moderate _ ModerateAction.allow _ => false
  | Event.replay _ Position.front _ => false
  | _ => true

/-- The items that enter processing between two states: those of the work list
that were `queued` before, or did not exist yet, and are `processing` after, or
`playing` (an item that carries its audio plays at once). -/
def startedBetween (s s' : State) : List Nat :=
  s'.ttsQueue.filter fun i =>
    ((s'.item i).status = Status.processing ∨ (s'.item i).status = Status.playing) ∧
    ((s.item i).status = Status.queued ∨ s.nextId ≤ i)

/-- The items that enter processing along a run, in the order in which they do. -/
def startOrder : State → List Event → List Nat
  | _, [] => []
  | s, e :: es => startedBetween s (step s e) ++ startOrder (step s e) es

/-- A suspended handler that will not reorder the work list: anything but an
`allow` and a replay for the front. -/
def Cont.keepsArrivalOrder : Cont → Bool
  | Cont.allowTTS _ _ _ => false
  | Cont.replayFetch _ Position.front _ => false
  | _ => true

/-- The invariant behind FIFO service, for runs that keep the arrival order:
the work list is in arrival order (ids are given in arrival order), the items
in the pipeline are not `queued`, and every item served so far arrived before
every item that is still waiting. -/
structure ArrivalOrder (s : State) (served : List Nat) : Prop where
  sorted : s.ttsQueue.Pairwise (· < ·)
  fresh : ∀ i ∈ s.ttsQueue, i < s.nextId
  slot : ∀ c ∈ s.pending, ∀ id, c.slotId = some id →
    (s.item id).status ≠ Status.queued ∧ id < s.nextId
  conts : ∀ c ∈ s.pending, c.keepsArrivalOrder = true
  servedFirst : ∀ a ∈ served, a < s.nextId ∧
    ∀ b ∈ s.ttsQueue, (s.item b).status = Status.queued → a < b
  order : served.Pairwise (· < ·)

/-- What a handler does before it calls `processQueue`, as far as the arrival
order goes: the work list loses items or gets a new one at its end, no item
turns `queued` but a new one, and no waiting item is started. -/
structure Prepares (s t : State) : Prop where
  nextId_le : s.nextId ≤ t.nextId
  queue : t.ttsQueue.Sublist (s.ttsQueue ++ [s.nextId])
  fresh : ∀ i ∈ t.ttsQueue, i < t.nextId
  queued : ∀ j, (t.item j).status = Status.queued →
    (s.item j).status = Status.queued ∨ s.nextId ≤ j
  started : ∀ j ∈ t.ttsQueue,
    (t.item j).status = Status.processing ∨ (t.item j).status = Status.playing →
    ¬ ((s.item j).status = Status.queued ∨ s.nextId ≤ j)
  slot : ∀ c ∈ t.pending, ∀ id, c.slotId = some id →
    (t.item id).status ≠ Status.queued ∧ id < t.nextId
  conts : ∀ c ∈ t.pending, c.keepsArrivalOrder = true

/-- The law of `toUpperCase` on ASCII text: it is upper-cased letter by
letter. -/
def UpperAscii (U : Unicode) : Prop := ∀ s : Str, IsAscii s → U.toUpperCase s = s.map canon

/-- The reason `checkIfBlocked` reports when the answer gives none. -/
def defaultBlockReason : Str := js "Content flagged as inappropriate"

/-- The reason read from a `BLOCKED:` answer: what follows the eight code units
of the prefix, trimmed, or the default reason when nothing follows. -/
def reasonOf (response : Str) : Str :=
  if trim ((trim response).drop 8) = [] then defaultBlockReason
  else trim ((trim response).drop 8)

/-- A step of the sanitizer that runs when its toggle is on. -/
def optionalStep (enabled : Bool) (f : Str → Str) (text : Str) : Str :=
  if enabled then f text else text

/-- The text that reaches the spam collapse: the input after the markup, code,
combining-mark and emoji steps that the config enables. -/
def beforeSpamCollapse (U : Unicode) (text : Str) (config : SanitizationConfig) : Str :=
  optionalStep config.replaceEmojis replaceEmojis
    (optionalStep config.stripZalgoText (stripZalgoText U)
      (optionalStep config.stripCodeBlocks stripCodeBlocks
        (optionalStep config.stripHtmlTags stripHtmlTags text)))

/-- The sanitization config with every toggle off. -/
def sanitizeNothing : SanitizationConfig := ⟨false, false, false, false, false⟩

/-- A code unit that continues an emoji: a low surrogate or the variation
selector U+FE0F. -/
def isKeyTail (c : Nat) : Bool := isLowSurrogate c || c == 0xFE0F

/-- The shape of the keys of `EMOJI_MAP`: a first code unit that is neither
ASCII nor white space nor a continuation, followed by continuations only. -/
def keyShape : Str → Bool
  | [] => false
  | h :: t => decide (128 ≤ h) && !isSpace h && !isKeyTail h && t.all isKeyTail

/-- What `replaceEmojis` makes of `n` copies of an emoji with the given
description. -/
def emojiCountPhrase (description : Str) (n : Nat) : Str :=
  if n ≥ 7 then js "a whole wall of " ++ description
  else if n ≥ 4 then js "so many " ++ description
  else if n = 3 then description ++ js " times 3"
  else if n = 2 then js "double " ++ description
  else description

/-- White space only, possibly none. -/
def IsBlank (s : Str) : Prop := ∀ c ∈ s, isSpace c = true

instance (s : Str) : Decidable (IsBlank s) :=
  inferInstanceAs (Decidable (∀ c ∈ s, isSpace c = true))

/-- The value of a key of an object, `none` when the object has no such key. -/
def valueOf (obj : List (String × Option Bool)) (key : String) : Option (Option Bool) :=
  (obj.find? fun entry => entry.1 == key).map Prod.snd

/-- An object: no key occurs twice. -/
def IsObject (obj : List (String × Option Bool)) : Prop := (obj.map Prod.fst).Nodup

instance (obj : List (String × Option Bool)) : Decidable (IsObject obj) :=
  inferInstanceAs (Decidable (obj.map Prod.fst).Nodup)

/-- A voice config that is not bypassed, with a blocked-topics override. -/
def voiceWithTopics (o : TopicsOverride) : Option VoiceGPTConfig :=
  some ⟨false, some ⟨none, some o, none⟩⟩


/-- The replacement text of `String.prototype.replace` for a regular expression
without capture groups (ECMAScript `GetSubstitution`): `$$` stands for `$`,
`$&` for the matched text, a dollar sign before a backtick for the text before
the match and `$'` for the text after it; any other code unit, also a `$` that
starts none of these, stands for itself. -/
def getSubstitution (matched before after : Str) : Str → Str
  | [] => []
  | 36 :: 36 :: rest => 36 :: getSubstitution matched before after rest
  | 36 :: 38 :: rest => matched ++ getSubstitution matched before after rest
  | 36 :: 96 :: rest => before ++ getSubstitution matched before after rest
  | 36 :: 39 :: rest => after ++ getSubstitution matched before after rest
  | c :: rest => c :: getSubstitution matched before after rest

/-- The worker of `replaceLiteral`: `skip` counts the code units of the current
match still to be passed over, `before` is the text already read. -/
def replaceLiteralAux (canonicalize : Nat → Nat) (p replacement : Str) : Nat → Str → Str → Str
  | _, _, [] => []
  | skip + 1, before, c :: cs =>
    replaceLiteralAux canonicalize p replacement skip (before ++ [c]) cs
  | 0, before, c :: cs =>
    if startsWith ((c :: cs).map canonicalize) (p.map canonicalize) then
      getSubstitution ((c :: cs).take p.length) before ((c :: cs).drop p.length) replacement ++
        replaceLiteralAux canonicalize p replacement (p.length - 1) (before ++ [c]) cs
    else c :: replaceLiteralAux canonicalize p replacement 0 (before ++ [c]) cs

/-- `text.replace(regex, replacement)` for the regular expression of a literal,
non-empty pattern `p` with the flag `g`: every occurrence of `p`, leftmost first
and without overlap, gives way to the replacement text. Code units are compared
by their canonical forms, which are the code units themselves without the flag
`i`. -/
def replaceLiteral (canonicalize : Nat → Nat) (p : Str) (text replacement : Str) : Str :=
  replaceLiteralAux canonicalize p replacement 0 [] text

/-- What the regular-expression builtins do with the pattern `escapeRegExp`
builds from a non-empty literal under the flags `gi`: it compiles, and matches
the literal up to the canonical forms of the code units. -/
def EscapedLiteralLaw (E : RegExpEngine) (canonicalize : Nat → Nat) : Prop :=
  ∀ p : Str, p ≠ [] →
    E.compile (escapeRegExp p) [103, 105] = some (replaceLiteral canonicalize p)

/-- The literal an escaped pattern stands for: a backslash before a special
character is dropped; `none` for a pattern with a special character that is not
escaped, or with a backslash before anything else. -/
def unescapeLiteral : Str → Option Str
  | [] => some []
  | c :: cs =>
    if c = 92 then
      match cs with
      | d :: ds => if isRegExpSpecial d then (unescapeLiteral ds).map (d :: ·) else none
      | [] => none
    else if isRegExpSpecial c then none
    else (unescapeLiteral cs).map (c :: ·)

/-- An engine for evaluation that follows the builtins on the patterns made of
ordinary characters and escaped special characters, with the ASCII canonical
forms under the flag `i`; it refuses every other pattern. -/
def literalRegExp : RegExpEngine where
  compile := fun pattern flags =>
    match unescapeLiteral pattern with
    | some lit =>
      if lit = [] then none
      else some (replaceLiteral (if 105 ∈ flags then canon else id) lit)
    | none => none

/-- A literal rule: enabled, not a regular expression. -/
def literalRule (pattern replacement : Str) (caseSensitive : Bool) : ReplacementRule :=
  ⟨true, pattern, replacement, false, caseSensitive⟩

/-! ## Properties -/

/-! ### Fail-closed moderation -/

/-- C1, evaluated: with content moderation enabled and `onFailure = 'block'`, a
request whose safety classifier fails in transport while the voice task answers
is not blocked. `processWithGPTParallel` runs the safety and the voice task,
skips the failed one and returns `success: true`, so `processQueue` takes the
text of the voice task on to synthesis and never reaches its `onFailure`
branch. -/
theorem C1_failed_classifier_passes :
    (processWithGPTParallel asciiUnicode (js "hello there") true
      (moderationOnly (failClosedModeration { noRules with hateSpeech := ruleAt Level.standard }))
      safetyDownProvider).taskLabels = [TaskLabel.safety, TaskLabel.voice] ∧
    moderationOutcome (js "hello there")
      (failClosedModeration { noRules with hateSpeech := ruleAt Level.standard })
      (processWithGPTParallel asciiUnicode (js "hello there") true
        (moderationOnly (failClosedModeration { noRules with hateSpeech := ruleAt Level.standard }))
        safetyDownProvider) =
      ⟨false, none, js "hello there"⟩ := by
  decide!

/-! ### Aggregation of the classifier verdicts -/

theorem aggregateStep_of_signal (U : Unicode) (acc : Aggregate) (task : TaskLabel × GPTCallResult)
    (reason : Option Str) (h : blockSignal U task = some reason) :
    (aggregateStep U acc task).blocked = true ∧ (aggregateStep U acc task).blockReason = reason := by
  unfold blockSignal at h
  unfold aggregateStep
  by_cases hs : task.2.success = true ∧ task.1 ≠ TaskLabel.voice
  · rw [if_pos hs] at h
    by_cases hb : (checkIfBlocked U (outputOrPass task.2)).blocked = true
    · rw [if_pos hb] at h
      have hr : (checkIfBlocked U (outputOrPass task.2)).reason = reason := by
        simpa using h
      simp [hs.1, hs.2, hb, hr]
    · rw [if_neg hb] at h
      exact absurd h (by simp)
  · rw [if_neg hs] at h
    exact absurd h (by simp)

theorem aggregateStep_of_no_signal (U : Unicode) (acc : Aggregate)
    (task : TaskLabel × GPTCallResult) (h : blockSignal U task = none) :
    (aggregateStep U acc task).blocked = acc.blocked ∧
      (aggregateStep U acc task).blockReason = acc.blockReason := by
  unfold blockSignal at h
  unfold aggregateStep
  by_cases hs : task.2.success = false
  · simp [hs]
  · by_cases hv : task.1 = TaskLabel.voice
    · simp [hs, hv]
    · have hs' : task.2.success = true := by simpa using hs
      rw [if_pos ⟨hs', hv⟩] at h
      by_cases hb : (checkIfBlocked U (outputOrPass task.2)).blocked = true
      · rw [if_pos hb] at h
        exact absurd h (by simp)
      · simp [hs', hv, hb]

theorem foldl_aggregateStep (U : Unicode) (tasks : List (TaskLabel × GPTCallResult)) :
    ∀ acc : Aggregate,
      ((tasks.foldl (aggregateStep U) acc).blocked,
        (tasks.foldl (aggregateStep U) acc).blockReason) =
      match (blockSignals U tasks).getLast? with
      | some reason => (true, reason)
      | none => (acc.blocked, acc.blockReason) := by
  induction tasks with
  | nil => intro acc; simp [blockSignals]
  | cons t ts ih =>
    intro acc
    rw [List.foldl_cons, ih]
    cases hsig : blockSignal U t with
    | none =>
      have h := aggregateStep_of_no_signal U acc t hsig
      have hb : blockSignals U (t :: ts) = blockSignals U ts := by
        simp [blockSignals, List.filterMap_cons, hsig]
      rw [hb, h.1, h.2]
    | some reason =>
      have h := aggregateStep_of_signal U acc t reason hsig
      have hb : blockSignals U (t :: ts) = reason :: blockSignals U ts := by
        simp [blockSignals, List.filterMap_cons, hsig]
      rw [hb, h.1, h.2]
      cases hl : blockSignals U ts with
      | nil => simp
      | cons r rs =>
        rw [List.getLast?_cons_cons]
        cases hg : (r :: rs).getLast? with
        | none => exact absurd (List.getLast?_eq_none_iff.mp hg) (by simp)
        | some x => rfl

/-- C2, counterexample: when the safety and the copyright classifier both block,
the reason returned is the copyright one, not the first in task order. -/
theorem C2_reports_last_not_first :
    (processWithGPTParallel asciiUnicode (js "la la la") true
      (moderationOnly (failClosedModeration
        { noRules with hateSpeech := ruleAt Level.standard, songLyrics := ruleAt Level.strict }))
      bothBlockProvider).taskLabels = [TaskLabel.safety, TaskLabel.copyright, TaskLabel.voice] ∧
    (blockSignals asciiUnicode
      [(TaskLabel.safety, bothBlockProvider TaskLabel.safety),
       (TaskLabel.copyright, bothBlockProvider TaskLabel.copyright),
       (TaskLabel.voice, bothBlockProvider TaskLabel.voice)]).head? =
      some (some (js "HATE SPEECH - slur")) ∧
    (processWithGPTParallel asciiUnicode (js "la la la") true
      (moderationOnly (failClosedModeration
        { noRules with hateSpeech := ruleAt Level.standard, songLyrics := ruleAt Level.strict }))
      bothBlockProvider).blockReason = some (js "SONG LYRICS - chorus") := by
  decide!

/-- C2, amended: for every list of settled tasks in which at least one classifier
signals BLOCKED, the result is blocked and its `blockReason` is the reason of the
last blocking classifier in task order. -/
theorem C2_last_blocking_reason (U : Unicode) (text : Str) (config : GPTConfig)
    (tasks : List (TaskLabel × GPTCallResult)) (h : blockSignals U tasks ≠ []) :
    (finishParallel U text config tasks).blocked = true ∧
    some (finishParallel U text config tasks).blockReason = (blockSignals U tasks).getLast? := by
  have hf := foldl_aggregateStep U tasks ⟨false, none, none⟩
  cases hl : (blockSignals U tasks).getLast? with
  | none => exact absurd (List.getLast?_eq_none_iff.mp hl) h
  | some reason =>
    rw [hl] at hf
    simp only [Prod.mk.injEq] at hf
    have hb : (aggregateResults U tasks).blocked = true := hf.1
    have hr : (aggregateResults U tasks).blockReason = reason := hf.2
    unfold finishParallel
    simp [hb, hr]

/-- C2, amended, at an input: both classifiers block and the copyright reason is
returned. -/
theorem C2_last_blocking_reason_witness :
    blockSignals asciiUnicode
      [(TaskLabel.safety, bothBlockProvider TaskLabel.safety),
       (TaskLabel.copyright, bothBlockProvider TaskLabel.copyright),
       (TaskLabel.voice, bothBlockProvider TaskLabel.voice)] ≠ [] ∧
    (finishParallel asciiUnicode (js "la la la") rulesOffConfig
      [(TaskLabel.safety, bothBlockProvider TaskLabel.safety),
       (TaskLabel.copyright, bothBlockProvider TaskLabel.copyright),
       (TaskLabel.voice, bothBlockProvider TaskLabel.voice)]).blocked = true :=
  ⟨by decide!, (C2_last_blocking_reason asciiUnicode (js "la la la") rulesOffConfig _ (by decide!)).1⟩

/-! ### No rules, no block -/

theorem safetyRuleLine_of_inactive (U : Unicode) (ruleDef : RuleDefinition)
    (ruleConfig : Option RuleConfig) (h : ruleActive ruleConfig = false) :
    safetyRuleLine U ruleDef ruleConfig = none := by
  unfold ruleActive at h
  unfold safetyRuleLine
  cases ruleConfig with
  | none => rfl
  | some rc =>
    simp only at h ⊢
    cases hl : resolveLevel rc with
    | none => rfl
    | some level =>
      cases level with
      | off => rfl
      | standard => simp [hl] at h
      | strict => simp [hl] at h

theorem copyrightRuleLine_of_inactive (U : Unicode) (ruleDef : RuleDefinition)
    (ruleConfig : Option RuleConfig) (h : ruleActive ruleConfig = false) :
    copyrightRuleLine U ruleDef ruleConfig = none := by
  unfold ruleActive at h
  unfold copyrightRuleLine
  cases ruleConfig with
  | none => rfl
  | some rc =>
    simp only at h ⊢
    cases hl : resolveLevel rc with
    | none => rfl
    | some level =>
      cases level with
      | off => rfl
      | standard => simp [hl] at h
      | strict => simp [hl] at h

theorem presetTopics_blocked_nil (presets : List (String × Option Bool))
    (h : ∀ e ∈ presets, e.2 ≠ some true) : presetTopics presets true = [] := by
  unfold presetTopics
  rw [List.filterMap_eq_nil_iff]
  intro e he
  cases lookupTopicPreset e.1 with
  | none => rfl
  | some t => simp [h e he]

theorem aggregate_voice_only (U : Unicode) (result : GPTCallResult) :
    (aggregateResults U [(TaskLabel.voice, result)]).blocked = false := by
  unfold aggregateResults
  simp only [List.foldl_cons, List.foldl_nil]
  unfold aggregateStep
  by_cases hs : result.success = false
  · simp [hs]
  · simp [hs]

/-- C10: for every moderation config in which every rule is off, no topic is
blocked and the custom instructions are empty, the safety, topics and copyright
prompt builders all return `null`, the only task `processWithGPTParallel` runs is
the voice task, and its result is not blocked, whatever the provider answers. -/
theorem C10_no_rules_no_block (U : Unicode) (config : GPTConfig)
    (hrules : allRulesOff config.moderationConfig.rules)
    (htopics : noBlockedTopics config.moderationConfig.blockedTopics)
    (hcustom : config.moderationConfig.customInstructions = []) :
    buildSafetyModerationPrompt U config.moderationConfig.rules = none ∧
    buildTopicsModerationPrompt config.moderationConfig.blockedTopics
      config.moderationConfig.customInstructions = none ∧
    buildCopyrightModerationPrompt U config.moderationConfig.rules = none ∧
    parallelTaskLabels U config = [TaskLabel.voice] ∧
    ∀ (text : Str) (apiKey : Bool) (provider : TaskLabel → GPTCallResult),
      (processWithGPTParallel U text apiKey config provider).blocked = false ∧
      (text ≠ [] → apiKey = true →
        (processWithGPTParallel U text apiKey config provider).taskLabels = [TaskLabel.voice]) := by
  obtain ⟨h1, h2, h3, h4, h5, h6, h7⟩ := hrules
  obtain ⟨hp, hc⟩ := htopics
  have hsafety : buildSafetyModerationPrompt U config.moderationConfig.rules = none := by
    unfold buildSafetyModerationPrompt safetyActiveRules
    simp [safetyRuleLine_of_inactive, h1, h2, h3, h4, h5]
  have htop : buildTopicsModerationPrompt config.moderationConfig.blockedTopics
      config.moderationConfig.customInstructions = none := by
    unfold buildTopicsModerationPrompt
    simp [presetTopics_blocked_nil _ hp, hc, hcustom, customTopics, trim]
  have hcopy : buildCopyrightModerationPrompt U config.moderationConfig.rules = none := by
    unfold buildCopyrightModerationPrompt copyrightActiveRules
    simp [copyrightRuleLine_of_inactive, h6, h7]
  have hlabels : parallelTaskLabels U config = [TaskLabel.voice] := by
    unfold parallelTaskLabels
    simp [hsafety, htop, hcopy]
  refine ⟨hsafety, htop, hcopy, hlabels, ?_⟩
  intro text apiKey provider
  unfold processWithGPTParallel
  by_cases ht : text = []
  · simp [ht]
  · by_cases hk : apiKey = false
    · simp [ht, hk]
    · have hk' : apiKey = true := by simpa using hk
      simp only [ht, hk', if_false, Bool.true_eq_false, hlabels, List.map_cons, List.map_nil]
      unfold finishParallel
      simp [aggregate_voice_only]

/-- C10 at an input: a config whose rules are explicitly off and whose presets are
explicitly allowed or unset. -/
theorem C10_no_rules_no_block_witness :
    allRulesOff rulesOffConfig.moderationConfig.rules ∧
    noBlockedTopics rulesOffConfig.moderationConfig.blockedTopics ∧
    rulesOffConfig.moderationConfig.customInstructions = [] ∧
    parallelTaskLabels asciiUnicode rulesOffConfig = [TaskLabel.voice] :=
  ⟨by unfold allRulesOff; decide, by unfold noBlockedTopics; decide, rfl,
    (C10_no_rules_no_block asciiUnicode rulesOffConfig (by unfold allRulesOff; decide)
      (by unfold noBlockedTopics; decide) rfl).2.2.2.1⟩

/-! ### Words and spaces -/

theorem joinSpace_cons (w : Str) (ws : List Str) :
    joinSpace (w :: ws) = if ws = [] then w else w ++ 32 :: joinSpace ws := by
  cases ws with
  | nil => simp [joinSpace]
  | cons v vs => simp [joinSpace]

theorem length_joinSpace_cons_le (w : Str) (ws : List Str) :
    (joinSpace (w :: ws)).length ≤ w.length + 1 + (joinSpace ws).length := by
  rw [joinSpace_cons]
  split
  · omega
  · simp only [List.length_append, List.length_cons]; omega

theorem length_joinSpace_splitWordsAux (s : Str) :
    ∀ cur : Str, (joinSpace (splitWordsAux cur s)).length ≤ cur.length + s.length := by
  induction s with
  | nil =>
    intro cur
    unfold splitWordsAux
    split <;> simp [joinSpace]
  | cons c cs ih =>
    intro cur
    unfold splitWordsAux
    by_cases hc : isSpace c = true
    · by_cases hcur : cur = []
      · simp only [hc, hcur, if_true]
        have := ih []
        simp only [List.length_nil, List.length_cons] at this ⊢
        omega
      · simp only [hc, hcur, if_true, if_false]
        have h1 := length_joinSpace_cons_le cur (splitWordsAux [] cs)
        have h2 := ih []
        simp only [List.length_nil, List.length_cons] at h2 ⊢
        omega
    · have hc' : isSpace c = false := by simpa using hc
      simp only [hc', Bool.false_eq_true, if_false]
      have := ih (cur ++ [c])
      simp only [List.length_append, List.length_cons, List.length_nil] at this ⊢
      omega

theorem length_joinSpace_take_le (ws : List Str) :
    ∀ n : Nat, (joinSpace (ws.take n)).length ≤ (joinSpace ws).length := by
  induction ws with
  | nil => intro n; simp
  | cons w ws ih =>
    intro n
    cases n with
    | zero => simp [joinSpace]
    | succ n =>
      rw [List.take_succ_cons, joinSpace_cons, joinSpace_cons]
      have h := ih n
      by_cases hws : ws = []
      · simp [hws]
      · by_cases ht : ws.take n = []
        · simp only [ht, hws, if_true, if_false, List.length_append, List.length_cons]
          omega
        · simp only [ht, hws, if_false, List.length_append, List.length_cons]
          omega

theorem splitWordsAux_words (s : Str) :
    ∀ cur : Str, (∀ c ∈ cur, isSpace c = false) → ∀ w ∈ splitWordsAux cur s, IsWord w := by
  induction s with
  | nil =>
    intro cur hcur w hw
    unfold splitWordsAux at hw
    split at hw
    · simp at hw
    · rename_i hne
      simp only [List.mem_singleton] at hw
      subst hw
      exact ⟨hne, hcur⟩
  | cons c cs ih =>
    intro cur hcur w hw
    unfold splitWordsAux at hw
    by_cases hc : isSpace c = true
    · by_cases hne : cur = []
      · simp only [hc, hne, if_true] at hw
        exact ih [] (by simp) w hw
      · simp only [hc, hne, if_true, if_false, List.mem_cons] at hw
        rcases hw with hw | hw
        · subst hw; exact ⟨hne, hcur⟩
        · exact ih [] (by simp) w hw
    · simp only [hc, if_false] at hw
      refine ih (cur ++ [c]) ?_ w hw
      intro d hd
      simp only [List.mem_append, List.mem_singleton] at hd
      rcases hd with hd | hd
      · exact hcur d hd
      · subst hd; simpa using hc

theorem splitWords_words (s : Str) : ∀ w ∈ splitWords s, IsWord w :=
  splitWordsAux_words s [] (by simp)

theorem splitWordsAux_append_word (w : Str) (hw : ∀ c ∈ w, isSpace c = false) :
    ∀ (cur t : Str), splitWordsAux cur (w ++ t) = splitWordsAux (cur ++ w) t := by
  induction w with
  | nil => intro cur t; simp
  | cons c cs ih =>
    intro cur t
    have hc : isSpace c = false := hw c (by simp)
    have hcs : ∀ d ∈ cs, isSpace d = false := fun d hd => hw d (by simp [hd])
    rw [List.cons_append]
    conv_lhs => unfold splitWordsAux
    simp only [hc, Bool.false_eq_true, if_false]
    rw [ih hcs]
    simp

theorem splitWords_joinSpace (ws : List Str) (h : ∀ w ∈ ws, IsWord w) :
    splitWords (joinSpace ws) = ws := by
  unfold splitWords
  induction ws with
  | nil => simp [joinSpace, splitWordsAux]
  | cons w ws ih =>
    have hw : IsWord w := h w (by simp)
    have hws : ∀ v ∈ ws, IsWord v := fun v hv => h v (by simp [hv])
    rw [joinSpace_cons]
    by_cases hnil : ws = []
    · subst hnil
      simp only [if_true]
      have := splitWordsAux_append_word w hw.2 [] []
      simp only [List.append_nil, List.nil_append] at this
      rw [this]
      unfold splitWordsAux
      simp [hw.1]
    · simp only [hnil, if_false]
      rw [splitWordsAux_append_word w hw.2 [] (32 :: joinSpace ws)]
      simp only [List.nil_append]
      conv_lhs => unfold splitWordsAux
      have h32 : isSpace 32 = true := by decide
      simp only [h32, if_true, hw.1, if_false]
      rw [ih hws]

/-! ### Length limiter -/

theorem length_truncateAtCharacters_le (result : Str) (value : Nat) :
    (truncateAtCharacters result value).length ≤ value := by
  have h1 : (result.take value).length ≤ value := by
    rw [List.length_take]; exact Nat.min_le_left _ _
  unfold truncateAtCharacters substring0
  dsimp only
  split
  · split
    · rw [List.length_take]; exact le_trans (Nat.min_le_right _ _) h1
    · exact h1
  · exact h1

theorem length_joinSpace_take_splitWords_le (s : Str) (n : Nat) :
    (joinSpace ((splitWords s).take n)).length ≤ s.length := by
  have h1 := length_joinSpace_take_le (splitWords s) n
  have h2 := length_joinSpace_splitWordsAux s []
  unfold splitWords at h1 ⊢
  simp only [List.length_nil] at h2
  omega

theorem splitWords_joinSpace_take (s : Str) (n : Nat) :
    splitWords (joinSpace ((splitWords s).take n)) = (splitWords s).take n :=
  splitWords_joinSpace _ fun w hw => splitWords_words s w (List.mem_of_mem_take hw)

theorem characterStage_length (charLimit : LengthLimit) (t : Truncation)
    (h : charLimit.enabled = true) : (characterStage charLimit t).result.length ≤ charLimit.value := by
  unfold characterStage
  by_cases hlen : t.result.length > charLimit.value
  · rw [if_pos ⟨h, hlen⟩]
    exact length_truncateAtCharacters_le _ _
  · rw [if_neg (fun hh => hlen hh.2)]
    omega

theorem wordStage_length_le (wordLimit : LengthLimit) (t : Truncation) :
    (wordStage wordLimit t).result.length ≤ t.result.length := by
  unfold wordStage
  split
  · exact length_joinSpace_take_splitWords_le _ _
  · exact le_refl _

theorem wordStage_words (wordLimit : LengthLimit) (t : Truncation)
    (h : wordLimit.enabled = true) :
    (splitWords (wordStage wordLimit t).result).length ≤ wordLimit.value := by
  unfold wordStage
  by_cases hw : (splitWords t.result).length > wordLimit.value
  · rw [if_pos ⟨h, hw⟩]
    show (splitWords (joinSpace ((splitWords t.result).take wordLimit.value))).length ≤ _
    rw [splitWords_joinSpace_take, List.length_take]
    exact Nat.min_le_left _ _
  · rw [if_neg (fun hh => hw hh.2)]
    omega

/-- C5: for every text and every dual-limit config (its values are non-negative
integers), the result of `applyMaxLength` has at most `characters.value` code
units when the character limit is enabled and at most `words.value`
white-space-separated words when the word limit is enabled, and the returned
`charCount` and `wordCount` are those of the returned text. -/
theorem C5_length_caps (text : Str) (config : MaxLengthConfig) :
    (config.characters.enabled = true →
      (applyMaxLength text config).result.length ≤ config.characters.value) ∧
    (config.words.enabled = true →
      (splitWords (applyMaxLength text config).result).length ≤ config.words.value) ∧
    (applyMaxLength text config).charCount = (applyMaxLength text config).result.length ∧
    (applyMaxLength text config).wordCount =
      (splitWords (applyMaxLength text config).result).length := by
  unfold applyMaxLength
  by_cases ht : text = []
  · simp [ht, splitWords, splitWordsAux]
  · rw [if_neg ht]
    by_cases hnone : config.characters.enabled = false ∧ config.words.enabled = false
    · rw [if_pos hnone]
      simp [hnone.1, hnone.2]
    · rw [if_neg hnone]
      refine ⟨?_, ?_, rfl, rfl⟩
      · intro hce
        exact le_trans (wordStage_length_le _ _) (characterStage_length _ _ hce)
      · intro hwe
        exact wordStage_words _ _ hwe

theorem wordStage_disabled (value : Nat) (t : Truncation) :
    wordStage ⟨false, value⟩ t = t := by
  unfold wordStage
  simp

theorem characterStage_disabled (value : Nat) (t : Truncation) :
    characterStage ⟨false, value⟩ t = t := by
  unfold characterStage
  simp

/-- C6: with only the character limit enabled, `wasTruncated` holds iff the text
is longer than the limit, and `truncatedBy` is `'characters'` exactly then and
`null` otherwise; with only the word limit enabled, `wasTruncated` holds iff the
text has more words than the limit, and `truncatedBy` is `'words'` exactly then
and `null` otherwise; with both limits enabled and both exceeded by the input,
`truncatedBy` is `'characters'`. -/
theorem C6_truncation_attribution (text : Str) (value other : Nat) :
    (((applyMaxLength text ⟨⟨true, value⟩, ⟨false, other⟩⟩).wasTruncated = true ↔
        text.length > value) ∧
      ((applyMaxLength text ⟨⟨true, value⟩, ⟨false, other⟩⟩).truncatedBy =
        if text.length > value then some TruncatedBy.characters else none)) ∧
    (((applyMaxLength text ⟨⟨false, other⟩, ⟨true, value⟩⟩).wasTruncated = true ↔
        (splitWords text).length > value) ∧
      ((applyMaxLength text ⟨⟨false, other⟩, ⟨true, value⟩⟩).truncatedBy =
        if (splitWords text).length > value then some TruncatedBy.words else none)) ∧
    (text.length > value → (splitWords text).length > other →
      (applyMaxLength text ⟨⟨true, value⟩, ⟨true, other⟩⟩).truncatedBy =
        some TruncatedBy.characters) := by
  by_cases ht : text = []
  · subst ht
    simp [applyMaxLength, splitWords, splitWordsAux]
  · refine ⟨?_, ?_, ?_⟩
    · unfold applyMaxLength
      rw [if_neg ht]
      simp only [Bool.true_eq_false, false_and, if_false, wordStage_disabled]
      unfold characterStage
      by_cases hlen : text.length > value
      · simp [hlen]
      · simp [hlen]
    · unfold applyMaxLength
      rw [if_neg ht]
      simp only [Bool.true_eq_false, and_false, if_false, characterStage_disabled]
      unfold wordStage
      by_cases hlen : (splitWords text).length > value
      · simp [hlen]
      · simp [hlen]
    · intro hc _
      unfold applyMaxLength
      rw [if_neg ht]
      simp only [Bool.true_eq_false, false_and, if_false]
      unfold characterStage
      simp only [true_and, hc, if_true]
      unfold wordStage
      split <;> rfl

/-- C6 at an input: three words under a limit of five characters and one word,
both exceeded. -/
theorem C6_truncation_attribution_witness :
    (js "one two three").length > 5 ∧ (splitWords (js "one two three")).length > 1 ∧
    (applyMaxLength (js "one two three") ⟨⟨true, 5⟩, ⟨true, 1⟩⟩).truncatedBy =
      some TruncatedBy.characters :=
  ⟨by decide, by decide,
    (C6_truncation_attribution (js "one two three") 5 1).2.2 (by decide) (by decide)⟩

/-! ### Word preservation -/

theorem replaceAllAux_congr (m1 m2 : Option Nat → Str → Option (Nat × Str)) (P : Str → Prop)
    (htail : ∀ c cs, P (c :: cs) → P cs)
    (hm : ∀ prev t, P t → m1 prev t = m2 prev t) (s : Str) :
    ∀ (skip : Nat) (prev : Option Nat), P s →
      replaceAllAux m1 skip prev s = replaceAllAux m2 skip prev s := by
  induction s with
  | nil => intro skip prev _; cases skip <;> rfl
  | cons c cs ih =>
    intro skip prev hP
    cases skip with
    | succ k =>
      unfold replaceAllAux
      exact ih k (some c) (htail c cs hP)
    | zero =>
      unfold replaceAllAux
      rw [hm prev (c :: cs) hP]
      cases m2 prev (c :: cs) with
      | none => simp only; rw [ih 0 (some c) (htail c cs hP)]
      | some nr =>
        obtain ⟨n, r⟩ := nr
        cases n with
        | zero => simp only; rw [ih 0 (some c) (htail c cs hP)]
        | succ n => simp only; rw [ih n (some c) (htail c cs hP)]

theorem isAscii_tail (c : Nat) (cs : Str) (h : IsAscii (c :: cs)) : IsAscii cs :=
  fun d hd => h d (List.mem_cons_of_mem c hd)

theorem isAscii_take (s : Str) (n : Nat) (h : IsAscii s) : IsAscii (s.take n) :=
  fun d hd => h d (List.mem_of_mem_take hd)

theorem toLowerCase_ascii (U : Unicode) (s : Str) (h : IsAscii s) :
    U.toLowerCase s = asciiUnicode.toLowerCase s :=
  U.lower_ascii s h

theorem matchPerformanceTag_ascii (U : Unicode) (prev : Option Nat) (t : Str) (h : IsAscii t) :
    matchPerformanceTag U prev t = matchPerformanceTag asciiUnicode prev t := by
  unfold matchPerformanceTag
  split
  · rename_i cs
    cases untilClose1 93 cs with
    | none => rfl
    | some n =>
      simp only [Option.map_some']
      rw [toLowerCase_ascii U _ (isAscii_take _ _ h)]
  · rfl

theorem postProcessEmotionTags_result_ascii (U : Unicode) (text : Str) (h : IsAscii text) :
    (postProcessEmotionTags U text).result = (postProcessEmotionTags asciiUnicode text).result := by
  unfold postProcessEmotionTags
  by_cases ht : text = []
  · simp [ht]
  · simp only [ht, if_false]
    unfold replaceAll
    rw [replaceAllAux_congr (matchPerformanceTag U) (matchPerformanceTag asciiUnicode) IsAscii
      isAscii_tail (fun prev t ht => matchPerformanceTag_ascii U prev t ht) text 0 none h]

theorem extractSpokenWords_hello (U : Unicode) :
    extractSpokenWords U (js "hello world") = js "hello world" := by
  have h : extractSpokenWords U (js "hello world") =
      U.toLowerCase (extractSpokenWords asciiUnicode (js "hello world")) := by
    have : asciiUnicode.toLowerCase (js "hello world") = js "hello world" := by decide!
    have h2 : normalizeSpaces (replaceAll matchSingingGlyph (replaceAll matchVocalization
        (replaceAll matchBracketGroup (js "hello world")))) = js "hello world" := by decide!
    unfold extractSpokenWords
    rw [if_neg (by decide), if_neg (by decide), h2, this]
  rw [h, U.lower_ascii _ (by decide!)]
  decide!

theorem spokenSignificantWords_hello (U : Unicode) :
    spokenSignificantWords U (js "hello world") = [js "hello", js "world"] := by
  unfold spokenSignificantWords
  rw [extractSpokenWords_hello]
  unfold getSignificantWords
  rw [U.lower_ascii _ (by decide!)]
  decide!

theorem checkWordPreservation_eq (U : Unicode) (original processed : Str)
    (pc : Option ProfanityConfig) (hpc : replacementWordOf U pc = none)
    (hlen : ¬ lengthRuleFires U original processed)
    (hne : spokenSignificantWords U original ≠ []) :
    checkWordPreservation U original processed pc =
      if ((sharedWords U original processed).length : ℚ) /
          (spokenSignificantWords U original).length < 3 / 5
      then ⟨false, ((sharedWords U original processed).length : ℚ) /
          (spokenSignificantWords U original).length⟩
      else ⟨true, ((sharedWords U original processed).length : ℚ) /
          (spokenSignificantWords U original).length⟩ := by
  unfold checkWordPreservation
  unfold lengthRuleFires at hlen
  have hne' : ¬ (getSignificantWords U (extractSpokenWords U original)).length = 0 := by
    intro h
    exact hne (List.length_eq_zero.mp h)
  simp only [hlen, if_false, hne', hpc]
  simp only [Bool.and_false, Bool.false_eq_true, List.filter_false, List.length_nil,
    Nat.add_zero]
  unfold sharedWords spokenSignificantWords
  simp only [List.contains, List.elem_eq_mem]

theorem ratio_lt_iff (p n : Nat) (hn : 0 < n) : ((p : ℚ) / n < 3 / 5) ↔ 5 * p < 3 * n := by
  have hn' : (0 : ℚ) < n := by exact_mod_cast hn
  rw [div_lt_div_iff₀ hn' (by norm_num)]
  constructor
  · intro h
    have : ((p * 5 : Nat) : ℚ) < ((3 * n : Nat) : ℚ) := by push_cast; exact h
    have := Nat.cast_lt.mp this
    omega
  · intro h
    have : ((p * 5 : Nat) : ℚ) < ((3 * n : Nat) : ℚ) := by
      apply Nat.cast_lt.mpr; omega
    push_cast at this
    exact this

theorem finishParallel_hello (U : Unicode) (config : GPTConfig)
    (tasks : List (TaskLabel × GPTCallResult)) (t : Str) (e : Option Str)
    (hpc : replacementWordOf U config.moderationConfig.rules.profanity = none)
    (hblocked : (aggregateResults U tasks).blocked = false)
    (hvoice : (aggregateResults U tasks).voiceResult = some ⟨true, some t, e⟩)
    (ht : t ≠ [])
    (hshared : sharedWords U (js "hello world") t = []) :
    (finishParallel U (js "hello world") config tasks).text =
      some (if config.emotionEnhancement = true then js "[neutral] hello world"
        else js "hello world") := by
  have hlen : ¬ lengthRuleFires U (js "hello world") t := by
    unfold lengthRuleFires
    rw [extractSpokenWords_hello]
    intro h
    exact absurd h.2 (by decide)
  have hne : spokenSignificantWords U (js "hello world") ≠ [] := by
    rw [spokenSignificantWords_hello]; simp
  have hcheck := checkWordPreservation_eq U (js "hello world") t
    config.moderationConfig.rules.profanity hpc hlen hne
  rw [hshared, spokenSignificantWords_hello] at hcheck
  have hq : ((([] : List Str).length : ℚ) / ([js "hello", js "world"] : List Str).length < 3 / 5) := by
    norm_num
  rw [if_pos hq] at hcheck
  have hspam : includes (js "hello world") (js "**Spam detected:") = false := by decide!
  unfold finishParallel
  simp only [hblocked, Bool.false_eq_true, if_false, hvoice, ht, hspam, hcheck, Bool.not_false,
    Bool.and_self, if_true]
  by_cases hem : config.emotionEnhancement = true
  · simp only [hem, if_true]
    rw [postProcessEmotionTags_result_ascii U _ (by decide!)]
    decide!
  · simp only [hem, if_false]
    rw [postProcessEmotionTags_result_ascii U _ (by decide!)]
    decide!

/-- C3, counterexample: with emotion enhancement on, the text returned for
"hello world" after a rejected transform is "[neutral] hello world", not the
original text. -/
theorem C3_fallback_is_wrapped :
    (checkWordPreservation asciiUnicode (js "hello world") (js "goodbye everyone") none).preserved =
      false ∧
    (processWithGPTParallel asciiUnicode (js "hello world") true (voiceOnlyConfig true)
      rewritingProvider).text = some (js "[neutral] hello world") ∧
    (processWithGPTParallel asciiUnicode (js "hello world") true (voiceOnlyConfig true)
      rewritingProvider).text ≠ some (js "hello world") := by
  decide!

/-- C3, amended: when the length rule does not fire, no profanity replacement is
configured and the original has a significant word, `checkWordPreservation`
returns `preserved = false` exactly when fewer than 60% of the original's
distinct significant words occur among those of the transformed text; and for
the original "hello world" with a transform sharing neither word,
`processWithGPTParallel` returns the original text, prefixed by "[neutral] "
when emotion enhancement is on. -/
theorem C3_word_preservation_threshold (U : Unicode) (original processed : Str)
    (pc : Option ProfanityConfig) (hpc : replacementWordOf U pc = none)
    (hlen : ¬ lengthRuleFires U original processed)
    (hne : spokenSignificantWords U original ≠ []) :
    ((checkWordPreservation U original processed pc).preserved = false ↔
      5 * (sharedWords U original processed).length <
        3 * (spokenSignificantWords U original).length) ∧
    ∀ (config : GPTConfig) (tasks : List (TaskLabel × GPTCallResult)) (t : Str) (e : Option Str),
      replacementWordOf U config.moderationConfig.rules.profanity = none →
      (aggregateResults U tasks).blocked = false →
      (aggregateResults U tasks).voiceResult = some ⟨true, some t, e⟩ →
      t ≠ [] →
      sharedWords U (js "hello world") t = [] →
      (checkWordPreservation U (js "hello world") t
        config.moderationConfig.rules.profanity).preserved = false ∧
      (finishParallel U (js "hello world") config tasks).text =
        some (if config.emotionEnhancement = true then js "[neutral] hello world"
          else js "hello world") := by
  constructor
  · rw [checkWordPreservation_eq U original processed pc hpc hlen hne]
    have hpos : 0 < (spokenSignificantWords U original).length :=
      List.length_pos.mpr hne
    rw [← ratio_lt_iff _ _ hpos]
    split <;> simp_all
  · intro config tasks t e hpc' hblocked hvoice ht hshared
    refine ⟨?_, finishParallel_hello U config tasks t e hpc' hblocked hvoice ht hshared⟩
    have hlen' : ¬ lengthRuleFires U (js "hello world") t := by
      unfold lengthRuleFires
      rw [extractSpokenWords_hello]
      intro h
      exact absurd h.2 (by decide)
    have hne' : spokenSignificantWords U (js "hello world") ≠ [] := by
      rw [spokenSignificantWords_hello]; simp
    rw [checkWordPreservation_eq U (js "hello world") t _ hpc' hlen' hne', hshared,
      spokenSignificantWords_hello]
    norm_num

/-- C3, amended, at an input: "hello world" against "goodbye everyone" shares 0
of 2 significant words and is rejected. -/
theorem C3_word_preservation_threshold_witness :
    replacementWordOf asciiUnicode none = none ∧
    ¬ lengthRuleFires asciiUnicode (js "hello world") (js "goodbye everyone") ∧
    spokenSignificantWords asciiUnicode (js "hello world") ≠ [] ∧
    ((checkWordPreservation asciiUnicode (js "hello world") (js "goodbye everyone") none).preserved =
        false ↔
      5 * (sharedWords asciiUnicode (js "hello world") (js "goodbye everyone")).length <
        3 * (spokenSignificantWords asciiUnicode (js "hello world")).length) :=
  ⟨rfl, by unfold lengthRuleFires; decide!, by decide!,
    (C3_word_preservation_threshold asciiUnicode (js "hello world") (js "goodbye everyone") none rfl
      (by unfold lengthRuleFires; decide!) (by decide!)).1⟩

/-! ### Whitespace normalisation -/

theorem trim_eq (s : Str) : trim s = (s.dropWhile isSpace).rdropWhile isSpace := rfl

theorem collapseSpacesAux_normal (s : Str) :
    ∀ b : Bool, SpacesNormal (collapseSpacesAux b s) ∧
      (b = true → ∀ c ∈ (collapseSpacesAux b s).head?, isSpace c = false) := by
  induction s with
  | nil =>
    intro b
    unfold collapseSpacesAux
    exact ⟨⟨by simp, List.chain'_nil⟩, by simp⟩
  | cons c cs ih =>
    intro b
    unfold collapseSpacesAux
    by_cases hc : isSpace c = true
    · cases b with
      | true =>
        simp only [hc, if_true]
        exact ⟨(ih true).1, fun _ => (ih true).2 rfl⟩
      | false =>
        simp only [hc, if_true, Bool.false_eq_true, if_false]
        refine ⟨⟨?_, ?_⟩, by simp⟩
        · intro d hd hsp
          rcases List.mem_cons.mp hd with h | h
          · exact h
          · exact (ih true).1.1 d h hsp
        · rw [List.chain'_cons']
          refine ⟨?_, (ih true).1.2⟩
          intro y hy hboth
          have := (ih true).2 rfl y hy
          rw [this] at hboth
          exact absurd hboth.2 (by simp)
    · have hc' : isSpace c = false := by simpa using hc
      simp only [hc', Bool.false_eq_true, if_false]
      refine ⟨⟨?_, ?_⟩, ?_⟩
      · intro d hd hsp
        rcases List.mem_cons.mp hd with h | h
        · subst h; rw [hc'] at hsp; exact absurd hsp (by simp)
        · exact (ih false).1.1 d h hsp
      · rw [List.chain'_cons']
        refine ⟨?_, (ih false).1.2⟩
        intro y _ hboth
        rw [hc'] at hboth
        exact absurd hboth.1 (by simp)
      · intro _ d hd
        simp only [List.head?_cons, Option.mem_def, Option.some.injEq] at hd
        subst hd
        exact hc'

theorem collapseSpacesAux_fixed (s : Str) :
    ∀ b : Bool, SpacesNormal s → (b = true → ∀ c ∈ s.head?, isSpace c = false) →
      collapseSpacesAux b s = s := by
  induction s with
  | nil => intro b _ _; rfl
  | cons c cs ih =>
    intro b hn hb
    have hchain := List.chain'_cons'.mp hn.2
    have hn' : SpacesNormal cs := ⟨fun d hd => hn.1 d (List.mem_cons_of_mem c hd), hchain.2⟩
    unfold collapseSpacesAux
    by_cases hc : isSpace c = true
    · have hbf : b = false := by
        cases b with
        | false => rfl
        | true =>
          have := hb rfl c (by simp)
          rw [this] at hc
          exact absurd hc (by simp)
      subst hbf
      simp only [hc, if_true, Bool.false_eq_true, if_false]
      have h32 : c = 32 := hn.1 c (by simp) hc
      rw [ih true hn' ?_, h32]
      intro _ d hd
      have := hchain.1 d hd
      simp only [hc, true_and, Bool.not_eq_true] at this
      exact this
    · have hc' : isSpace c = false := by simpa using hc
      simp only [hc', Bool.false_eq_true, if_false]
      rw [ih false hn' (by simp)]

theorem spacesNormal_of_suffix (s t : Str) (h : t <:+ s) (hn : SpacesNormal s) : SpacesNormal t :=
  ⟨fun c hc => hn.1 c (h.subset hc), hn.2.suffix h⟩

theorem spacesNormal_of_initial (s t : Str) (h : t <+: s) (hn : SpacesNormal s) : SpacesNormal t :=
  ⟨fun c hc => hn.1 c (h.subset hc), List.Chain'.prefix hn.2 h⟩

theorem spacesNormal_normalizeSpaces (s : Str) : SpacesNormal (normalizeSpaces s) := by
  unfold normalizeSpaces collapseSpaces
  rw [trim_eq]
  exact spacesNormal_of_initial _ _ ( List.rdropWhile_prefix _ _)
    (spacesNormal_of_suffix _ _ (List.dropWhile_suffix _) (collapseSpacesAux_normal s false).1)

theorem trim_trim (s : Str) : trim (trim s) = trim s := by
  rw [trim_eq s]
  generalize hD : s.dropWhile isSpace = D
  have hDD : D.dropWhile isSpace = D := by rw [← hD, List.dropWhile_idempotent]
  rw [trim_eq]
  have h1 : (D.rdropWhile isSpace).dropWhile isSpace = D.rdropWhile isSpace := by
    rw [List.dropWhile_eq_self_iff]
    intro hl hp
    obtain ⟨t, ht⟩ : D.rdropWhile isSpace <+: D := List.rdropWhile_prefix _ _
    have hDpos : 0 < D.length := by
      rw [← ht, List.length_append]; omega
    have hhead : D.get ⟨0, hDpos⟩ = (D.rdropWhile isSpace).get ⟨0, hl⟩ := by
      simp only [List.get_eq_getElem]
      conv_lhs => rw [List.getElem_of_eq ht.symm]
      rw [List.getElem_append_left]
    have := (List.dropWhile_eq_self_iff.mp hDD) hDpos
    rw [hhead] at this
    exact this hp
  rw [h1, List.rdropWhile_idempotent]

theorem normalizeSpaces_idem (s : Str) : normalizeSpaces (normalizeSpaces s) = normalizeSpaces s := by
  have hn := spacesNormal_normalizeSpaces s
  have h1 : normalizeSpaces (normalizeSpaces s) =
      trim (collapseSpacesAux false (normalizeSpaces s)) := rfl
  rw [h1, collapseSpacesAux_fixed _ false hn (by simp)]
  unfold normalizeSpaces
  exact trim_trim _

/-! ### Sanitizer -/

theorem replaceAllAux_of_no_rewrite (m : Option Nat → Str → Option (Nat × Str)) (s : Str) :
    ∀ (skip : Nat) (prev : Option Nat), rewritesAux m skip prev s = false →
      replaceAllAux m skip prev s = s.drop skip := by
  induction s with
  | nil => intro skip prev _; cases skip <;> rfl
  | cons c cs ih =>
    intro skip prev h
    cases skip with
    | succ k =>
      unfold rewritesAux at h
      unfold replaceAllAux
      rw [ih k (some c) h, List.drop_succ_cons]
    | zero =>
      unfold rewritesAux at h
      unfold replaceAllAux
      cases hm : m prev (c :: cs) with
      | none =>
        rw [hm] at h
        simp only at h ⊢
        rw [ih 0 (some c) h]
        simp
      | some nr =>
        obtain ⟨n, r⟩ := nr
        rw [hm] at h
        cases n with
        | zero =>
          simp only at h ⊢
          rw [ih 0 (some c) h]
          simp
        | succ n =>
          simp only [Bool.or_eq_false_iff, bne_eq_false_iff_eq] at h
          simp only
          rw [ih n (some c) h.2, h.1, List.drop_zero]
          have := List.take_append_drop (n + 1) (c :: cs)
          rw [List.drop_succ_cons] at this
          exact this

theorem replaceAll_of_no_rewrite (m : Option Nat → Str → Option (Nat × Str)) (s : Str)
    (h : rewrites m s = false) : replaceAll m s = s := by
  unfold replaceAll
  rw [replaceAllAux_of_no_rewrite m s 0 none h, List.drop_zero]

theorem includes_tail (c : Nat) (cs p : Str) (h : includes (c :: cs) p = false) :
    startsWith (c :: cs) p = false ∧ includes cs p = false := by
  unfold includes at h
  simpa using h

theorem rewritesAux_matchLiteral (p x : Str) (s : Str) :
    ∀ (skip : Nat) (prev : Option Nat), includes s p = false →
      rewritesAux (matchLiteral p x) skip prev s = false := by
  induction s with
  | nil => intro skip prev _; cases skip <;> rfl
  | cons c cs ih =>
    intro skip prev h
    have ht := includes_tail c cs p h
    cases skip with
    | succ k =>
      unfold rewritesAux
      exact ih k (some c) ht.2
    | zero =>
      unfold rewritesAux
      have hm : matchLiteral p x prev (c :: cs) = none := by
        unfold matchLiteral
        simp [ht.1]
      rw [hm]
      exact ih 0 (some c) ht.2

theorem foldl_collapseEmojiRuns (r : Str) (table : List (Str × Str))
    (h : ∀ e ∈ table, includes r e.1 = false) : table.foldl collapseEmojiRuns r = r := by
  induction table with
  | nil => rfl
  | cons e es ih =>
    rw [List.foldl_cons]
    have he : collapseEmojiRuns r e = r := by
      unfold collapseEmojiRuns
      simp [h e (by simp)]
    rw [he]
    exact ih fun e' he' => h e' (List.mem_cons_of_mem e he')

theorem foldl_replaceSingleEmoji (r : Str) (table : List (Str × Str))
    (h : ∀ e ∈ table, includes r e.1 = false) : table.foldl replaceSingleEmoji r = r := by
  induction table with
  | nil => rfl
  | cons e es ih =>
    rw [List.foldl_cons]
    have he : replaceSingleEmoji r e = r := by
      unfold replaceSingleEmoji
      exact replaceAll_of_no_rewrite _ _ (rewritesAux_matchLiteral _ _ r 0 none (h e (by simp)))
    rw [he]
    exact ih fun e' he' => h e' (List.mem_cons_of_mem e he')

theorem sanitizeStep_of_fixed (enabled : Bool) (f : Str → Str) (name : String)
    (r : SanitizeResult) (h : enabled = true → f r.result = r.result) :
    sanitizeStep enabled f name r = r := by
  unfold sanitizeStep
  cases enabled with
  | false => rfl
  | true => simp [h rfl]

theorem stripHtmlTags_of_nothing (r : Str) (h1 : rewrites matchHtmlTag r = false)
    (h2 : ∀ e ∈ htmlEntities, rewrites (matchLiteralCI e.1 e.2) r = false) :
    stripHtmlTags r = r := by
  unfold stripHtmlTags
  simp only
  rw [replaceAll_of_no_rewrite _ _ h1,
    replaceAll_of_no_rewrite _ _ (h2 (js "&nbsp;", js " ") (by simp [htmlEntities])),
    replaceAll_of_no_rewrite _ _ (h2 (js "&amp;", js "&") (by simp [htmlEntities])),
    replaceAll_of_no_rewrite _ _ (h2 (js "&lt;", js "<") (by simp [htmlEntities])),
    replaceAll_of_no_rewrite _ _ (h2 (js "&gt;", js ">") (by simp [htmlEntities])),
    replaceAll_of_no_rewrite _ _ (h2 (js "&quot;", js "\"") (by simp [htmlEntities])),
    replaceAll_of_no_rewrite _ _ (h2 (js "&#39;", [39]) (by simp [htmlEntities])),
    replaceAll_of_no_rewrite _ _ (h2 (js "&apos;", [39]) (by simp [htmlEntities]))]

theorem sanitizeInput_of_nothing (U : Unicode) (config : SanitizationConfig) (r : Str)
    (hn : normalizeSpaces r = r) (h : NothingToSanitize U config r) :
    sanitizeInput U r config = ⟨r, []⟩ := by
  obtain ⟨hhtml, hcode, hzalgo, hemoji, hdigit, hword, hbracket⟩ := h
  unfold sanitizeInput
  by_cases hr : r = []
  · simp [hr]
  · rw [if_neg hr]
    have s1 : sanitizeStep config.stripHtmlTags stripHtmlTags "html" ⟨r, []⟩ = ⟨r, []⟩ :=
      sanitizeStep_of_fixed _ _ _ _ fun hon =>
        stripHtmlTags_of_nothing r (hhtml hon).1 (hhtml hon).2
    have s2 : sanitizeStep config.stripCodeBlocks stripCodeBlocks "code" ⟨r, []⟩ = ⟨r, []⟩ :=
      sanitizeStep_of_fixed _ _ _ _ fun hon => by
        show stripCodeBlocks r = r
        unfold stripCodeBlocks
        rw [replaceAll_of_no_rewrite _ _ (hcode hon).1, replaceAll_of_no_rewrite _ _ (hcode hon).2]
    have s3 : sanitizeStep config.stripZalgoText (stripZalgoText U) "zalgo" ⟨r, []⟩ = ⟨r, []⟩ :=
      sanitizeStep_of_fixed _ _ _ _ fun hon => by
        show stripZalgoText U r = r
        unfold stripZalgoText
        exact replaceAll_of_no_rewrite _ _ (hzalgo hon)
    have s4 : sanitizeStep config.replaceEmojis replaceEmojis "emojis" ⟨r, []⟩ = ⟨r, []⟩ :=
      sanitizeStep_of_fixed _ _ _ _ fun hon => by
        show replaceEmojis r = r
        unfold replaceEmojis
        rw [if_neg hr]
        simp only
        rw [foldl_collapseEmojiRuns r _ (hemoji hon).1, foldl_replaceSingleEmoji r _ (hemoji hon).1,
          replaceAll_of_no_rewrite _ _ (hemoji hon).2, hn]
    have s5 : sanitizeStep true collapseRepetition "spam" ⟨r, []⟩ = ⟨r, []⟩ :=
      sanitizeStep_of_fixed _ _ _ _ fun _ => by
        show collapseRepetition r = r
        unfold collapseRepetition
        rw [if_neg hr, replaceAll_of_no_rewrite _ _ hdigit, replaceAll_of_no_rewrite _ _ hword, hn]
    have s6 : sanitizeStep config.stripUserBracketTags (stripUserBracketTags U) "brackets" ⟨r, []⟩ =
        ⟨r, []⟩ :=
      sanitizeStep_of_fixed _ _ _ _ fun hon => by
        show stripUserBracketTags U r = r
        unfold stripUserBracketTags
        exact replaceAll_of_no_rewrite _ _ (hbracket hon)
    simp only [s1, s2, s3, s4, s5, s6, hn]

theorem normalizeSpaces_sanitizeInput (U : Unicode) (t : Str) (config : SanitizationConfig) :
    normalizeSpaces (sanitizeInput U t config).result = (sanitizeInput U t config).result := by
  unfold sanitizeInput
  by_cases ht : t = []
  · rw [if_pos ht]; rfl
  · rw [if_neg ht]
    exact normalizeSpaces_idem _

/-- C4, counterexample: the sanitizer turns the text `&lt;b&gt;hi` into `<b>hi`
(entities are decoded after the tags are stripped), and a second run strips
the tag: the result of the second run is `hi`. -/
theorem C4_sanitize_not_idempotent :
    (sanitizeInput asciiUnicode (js "&lt;b&gt;hi") sanitizeAll).result = js "<b>hi" ∧
    (sanitizeInput asciiUnicode (sanitizeInput asciiUnicode (js "&lt;b&gt;hi") sanitizeAll).result
      sanitizeAll).result = js "hi" ∧
    (sanitizeInput asciiUnicode (sanitizeInput asciiUnicode (js "&lt;b&gt;hi") sanitizeAll).result
      sanitizeAll).result ≠ (sanitizeInput asciiUnicode (js "&lt;b&gt;hi") sanitizeAll).result := by
  decide!

/-- C4, amended: for every text and toggle configuration, if the sanitizer's
output holds nothing that an enabled step rewrites (no markup tag or listed
entity, no code span, no combining mark, no emoji, no run of ten digits, no word
repeated six times, no bracket group other than an allow-listed tag in lower
case), then sanitizing that output again returns it unchanged and reports no
applied step. -/
theorem C4_sanitize_clean_output_fixed (U : Unicode) (t : Str) (config : SanitizationConfig)
    (h : NothingToSanitize U config (sanitizeInput U t config).result) :
    sanitizeInput U (sanitizeInput U t config).result config =
      ⟨(sanitizeInput U t config).result, []⟩ :=
  sanitizeInput_of_nothing U config _ (normalizeSpaces_sanitizeInput U t config) h

/-- C4, amended, at an input: the output for a text with markup, an entity, a tag
and extra spaces is clean, and sanitizing it again changes nothing. -/
theorem C4_sanitize_clean_output_fixed_witness :
    (sanitizeInput asciiUnicode (js "<i>Hello</i>   &amp; welcome [LAUGHS] [shout]") sanitizeAll).result =
      js "Hello & welcome [laughs]" ∧
    NothingToSanitize asciiUnicode sanitizeAll
      (sanitizeInput asciiUnicode (js "<i>Hello</i>   &amp; welcome [LAUGHS] [shout]") sanitizeAll).result ∧
    sanitizeInput asciiUnicode
      (sanitizeInput asciiUnicode (js "<i>Hello</i>   &amp; welcome [LAUGHS] [shout]") sanitizeAll).result
      sanitizeAll =
      ⟨js "Hello & welcome [laughs]", []⟩ := by
  have h1 : (sanitizeInput asciiUnicode (js "<i>Hello</i>   &amp; welcome [LAUGHS] [shout]")
      sanitizeAll).result = js "Hello & welcome [laughs]" := by decide!
  have h2 : NothingToSanitize asciiUnicode sanitizeAll (js "Hello & welcome [laughs]") := by
    unfold NothingToSanitize
    decide!
  refine ⟨h1, by rw [h1]; exact h2, ?_⟩
  have h3 := C4_sanitize_clean_output_fixed asciiUnicode
    (js "<i>Hello</i>   &amp; welcome [LAUGHS] [shout]") sanitizeAll (by rw [h1]; exact h2)
  rw [h1] at h3 ⊢
  exact h3

/-! ### Overlay signals -/

/-- C8, evaluated: item 0 finishes playback and lingers (timer 0 pending). A
replay with show/hide (item 1) is then queued and reaches `playing` through the
replay branch of `processQueue`: show is sent for it while timer 0 is still set,
and when that timer fires the hide that ends item 0's linger follows the show of
item 1. The same happens for a moderated item (second run). A normal item
(third run) interrupts the linger: the timer is cleared and the hide precedes
its show. -/
theorem C8_replay_does_not_interrupt_linger :
    ((run (State.empty plainSettings)
        [Event.enqueue false, Event.ttsDone 0 (TtsOutcome.ok (some 7)), Event.audioFinished 0,
         Event.replay 0 Position.back true,
         Event.replayDone firstCompletedEntry Position.back true true]).item 1).status =
      Status.playing ∧
    (run (State.empty plainSettings)
        [Event.enqueue false, Event.ttsDone 0 (TtsOutcome.ok (some 7)), Event.audioFinished 0,
         Event.replay 0 Position.back true,
         Event.replayDone firstCompletedEntry Position.back true true]).timers = [(0, 0)] ∧
    overlaySignals (run (State.empty plainSettings)
        [Event.enqueue false, Event.ttsDone 0 (TtsOutcome.ok (some 7)), Event.audioFinished 0,
         Event.replay 0 Position.back true,
         Event.replayDone firstCompletedEntry Position.back true true,
         Event.lingerTimeout 0]).log =
      [Effect.show 0, Effect.show 1, Effect.hide (some 0)] ∧
    overlaySignals (run (State.empty manualSettings)
        [Event.enqueue false, Event.enqueue false, Event.gptDone 0 none,
         Event.ttsDone 0 (TtsOutcome.ok none), Event.audioFinished 0,
         Event.gptDone 1 (some (js "HATE SPEECH - slur")),
         Event.moderate 1 ModerateAction.allow Position.front,
         Event.allowDone 1 1 Position.front (TtsOutcome.ok none),
         Event.lingerTimeout 0]).log =
      [Effect.show 0, Effect.show 1, Effect.hide (some 0)] ∧
    overlaySignals (run (State.empty plainSettings)
        [Event.enqueue false, Event.enqueue false, Event.ttsDone 0 (TtsOutcome.ok none),
         Event.audioFinished 0, Event.ttsDone 1 (TtsOutcome.ok none), Event.animationDone 1,
         Event.lingerTimeout 0]).log =
      [Effect.show 0, Effect.hide (some 0), Effect.show 1] := by
  decide!

/-! ### Scheduler: how the handlers change the state -/

@[simp] theorem setItem_ttsQueue (s : State) (id : Nat) (f : Item → Item) :
    (s.setItem id f).ttsQueue = s.ttsQueue := rfl
@[simp] theorem setItem_isProcessing (s : State) (id : Nat) (f : Item → Item) :
    (s.setItem id f).isProcessing = s.isProcessing := rfl
@[simp] theorem setItem_isPaused (s : State) (id : Nat) (f : Item → Item) :
    (s.setItem id f).isPaused = s.isPaused := rfl
@[simp] theorem setItem_currentTtsId (s : State) (id : Nat) (f : Item → Item) :
    (s.setItem id f).currentTtsId = s.currentTtsId := rfl
@[simp] theorem setItem_lingerTimeoutId (s : State) (id : Nat) (f : Item → Item) :
    (s.setItem id f).lingerTimeoutId = s.lingerTimeoutId := rfl
@[simp] theorem setItem_settings (s : State) (id : Nat) (f : Item → Item) :
    (s.setItem id f).settings = s.settings := rfl
@[simp] theorem setItem_nextId (s : State) (id : Nat) (f : Item → Item) :
    (s.setItem id f).nextId = s.nextId := rfl
@[simp] theorem setItem_timers (s : State) (id : Nat) (f : Item → Item) :
    (s.setItem id f).timers = s.timers := rfl
@[simp] theorem setItem_pending (s : State) (id : Nat) (f : Item → Item) :
    (s.setItem id f).pending = s.pending := rfl
@[simp] theorem setItem_audio (s : State) (id : Nat) (f : Item → Item) :
    (s.setItem id f).audio = s.audio := rfl
@[simp] theorem setItem_log (s : State) (id : Nat) (f : Item → Item) :
    (s.setItem id f).log = s.log := rfl
@[simp] theorem setItem_ttsHistory (s : State) (id : Nat) (f : Item → Item) :
    (s.setItem id f).ttsHistory = s.ttsHistory := rfl
@[simp] theorem setItem_item_same (s : State) (id : Nat) (f : Item → Item) :
    (s.setItem id f).item id = f (s.item id) := by
  simp [State.setItem]
theorem setItem_item_other (s : State) (id i : Nat) (f : Item → Item) (h : i ≠ id) :
    (s.setItem id f).item i = s.item i := by
  simp [State.setItem, Function.update_noteq h]
theorem setItem_item (s : State) (id i : Nat) (f : Item → Item) :
    (s.setItem id f).item i = if i = id then f (s.item id) else s.item i := by
  by_cases h : i = id
  · subst h; simp
  · simp [h, setItem_item_other s id i f h]

@[simp] theorem emit_ttsQueue (s : State) (e : Effect) : (s.emit e).ttsQueue = s.ttsQueue := rfl
@[simp] theorem emit_item (s : State) (e : Effect) : (s.emit e).item = s.item := rfl
@[simp] theorem emit_isProcessing (s : State) (e : Effect) :
    (s.emit e).isProcessing = s.isProcessing := rfl
@[simp] theorem emit_isPaused (s : State) (e : Effect) : (s.emit e).isPaused = s.isPaused := rfl
@[simp] theorem emit_currentTtsId (s : State) (e : Effect) :
    (s.emit e).currentTtsId = s.currentTtsId := rfl
@[simp] theorem emit_settings (s : State) (e : Effect) : (s.emit e).settings = s.settings := rfl
@[simp] theorem emit_nextId (s : State) (e : Effect) : (s.emit e).nextId = s.nextId := rfl
@[simp] theorem emit_pending (s : State) (e : Effect) : (s.emit e).pending = s.pending := rfl
@[simp] theorem emit_audio (s : State) (e : Effect) : (s.emit e).audio = s.audio := rfl
@[simp] theorem emit_log (s : State) (e : Effect) : (s.emit e).log = s.log ++ [e] := rfl
@[simp] theorem emit_timers (s : State) (e : Effect) : (s.emit e).timers = s.timers := rfl
@[simp] theorem emit_lingerTimeoutId (s : State) (e : Effect) :
    (s.emit e).lingerTimeoutId = s.lingerTimeoutId := rfl
@[simp] theorem emit_ttsHistory (s : State) (e : Effect) :
    (s.emit e).ttsHistory = s.ttsHistory := rfl

@[simp] theorem addToHistory_ttsQueue (s : State) (e : HistoryEntry) :
    (addToHistory s e).ttsQueue = s.ttsQueue := rfl
@[simp] theorem addToHistory_item (s : State) (e : HistoryEntry) :
    (addToHistory s e).item = s.item := rfl
@[simp] theorem addToHistory_isProcessing (s : State) (e : HistoryEntry) :
    (addToHistory s e).isProcessing = s.isProcessing := rfl
@[simp] theorem addToHistory_isPaused (s : State) (e : HistoryEntry) :
    (addToHistory s e).isPaused = s.isPaused := rfl
@[simp] theorem addToHistory_currentTtsId (s : State) (e : HistoryEntry) :
    (addToHistory s e).currentTtsId = s.currentTtsId := rfl
@[simp] theorem addToHistory_settings (s : State) (e : HistoryEntry) :
    (addToHistory s e).settings = s.settings := rfl
@[simp] theorem addToHistory_nextId (s : State) (e : HistoryEntry) :
    (addToHistory s e).nextId = s.nextId := rfl
@[simp] theorem addToHistory_pending (s : State) (e : HistoryEntry) :
    (addToHistory s e).pending = s.pending := rfl
@[simp] theorem addToHistory_audio (s : State) (e : HistoryEntry) :
    (addToHistory s e).audio = s.audio := rfl
@[simp] theorem addToHistory_log (s : State) (e : HistoryEntry) :
    (addToHistory s e).log = s.log ++ [Effect.history e] := rfl
@[simp] theorem addToHistory_timers (s : State) (e : HistoryEntry) :
    (addToHistory s e).timers = s.timers := rfl
@[simp] theorem addToHistory_lingerTimeoutId (s : State) (e : HistoryEntry) :
    (addToHistory s e).lingerTimeoutId = s.lingerTimeoutId := rfl

theorem sendRefundAction_fst (s : State) (id : Nat) :
    (sendRefundAction s id).1 =
      if s.settings.refundChannel = true ∧ (s.item id).refundable = true
      then s.emit (Effect.refund id) else s := by
  unfold sendRefundAction
  split <;> rfl

@[simp] theorem sendRefundAction_ttsQueue (s : State) (id : Nat) :
    (sendRefundAction s id).1.ttsQueue = s.ttsQueue := by
  rw [sendRefundAction_fst]; split <;> rfl
@[simp] theorem sendRefundAction_item (s : State) (id : Nat) :
    (sendRefundAction s id).1.item = s.item := by
  rw [sendRefundAction_fst]; split <;> rfl
@[simp] theorem sendRefundAction_isProcessing (s : State) (id : Nat) :
    (sendRefundAction s id).1.isProcessing = s.isProcessing := by
  rw [sendRefundAction_fst]; split <;> rfl
@[simp] theorem sendRefundAction_isPaused (s : State) (id : Nat) :
    (sendRefundAction s id).1.isPaused = s.isPaused := by
  rw [sendRefundAction_fst]; split <;> rfl
@[simp] theorem sendRefundAction_currentTtsId (s : State) (id : Nat) :
    (sendRefundAction s id).1.currentTtsId = s.currentTtsId := by
  rw [sendRefundAction_fst]; split <;> rfl
@[simp] theorem sendRefundAction_settings (s : State) (id : Nat) :
    (sendRefundAction s id).1.settings = s.settings := by
  rw [sendRefundAction_fst]; split <;> rfl
@[simp] theorem sendRefundAction_nextId (s : State) (id : Nat) :
    (sendRefundAction s id).1.nextId = s.nextId := by
  rw [sendRefundAction_fst]; split <;> rfl
@[simp] theorem sendRefundAction_pending (s : State) (id : Nat) :
    (sendRefundAction s id).1.pending = s.pending := by
  rw [sendRefundAction_fst]; split <;> rfl
@[simp] theorem sendRefundAction_audio (s : State) (id : Nat) :
    (sendRefundAction s id).1.audio = s.audio := by
  rw [sendRefundAction_fst]; split <;> rfl
@[simp] theorem sendRefundAction_timers (s : State) (id : Nat) :
    (sendRefundAction s id).1.timers = s.timers := by
  rw [sendRefundAction_fst]; split <;> rfl
@[simp] theorem sendRefundAction_lingerTimeoutId (s : State) (id : Nat) :
    (sendRefundAction s id).1.lingerTimeoutId = s.lingerTimeoutId := by
  rw [sendRefundAction_fst]; split <;> rfl

theorem sendRefundAction_log (s : State) (id : Nat) :
    ∃ l, (sendRefundAction s id).1.log = s.log ++ l ∧ historyEntries l = [] := by
  rw [sendRefundAction_fst]
  split
  · exact ⟨[Effect.refund id], rfl, rfl⟩
  · exact ⟨[], by simp, rfl⟩

@[simp] theorem startItem_ttsQueue (s : State) (id : Nat) :
    (startItem s id).ttsQueue = s.ttsQueue := by
  unfold startItem
  dsimp only
  split
  · split <;> rfl
  · rfl

@[simp] theorem startItem_isProcessing (s : State) (id : Nat) :
    (startItem s id).isProcessing = true := by
  unfold startItem
  dsimp only
  split
  · split <;> rfl
  · rfl

@[simp] theorem startItem_currentTtsId (s : State) (id : Nat) :
    (startItem s id).currentTtsId = some id := by
  unfold startItem
  dsimp only
  split
  · split <;> rfl
  · rfl

@[simp] theorem startItem_nextId (s : State) (id : Nat) :
    (startItem s id).nextId = s.nextId := by
  unfold startItem
  dsimp only
  split
  · split <;> rfl
  · rfl

theorem startItem_log (s : State) (id : Nat) :
    ∃ l, (startItem s id).log = s.log ++ l ∧ historyEntries l = [] := by
  unfold startItem
  dsimp only
  split
  · split
    · exact ⟨[Effect.show id, Effect.audioPlay id], by simp [State.setStatus], rfl⟩
    · exact ⟨[Effect.audioPlay id], by simp [State.setStatus], rfl⟩
  · exact ⟨[], by simp [State.setStatus], rfl⟩

/-- What `processQueue` does: nothing, or it starts the first queued item of an
idle scheduler that is not paused. -/
theorem processQueue_cases (s : State) :
    processQueue s = s ∨
    ∃ id, id ∈ s.ttsQueue ∧ (s.item id).status = Status.queued ∧ s.isProcessing = false ∧
      s.isPaused = false ∧ processQueue s = startItem s id := by
  unfold processQueue
  by_cases h1 : s.isProcessing = true ∨ s.ttsQueue.length = 0
  · left; rw [if_pos h1]
  · rw [if_neg h1]
    by_cases h2 : s.isPaused = true
    · left; rw [if_pos h2]
    · rw [if_neg h2]
      cases hf : s.ttsQueue.find? fun i => (s.item i).status = Status.queued with
      | none => left; rfl
      | some id =>
        right
        refine ⟨id, List.mem_of_find?_eq_some hf, ?_, ?_, ?_, rfl⟩
        · have := List.find?_some hf
          simpa using this
        · simp only [not_or] at h1
          simpa using h1.1
        · simpa using h2

@[simp] theorem processQueue_ttsQueue (s : State) : (processQueue s).ttsQueue = s.ttsQueue := by
  rcases processQueue_cases s with h | ⟨id, _, _, _, _, h⟩
  · rw [h]
  · rw [h, startItem_ttsQueue]

@[simp] theorem processQueue_nextId (s : State) : (processQueue s).nextId = s.nextId := by
  rcases processQueue_cases s with h | ⟨id, _, _, _, _, h⟩
  · rw [h]
  · rw [h, startItem_nextId]

theorem processQueue_log (s : State) :
    ∃ l, (processQueue s).log = s.log ++ l ∧ historyEntries l = [] := by
  rcases processQueue_cases s with h | ⟨id, _, _, _, _, h⟩
  · rw [h]; exact ⟨[], by simp, rfl⟩
  · rw [h]; exact startItem_log s id

theorem historyAdded_of_log (s s' : State) (l : List Effect) (h : s'.log = s.log ++ l) :
    historyAdded s s' = historyEntries l := by
  unfold historyAdded
  rw [h, List.drop_left]

theorem historyEntries_append (l₁ l₂ : List Effect) :
    historyEntries (l₁ ++ l₂) = historyEntries l₁ ++ historyEntries l₂ := by
  unfold historyEntries
  rw [List.filterMap_append]

theorem historyAdded_processQueue (s₀ s : State) :
    historyAdded s₀ (processQueue s) = historyAdded s₀ s := by
  obtain ⟨l, hl, hh⟩ := processQueue_log s
  unfold historyAdded
  rw [hl]
  by_cases hlen : s₀.log.length ≤ s.log.length
  · rw [List.drop_append_of_le_length hlen, historyEntries_append, hh, List.append_nil]
  · have h1 : s.log.drop s₀.log.length = [] := List.drop_eq_nil_of_le (by omega)
    rw [h1]
    have h2 : (s.log ++ l).drop s₀.log.length = l.drop (s₀.log.length - s.log.length) := by
      rw [List.drop_append_eq_append_drop, h1, List.nil_append]
    rw [h2]
    have h3 : historyEntries (l.drop (s₀.log.length - s.log.length)) = [] := by
      unfold historyEntries at hh ⊢
      rw [List.filterMap_eq_nil_iff] at hh ⊢
      intro a ha
      exact hh a (List.mem_of_mem_drop ha)
    rw [h3]; rfl

/-! ### History entries per operation -/

@[simp] theorem settle_ttsQueue (s : State) (c : Cont) : (s.settle c).ttsQueue = s.ttsQueue := rfl
@[simp] theorem settle_item (s : State) (c : Cont) : (s.settle c).item = s.item := rfl
@[simp] theorem settle_isProcessing (s : State) (c : Cont) :
    (s.settle c).isProcessing = s.isProcessing := rfl
@[simp] theorem settle_isPaused (s : State) (c : Cont) : (s.settle c).isPaused = s.isPaused := rfl
@[simp] theorem settle_currentTtsId (s : State) (c : Cont) :
    (s.settle c).currentTtsId = s.currentTtsId := rfl
@[simp] theorem settle_settings (s : State) (c : Cont) : (s.settle c).settings = s.settings := rfl
@[simp] theorem settle_nextId (s : State) (c : Cont) : (s.settle c).nextId = s.nextId := rfl
@[simp] theorem settle_pending (s : State) (c : Cont) :
    (s.settle c).pending = s.pending.erase c := rfl
@[simp] theorem settle_audio (s : State) (c : Cont) : (s.settle c).audio = s.audio := rfl
@[simp] theorem settle_log (s : State) (c : Cont) : (s.settle c).log = s.log := rfl
@[simp] theorem settle_timers (s : State) (c : Cont) : (s.settle c).timers = s.timers := rfl
@[simp] theorem settle_lingerTimeoutId (s : State) (c : Cont) :
    (s.settle c).lingerTimeoutId = s.lingerTimeoutId := rfl

theorem step_gptDone (s : State) (id : Nat) (b : Option Str) :
    step s (Event.gptDone id b) =
      if Cont.afterGPT id ∈ s.pending then resumeAfterGPT (s.settle (Cont.afterGPT id)) id b
      else s := rfl
theorem step_ttsDone (s : State) (id : Nat) (o : TtsOutcome) :
    step s (Event.ttsDone id o) =
      if Cont.afterTTS id ∈ s.pending then resumeAfterTTS (s.settle (Cont.afterTTS id)) id o
      else s := rfl
theorem step_animationDone (s : State) (id : Nat) :
    step s (Event.animationDone id) =
      if Cont.afterAnimation id ∈ s.pending then startPlaying (s.settle (Cont.afterAnimation id)) id
      else s := rfl
theorem step_lingerTimeout (s : State) (handle : Nat) :
    step s (Event.lingerTimeout handle) =
      match s.timers.find? fun t => t.1 = handle with
      | some t => lingerTimeout s handle t.2
      | none => s := rfl
theorem step_allowDone (s : State) (id index : Nat) (position : Position) (o : TtsOutcome) :
    step s (Event.allowDone id index position o) =
      if Cont.allowTTS id index position ∈ s.pending then
        resumeAllow (s.settle (Cont.allowTTS id index position)) id index position o
      else s := rfl
theorem step_replayDone (s : State) (entry : HistoryEntry) (position : Position)
    (useShowHide ok : Bool) :
    step s (Event.replayDone entry position useShowHide ok) =
      if Cont.replayFetch entry position useShowHide ∈ s.pending then
        resumeReplay (s.settle (Cont.replayFetch entry position useShowHide)) position
          useShowHide ok
      else s := rfl

theorem step_moderate (s : State) (id : Nat) (action : ModerateAction) (position : Position) :
    step s (Event.moderate id action position) = moderate s id action position := rfl
theorem step_cancel (s : State) (id : Nat) : step s (Event.cancel id) = cancel s id := rfl
theorem step_audioFinished (s : State) (id : Nat) :
    step s (Event.audioFinished id) = audioFinished s id := rfl
theorem step_enqueue (s : State) (refundable : Bool) :
    step s (Event.enqueue refundable) = enqueue s refundable := rfl
theorem step_clear (s : State) : step s Event.clear = { s with ttsQueue := [] } := rfl
theorem step_pause (s : State) : step s Event.pause = { s with isPaused := true } := rfl
theorem step_resume (s : State) :
    step s Event.resume = processQueue { s with isPaused := false } := rfl
theorem step_replay (s : State) (historyId : Nat) (position : Position) (useShowHide : Bool) :
    step s (Event.replay historyId position useShowHide) =
      replay s historyId position useShowHide := rfl
theorem step_configure (s : State) (settings : Settings) :
    step s (Event.configure settings) = { s with settings := settings } := rfl

theorem findIndexById_some (l : List Nat) (id : Nat) :
    ∀ index, findIndexById id l = some index → id ∈ l ∧ l.eraseIdx index = l.erase id := by
  induction l with
  | nil => intro index h; simp [findIndexById] at h
  | cons a as ih =>
    intro index h
    unfold findIndexById at h
    by_cases ha : a = id
    · subst ha
      simp only [if_true, Option.some.injEq] at h
      subst h
      simp
    · simp only [ha, if_false, Option.map_eq_some'] at h
      obtain ⟨j, hj, hji⟩ := h
      have := ih j hj
      subst hji
      refine ⟨List.mem_cons_of_mem _ this.1, ?_⟩
      rw [List.eraseIdx_cons_succ, this.2, List.erase_cons_tail (by simpa using ha)]

theorem findIndexById_none (l : List Nat) (id : Nat) (h : findIndexById id l = none) :
    id ∉ l := by
  induction l with
  | nil => simp
  | cons a as ih =>
    unfold findIndexById at h
    by_cases ha : a = id
    · simp [ha] at h
    · simp only [ha, if_false, Option.map_eq_none'] at h
      simp [ih h, Ne.symm ha]

theorem findIndexById_of_mem (l : List Nat) (id : Nat) (h : id ∈ l) :
    ∃ index, findIndexById id l = some index := by
  cases hf : findIndexById id l with
  | none => exact absurd h (findIndexById_none l id hf)
  | some index => exact ⟨index, rfl⟩

theorem historyAdded_refund_then_history (s₀ s : State) (id : Nat) (e : HistoryEntry)
    (f : Item → Item) (hlog : s.log = s₀.log) :
    historyAdded s₀ (addToHistory ((sendRefundAction s id).1.setItem id f) e) = [e] := by
  obtain ⟨l, hl, hh⟩ := sendRefundAction_log s id
  rw [historyAdded_of_log s₀ _ (l ++ [Effect.history e])]
  · rw [historyEntries_append, hh]; rfl
  · simp only [addToHistory_log, setItem_log, hl, hlog, List.append_assoc]

theorem autoBlock_history (s : State) (id : Nat) (reason : Str)
    (hp : Cont.afterGPT id ∈ s.pending) (hm : s.settings.manualModerationEnabled = false) :
    (step s (Event.gptDone id (some reason))).ttsQueue = s.ttsQueue.erase id ∧
    ∃ e, historyAdded s (step s (Event.gptDone id (some reason))) = [e] ∧ e.id = id ∧
      e.status = HistoryStatus.blocked ∧ e.blockReason = some reason := by
  rw [step_gptDone, if_pos hp]
  unfold resumeAfterGPT
  simp only [State.setStatus, setItem_settings, settle_settings, hm, Bool.false_eq_true, if_false]
  constructor
  · rw [processQueue_ttsQueue]
    simp
  · rw [historyAdded_processQueue]
    refine ⟨_, historyAdded_refund_then_history s _ id _ _ rfl, rfl, rfl, ?_⟩
    simp [createHistoryEntry]

theorem synthesisError_history (s : State) (id : Nat) (message : Str)
    (hp : Cont.afterTTS id ∈ s.pending) :
    (step s (Event.ttsDone id (TtsOutcome.failed message))).ttsQueue = s.ttsQueue.erase id ∧
    ∃ e, historyAdded s (step s (Event.ttsDone id (TtsOutcome.failed message))) = [e] ∧
      e.id = id ∧ e.status = HistoryStatus.error := by
  rw [step_ttsDone, if_pos hp]
  unfold resumeAfterTTS
  simp only
  constructor
  · rw [processQueue_ttsQueue]
    simp
  · rw [historyAdded_processQueue]
    exact ⟨_, historyAdded_refund_then_history s _ id _ _ rfl, rfl, rfl⟩

theorem historyAdded_refund_history_reply (s₀ s : State) (id : Nat) (e : HistoryEntry)
    (f : Item → Item) (q : List Nat) (hlog : s.log = s₀.log) :
    historyAdded s₀ (State.emit
      { addToHistory ((sendRefundAction s id).1.setItem id f) e with ttsQueue := q }
      (Effect.reply true none)) = [e] := by
  obtain ⟨l, hl, hh⟩ := sendRefundAction_log s id
  rw [historyAdded_of_log s₀ _ (l ++ [Effect.history e, Effect.reply true none])]
  · rw [historyEntries_append, hh]; rfl
  · simp only [emit_log, addToHistory_log, setItem_log, hl, hlog, List.append_assoc,
      List.singleton_append]

theorem moderatorRefund_history (s : State) (id : Nat) (position : Position)
    (hq : id ∈ s.ttsQueue) (hs : (s.item id).status = Status.pending_moderation) :
    (step s (Event.moderate id ModerateAction.refund position)).ttsQueue = s.ttsQueue.erase id ∧
    ∃ e, historyAdded s (step s (Event.moderate id ModerateAction.refund position)) = [e] ∧
      e.id = id ∧ e.status = HistoryStatus.blocked := by
  obtain ⟨index, hi⟩ := findIndexById_of_mem _ _ hq
  have herase := (findIndexById_some _ _ index hi).2
  rw [step_moderate]
  unfold moderate
  rw [hi]
  simp only [hs, ne_eq, not_true_eq_false, if_false]
  constructor
  · simp [herase]
  · exact ⟨_, historyAdded_refund_history_reply s s id _ _ _ rfl, rfl, rfl⟩

theorem cancel_history (s : State) (id : Nat) (hq : id ∈ s.ttsQueue)
    (hs : (s.item id).status = Status.queued ∨ (s.item id).status = Status.pending_moderation) :
    (step s (Event.cancel id)).ttsQueue = s.ttsQueue.erase id ∧
    ∃ e, historyAdded s (step s (Event.cancel id)) = [e] ∧
      e.id = id ∧ e.status = HistoryStatus.cancelled := by
  obtain ⟨index, hi⟩ := findIndexById_of_mem _ _ hq
  have herase := (findIndexById_some _ _ index hi).2
  rw [step_cancel]
  unfold cancel
  rw [hi]
  have hcond : ¬ ((s.item id).status ≠ Status.queued ∧
      (s.item id).status ≠ Status.pending_moderation) := by
    rcases hs with h | h <;> simp [h]
  simp only [hcond, if_false]
  constructor
  · simp [herase]
  · exact ⟨_, historyAdded_refund_history_reply s s id _ _ _ rfl, rfl, rfl⟩

@[simp] theorem startLingerTimer_log (s : State) (id : Nat) :
    (startLingerTimer s id).log = s.log := rfl
@[simp] theorem startLingerTimer_ttsQueue (s : State) (id : Nat) :
    (startLingerTimer s id).ttsQueue = s.ttsQueue := rfl
@[simp] theorem startLingerTimer_item (s : State) (id : Nat) :
    (startLingerTimer s id).item = s.item := rfl

theorem startItem_item_other (s : State) (id i : Nat) (h : i ≠ id) :
    (startItem s id).item i = s.item i := by
  unfold startItem
  dsimp only
  split
  · split <;> simp [State.setStatus, setItem_item_other _ _ _ _ h]
  · simp [State.setStatus, setItem_item_other _ _ _ _ h]

theorem processQueue_item_of_not_queued (s : State) (i : Nat)
    (h : (s.item i).status ≠ Status.queued) : (processQueue s).item i = s.item i := by
  rcases processQueue_cases s with hp | ⟨id, _, hq, _, _, hp⟩
  · rw [hp]
  · rw [hp]
    apply startItem_item_other
    intro hi
    subst hi
    exact h hq

@[simp] theorem release_ttsQueue (s : State) (id : Nat) :
    (s.release id).ttsQueue = s.ttsQueue := rfl
@[simp] theorem release_item (s : State) (id : Nat) : (s.release id).item = s.item := rfl
@[simp] theorem release_isProcessing (s : State) (id : Nat) :
    (s.release id).isProcessing = false := rfl
@[simp] theorem release_isPaused (s : State) (id : Nat) :
    (s.release id).isPaused = s.isPaused := rfl
@[simp] theorem release_currentTtsId (s : State) (id : Nat) :
    (s.release id).currentTtsId = none := rfl
@[simp] theorem release_nextId (s : State) (id : Nat) : (s.release id).nextId = s.nextId := rfl
@[simp] theorem release_pending (s : State) (id : Nat) :
    (s.release id).pending = s.pending := rfl
@[simp] theorem release_audio (s : State) (id : Nat) :
    (s.release id).audio = s.audio.erase id := rfl
@[simp] theorem release_log (s : State) (id : Nat) : (s.release id).log = s.log := rfl
@[simp] theorem release_settings (s : State) (id : Nat) :
    (s.release id).settings = s.settings := rfl

@[simp] theorem beginLinger_ttsQueue (s : State) (id : Nat) :
    (beginLinger s id).ttsQueue = s.ttsQueue := rfl
@[simp] theorem beginLinger_isProcessing (s : State) (id : Nat) :
    (beginLinger s id).isProcessing = s.isProcessing := rfl
@[simp] theorem beginLinger_isPaused (s : State) (id : Nat) :
    (beginLinger s id).isPaused = s.isPaused := rfl
@[simp] theorem beginLinger_currentTtsId (s : State) (id : Nat) :
    (beginLinger s id).currentTtsId = s.currentTtsId := rfl
@[simp] theorem beginLinger_nextId (s : State) (id : Nat) :
    (beginLinger s id).nextId = s.nextId := rfl
@[simp] theorem beginLinger_pending (s : State) (id : Nat) :
    (beginLinger s id).pending = s.pending := rfl
@[simp] theorem beginLinger_audio (s : State) (id : Nat) :
    (beginLinger s id).audio = s.audio := rfl
@[simp] theorem beginLinger_log (s : State) (id : Nat) : (beginLinger s id).log = s.log := rfl
@[simp] theorem beginLinger_settings (s : State) (id : Nat) :
    (beginLinger s id).settings = s.settings := rfl
@[simp] theorem beginLinger_item_same (s : State) (id : Nat) :
    ((beginLinger s id).item id).status = Status.lingering := by
  simp [beginLinger, State.setStatus]
theorem beginLinger_item (s : State) (id i : Nat) :
    (beginLinger s id).item i =
      if i = id then { s.item id with status := Status.lingering } else s.item i := by
  simp [beginLinger, State.setStatus, setItem_item]

@[simp] theorem processQueueIfQueued_ttsQueue (s : State) :
    (processQueueIfQueued s).ttsQueue = s.ttsQueue := by
  unfold processQueueIfQueued
  split <;> simp

theorem processQueueIfQueued_eq (s : State) : processQueueIfQueued s = processQueue s := by
  unfold processQueueIfQueued
  split
  · rfl
  · rename_i h
    rcases processQueue_cases s with hp | ⟨id, hq, hs, _, _, _⟩
    · exact hp.symm
    · exfalso
      apply h
      rw [List.any_eq_true]
      exact ⟨id, hq, by simpa using hs⟩

theorem completion_history (s : State) (id : Nat) (hq : id ∈ s.ttsQueue) :
    ((s.item id).source ≠ Source.replay →
      (step s (Event.audioFinished id)).ttsQueue = s.ttsQueue ∧
      ((step s (Event.audioFinished id)).item id).status = Status.lingering ∧
      ∃ e, historyAdded s (step s (Event.audioFinished id)) = [e] ∧
        e.id = id ∧ e.status = HistoryStatus.completed) ∧
    ((s.item id).source = Source.replay →
      historyAdded s (step s (Event.audioFinished id)) = []) := by
  rw [step_audioFinished]
  unfold audioFinished
  rw [if_pos hq]
  have hentry : ∀ e, historyAdded s (beginLinger (addToHistory (s.release id) e) id) = [e] := by
    intro e
    rw [historyAdded_of_log s _ [Effect.history e]]
    · rfl
    · simp
  constructor
  · intro hsrc
    by_cases hmod : (s.item id).source = Source.moderated
    · rw [if_pos hmod]
      refine ⟨by simp, ?_, ?_⟩
      · rw [processQueue_item_of_not_queued] <;> simp
      · rw [historyAdded_processQueue]
        exact ⟨_, hentry _, rfl, rfl⟩
    · rw [if_neg hmod, if_neg hsrc, processQueueIfQueued_eq]
      refine ⟨by simp, ?_, ?_⟩
      · rw [processQueue_item_of_not_queued] <;> simp
      · rw [historyAdded_processQueue]
        exact ⟨_, hentry _, rfl, rfl⟩
  · intro hsrc
    have hne : ¬ (s.item id).source = Source.moderated := by rw [hsrc]; simp
    rw [if_neg hne, if_pos hsrc]
    split
    · rw [historyAdded_processQueue, historyAdded_of_log s _ []]
      · rfl
      · simp
    · rw [historyAdded_processQueue, historyAdded_of_log s _ []]
      · rfl
      · simp

theorem lingerExpiry_history (s : State) (handle id : Nat)
    (ht : s.timers.find? (fun t => t.1 = handle) = some (handle, id)) :
    (step s (Event.lingerTimeout handle)).ttsQueue = s.ttsQueue.erase id ∧
    historyAdded s (step s (Event.lingerTimeout handle)) = [] := by
  rw [step_lingerTimeout, ht]
  unfold lingerTimeout
  refine ⟨rfl, ?_⟩
  rw [historyAdded_of_log s _ [Effect.hide (some id)]]
  · rfl
  · rfl

theorem interruption_history (s : State) (id handle : Nat) (historyItemId : Option Nat)
    (hp : Cont.afterTTS id ∈ s.pending) (hl : s.lingerTimeoutId = some handle) :
    (step s (Event.ttsDone id (TtsOutcome.ok historyItemId))).ttsQueue =
      removeFirstWithStatus
        (s.setItem id fun it =>
          { it with status := Status.ready, historyItemId := historyItemId }).item
        Status.lingering s.ttsQueue ∧
    historyAdded s (step s (Event.ttsDone id (TtsOutcome.ok historyItemId))) = [] := by
  rw [step_ttsDone, if_pos hp]
  unfold resumeAfterTTS
  simp only [setItem_lingerTimeoutId, settle_lingerTimeoutId, hl]
  refine ⟨rfl, ?_⟩
  rw [historyAdded_of_log s _ [Effect.hide _]]
  · rfl
  · rfl

/-- C9, counterexample: two requests are queued, the first one processing, the
second waiting; `queue:clear` removes both from the work list, and no history
entry has been added for either. -/
theorem C9_clear_adds_no_history :
    (run (State.empty plainSettings) [Event.enqueue true, Event.enqueue true]).ttsQueue = [0, 1] ∧
    ((run (State.empty plainSettings) [Event.enqueue true, Event.enqueue true]).item 1).source =
      Source.normal ∧
    (run (State.empty plainSettings)
      [Event.enqueue true, Event.enqueue true, Event.clear]).ttsQueue = [] ∧
    historyEntries (run (State.empty plainSettings)
      [Event.enqueue true, Event.enqueue true, Event.clear]).log = [] := by
  decide!

/-- C9, amended: every removal by automatic block, synthesis error, moderator
refund or cancellation adds, in the same operation, exactly one History Entry
for the removed item; completion (`audio:finished`) adds exactly one entry for
an item that is not replay-sourced, as it turns lingering, and none for a
replay-sourced one; the later removal by linger expiry or interruption adds
none; `queue:clear` empties the work list without adding any entry. -/
theorem C9_history_per_operation (s : State) (id : Nat) :
    (∀ reason, Cont.afterGPT id ∈ s.pending → s.settings.manualModerationEnabled = false →
      (step s (Event.gptDone id (some reason))).ttsQueue = s.ttsQueue.erase id ∧
      ∃ e, historyAdded s (step s (Event.gptDone id (some reason))) = [e] ∧ e.id = id ∧
        e.status = HistoryStatus.blocked ∧ e.blockReason = some reason) ∧
    (∀ message, Cont.afterTTS id ∈ s.pending →
      (step s (Event.ttsDone id (TtsOutcome.failed message))).ttsQueue = s.ttsQueue.erase id ∧
      ∃ e, historyAdded s (step s (Event.ttsDone id (TtsOutcome.failed message))) = [e] ∧
        e.id = id ∧ e.status = HistoryStatus.error) ∧
    (∀ position, id ∈ s.ttsQueue → (s.item id).status = Status.pending_moderation →
      (step s (Event.moderate id ModerateAction.refund position)).ttsQueue =
        s.ttsQueue.erase id ∧
      ∃ e, historyAdded s (step s (Event.moderate id ModerateAction.refund position)) = [e] ∧
        e.id = id ∧ e.status = HistoryStatus.blocked) ∧
    (id ∈ s.ttsQueue →
      (s.item id).status = Status.queued ∨ (s.item id).status = Status.pending_moderation →
      (step s (Event.cancel id)).ttsQueue = s.ttsQueue.erase id ∧
      ∃ e, historyAdded s (step s (Event.cancel id)) = [e] ∧
        e.id = id ∧ e.status = HistoryStatus.cancelled) ∧
    (id ∈ s.ttsQueue → (s.item id).source ≠ Source.replay →
      (step s (Event.audioFinished id)).ttsQueue = s.ttsQueue ∧
      ((step s (Event.audioFinished id)).item id).status = Status.lingering ∧
      ∃ e, historyAdded s (step s (Event.audioFinished id)) = [e] ∧
        e.id = id ∧ e.status = HistoryStatus.completed) ∧
    (id ∈ s.ttsQueue → (s.item id).source = Source.replay →
      historyAdded s (step s (Event.audioFinished id)) = []) ∧
    (∀ handle, s.timers.find? (fun t => t.1 = handle) = some (handle, id) →
      (step s (Event.lingerTimeout handle)).ttsQueue = s.ttsQueue.erase id ∧
      historyAdded s (step s (Event.lingerTimeout handle)) = []) ∧
    (∀ handle historyItemId, Cont.afterTTS id ∈ s.pending → s.lingerTimeoutId = some handle →
      (step s (Event.ttsDone id (TtsOutcome.ok historyItemId))).ttsQueue =
        removeFirstWithStatus
          (s.setItem id fun it =>
            { it with status := Status.ready, historyItemId := historyItemId }).item
          Status.lingering s.ttsQueue ∧
      historyAdded s (step s (Event.ttsDone id (TtsOutcome.ok historyItemId))) = []) ∧
    ((step s Event.clear).ttsQueue = [] ∧ historyAdded s (step s Event.clear) = []) :=
  ⟨fun reason hp hm => autoBlock_history s id reason hp hm,
   fun message hp => synthesisError_history s id message hp,
   fun position hq hs => moderatorRefund_history s id position hq hs,
   fun hq hs => cancel_history s id hq hs,
   fun hq hsrc => (completion_history s id hq).1 hsrc,
   fun hq hsrc => (completion_history s id hq).2 hsrc,
   fun handle ht => lingerExpiry_history s handle id ht,
   fun handle historyItemId hp hl => interruption_history s id handle historyItemId hp hl,
   ⟨rfl, by rw [step_clear, historyAdded_of_log s _ []] <;> simp [historyEntries]⟩⟩

/-- C9, amended, at an input: a queued request is cancelled; it leaves the work
list and exactly one entry, with status cancelled, is added for it. -/
theorem C9_history_per_operation_witness :
    1 ∈ (run (State.empty plainSettings) [Event.enqueue true, Event.enqueue true]).ttsQueue ∧
    ((run (State.empty plainSettings) [Event.enqueue true, Event.enqueue true]).item 1).status =
      Status.queued ∧
    (step (run (State.empty plainSettings) [Event.enqueue true, Event.enqueue true])
      (Event.cancel 1)).ttsQueue =
      (run (State.empty plainSettings) [Event.enqueue true, Event.enqueue true]).ttsQueue.erase 1 :=
  ⟨by decide!, by decide!,
    ((C9_history_per_operation
      (run (State.empty plainSettings) [Event.enqueue true, Event.enqueue true]) 1).2.2.2.1
      (by decide!) (Or.inl (by decide!))).1⟩

/-! ### The single processing slot -/

theorem mem_of_count_le {l l' : List Nat} (h : ∀ i, l'.count i ≤ l.count i) {i : Nat}
    (hi : i ∈ l') : i ∈ l := by
  have h1 : 0 < l'.count i := List.count_pos_iff.mpr hi
  exact List.count_pos_iff.mp (lt_of_lt_of_le h1 (h i))

theorem SlotInvariant.of_shrink {s s' : State} (h : SlotInvariant s)
    (hq : ∀ i, s'.ttsQueue.count i ≤ s.ttsQueue.count i)
    (hst : ∀ i, (s'.item i).status.active = true → (s.item i).status.active = true)
    (hsrc : ∀ i, (s'.item i).source = Source.replay → (s.item i).source = Source.replay)
    (hproc : s'.isProcessing = s.isProcessing) (hcur : s'.currentTtsId = s.currentTtsId)
    (hslot : slotIds s' = slotIds s) (hnext : s'.nextId = s.nextId)
    (hallow : ∀ id index position, Cont.allowTTS id index position ∈ s'.pending →
      id < s.nextId) : SlotInvariant s' where
  active := fun i hi ha => by
    rw [hproc, hcur]
    exact h.active i (mem_of_count_le hq hi) (hst i ha)
  idle := fun hp => by rw [hslot]; exact h.idle (by rw [← hproc]; exact hp)
  current := fun i hi => by rw [hcur]; exact h.current i (by rw [← hslot]; exact hi)
  single := by rw [hslot]; exact h.single
  fresh := fun i hi => by rw [hnext]; exact h.fresh i (mem_of_count_le hq hi)
  freshAllow := fun id index position hp => by rw [hnext]; exact hallow id index position hp
  replayOnce := fun i hi => le_trans (hq i) (h.replayOnce i (hsrc i hi))

theorem SlotInvariant.slot_eq {s : State} (h : SlotInvariant s) {id : Nat}
    (hid : id ∈ slotIds s) :
    slotIds s = [id] ∧ s.isProcessing = true ∧ s.currentTtsId = some id := by
  have hlen := h.single
  have hproc : s.isProcessing = true := by
    cases hp : s.isProcessing with
    | true => rfl
    | false =>
      have := h.idle hp
      rw [this] at hid
      exact absurd hid (by simp)
  refine ⟨?_, hproc, h.current id hid⟩
  cases hs : slotIds s with
  | nil => rw [hs] at hid; exact absurd hid (by simp)
  | cons a as =>
    rw [hs] at hid hlen
    cases as with
    | nil => simp at hid; rw [hid]
    | cons b bs => simp at hlen

theorem SlotInvariant.of_release {s s' : State} (h : SlotInvariant s) (id : Nat)
    (hid : id ∈ slotIds s)
    (hq : ∀ i, s'.ttsQueue.count i ≤ s.ttsQueue.count i)
    (hst : ∀ i ∈ s'.ttsQueue, (s'.item i).status.active = true →
      (s.item i).status.active = true ∧ i ≠ id)
    (hsrc : ∀ i, (s'.item i).source = Source.replay → (s.item i).source = Source.replay)
    (hslot : slotIds s' = []) (hnext : s'.nextId = s.nextId)
    (hallow : ∀ id index position, Cont.allowTTS id index position ∈ s'.pending →
      id < s.nextId) : SlotInvariant s' where
  active := fun i hi ha => by
    exfalso
    obtain ⟨ha', hne⟩ := hst i hi ha
    have h1 := (h.active i (mem_of_count_le hq hi) ha').2
    have h2 := (h.slot_eq hid).2.2
    rw [h1] at h2
    exact hne (Option.some.inj h2)
  idle := fun _ => hslot
  current := fun i hi => by rw [hslot] at hi; exact absurd hi (by simp)
  single := by rw [hslot]; simp
  fresh := fun i hi => by rw [hnext]; exact h.fresh i (mem_of_count_le hq hi)
  freshAllow := fun id index position hp => by rw [hnext]; exact hallow id index position hp
  replayOnce := fun i hi => le_trans (hq i) (h.replayOnce i (hsrc i hi))

theorem SlotInvariant.of_keep {s s' : State} (h : SlotInvariant s) (id : Nat)
    (hid : id ∈ slotIds s)
    (hq : ∀ i, s'.ttsQueue.count i ≤ s.ttsQueue.count i)
    (hst : ∀ i, (s'.item i).status.active = true → (s.item i).status.active = true ∨ i = id)
    (hsrc : ∀ i, (s'.item i).source = Source.replay → (s.item i).source = Source.replay)
    (hproc : s'.isProcessing = s.isProcessing) (hcur : s'.currentTtsId = s.currentTtsId)
    (hslot : slotIds s' = [id]) (hnext : s'.nextId = s.nextId)
    (hallow : ∀ id index position, Cont.allowTTS id index position ∈ s'.pending →
      id < s.nextId) : SlotInvariant s' where
  active := fun i hi ha => by
    rw [hproc, hcur]
    rcases hst i ha with ha' | rfl
    · exact h.active i (mem_of_count_le hq hi) ha'
    · exact (h.slot_eq hid).2
  idle := fun hp => by
    rw [hproc, (h.slot_eq hid).2.1] at hp
    exact absurd hp (by simp)
  current := fun i hi => by
    rw [hslot] at hi
    simp only [List.mem_singleton] at hi
    rw [hcur, hi]
    exact (h.slot_eq hid).2.2
  single := by rw [hslot]; simp
  fresh := fun i hi => by rw [hnext]; exact h.fresh i (mem_of_count_le hq hi)
  freshAllow := fun id index position hp => by rw [hnext]; exact hallow id index position hp
  replayOnce := fun i hi => le_trans (hq i) (h.replayOnce i (hsrc i hi))

theorem SlotInvariant.of_insert {s s' : State} (h : SlotInvariant s) (x : Nat)
    (hq : ∀ i ∈ s'.ttsQueue, i ∈ s.ttsQueue ∨ i = x)
    (hx : (s'.item x).status.active = false)
    (hst : ∀ i, i ≠ x → (s'.item i).status.active = true → (s.item i).status.active = true)
    (hproc : s'.isProcessing = s.isProcessing) (hcur : s'.currentTtsId = s.currentTtsId)
    (hslot : slotIds s' = slotIds s) (hnext : s.nextId ≤ s'.nextId) (hxfresh : x < s'.nextId)
    (hallow : ∀ id index position, Cont.allowTTS id index position ∈ s'.pending →
      id < s'.nextId)
    (hreplay : ∀ i, (s'.item i).source = Source.replay → s'.ttsQueue.count i ≤ 1) :
    SlotInvariant s' where
  active := fun i hi ha => by
    rw [hproc, hcur]
    by_cases hix : i = x
    · subst hix; rw [hx] at ha; exact absurd ha (by simp)
    · rcases hq i hi with hi' | hi'
      · exact h.active i hi' (hst i hix ha)
      · exact absurd hi' hix
  idle := fun hp => by rw [hslot]; exact h.idle (by rw [← hproc]; exact hp)
  current := fun i hi => by rw [hcur]; exact h.current i (by rw [← hslot]; exact hi)
  single := by rw [hslot]; exact h.single
  fresh := fun i hi => by
    rcases hq i hi with hi' | hi'
    · exact lt_of_lt_of_le (h.fresh i hi') hnext
    · rw [hi']; exact hxfresh
  freshAllow := hallow
  replayOnce := hreplay

theorem startItem_item (s : State) (id i : Nat) :
    (startItem s id).item i =
      if i = id then
        { s.item id with status :=
            if (s.item id).source = Source.replay ∨ (s.item id).source = Source.moderated
            then Status.playing else Status.processing }
      else s.item i := by
  by_cases h : i = id
  · subst h
    unfold startItem
    dsimp only
    simp only [State.setStatus, setItem_item_same, if_true]
    split
    · split <;> simp
    · simp
  · rw [if_neg h, startItem_item_other s id i h]

theorem startItem_source (s : State) (id i : Nat) :
    ((startItem s id).item i).source = (s.item i).source := by
  rw [startItem_item]
  split
  · rename_i h; subst h; rfl
  · rfl

theorem startItem_pending_allow (s : State) (id : Nat) (j index : Nat) (position : Position) :
    Cont.allowTTS j index position ∈ (startItem s id).pending ↔
      Cont.allowTTS j index position ∈ s.pending := by
  unfold startItem
  dsimp only
  split
  · split <;> simp [State.setStatus]
  · simp only [State.setStatus, setItem_pending, setItem_settings, List.mem_append,
      List.mem_singleton]
    constructor
    · rintro (h | h)
      · exact h
      · split at h <;> exact absurd h (by simp)
    · exact Or.inl

theorem startItem_slotIds (s : State) (id : Nat) (h : slotIds s = []) :
    slotIds (startItem s id) = [id] := by
  unfold slotIds at h ⊢
  have h1 : s.pending.filterMap Cont.slotId = [] := (List.append_eq_nil.mp h).1
  have h2 : s.audio = [] := (List.append_eq_nil.mp h).2
  unfold startItem
  dsimp only
  split
  · split <;> simp [State.setStatus, h1, h2]
  · simp only [State.setStatus, setItem_pending, setItem_settings, setItem_audio,
      List.filterMap_append, h1, h2, List.nil_append, List.append_nil]
    split <;> rfl

theorem processQueue_inv (s : State) (h : SlotInvariant s) : SlotInvariant (processQueue s) := by
  rcases processQueue_cases s with hp | ⟨id, hq, hs, hidle, _, hp⟩
  · rw [hp]; exact h
  · rw [hp]
    have hslot := h.idle hidle
    exact {
      active := fun i hi ha => by
        rw [startItem_isProcessing, startItem_currentTtsId]
        refine ⟨rfl, ?_⟩
        by_cases hid : i = id
        · rw [hid]
        · rw [startItem_item_other s id i hid] at ha
          rw [startItem_ttsQueue] at hi
          have := (h.active i hi ha).1
          rw [hidle] at this
          exact absurd this (by simp)
      idle := fun hpr => by rw [startItem_isProcessing] at hpr; exact absurd hpr (by simp)
      current := fun i hi => by
        rw [startItem_slotIds s id hslot] at hi
        simp only [List.mem_singleton] at hi
        rw [startItem_currentTtsId, hi]
      single := by rw [startItem_slotIds s id hslot]; simp
      fresh := fun i hi => by
        rw [startItem_nextId]
        rw [startItem_ttsQueue] at hi
        exact h.fresh i hi
      freshAllow := fun j index position hj => by
        rw [startItem_nextId]
        exact h.freshAllow j index position ((startItem_pending_allow s id j index position).mp hj)
      replayOnce := fun i hi => by
        rw [startItem_ttsQueue]
        rw [startItem_source] at hi
        exact h.replayOnce i hi }

theorem filterMap_erase_of_none {α β : Type} [DecidableEq α] (f : α → Option β) (c : α)
    (hc : f c = none) (l : List α) : (l.erase c).filterMap f = l.filterMap f := by
  induction l with
  | nil => rfl
  | cons a as ih =>
    by_cases ha : a = c
    · subst ha
      rw [List.erase_cons_head, List.filterMap_cons, hc]
    · rw [List.erase_cons_tail (by simpa using ha), List.filterMap_cons, List.filterMap_cons, ih]

theorem filterMap_erase_of_single {α β : Type} [DecidableEq α] (f : α → Option β) (c : α) (x : β)
    (hc : f c = some x) (l : List α) (hmem : c ∈ l) (hlen : (l.filterMap f).length ≤ 1) :
    l.filterMap f = [x] ∧ (l.erase c).filterMap f = [] := by
  induction l with
  | nil => exact absurd hmem (by simp)
  | cons a as ih =>
    by_cases ha : a = c
    · subst ha
      rw [List.erase_cons_head]
      rw [List.filterMap_cons, hc] at hlen ⊢
      have hnil : as.filterMap f = [] := by
        apply List.length_eq_zero.mp
        simp only [List.length_cons] at hlen
        omega
      rw [hnil]
      exact ⟨rfl, rfl⟩
    · have hmem' : c ∈ as := by
        rcases List.mem_cons.mp hmem with h | h
        · exact absurd h.symm ha
        · exact h
      have hx : x ∈ as.filterMap f := List.mem_filterMap.mpr ⟨c, hmem', hc⟩
      have hpos : 0 < (as.filterMap f).length := List.length_pos_of_mem hx
      cases hfa : f a with
      | some y =>
        rw [List.filterMap_cons, hfa] at hlen
        simp only [List.length_cons] at hlen
        omega
      | none =>
        rw [List.filterMap_cons, hfa] at hlen
        have := ih hmem' hlen
        rw [List.erase_cons_tail (by simpa using ha), List.filterMap_cons, List.filterMap_cons, hfa]
        exact this

theorem SlotInvariant.slot_of_pending {s : State} (h : SlotInvariant s) (c : Cont) (id : Nat)
    (hc : c ∈ s.pending) (hid : c.slotId = some id) :
    id ∈ slotIds s ∧ s.audio = [] ∧ (s.pending.erase c).filterMap Cont.slotId = [] := by
  have hlen : (s.pending.filterMap Cont.slotId).length ≤ 1 := by
    have := h.single
    unfold slotIds at this
    rw [List.length_append] at this
    omega
  obtain ⟨h1, h2⟩ := filterMap_erase_of_single Cont.slotId c id hid s.pending hc hlen
  have hmem : id ∈ slotIds s := by
    unfold slotIds
    rw [h1]
    exact List.mem_append_left _ (List.mem_singleton.mpr rfl)
  refine ⟨hmem, ?_, h2⟩
  have := (h.slot_eq hmem).1
  unfold slotIds at this
  rw [h1] at this
  simpa using this

theorem SlotInvariant.slot_of_audio {s : State} (h : SlotInvariant s) (id : Nat)
    (hid : id ∈ s.audio) :
    id ∈ slotIds s ∧ s.audio.erase id = [] ∧ s.pending.filterMap Cont.slotId = [] := by
  have hmem : id ∈ slotIds s := by
    unfold slotIds
    exact List.mem_append_right _ hid
  have h1 := (h.slot_eq hmem).1
  unfold slotIds at h1
  have hlen : (s.pending.filterMap Cont.slotId).length + s.audio.length = 1 := by
    rw [← List.length_append, h1]; rfl
  have hpos : 0 < s.audio.length := List.length_pos_of_mem hid
  have hp : s.pending.filterMap Cont.slotId = [] := List.length_eq_zero.mp (by omega)
  rw [hp, List.nil_append] at h1
  refine ⟨hmem, ?_, hp⟩
  rw [h1]
  simp

theorem count_removeFirstWithStatus_le (item : Nat → Item) (status : Status) (l : List Nat)
    (i : Nat) : (removeFirstWithStatus item status l).count i ≤ l.count i := by
  induction l with
  | nil => simp [removeFirstWithStatus]
  | cons a as ih =>
    unfold removeFirstWithStatus
    split
    · rw [List.count_cons]; omega
    · rw [List.count_cons, List.count_cons]; omega

theorem count_insertBeforeFirstQueued (item : Nat → Item) (x : Nat) (l : List Nat) (i : Nat) :
    (insertBeforeFirstQueued item x l).count i = l.count i + if x = i then 1 else 0 := by
  induction l with
  | nil => simp [insertBeforeFirstQueued, List.count_cons]
  | cons a as ih =>
    unfold insertBeforeFirstQueued
    split
    · simp only [List.count_cons, beq_iff_eq]
    · rw [List.count_cons, List.count_cons, ih]; omega

theorem count_eraseIdx_le (l : List Nat) (k i : Nat) : (l.eraseIdx k).count i ≤ l.count i :=
  (List.eraseIdx_sublist l k).count_le i

theorem count_erase_le_erase (l : List Nat) (k i : Nat) : (l.erase k).count i ≤ l.count i :=
  (List.erase_sublist k l).count_le i

theorem slotIds_eq_of {s s' : State} (hp : s'.pending.filterMap Cont.slotId =
    s.pending.filterMap Cont.slotId) (ha : s'.audio = s.audio) : slotIds s' = slotIds s := by
  unfold slotIds
  rw [hp, ha]

theorem clear_inv (s : State) (h : SlotInvariant s) : SlotInvariant (step s Event.clear) := by
  rw [step_clear]
  exact h.of_shrink (fun _ => by simp) (fun _ ha => ha) (fun _ hs => hs) rfl rfl rfl rfl
    (fun id index position hp => h.freshAllow id index position hp)

theorem pause_inv (s : State) (h : SlotInvariant s) : SlotInvariant (step s Event.pause) := by
  rw [step_pause]
  exact h.of_shrink (fun _ => le_refl _) (fun _ ha => ha) (fun _ hs => hs) rfl rfl rfl rfl
    (fun id index position hp => h.freshAllow id index position hp)

theorem configure_inv (s : State) (settings : Settings) (h : SlotInvariant s) :
    SlotInvariant (step s (Event.configure settings)) := by
  rw [step_configure]
  exact h.of_shrink (fun _ => le_refl _) (fun _ ha => ha) (fun _ hs => hs) rfl rfl rfl rfl
    (fun id index position hp => h.freshAllow id index position hp)

theorem resume_inv (s : State) (h : SlotInvariant s) : SlotInvariant (step s Event.resume) := by
  rw [step_resume]
  apply processQueue_inv
  exact h.of_shrink (fun _ => le_refl _) (fun _ ha => ha) (fun _ hs => hs) rfl rfl rfl rfl
    (fun id index position hp => h.freshAllow id index position hp)

theorem emit_inv (s : State) (e : Effect) (h : SlotInvariant s) : SlotInvariant (s.emit e) :=
  h.of_shrink (fun _ => le_refl _) (fun _ ha => ha) (fun _ hs => hs) rfl rfl rfl rfl
    (fun id index position hp => h.freshAllow id index position hp)

theorem lingerTimeout_inv (s : State) (handle : Nat) (h : SlotInvariant s) :
    SlotInvariant (step s (Event.lingerTimeout handle)) := by
  rw [step_lingerTimeout]
  split
  · exact h.of_shrink (fun _ => count_erase_le_erase _ _ _) (fun _ ha => ha) (fun _ hs => hs)
      rfl rfl rfl rfl (fun id index position hp => h.freshAllow id index position hp)
  · exact h

theorem replay_inv (s : State) (historyId : Nat) (position : Position) (useShowHide : Bool)
    (h : SlotInvariant s) :
    SlotInvariant (step s (Event.replay historyId position useShowHide)) := by
  rw [step_replay]
  unfold replay
  split
  · exact emit_inv s _ h
  · split
    · exact emit_inv s _ h
    · split
      · exact emit_inv s _ h
      · refine h.of_shrink (fun _ => le_refl _) (fun _ ha => ha) (fun _ hs => hs) rfl rfl ?_ rfl ?_
        · refine slotIds_eq_of ?_ rfl
          simp [List.filterMap_append, Cont.slotId]
        · intro id index position hp
          simp only [List.mem_append, List.mem_singleton] at hp
          rcases hp with hp | hp
          · exact h.freshAllow id index position hp
          · exact absurd hp (by simp)

theorem active_of_setStatus {s : State} {id i : Nat} {st : Status} (hst : st.active = false)
    {f : Item → Item} (hf : ∀ it, (f it).status = st)
    (ha : ((s.setItem id f).item i).status.active = true) :
    (s.item i).status.active = true ∧ i ≠ id := by
  rw [setItem_item] at ha
  by_cases hi : i = id
  · rw [if_pos hi, hf, hst] at ha
    exact absurd ha (by simp)
  · rw [if_neg hi] at ha
    exact ⟨ha, hi⟩

theorem gptDone_inv (s : State) (id : Nat) (b : Option Str) (h : SlotInvariant s) :
    SlotInvariant (step s (Event.gptDone id b)) := by
  rw [step_gptDone]
  split
  · rename_i hc
    obtain ⟨hmem, haudio, hrest⟩ := h.slot_of_pending (Cont.afterGPT id) id hc rfl
    have hallow : ∀ id' index position,
        Cont.allowTTS id' index position ∈ s.pending.erase (Cont.afterGPT id) →
          id' < s.nextId := fun id' index position hp =>
      h.freshAllow id' index position (List.mem_of_mem_erase hp)
    unfold resumeAfterGPT
    cases b with
    | none =>
      dsimp only
      refine h.of_keep id hmem (fun _ => le_refl _) (fun i ha => Or.inl ha) (fun _ hs => hs)
        rfl rfl ?_ rfl ?_
      · unfold slotIds
        simp [State.settle, List.filterMap_append, hrest, haudio, Cont.slotId]
      · intro id' index position hp
        simp only [State.settle, List.mem_append, List.mem_singleton] at hp
        rcases hp with hp | hp
        · exact hallow id' index position hp
        · exact absurd hp (by simp)
    | some reason =>
      dsimp only
      split
      · apply processQueue_inv
        refine h.of_release id hmem (fun _ => le_refl _) ?_ ?_ ?_ rfl hallow
        · intro i _ ha
          by_cases hi : i = id
          · subst hi
            simp [State.setStatus, State.settle, Status.active] at ha
          · simp [State.setStatus, State.settle, setItem_item_other _ _ _ _ hi] at ha
            exact ⟨ha, hi⟩
        · intro i hs
          by_cases hi : i = id
          · subst hi
            simpa [State.setStatus, State.settle] using hs
          · simpa [State.setStatus, State.settle, setItem_item_other _ _ _ _ hi] using hs
        · unfold slotIds
          simp [State.setStatus, State.settle, hrest, haudio]
      · apply processQueue_inv
        refine h.of_release id hmem ?_ ?_ ?_ ?_ ?_ ?_
        · intro i
          simpa [State.setStatus, State.settle] using count_erase_le_erase s.ttsQueue id i
        · intro i _ ha
          by_cases hi : i = id
          · subst hi
            simp [State.setStatus, State.settle, Status.active] at ha
          · simp [State.setStatus, State.settle, setItem_item_other _ _ _ _ hi] at ha
            exact ⟨ha, hi⟩
        · intro i hs
          by_cases hi : i = id
          · subst hi
            simpa [State.setStatus, State.settle] using hs
          · simpa [State.setStatus, State.settle, setItem_item_other _ _ _ _ hi] using hs
        · unfold slotIds
          simp [State.setStatus, State.settle, hrest, haudio]
        · simp [State.setStatus, State.settle]
        · intro id' index position hp
          exact hallow id' index position (by simpa [State.setStatus, State.settle] using hp)
  · exact h

theorem ttsDone_inv (s : State) (id : Nat) (o : TtsOutcome) (h : SlotInvariant s) :
    SlotInvariant (step s (Event.ttsDone id o)) := by
  rw [step_ttsDone]
  split
  · rename_i hc
    obtain ⟨hmem, haudio, hrest⟩ := h.slot_of_pending (Cont.afterTTS id) id hc rfl
    have hallow : ∀ id' index position,
        Cont.allowTTS id' index position ∈ s.pending.erase (Cont.afterTTS id) →
          id' < s.nextId := fun id' index position hp =>
      h.freshAllow id' index position (List.mem_of_mem_erase hp)
    unfold resumeAfterTTS
    cases o with
    | ok historyItemId =>
      dsimp only
      split
      · refine h.of_keep id hmem ?_ ?_ ?_ rfl rfl ?_ rfl ?_
        · intro i
          simpa [State.settle] using count_removeFirstWithStatus_le _ _ s.ttsQueue i
        · intro i ha
          by_cases hi : i = id
          · exact Or.inr hi
          · simp [State.settle, setItem_item_other _ _ _ _ hi] at ha
            exact Or.inl ha
        · intro i hs
          by_cases hi : i = id
          · subst hi
            simpa [State.settle] using hs
          · simpa [State.settle, setItem_item_other _ _ _ _ hi] using hs
        · unfold slotIds
          simp [State.settle, List.filterMap_append, hrest, haudio, Cont.slotId]
        · intro id' index position hp
          simp only [State.settle, emit_pending, setItem_pending, List.mem_append,
            List.mem_singleton] at hp
          rcases hp with hp | hp
          · exact hallow id' index position hp
          · exact absurd hp (by simp)
      · unfold startPlaying
        refine h.of_keep id hmem ?_ ?_ ?_ rfl rfl ?_ rfl ?_
        · intro i
          simp [State.settle, State.setStatus]
        · intro i ha
          by_cases hi : i = id
          · exact Or.inr hi
          · simp [State.settle, State.setStatus, setItem_item_other _ _ _ _ hi] at ha
            exact Or.inl ha
        · intro i hs
          by_cases hi : i = id
          · subst hi
            simpa [State.settle, State.setStatus] using hs
          · simpa [State.settle, State.setStatus, setItem_item_other _ _ _ _ hi] using hs
        · unfold slotIds
          simp [State.settle, State.setStatus, hrest, haudio]
        · intro id' index position hp
          exact hallow id' index position (by simpa [State.settle, State.setStatus] using hp)
    | failed message =>
      dsimp only
      apply processQueue_inv
      refine h.of_release id hmem ?_ ?_ ?_ ?_ ?_ ?_
      · intro i
        simpa [State.setStatus, State.settle] using count_erase_le_erase s.ttsQueue id i
      · intro i _ ha
        by_cases hi : i = id
        · subst hi
          simp [State.setStatus, State.settle, Status.active] at ha
        · simp [State.setStatus, State.settle, setItem_item_other _ _ _ _ hi] at ha
          exact ⟨ha, hi⟩
      · intro i hs
        by_cases hi : i = id
        · subst hi
          simpa [State.setStatus, State.settle] using hs
        · simpa [State.setStatus, State.settle, setItem_item_other _ _ _ _ hi] using hs
      · unfold slotIds
        simp [State.setStatus, State.settle, hrest, haudio]
      · simp [State.setStatus, State.settle]
      · intro id' index position hp
        exact hallow id' index position (by simpa [State.setStatus, State.settle] using hp)
  · exact h

theorem animationDone_inv (s : State) (id : Nat) (h : SlotInvariant s) :
    SlotInvariant (step s (Event.animationDone id)) := by
  rw [step_animationDone]
  split
  · rename_i hc
    obtain ⟨hmem, haudio, hrest⟩ := h.slot_of_pending (Cont.afterAnimation id) id hc rfl
    have hallow : ∀ id' index position,
        Cont.allowTTS id' index position ∈ s.pending.erase (Cont.afterAnimation id) →
          id' < s.nextId := fun id' index position hp =>
      h.freshAllow id' index position (List.mem_of_mem_erase hp)
    unfold startPlaying
    refine h.of_keep id hmem ?_ ?_ ?_ rfl rfl ?_ rfl ?_
    · intro i
      simp [State.settle, State.setStatus]
    · intro i ha
      by_cases hi : i = id
      · exact Or.inr hi
      · simp [State.settle, State.setStatus, setItem_item_other _ _ _ _ hi] at ha
        exact Or.inl ha
    · intro i hs
      by_cases hi : i = id
      · subst hi
        simpa [State.settle, State.setStatus] using hs
      · simpa [State.settle, State.setStatus, setItem_item_other _ _ _ _ hi] using hs
    · unfold slotIds
      simp [State.settle, State.setStatus, hrest, haudio]
    · intro id' index position hp
      exact hallow id' index position (by simpa [State.settle, State.setStatus] using hp)
  · exact h

theorem audioFinished_inv (s : State) (id : Nat) (h : SlotInvariant s) (hin : id ∈ s.audio) :
    SlotInvariant (step s (Event.audioFinished id)) := by
  rw [step_audioFinished]
  obtain ⟨hmem, herase, hp⟩ := h.slot_of_audio id hin
  unfold audioFinished
  split
  · split
    · apply processQueue_inv
      refine h.of_release id hmem (fun _ => le_refl _) ?_ ?_ ?_ rfl h.freshAllow
      · intro i _ ha
        by_cases hi : i = id
        · subst hi
          simp [beginLinger, startLingerTimer, State.setStatus, State.release, Status.active] at ha
        · simp [beginLinger, startLingerTimer, State.setStatus, State.release,
            setItem_item_other _ _ _ _ hi] at ha
          exact ⟨ha, hi⟩
      · intro i hs
        by_cases hi : i = id
        · subst hi
          simpa [beginLinger, startLingerTimer, State.setStatus, State.release] using hs
        · simpa [beginLinger, startLingerTimer, State.setStatus, State.release,
            setItem_item_other _ _ _ _ hi] using hs
      · unfold slotIds
        simp [beginLinger, startLingerTimer, State.setStatus, State.release, herase, hp]
    · split
      · split
        · apply processQueue_inv
          refine h.of_release id hmem (fun _ => le_refl _) ?_ ?_ ?_ rfl h.freshAllow
          · intro i _ ha
            by_cases hi : i = id
            · subst hi
              simp [beginLinger, startLingerTimer, State.setStatus, State.release,
                Status.active] at ha
            · simp [beginLinger, startLingerTimer, State.setStatus, State.release,
                setItem_item_other _ _ _ _ hi] at ha
              exact ⟨ha, hi⟩
          · intro i hs
            by_cases hi : i = id
            · subst hi
              simpa [beginLinger, startLingerTimer, State.setStatus, State.release] using hs
            · simpa [beginLinger, startLingerTimer, State.setStatus, State.release,
                setItem_item_other _ _ _ _ hi] using hs
          · unfold slotIds
            simp [beginLinger, startLingerTimer, State.setStatus, State.release, herase, hp]
        · rename_i hreplay _
          apply processQueue_inv
          refine h.of_release id hmem (fun _ => count_erase_le_erase _ _ _) ?_ (fun _ hs => hs) ?_ rfl
            h.freshAllow
          · intro i hi ha
            refine ⟨ha, ?_⟩
            rintro rfl
            have h1 : 0 < (s.ttsQueue.erase i).count i := List.count_pos_iff.mpr hi
            have h2 := h.replayOnce i hreplay
            have h3 : (s.ttsQueue.erase i).count i = s.ttsQueue.count i - 1 := by
              rw [List.count_erase_self]
            omega
          · unfold slotIds
            simp [State.release, herase, hp]
      · rw [processQueueIfQueued_eq]
        apply processQueue_inv
        refine h.of_release id hmem (fun _ => le_refl _) ?_ ?_ ?_ rfl h.freshAllow
        · intro i _ ha
          by_cases hi : i = id
          · subst hi
            simp [beginLinger, startLingerTimer, State.setStatus, State.release,
              Status.active] at ha
          · simp [beginLinger, startLingerTimer, State.setStatus, State.release,
              setItem_item_other _ _ _ _ hi] at ha
            exact ⟨ha, hi⟩
        · intro i hs
          by_cases hi : i = id
          · subst hi
            simpa [beginLinger, startLingerTimer, State.setStatus, State.release] using hs
          · simpa [beginLinger, startLingerTimer, State.setStatus, State.release,
              setItem_item_other _ _ _ _ hi] using hs
        · unfold slotIds
          simp [beginLinger, startLingerTimer, State.setStatus, State.release, herase, hp]
  · rename_i hnot
    rw [processQueueIfQueued_eq]
    apply processQueue_inv
    refine h.of_release id hmem (fun _ => le_refl _) ?_ (fun _ hs => hs) ?_ rfl h.freshAllow
    · intro i hi ha
      refine ⟨ha, ?_⟩
      rintro rfl
      exact hnot hi
    · unfold slotIds
      simp [State.release, herase, hp]

theorem inv_ite_processQueue (c : Prop) [Decidable c] (s : State) (h : SlotInvariant s) :
    SlotInvariant (if c then processQueue s else s) := by
  split
  · exact processQueue_inv _ h
  · exact h

theorem enqueue_inv (s : State) (refundable : Bool) (h : SlotInvariant s) :
    SlotInvariant (step s (Event.enqueue refundable)) := by
  rw [step_enqueue]
  unfold enqueue
  dsimp only
  apply inv_ite_processQueue
  refine h.of_insert s.nextId ?_ ?_ ?_ rfl rfl rfl (Nat.le_succ _) (Nat.lt_succ_self _) ?_ ?_
  · intro i hi
    simpa [State.emit, or_comm] using hi
  · simp [State.emit, blankItem, Status.active]
  · intro i hi ha
    simpa [State.emit, Function.update_noteq hi] using ha
  · intro id index position hp
    exact Nat.lt_succ_of_lt (h.freshAllow id index position hp)
  · intro i hs
    by_cases hi : i = s.nextId
    · subst hi
      simp [State.emit, blankItem] at hs
    · have hs' : (s.item i).source = Source.replay := by
        simpa [State.emit, Function.update_noteq hi] using hs
      have := h.replayOnce i hs'
      simp only [State.emit, List.count_append]
      have h0 : [s.nextId].count i = 0 := by
        simp only [List.count_cons, List.count_nil, beq_iff_eq]
        rw [if_neg (fun hh => hi hh.symm)]
      omega

theorem moderate_inv (s : State) (id : Nat) (action : ModerateAction) (position : Position)
    (h : SlotInvariant s) : SlotInvariant (step s (Event.moderate id action position)) := by
  rw [step_moderate]
  unfold moderate
  split
  · exact emit_inv s _ h
  · rename_i index hfind
    split
    · exact emit_inv s _ h
    · cases action with
      | refund =>
        dsimp only
        apply emit_inv
        refine h.of_shrink ?_ ?_ ?_ ?_ ?_ ?_ ?_ ?_
        · intro i
          simpa using count_eraseIdx_le s.ttsQueue index i
        · intro i ha
          by_cases hi : i = id
          · subst hi
            simp [Status.active] at ha
          · simpa [setItem_item_other _ _ _ _ hi] using ha
        · intro i hs
          by_cases hi : i = id
          · subst hi
            simpa using hs
          · simpa [setItem_item_other _ _ _ _ hi] using hs
        · simp
        · simp
        · unfold slotIds
          simp
        · simp
        · intro id' index' position' hp
          exact h.freshAllow id' index' position' (by simpa using hp)
      | allow =>
        dsimp only
        refine h.of_shrink (fun _ => le_refl _) (fun _ ha => ha) (fun _ hs => hs) rfl rfl ?_ rfl ?_
        · refine slotIds_eq_of ?_ rfl
          simp [List.filterMap_append, Cont.slotId]
        · intro id' index' position' hp
          simp only [List.mem_append, List.mem_singleton] at hp
          rcases hp with hp | hp
          · exact h.freshAllow id' index' position' hp
          · have : id' = id := by
              injection hp
            rw [this]
            exact h.fresh id (findIndexById_some _ _ index hfind).1
      | other => exact emit_inv s _ h

theorem cancel_inv (s : State) (id : Nat) (h : SlotInvariant s) :
    SlotInvariant (step s (Event.cancel id)) := by
  rw [step_cancel]
  unfold cancel
  split
  · exact emit_inv s _ h
  · rename_i index hfind
    split
    · exact emit_inv s _ h
    · dsimp only
      apply emit_inv
      refine h.of_shrink ?_ ?_ ?_ ?_ ?_ ?_ ?_ ?_
      · intro i
        simpa using count_eraseIdx_le s.ttsQueue index i
      · intro i ha
        by_cases hi : i = id
        · subst hi
          simpa using ha
        · simpa [setItem_item_other _ _ _ _ hi] using ha
      · intro i hs
        by_cases hi : i = id
        · subst hi
          simpa using hs
        · simpa [setItem_item_other _ _ _ _ hi] using hs
      · simp
      · simp
      · unfold slotIds
        simp
      · simp
      · intro id' index' position' hp
        exact h.freshAllow id' index' position' (by simpa using hp)

theorem mem_insertBeforeFirstQueued (item : Nat → Item) (x : Nat) (l : List Nat) (i : Nat)
    (h : i ∈ insertBeforeFirstQueued item x l) : i ∈ l ∨ i = x := by
  have h1 : 0 < (insertBeforeFirstQueued item x l).count i := List.count_pos_iff.mpr h
  rw [count_insertBeforeFirstQueued] at h1
  by_cases hx : x = i
  · exact Or.inr hx.symm
  · rw [if_neg hx] at h1
    exact Or.inl (List.count_pos_iff.mp h1)

theorem settle_inv_of_none (s : State) (c : Cont) (hc : c.slotId = none) (h : SlotInvariant s) :
    SlotInvariant (s.settle c) := by
  refine h.of_shrink (fun _ => le_refl _) (fun _ ha => ha) (fun _ hs => hs) rfl rfl ?_ rfl ?_
  · exact slotIds_eq_of (filterMap_erase_of_none Cont.slotId c hc s.pending) rfl
  · intro id index position hp
    exact h.freshAllow id index position (List.mem_of_mem_erase hp)

theorem allowDone_inv (s : State) (id index : Nat) (position : Position) (o : TtsOutcome)
    (h : SlotInvariant s) : SlotInvariant (step s (Event.allowDone id index position o)) := by
  rw [step_allowDone]
  split
  · rename_i hc
    have hid : id < s.nextId := h.freshAllow id index position hc
    have h0 := settle_inv_of_none s (Cont.allowTTS id index position) rfl h
    unfold resumeAllow
    cases o with
    | failed message => exact emit_inv _ _ h0
    | ok historyItemId =>
      dsimp only
      apply emit_inv
      apply inv_ite_processQueue
      cases position with
      | front =>
        dsimp only
        refine h0.of_insert id ?_ ?_ ?_ rfl rfl rfl (le_refl _) hid ?_ ?_
        · intro i hi
          rcases mem_insertBeforeFirstQueued _ _ _ _ hi with hi | hi
          · exact Or.inl (List.mem_of_mem_eraseIdx hi)
          · exact Or.inr hi
        · simp [Status.active]
        · intro i hi ha
          simpa [setItem_item_other _ _ _ _ hi] using ha
        · intro id' index' position' hp
          exact h0.freshAllow id' index' position' hp
        · intro i hs
          by_cases hi : i = id
          · subst hi
            simp at hs
          · have hs' : ((s.settle (Cont.allowTTS id index Position.front)).item i).source =
                Source.replay := by
              simpa [setItem_item_other _ _ _ _ hi] using hs
            have h1 := h0.replayOnce i hs'
            have h2 := count_eraseIdx_le (s.settle (Cont.allowTTS id index Position.front)).ttsQueue
              index i
            dsimp only
            rw [count_insertBeforeFirstQueued, if_neg (fun hh => hi hh.symm)]
            simp only [setItem_ttsQueue]
            omega
      | back =>
        dsimp only
        refine h0.of_insert id ?_ ?_ ?_ rfl rfl rfl (le_refl _) hid ?_ ?_
        · intro i hi
          rcases List.mem_append.mp hi with hi | hi
          · exact Or.inl (List.mem_of_mem_eraseIdx hi)
          · exact Or.inr (List.mem_singleton.mp hi)
        · simp [Status.active]
        · intro i hi ha
          simpa [setItem_item_other _ _ _ _ hi] using ha
        · intro id' index' position' hp
          exact h0.freshAllow id' index' position' hp
        · intro i hs
          by_cases hi : i = id
          · subst hi
            simp at hs
          · have hs' : ((s.settle (Cont.allowTTS id index Position.back)).item i).source =
                Source.replay := by
              simpa [setItem_item_other _ _ _ _ hi] using hs
            have h1 := h0.replayOnce i hs'
            have h2 := count_eraseIdx_le (s.settle (Cont.allowTTS id index Position.back)).ttsQueue
              index i
            have h3 : [id].count i = 0 := by
              simp only [List.count_cons, List.count_nil, beq_iff_eq]
              rw [if_neg (fun hh => hi hh.symm)]
            dsimp only
            rw [List.count_append, h3]
            simp only [setItem_ttsQueue]
            omega
  · exact h

theorem replayDone_inv (s : State) (entry : HistoryEntry) (position : Position)
    (useShowHide ok : Bool) (h : SlotInvariant s) :
    SlotInvariant (step s (Event.replayDone entry position useShowHide ok)) := by
  rw [step_replayDone]
  split
  · have h0 := settle_inv_of_none s (Cont.replayFetch entry position useShowHide) rfl h
    generalize s.settle (Cont.replayFetch entry position useShowHide) = t at h0
    unfold resumeReplay
    split
    · exact emit_inv _ _ h0
    · dsimp only
      apply emit_inv
      apply inv_ite_processQueue
      have hnew : t.ttsQueue.count t.nextId = 0 :=
        List.count_eq_zero.mpr fun hm => Nat.lt_irrefl _ (h0.fresh _ hm)
      cases position with
      | front =>
        dsimp only
        refine h0.of_insert t.nextId ?_ ?_ ?_ rfl rfl rfl (Nat.le_succ _) (Nat.lt_succ_self _)
          ?_ ?_
        · intro i hi
          exact mem_insertBeforeFirstQueued _ _ _ _ hi
        · simp [blankItem, Status.active]
        · intro i hi ha
          simpa [Function.update_noteq hi] using ha
        · intro id' index' position' hp
          exact Nat.lt_succ_of_lt (h0.freshAllow id' index' position' hp)
        · intro i hs
          dsimp only
          rw [count_insertBeforeFirstQueued]
          by_cases hi : i = t.nextId
          · subst hi
            rw [hnew, if_pos rfl]
          · have hs' : (t.item i).source = Source.replay := by
              simpa [Function.update_noteq hi] using hs
            have h1 := h0.replayOnce i hs'
            rw [if_neg (fun hh => hi hh.symm)]
            omega
      | back =>
        dsimp only
        refine h0.of_insert t.nextId ?_ ?_ ?_ rfl rfl rfl (Nat.le_succ _) (Nat.lt_succ_self _)
          ?_ ?_
        · intro i hi
          rcases List.mem_append.mp hi with hi | hi
          · exact Or.inl hi
          · exact Or.inr (List.mem_singleton.mp hi)
        · simp [blankItem, Status.active]
        · intro i hi ha
          simpa [Function.update_noteq hi] using ha
        · intro id' index' position' hp
          exact Nat.lt_succ_of_lt (h0.freshAllow id' index' position' hp)
        · intro i hs
          dsimp only
          rw [List.count_append]
          by_cases hi : i = t.nextId
          · subst hi
            rw [hnew]
            simp
          · have hs' : (t.item i).source = Source.replay := by
              simpa [Function.update_noteq hi] using hs
            have h1 := h0.replayOnce i hs'
            have h3 : [t.nextId].count i = 0 := by
              simp only [List.count_cons, List.count_nil, beq_iff_eq]
              rw [if_neg (fun hh => hi hh.symm)]
            omega
  · exact h

theorem empty_inv (settings : Settings) : SlotInvariant (State.empty settings) where
  active := fun i hi => absurd hi (by simp [State.empty])
  idle := fun _ => rfl
  current := fun i hi => absurd hi (by simp [slotIds, State.empty])
  single := by simp [slotIds, State.empty]
  fresh := fun i hi => absurd hi (by simp [State.empty])
  freshAllow := fun id index position hp => absurd hp (by simp [State.empty])
  replayOnce := fun i _ => by simp [State.empty]

theorem step_inv (s : State) (e : Event) (h : SlotInvariant s) (he : e.inProtocol s) :
    SlotInvariant (step s e) := by
  cases e with
  | enqueue refundable => exact enqueue_inv s refundable h
  | gptDone id b => exact gptDone_inv s id b h
  | ttsDone id o => exact ttsDone_inv s id o h
  | animationDone id => exact animationDone_inv s id h
  | audioFinished id => exact audioFinished_inv s id h he
  | lingerTimeout handle => exact lingerTimeout_inv s handle h
  | clear => exact clear_inv s h
  | pause => exact pause_inv s h
  | resume => exact resume_inv s h
  | moderate id action position => exact moderate_inv s id action position h
  | allowDone id index position o => exact allowDone_inv s id index position o h
  | cancel id => exact cancel_inv s id h
  | replay historyId position useShowHide => exact replay_inv s historyId position useShowHide h
  | replayDone entry position useShowHide ok =>
    exact replayDone_inv s entry position useShowHide ok h
  | configure settings => exact configure_inv s settings h

theorem run_inv (events : List Event) :
    ∀ s, SlotInvariant s → runInProtocol s events → SlotInvariant (run s events) := by
  induction events with
  | nil => intro s h _; exact h
  | cons e es ih =>
    intro s h hp
    exact ih (step s e) (step_inv s e h hp.1) hp.2

/-- C7, as stated: the single slot does not survive an `audio:finished` that
answers no `audio:play`. With one item in the pipeline, an `audio:finished` for
an id the work list does not hold lowers `isProcessing` while that item is still
`processing`, and the next request then starts a second item: the work list
holds two `processing` items. -/
theorem C7_spurious_audio_finished :
    (run (State.empty plainSettings) [Event.enqueue false, Event.audioFinished 7]).ttsQueue = [0] ∧
    ((run (State.empty plainSettings) [Event.enqueue false, Event.audioFinished 7]).item 0).status
      = Status.processing ∧
    (run (State.empty plainSettings) [Event.enqueue false, Event.audioFinished 7]).isProcessing
      = false ∧
    (run (State.empty plainSettings)
      [Event.enqueue false, Event.audioFinished 7, Event.enqueue false]).ttsQueue = [0, 1] ∧
    ((run (State.empty plainSettings)
      [Event.enqueue false, Event.audioFinished 7, Event.enqueue false]).item 0).status
      = Status.processing ∧
    ((run (State.empty plainSettings)
      [Event.enqueue false, Event.audioFinished 7, Event.enqueue false]).item 1).status
      = Status.processing ∧
    ¬ SingleSlot (run (State.empty plainSettings)
      [Event.enqueue false, Event.audioFinished 7, Event.enqueue false]) := by
  decide!

/-- C7, amended: in every state reachable from the empty scheduler by a run in
which each `audio:finished` answers an outstanding `audio:play`, at most one
item of the work list is `processing`, `ready` or `playing`, and `isProcessing`
is true whenever there is one. -/
theorem C7_single_slot_in_protocol (settings : Settings) (events : List Event)
    (h : runInProtocol (State.empty settings) events) :
    SingleSlot (run (State.empty settings) events) := by
  have inv := run_inv events (State.empty settings) (empty_inv settings) h
  refine ⟨fun i hi j hj hai haj => ?_, fun i hi hai => (inv.active i hi hai).1⟩
  have h1 := (inv.active i hi hai).2
  have h2 := (inv.active j hj haj).2
  rw [h1] at h2
  exact Option.some.inj h2

/-- A run in protocol with an item in the slot: the first item has played and
lingers, the second is in the pipeline. -/
theorem C7_single_slot_in_protocol_witness :
    runInProtocol (State.empty plainSettings)
      [Event.enqueue false, Event.enqueue false, Event.ttsDone 0 (TtsOutcome.ok none),
        Event.audioFinished 0] ∧
    SingleSlot (run (State.empty plainSettings)
      [Event.enqueue false, Event.enqueue false, Event.ttsDone 0 (TtsOutcome.ok none),
        Event.audioFinished 0]) :=
  ⟨by decide!, C7_single_slot_in_protocol plainSettings _ (by decide!)⟩

/-! ### Safety prompt -/

/-- C11, the divergence: the safety prompt does not read the profanity config.
Whatever `rules.profanity` is, `buildSafetyModerationPrompt` returns what it
returns without it; with profanity in mode `block` as the only rule above off
there is no safety prompt, and `processWithGPTParallel` runs the voice task
alone. -/
theorem C11_profanity_block_not_in_safety_prompt :
    (∀ (U : Unicode) (rules : ModerationRules) (p : Option ProfanityConfig),
      buildSafetyModerationPrompt U { rules with profanity := p } =
        buildSafetyModerationPrompt U rules) ∧
    buildSafetyModerationPrompt asciiUnicode profanityBlockOnly = none ∧
    parallelTaskLabels asciiUnicode (moderationOnly (failClosedModeration profanityBlockOnly)) =
      [TaskLabel.voice] :=
  ⟨fun _ _ _ => rfl, by decide!, by decide!⟩

/-! ### Replacement rules -/

theorem applyReplacementStep_of_failsToCompile (E : RegExpEngine) (result : Str)
    (rule : ReplacementRule) (h : failsToCompile E rule = true) :
    applyReplacementStep E result rule = result := by
  unfold applyReplacementStep
  split
  · rfl
  · split
    · rfl
    · have hnone : applyRule E rule result = none := by
        unfold applyRule
        unfold failsToCompile at h
        split
        · rename_i hr
          rw [if_pos hr] at h
          simpa using h
        · rename_i hr
          rw [if_neg hr] at h
          split
          · rename_i hc
            rw [if_pos hc] at h
            exact absurd h (by simp)
          · rename_i hc
            rw [if_neg hc] at h
            simpa using h
      rw [hnone]

theorem foldl_applyReplacementStep_filter (E : RegExpEngine) (p : ReplacementRule → Bool)
    (hp : ∀ rule result, p rule = false → applyReplacementStep E result rule = result)
    (rules : List ReplacementRule) :
    ∀ text, (rules.filter p).foldl (applyReplacementStep E) text =
      rules.foldl (applyReplacementStep E) text := by
  induction rules with
  | nil => intro text; rfl
  | cons r rs ih =>
    intro text
    cases hr : p r with
    | true => rw [List.filter_cons_of_pos hr, List.foldl_cons, List.foldl_cons, ih]
    | false =>
      rw [List.filter_cons_of_neg (by simp [hr]), List.foldl_cons, hp r text hr, ih]

theorem applyReplacements_eq_foldl (E : RegExpEngine) (text : Str)
    (rules : List ReplacementRule) (h : text ≠ []) :
    applyReplacements E text rules = rules.foldl (applyReplacementStep E) text := by
  unfold applyReplacements
  split
  · rename_i hc
    rcases hc with hc | hc
    · exact absurd hc h
    · rw [List.length_eq_zero.mp hc]; rfl
  · rfl

theorem applyReplacements_nil_text (E : RegExpEngine) (rules : List ReplacementRule) :
    applyReplacements E [] rules = [] := by
  unfold applyReplacements
  rw [if_pos (Or.inl rfl)]

theorem applyReplacements_filter (E : RegExpEngine) (p : ReplacementRule → Bool)
    (hp : ∀ rule result, p rule = false → applyReplacementStep E result rule = result)
    (text : Str) (rules : List ReplacementRule) :
    applyReplacements E text (rules.filter p) = applyReplacements E text rules := by
  by_cases h : text = []
  · rw [h, applyReplacements_nil_text, applyReplacements_nil_text]
  · rw [applyReplacements_eq_foldl E text _ h, applyReplacements_eq_foldl E text _ h,
      foldl_applyReplacementStep_filter E p hp]

theorem applyReplacementStep_of_not_active (E : RegExpEngine) (rule : ReplacementRule)
    (result : Str) (h : rule.active = false) : applyReplacementStep E result rule = result := by
  unfold applyReplacementStep
  unfold ReplacementRule.active at h
  by_cases he : rule.enabled = false
  · rw [if_pos he]
  · rw [if_neg he]
    have hp : rule.pattern = [] := by
      cases hpat : rule.pattern with
      | nil => rfl
      | cons c cs => simp [hpat, he] at h
    rw [if_pos hp]

/-- C12: for every text and rule list, `applyReplacements` returns (no exception
leaves it: the body of a rule that throws is caught in the loop), and its result
is the result for the same list without the rules whose regular expression does
not compile; the rules before and after such a rule are applied, in order. -/
theorem C12_malformed_rule_skipped (E : RegExpEngine) (text : Str)
    (rules : List ReplacementRule) :
    applyReplacements E text rules =
      applyReplacements E text (rules.filter fun rule => !failsToCompile E rule) :=
  (applyReplacements_filter E (fun rule => !failsToCompile E rule)
    (fun rule result h =>
      applyReplacementStep_of_failsToCompile E result rule (by simpa using h)) text rules).symm

/-- C12 at an input: a regex rule with the pattern `(` stands between two plain
rules; both are applied, as they are without it. -/
theorem C12_malformed_rule_skipped_witness :
    failsToCompile literalEngine ⟨true, js "(", js "x", true, false⟩ = true ∧
    applyReplacements literalEngine (js "my cat") rulesWithMalformed = js "my bird" ∧
    applyReplacements literalEngine (js "my cat") rulesWithMalformed =
      applyReplacements literalEngine (js "my cat")
        (rulesWithMalformed.filter fun rule => !failsToCompile literalEngine rule) :=
  ⟨by decide!, by decide!, C12_malformed_rule_skipped literalEngine (js "my cat") rulesWithMalformed⟩

theorem applyReplacements_nil_rules (E : RegExpEngine) (text : Str) :
    applyReplacements E text [] = text := by
  unfold applyReplacements
  exact if_pos (Or.inr rfl)

theorem applyReplacements_of_length_zero (E : RegExpEngine) (text : Str)
    (rules : List ReplacementRule) (h : ¬ rules.length > 0) :
    applyReplacements E text rules = text := by
  have : rules = [] := List.length_eq_zero.mp (by omega)
  rw [this, applyReplacements_nil_rules]

theorem globalStage_processedText (E : RegExpEngine) (text : Str)
    (voiceConfig : Option VoiceConfig) (globalReplacements : List ReplacementRule) :
    (globalStage E text voiceConfig globalReplacements).processedText =
      applyReplacements E text (effectiveGlobals voiceConfig globalReplacements) := by
  have key : ∀ ignore : Bool,
      (if ignore = false ∧ globalReplacements.length > 0 then
        (if text ≠ applyReplacements E text globalReplacements then
          (⟨applyReplacements E text globalReplacements,
            [⟨"global", none, (globalReplacements.filter fun r => r.enabled).length⟩]⟩ :
              ProcessTextResult)
        else ⟨applyReplacements E text globalReplacements, []⟩)
      else ⟨text, []⟩).processedText =
      applyReplacements E text (if ignore = true then [] else globalReplacements) := by
    intro ignore
    cases ignore with
    | true =>
      rw [if_neg (fun hh => absurd hh.1 (by decide)), if_pos rfl, applyReplacements_nil_rules]
    | false =>
      rw [if_neg (by decide : ¬ (false = true))]
      by_cases hl : globalReplacements.length > 0
      · rw [if_pos ⟨rfl, hl⟩]
        split <;> rfl
      · rw [if_neg (fun hh => hl hh.2), applyReplacements_of_length_zero E text _ hl]
  cases voiceConfig with
  | none => exact key false
  | some v => exact key v.ignoreGlobalReplacements

theorem voiceStage_processedText (E : RegExpEngine) (voiceConfig : Option VoiceConfig)
    (r : ProcessTextResult) :
    (voiceStage E voiceConfig r).processedText =
      applyReplacements E r.processedText (voiceReplacements voiceConfig) := by
  unfold voiceStage voiceReplacements
  cases voiceConfig with
  | none => dsimp only; rw [applyReplacements_nil_rules]
  | some v =>
    dsimp only
    split
    · split <;> rfl
    · rename_i hl
      rw [applyReplacements_of_length_zero E _ _ hl]

theorem processText_processedText (E : RegExpEngine) (text : Str)
    (voiceConfig : Option VoiceConfig) (globalReplacements : List ReplacementRule)
    (h : text ≠ []) :
    (processText E text voiceConfig globalReplacements).processedText =
      applyReplacements E
        (applyReplacements E text (effectiveGlobals voiceConfig globalReplacements))
        (voiceReplacements voiceConfig) := by
  unfold processText
  rw [if_neg h, voiceStage_processedText, globalStage_processedText]

/-- C13: for every non-empty text, `processText` returns the text after the
global rules (none of them when the voice sets `ignoreGlobalReplacements`) and
then the voice rules, each list applied by `applyReplacements`; and a list from
which the disabled rules and the rules with an empty pattern are removed gives
the same result. -/
theorem C13_replacement_order (E : RegExpEngine) (text : Str)
    (voiceConfig : Option VoiceConfig) (globalReplacements : List ReplacementRule)
    (h : text ≠ []) :
    (processText E text voiceConfig globalReplacements).processedText =
      applyReplacements E
        (applyReplacements E text (effectiveGlobals voiceConfig globalReplacements))
        (voiceReplacements voiceConfig) ∧
    (processText E text (voiceConfig.map (VoiceConfig.keep ReplacementRule.active))
      (globalReplacements.filter ReplacementRule.active)).processedText =
      (processText E text voiceConfig globalReplacements).processedText := by
  refine ⟨processText_processedText E text voiceConfig globalReplacements h, ?_⟩
  rw [processText_processedText E text _ _ h, processText_processedText E text _ _ h]
  have hf : ∀ t rules, applyReplacements E t (rules.filter ReplacementRule.active) =
      applyReplacements E t rules := fun t rules =>
    applyReplacements_filter E ReplacementRule.active
      (fun rule result hr => applyReplacementStep_of_not_active E rule result hr) t rules
  cases voiceConfig with
  | none =>
    simp only [Option.map_none', effectiveGlobals, voiceReplacements, hf]
  | some v =>
    simp only [Option.map_some', effectiveGlobals, voiceReplacements, VoiceConfig.keep, hf]
    cases v.ignoreGlobalReplacements <;> simp [hf]

/-- A voice with one rule, and one global rule that is disabled. -/
theorem C13_replacement_order_witness :
    (processText literalEngine (js "my cat")
      (some ⟨js "v", false, [⟨true, js "dog", js "bird", false, true⟩]⟩)
      [⟨true, js "cat", js "dog", false, true⟩, ⟨false, js "my", js "our", false, true⟩]
      ).processedText = js "my bird" ∧
    (processText literalEngine (js "my cat")
      (some ⟨js "v", false, [⟨true, js "dog", js "bird", false, true⟩]⟩)
      [⟨true, js "cat", js "dog", false, true⟩, ⟨false, js "my", js "our", false, true⟩]
      ).processedText =
      applyReplacements literalEngine
        (applyReplacements literalEngine (js "my cat")
          [⟨true, js "cat", js "dog", false, true⟩, ⟨false, js "my", js "our", false, true⟩])
        [⟨true, js "dog", js "bird", false, true⟩] :=
  ⟨by decide!,
   (C13_replacement_order literalEngine (js "my cat")
      (some ⟨js "v", false, [⟨true, js "dog", js "bird", false, true⟩]⟩)
      [⟨true, js "cat", js "dog", false, true⟩, ⟨false, js "my", js "our", false, true⟩]
      (by decide)).1⟩

/-! ### Truncation at the last space -/

theorem lastIndexOfSpace_append_singleton (s : Str) (c : Nat) :
    lastIndexOfSpace (s ++ [c]) = if c = 32 then some s.length else lastIndexOfSpace s := by
  unfold lastIndexOfSpace
  rw [List.reverse_append, List.reverse_singleton, List.singleton_append, List.indexOf?,
    List.findIdx?_cons]
  by_cases hc : c = 32
  · subst hc
    simp
  · rw [if_neg hc]
    have : (c == 32) = false := by simpa using hc
    rw [this]
    simp only [Bool.false_eq_true, if_false, List.length_append, List.length_singleton]
    cases hi : List.findIdx? (fun x => x == 32) s.reverse with
    | none => simp [List.indexOf?, List.findIdx?_succ, hi]
    | some i =>
      have hlt : i < s.reverse.length := by
        have := List.findIdx?_eq_some_iff_findIdx_eq.mp hi
        exact this.1
      rw [List.length_reverse] at hlt
      simp only [List.indexOf?, List.findIdx?_succ, hi, Option.map_some']
      congr 1
      omega

theorem lastIndexOfSpace_spec (s : Str) :
    (∀ p, IsLastSpaceAt s p → lastIndexOfSpace s = some p) ∧
    (32 ∉ s → lastIndexOfSpace s = none) := by
  induction s using List.reverseRecOn with
  | nil =>
    refine ⟨fun p hp => ?_, fun _ => rfl⟩
    have := hp.1
    simp at this
  | append_singleton s c ih =>
    rw [lastIndexOfSpace_append_singleton]
    constructor
    · intro p hp
      by_cases hc : c = 32
      · rw [if_pos hc]
        have hlt : p < (s ++ [c]).length := by
          by_contra hge
          have := hp.1
          rw [List.getElem?_eq_none (by omega)] at this
          exact absurd this (by simp)
        rw [List.length_append, List.length_singleton] at hlt
        by_cases hps : p = s.length
        · rw [hps]
        · exfalso
          have hq := hp.2 s.length (by omega)
          apply hq
          rw [List.getElem?_append_right (le_refl _)]
          simp [hc]
      · rw [if_neg hc]
        apply ih.1
        have hlt : p < s.length := by
          by_contra hge
          have h1 := hp.1
          by_cases hps : p = s.length
          · rw [hps, List.getElem?_append_right (le_refl _)] at h1
            simp at h1
            exact hc h1
          · rw [List.getElem?_eq_none (by simp; omega)] at h1
            exact absurd h1 (by simp)
        refine ⟨?_, fun q hq => ?_⟩
        · have h1 := hp.1
          rwa [List.getElem?_append_left hlt] at h1
        · by_cases hqs : q < s.length
          · have h2 := hp.2 q hq
            rwa [List.getElem?_append_left hqs] at h2
          · rw [List.getElem?_eq_none (by omega)]
            simp
    · intro hn
      have hc : c ≠ 32 := fun hc => hn (by simp [hc])
      rw [if_neg hc]
      exact ih.2 (fun hm => hn (List.mem_append_left _ hm))

theorem isLastSpaceAt_lt (s : Str) (p : Nat) (h : IsLastSpaceAt s p) : p < s.length := by
  by_contra hge
  have := h.1
  rw [List.getElem?_eq_none (by omega)] at this
  exact absurd this (by simp)

/-- C17, as stated: a boundary at exactly 80% of the limit is not used, and
neither is white space other than the space. Under a limit of 10, the text
`abcdefgh ijklm`, whose last space within the limit is at position 8, is cut to
its first 10 code units, not to its first 8; and `abcdefghi`, a tab, `jklm` is
cut to its first 10 code units, the tab among them. -/
theorem C17_boundary_at_eighty_percent :
    (applyMaxLength (js "abcdefgh ijklm") ⟨⟨true, 10⟩, ⟨false, 0⟩⟩).result = js "abcdefgh i" ∧
    (applyMaxLength (js "abcdefgh ijklm") ⟨⟨true, 10⟩, ⟨false, 0⟩⟩).result ≠ js "abcdefgh" ∧
    (applyMaxLength (js "abcdefghi\tjklm") ⟨⟨true, 10⟩, ⟨false, 0⟩⟩).result =
      js "abcdefghi\t" := by
  decide!

/-- C17, amended: for every text longer than an enabled character limit `value`
(the word limit being off), `applyMaxLength` takes the first `value` code units
and, if `p` is the position of the last space (U+0020) among them, returns the
first `p` code units when `p` is beyond 80% of the limit (`p > 0.8 * value`) and
the full prefix otherwise; without a space among them it returns the full
prefix. -/
theorem C17_truncation_at_last_space (text : Str) (value other : Nat)
    (h : text.length > value) :
    (∀ p, IsLastSpaceAt (text.take value) p →
      (applyMaxLength text ⟨⟨true, value⟩, ⟨false, other⟩⟩).result =
        if 4 * value < 5 * p then text.take p else text.take value) ∧
    (32 ∉ text.take value →
      (applyMaxLength text ⟨⟨true, value⟩, ⟨false, other⟩⟩).result = text.take value) := by
  have ht : text ≠ [] := by
    intro h0
    rw [h0] at h
    exact absurd h (by simp)
  have hres : (applyMaxLength text ⟨⟨true, value⟩, ⟨false, other⟩⟩).result =
      truncateAtCharacters text value := by
    unfold applyMaxLength
    rw [if_neg ht]
    simp only [Bool.true_eq_false, false_and, if_false, wordStage_disabled]
    unfold characterStage
    simp [h]
  rw [hres]
  unfold truncateAtCharacters substring0
  constructor
  · intro p hp
    have hlt := isLastSpaceAt_lt _ _ hp
    rw [List.length_take] at hlt
    dsimp only
    rw [(lastIndexOfSpace_spec _).1 p hp]
    dsimp only
    split
    · rw [List.take_take, Nat.min_eq_left (by omega)]
    · rfl
  · intro hn
    dsimp only
    rw [(lastIndexOfSpace_spec _).2 hn]

/-- C17, amended, at an input: under a limit of 10 the last space of
`abcdefghi jklm` is at position 9, beyond 80% of the limit, and the text is cut
there. -/
theorem C17_truncation_at_last_space_witness :
    (js "abcdefghi jklm").length > 10 ∧
    IsLastSpaceAt ((js "abcdefghi jklm").take 10) 9 ∧
    (applyMaxLength (js "abcdefghi jklm") ⟨⟨true, 10⟩, ⟨false, 0⟩⟩).result = js "abcdefghi" := by
  have hlast : IsLastSpaceAt ((js "abcdefghi jklm").take 10) 9 := by
    refine ⟨by decide!, fun q hq => ?_⟩
    rw [List.getElem?_eq_none (by
      have : ((js "abcdefghi jklm").take 10).length = 10 := by decide!
      omega)]
    simp
  have h := (C17_truncation_at_last_space (js "abcdefghi jklm") 10 0 (by decide!)).1 9 hlast
  refine ⟨by decide!, hlast, ?_⟩
  rw [h]
  decide!

/-! ### Length rule of the word-preservation check -/

theorem checkWordPreservation_of_length_rule (U : Unicode) (original processed : Str)
    (pc : Option ProfanityConfig) (h : lengthRuleFires U original processed) :
    (checkWordPreservation U original processed pc).preserved = false := by
  unfold checkWordPreservation
  unfold lengthRuleFires at h
  simp only [h, and_self, if_true]

theorem checkWordPreservation_rejects_short (U : Unicode) (original processed : Str)
    (pc : Option ProfanityConfig) (hshort : (extractSpokenWords U original).length ≤ 20)
    (hrej : (checkWordPreservation U original processed pc).preserved = false) :
    spokenSignificantWords U original ≠ [] ∧
    5 * (sharedWords U original processed).length <
      3 * (spokenSignificantWords U original).length := by
  unfold checkWordPreservation at hrej
  have hlen : ¬ ((extractSpokenWords U processed).length >
      (extractSpokenWords U original).length * 2 ∧ (extractSpokenWords U original).length > 20) :=
    fun hh => absurd hh.2 (by omega)
  simp only [hlen, if_false] at hrej
  by_cases h0 : (getSignificantWords U (extractSpokenWords U original)).length = 0
  · simp only [h0, if_true] at hrej
    exact absurd hrej (by simp)
  · simp only [h0, if_false] at hrej
    have hne : spokenSignificantWords U original ≠ [] := fun hh =>
      h0 (by unfold spokenSignificantWords at hh; rw [hh]; rfl)
    refine ⟨hne, ?_⟩
    have hpos : 0 < (spokenSignificantWords U original).length := List.length_pos.mpr hne
    rw [← ratio_lt_iff _ _ hpos]
    split at hrej
    · rename_i hlt
      refine lt_of_le_of_lt ?_ hlt
      have hshared : (sharedWords U original processed).length =
          ((getSignificantWords U (extractSpokenWords U original)).filter fun w =>
            (getSignificantWords U (extractSpokenWords U processed)).contains w).length := by
        unfold sharedWords spokenSignificantWords
        simp only [List.contains, List.elem_eq_mem]
      rw [hshared]
      unfold spokenSignificantWords
      apply div_le_div_of_nonneg_right
      · push_cast
        have : (0 : ℚ) ≤ ((List.filter (fun w =>
            !(getSignificantWords U (extractSpokenWords U processed)).contains w &&
              (match replacementWordOf U pc with
              | some w => (getSignificantWords U (extractSpokenWords U processed)).contains w
              | none => false))
            (getSignificantWords U (extractSpokenWords U original))).length : ℚ) :=
          Nat.cast_nonneg _
        linarith
      · exact Nat.cast_nonneg _
    · exact absurd hrej (by simp)

/-- C18: for every original whose spoken form is longer than 20 code units and
every transformed text whose spoken form is more than twice as long,
`checkWordPreservation` returns `preserved = false`, whatever the words and the
profanity config; and for an original whose spoken form has 20 code units or
fewer a rejection is never due to the length: it only occurs when fewer than
60% of the original's significant words are found in the transformed text. -/
theorem C18_length_rule (U : Unicode) (original processed : Str)
    (profanityConfig : Option ProfanityConfig) :
    ((extractSpokenWords U original).length > 20 →
      (extractSpokenWords U processed).length > 2 * (extractSpokenWords U original).length →
      (checkWordPreservation U original processed profanityConfig).preserved = false) ∧
    ((extractSpokenWords U original).length ≤ 20 →
      (checkWordPreservation U original processed profanityConfig).preserved = false →
      spokenSignificantWords U original ≠ [] ∧
      5 * (sharedWords U original processed).length <
        3 * (spokenSignificantWords U original).length) :=
  ⟨fun h1 h2 => checkWordPreservation_of_length_rule U original processed profanityConfig
      ⟨by omega, h1⟩,
   fun h1 h2 => checkWordPreservation_rejects_short U original processed profanityConfig h1 h2⟩

/-- C18 at an input: an original whose spoken form, its tag aside, is longer
than 20 code units, and a transformed text that repeats it three times, every
word kept. -/
theorem C18_length_rule_witness :
    (extractSpokenWords asciiUnicode (js "[excited] the quick brown fox jumps over the dog")).length
      > 20 ∧
    (extractSpokenWords asciiUnicode (js ("the quick brown fox jumps over the dog " ++
      "the quick brown fox jumps over the dog the quick brown fox jumps over the dog"))).length >
      2 * (extractSpokenWords asciiUnicode
        (js "[excited] the quick brown fox jumps over the dog")).length ∧
    (checkWordPreservation asciiUnicode (js "[excited] the quick brown fox jumps over the dog")
      (js ("the quick brown fox jumps over the dog " ++
        "the quick brown fox jumps over the dog the quick brown fox jumps over the dog"))
      none).preserved = false :=
  ⟨by decide!, by decide!,
   (C18_length_rule asciiUnicode (js "[excited] the quick brown fox jumps over the dog")
      (js ("the quick brown fox jumps over the dog " ++
        "the quick brown fox jumps over the dog the quick brown fox jumps over the dog"))
      none).1 (by decide!) (by decide!)⟩

/-! ### The spam directive and the word-preservation check -/

/-- C19, as stated: a rejected voice output is not always replaced by the
original text. With emotion enhancement on and no spam marker in the input, the
rewrite of "good morning friends" is rejected and the text returned is the
original behind the tag `[neutral]`. -/
theorem C19_rejected_output_gets_neutral_tag :
    includes (js "good morning friends") spamMarker = false ∧
    (checkWordPreservation asciiUnicode (js "good morning friends") (js "goodbye everyone")
      none).preserved = false ∧
    (processWithGPTParallel asciiUnicode (js "good morning friends") true (voiceOnlyConfig true)
      rewritingProvider).text = some (js "[neutral] good morning friends") := by
  decide!

/-- C19, amended: when no classifier blocks, `processWithGPTParallel` hands the
voice task's output to the tag post-processing without the word-preservation
check exactly when the input holds the marker `**Spam detected:`. For an input
without the marker the output is handed on when it passes the check, and when
it fails the check the text handed on is the input, behind the tag `[neutral]`
when emotion enhancement is on. -/
theorem C19_spam_marker_skips_check (U : Unicode) (text : Str) (config : GPTConfig)
    (tasks : List (TaskLabel × GPTCallResult))
    (hblocked : (aggregateResults U tasks).blocked = false) :
    (includes text spamMarker = true →
      (finishParallel U text config tasks).text =
        some (postProcessEmotionTags U (voiceTextOr U text tasks)).result) ∧
    (includes text spamMarker = false →
      (checkWordPreservation U text (voiceTextOr U text tasks)
        config.moderationConfig.rules.profanity).preserved = true →
      (finishParallel U text config tasks).text =
        some (postProcessEmotionTags U (voiceTextOr U text tasks)).result) ∧
    (includes text spamMarker = false →
      (checkWordPreservation U text (voiceTextOr U text tasks)
        config.moderationConfig.rules.profanity).preserved = false →
      (finishParallel U text config tasks).text =
        some (postProcessEmotionTags U (rejectionFallback text config)).result) := by
  have key : ∀ v : Str,
      (includes text spamMarker = true →
        (postProcessEmotionTags U
          (if (!includes text (js "**Spam detected:") &&
              !(if includes text (js "**Spam detected:") = true then (⟨true, 1⟩ : Preservation)
                else checkWordPreservation U text v
                  config.moderationConfig.rules.profanity).preserved) = true
            then (if config.emotionEnhancement = true then js "[neutral] " ++ text else text)
            else v)).result = (postProcessEmotionTags U v).result) ∧
      (includes text spamMarker = false →
        (checkWordPreservation U text v config.moderationConfig.rules.profanity).preserved = true →
        (postProcessEmotionTags U
          (if (!includes text (js "**Spam detected:") &&
              !(if includes text (js "**Spam detected:") = true then (⟨true, 1⟩ : Preservation)
                else checkWordPreservation U text v
                  config.moderationConfig.rules.profanity).preserved) = true
            then (if config.emotionEnhancement = true then js "[neutral] " ++ text else text)
            else v)).result = (postProcessEmotionTags U v).result) ∧
      (includes text spamMarker = false →
        (checkWordPreservation U text v config.moderationConfig.rules.profanity).preserved = false →
        (postProcessEmotionTags U
          (if (!includes text (js "**Spam detected:") &&
              !(if includes text (js "**Spam detected:") = true then (⟨true, 1⟩ : Preservation)
                else checkWordPreservation U text v
                  config.moderationConfig.rules.profanity).preserved) = true
            then (if config.emotionEnhancement = true then js "[neutral] " ++ text else text)
            else v)).result = (postProcessEmotionTags U (rejectionFallback text config)).result) := by
    intro v
    unfold spamMarker rejectionFallback
    refine ⟨fun h => ?_, fun h hp => ?_, fun h hp => ?_⟩
    · simp only [h, if_true, Bool.not_true, Bool.false_and, Bool.false_eq_true, if_false]
    · simp only [h, Bool.false_eq_true, if_false, Bool.not_false, Bool.true_and, hp,
        Bool.not_true]
    · simp only [h, Bool.false_eq_true, if_false, Bool.not_false, Bool.true_and, hp, if_true]
  have hv := key (voiceTextOr U text tasks)
  have htext : ∀ x, (finishParallel U text config tasks).text = some x ↔
      (postProcessEmotionTags U
          (if (!includes text (js "**Spam detected:") &&
              !(if includes text (js "**Spam detected:") = true then (⟨true, 1⟩ : Preservation)
                else checkWordPreservation U text (voiceTextOr U text tasks)
                  config.moderationConfig.rules.profanity).preserved) = true
            then (if config.emotionEnhancement = true then js "[neutral] " ++ text else text)
            else voiceTextOr U text tasks)).result = x := by
    intro x
    unfold finishParallel
    simp only [hblocked, Bool.false_eq_true, if_false, Option.some.injEq]
    rfl
  exact ⟨fun h => (htext _).mpr (hv.1 h), fun h hp => (htext _).mpr (hv.2.1 h hp),
    fun h hp => (htext _).mpr (hv.2.2 h hp)⟩

/-- C19, amended, at an input: a rewrite of an input that holds the marker is
handed on, though it would fail the check. -/
theorem C19_spam_marker_skips_check_witness :
    (aggregateResults asciiUnicode [(TaskLabel.voice, answered "what a wall of numbers")]).blocked
      = false ∧
    includes (js "1234 **Spam detected: digits**") spamMarker = true ∧
    (checkWordPreservation asciiUnicode (js "1234 **Spam detected: digits**")
      (js "what a wall of numbers") none).preserved = false ∧
    (finishParallel asciiUnicode (js "1234 **Spam detected: digits**") (voiceOnlyConfig true)
      [(TaskLabel.voice, answered "what a wall of numbers")]).text =
      some (js "what a wall of numbers") := by
  have h := (C19_spam_marker_skips_check asciiUnicode (js "1234 **Spam detected: digits**")
    (voiceOnlyConfig true) [(TaskLabel.voice, answered "what a wall of numbers")]
    (by decide!)).1 (by decide!)
  refine ⟨by decide!, by decide!, by decide!, ?_⟩
  rw [h]
  decide!

/-! ### Automatic block -/

theorem sendRefundAction_snd (s : State) (id : Nat) :
    (sendRefundAction s id).2 = canRefund s id := by
  unfold sendRefundAction canRefund
  split
  · rename_i h
    simp [h.1, h.2]
  · rename_i h
    cases h1 : s.settings.refundChannel <;> cases h2 : (s.item id).refundable <;> simp_all

theorem sendRefundAction_log_eq (s : State) (id : Nat) :
    (sendRefundAction s id).1.log =
      s.log ++ if canRefund s id = true then [Effect.refund id] else [] := by
  rw [sendRefundAction_fst]
  unfold canRefund
  split
  · rename_i h
    simp [h.1, h.2]
  · rename_i h
    cases h1 : s.settings.refundChannel <;> cases h2 : (s.item id).refundable <;> simp_all

theorem startItem_log_refunds (s : State) (id : Nat) :
    ∃ l, (startItem s id).log = s.log ++ l ∧ historyEntries l = [] ∧ refundsSent l = [] := by
  unfold startItem
  dsimp only
  split
  · split
    · exact ⟨[Effect.show id, Effect.audioPlay id], by simp [State.setStatus], rfl, rfl⟩
    · exact ⟨[Effect.audioPlay id], by simp [State.setStatus], rfl, rfl⟩
  · exact ⟨[], by simp [State.setStatus], rfl, rfl⟩

theorem processQueue_log_refunds (s : State) :
    ∃ l, (processQueue s).log = s.log ++ l ∧ historyEntries l = [] ∧ refundsSent l = [] := by
  rcases processQueue_cases s with h | ⟨id, _, _, _, _, h⟩
  · rw [h]
    exact ⟨[], by simp, rfl, rfl⟩
  · rw [h]
    exact startItem_log_refunds s id

theorem refundsSent_append (l₁ l₂ : List Effect) :
    refundsSent (l₁ ++ l₂) = refundsSent l₁ ++ refundsSent l₂ := by
  unfold refundsSent
  rw [List.filterMap_append]

theorem processQueue_start (s : State) (id : Nat) (hproc : s.isProcessing = false)
    (hpaused : s.isPaused = false)
    (hfind : (s.ttsQueue.find? fun i => (s.item i).status = Status.queued) = some id) :
    processQueue s = startItem s id := by
  unfold processQueue
  have hne : ¬ s.ttsQueue.length = 0 := by
    intro h0
    rw [List.length_eq_zero.mp h0] at hfind
    simp at hfind
  rw [if_neg (by simp [hproc, hne]), if_neg (by simp [hpaused]), hfind]

theorem autoBlock_run (t : State) (id : Nat) (reason : Str)
    (hp : Cont.afterGPT id ∈ t.pending) (hm : t.settings.manualModerationEnabled = false) :
    ∃ t', step t (Event.gptDone id (some reason)) = processQueue t' ∧
      t'.isProcessing = false ∧ t'.ttsQueue = t.ttsQueue.erase id ∧
      t'.item id = { t.item id with blockReason := some reason, status := Status.blocked,
                                    refunded := canRefund t id } ∧
      t'.log = t.log ++ (if canRefund t id = true then [Effect.refund id] else []) ++
        [Effect.history (createHistoryEntry id
          { t.item id with blockReason := some reason, status := Status.blocked,
                           refunded := canRefund t id }
          HistoryStatus.blocked (some reason))] := by
  rw [step_gptDone, if_pos hp]
  unfold resumeAfterGPT
  simp only [State.setStatus, setItem_settings, settle_settings, hm, Bool.false_eq_true, if_false]
  refine ⟨_, rfl, rfl, ?_, ?_, ?_⟩
  · simp
  · simp [sendRefundAction_snd, canRefund]
  · simp [sendRefundAction_snd, sendRefundAction_log_eq, canRefund]

theorem startItem_normal_pending (s : State) (id : Nat) (hsrc : (s.item id).source = Source.normal)
    (hgpt : s.settings.gptStage = true) : Cont.afterGPT id ∈ (startItem s id).pending := by
  unfold startItem
  simp [State.setStatus, hsrc, hgpt]

/-- C20: a queued normal item that `processQueue` picks turns `processing` and
the run waits for the moderation stage; when that stage settles as blocked while
manual moderation is off, the item is `blocked` and leaves the work list, exactly
one History Entry is added for it, with status `blocked`, the block reason, and
in its `refunded` flag the outcome of the one call of `sendRefundAction` (a
refund request is sent exactly when that outcome is true); `isProcessing` is
reset and `processQueue` is called again on the remaining list. -/
theorem C20_automatic_block (s t : State) (id : Nat) (reason : Str) :
    (s.isProcessing = false → s.isPaused = false →
      (s.ttsQueue.find? fun i => (s.item i).status = Status.queued) = some id →
      (s.item id).source = Source.normal → s.settings.gptStage = true →
      (s.item id).status = Status.queued ∧
      ((processQueue s).item id).status = Status.processing ∧
      (processQueue s).isProcessing = true ∧ (processQueue s).currentTtsId = some id ∧
      Cont.afterGPT id ∈ (processQueue s).pending) ∧
    (Cont.afterGPT id ∈ t.pending → t.settings.manualModerationEnabled = false →
      ((step t (Event.gptDone id (some reason))).item id).status = Status.blocked ∧
      (step t (Event.gptDone id (some reason))).ttsQueue = t.ttsQueue.erase id ∧
      (∃ e, historyAdded t (step t (Event.gptDone id (some reason))) = [e] ∧ e.id = id ∧
        e.status = HistoryStatus.blocked ∧ e.blockReason = some reason ∧
        e.refunded = canRefund t id) ∧
      refundsAdded t (step t (Event.gptDone id (some reason))) =
        (if canRefund t id = true then [id] else []) ∧
      ∃ t', t'.isProcessing = false ∧ t'.ttsQueue = t.ttsQueue.erase id ∧
        step t (Event.gptDone id (some reason)) = processQueue t') := by
  constructor
  · intro hproc hpaused hfind hsrc hgpt
    have hq : (s.item id).status = Status.queued := by
      have := List.find?_some hfind
      simpa using this
    rw [processQueue_start s id hproc hpaused hfind]
    refine ⟨hq, ?_, startItem_isProcessing s id, startItem_currentTtsId s id,
      startItem_normal_pending s id hsrc hgpt⟩
    rw [startItem_item, if_pos rfl]
    simp [hsrc]
  · intro hp hm
    obtain ⟨t', hstep, hproc, hqueue, hitem, hlog⟩ := autoBlock_run t id reason hp hm
    rw [hstep]
    obtain ⟨l, hl, hh, hr⟩ := processQueue_log_refunds t'
    refine ⟨?_, ?_, ?_, ?_, t', hproc, hqueue, rfl⟩
    · rw [processQueue_item_of_not_queued t' id (by rw [hitem]; simp), hitem]
    · rw [processQueue_ttsQueue, hqueue]
    · refine ⟨createHistoryEntry id
        { t.item id with blockReason := some reason, status := Status.blocked,
                         refunded := canRefund t id }
        HistoryStatus.blocked (some reason), ?_, rfl, rfl, rfl, rfl⟩
      rw [historyAdded_of_log t _ _ (by rw [hl, hlog, List.append_assoc, List.append_assoc])]
      rw [historyEntries_append, historyEntries_append, hh]
      split <;> rfl
    · unfold refundsAdded
      rw [hl, hlog, List.append_assoc, List.append_assoc, List.drop_left,
        refundsSent_append, refundsSent_append, hr]
      split <;> rfl

/-- C20 at an input: two refundable requests under automatic blocking; the first
is blocked, refunded and removed with one entry, and the second is started. -/
theorem C20_automatic_block_witness :
    Cont.afterGPT 0 ∈
      (run (State.empty autoSettings) [Event.enqueue true, Event.enqueue true]).pending ∧
    (step (run (State.empty autoSettings) [Event.enqueue true, Event.enqueue true])
      (Event.gptDone 0 (some (js "HATE SPEECH - slur")))).ttsQueue = [1] ∧
    ((step (run (State.empty autoSettings) [Event.enqueue true, Event.enqueue true])
      (Event.gptDone 0 (some (js "HATE SPEECH - slur")))).item 1).status = Status.processing ∧
    refundsAdded (run (State.empty autoSettings) [Event.enqueue true, Event.enqueue true])
      (step (run (State.empty autoSettings) [Event.enqueue true, Event.enqueue true])
        (Event.gptDone 0 (some (js "HATE SPEECH - slur")))) = [0] := by
  have h := (C20_automatic_block (State.empty autoSettings)
    (run (State.empty autoSettings) [Event.enqueue true, Event.enqueue true]) 0
    (js "HATE SPEECH - slur")).2 (by decide!) (by decide!)
  refine ⟨by decide!, by decide!, by decide!, ?_⟩
  rw [h.2.2.2.1]
  decide!

/-! ### Digit runs -/

theorem replaceAllAux_nil (m : Option Nat → Str → Option (Nat × Str)) (skip : Nat)
    (prev : Option Nat) : replaceAllAux m skip prev [] = [] := by
  cases skip <;> rfl

theorem replaceAllAux_succ (m : Option Nat → Str → Option (Nat × Str)) (skip : Nat)
    (prev : Option Nat) (c : Nat) (cs : Str) :
    replaceAllAux m (skip + 1) prev (c :: cs) = replaceAllAux m skip (some c) cs := rfl

theorem replaceAllAux_zero_none (m : Option Nat → Str → Option (Nat × Str))
    (prev : Option Nat) (c : Nat) (cs : Str) (h : m prev (c :: cs) = none) :
    replaceAllAux m 0 prev (c :: cs) = c :: replaceAllAux m 0 (some c) cs := by
  conv => lhs; unfold replaceAllAux
  rw [h]

theorem replaceAllAux_zero_some (m : Option Nat → Str → Option (Nat × Str))
    (prev : Option Nat) (c : Nat) (cs : Str) (n : Nat) (r : Str)
    (h : m prev (c :: cs) = some (n + 1, r)) :
    replaceAllAux m 0 prev (c :: cs) = r ++ replaceAllAux m n (some c) cs := by
  conv => lhs; unfold replaceAllAux
  rw [h]

theorem collapseDigitRunsAux_nil (run : Str) :
    collapseDigitRunsAux run [] = collapseDigitRun run := rfl

theorem collapseDigitRunsAux_cons (run : Str) (c : Nat) (cs : Str) :
    collapseDigitRunsAux run (c :: cs) =
      if isDigit c then collapseDigitRunsAux (run ++ [c]) cs
      else collapseDigitRun run ++ c :: collapseDigitRunsAux [] cs := rfl

theorem collapseDigitRun_nil : collapseDigitRun [] = [] := rfl

theorem replaceAllAux_skip (m : Option Nat → Str → Option (Nat × Str)) (xs : Str) :
    ∀ (rest : Str) (prev : Option Nat),
      ∃ prev', replaceAllAux m xs.length prev (xs ++ rest) = replaceAllAux m 0 prev' rest := by
  induction xs with
  | nil => intro rest prev; exact ⟨prev, rfl⟩
  | cons x xs ih =>
    intro rest prev
    obtain ⟨prev', h⟩ := ih rest (some x)
    exact ⟨prev', by rw [List.length_cons, List.cons_append, replaceAllAux_succ]; exact h⟩

theorem dropWhile_head (p : Nat → Bool) (l : Str) :
    l.dropWhile p = [] ∨ ∃ x xs, l.dropWhile p = x :: xs ∧ p x = false := by
  induction l with
  | nil => exact Or.inl rfl
  | cons a as ih =>
    cases ha : p a with
    | true => rw [List.dropWhile_cons_of_pos ha]; exact ih
    | false => exact Or.inr ⟨a, as, by rw [List.dropWhile_cons_of_neg (by simp [ha])], ha⟩

theorem takeWhile_append_of_head (p : Nat → Bool) (d rest : Str) (hd : ∀ x ∈ d, p x = true)
    (hrest : rest = [] ∨ ∃ x xs, rest = x :: xs ∧ p x = false) :
    (d ++ rest).takeWhile p = d := by
  induction d with
  | nil =>
    rcases hrest with h | ⟨x, xs, h, hx⟩
    · rw [h]; rfl
    · rw [h, List.nil_append, List.takeWhile_cons_of_neg (by simp [hx])]
  | cons a as ih =>
    rw [List.cons_append, List.takeWhile_cons_of_pos (hd a (List.mem_cons_self _ _)),
      ih (fun x hx => hd x (List.mem_cons_of_mem _ hx))]

theorem collapseDigitRunsAux_run (d : Str) (hd : ∀ x ∈ d, isDigit x = true) :
    ∀ (run rest : Str), (rest = [] ∨ ∃ x xs, rest = x :: xs ∧ isDigit x = false) →
      collapseDigitRunsAux run (d ++ rest) =
        collapseDigitRun (run ++ d) ++ collapseDigitRunsAux [] rest := by
  induction d with
  | nil =>
    intro run rest hrest
    rw [List.nil_append, List.append_nil]
    rcases hrest with h | ⟨x, xs, h, hx⟩
    · rw [h, collapseDigitRunsAux_nil, collapseDigitRunsAux_nil, collapseDigitRun_nil,
        List.append_nil]
    · rw [h, collapseDigitRunsAux_cons, collapseDigitRunsAux_cons, hx, collapseDigitRun_nil]
      rfl
  | cons a as ih =>
    intro run rest hrest
    rw [List.cons_append, collapseDigitRunsAux_cons, if_pos (hd a (List.mem_cons_self _ _)),
      ih (fun x hx => hd x (List.mem_cons_of_mem _ hx)) (run ++ [a]) rest hrest,
      List.append_assoc, List.singleton_append]

theorem matchDigitRun_long (prev : Option Nat) (d rest : Str) (hd : ∀ x ∈ d, isDigit x = true)
    (hrest : rest = [] ∨ ∃ x xs, rest = x :: xs ∧ isDigit x = false) (hlen : d.length ≥ 10) :
    matchDigitRun prev (d ++ rest) = some (d.length, collapseDigitRun d) := by
  unfold matchDigitRun collapseDigitRun digitRunPhrase substring0
  rw [takeWhile_append_of_head isDigit d rest hd hrest]
  simp only [hlen, if_true]
  have e1 : js "... an absurdly long number" = js "... " ++ js "an absurdly long number" := by
    decide!
  have e2 : js "... a very long number" = js "... " ++ js "a very long number" := by decide!
  have e3 : js "... a long number" = js "... " ++ js "a long number" := by decide!
  split
  · rw [e1, List.append_assoc]
  · split
    · rw [e2, List.append_assoc]
    · rw [e3, List.append_assoc]

theorem matchDigitRun_short (prev : Option Nat) (d rest : Str) (hd : ∀ x ∈ d, isDigit x = true)
    (hrest : rest = [] ∨ ∃ x xs, rest = x :: xs ∧ isDigit x = false) (hlen : d.length < 10) :
    matchDigitRun prev (d ++ rest) = none := by
  unfold matchDigitRun
  rw [takeWhile_append_of_head isDigit d rest hd hrest]
  simp only [ge_iff_le, Nat.not_le.mpr hlen, if_false]

theorem replaceAllAux_digits_short (d : Str) :
    ∀ (rest : Str) (prev : Option Nat), (∀ x ∈ d, isDigit x = true) →
      (rest = [] ∨ ∃ x xs, rest = x :: xs ∧ isDigit x = false) → d.length < 10 →
      ∃ prev', replaceAllAux matchDigitRun 0 prev (d ++ rest) =
        d ++ replaceAllAux matchDigitRun 0 prev' rest := by
  induction d with
  | nil => intro rest prev _ _ _; exact ⟨prev, rfl⟩
  | cons a as ih =>
    intro rest prev hd hrest hlen
    have hnone := matchDigitRun_short prev (a :: as) rest hd hrest hlen
    obtain ⟨prev', h⟩ := ih rest (some a) (fun x hx => hd x (List.mem_cons_of_mem _ hx)) hrest
      (by rw [List.length_cons] at hlen; omega)
    refine ⟨prev', ?_⟩
    rw [List.cons_append] at hnone ⊢
    rw [replaceAllAux_zero_none _ _ _ _ hnone, h, List.cons_append]

theorem replaceAllAux_matchDigitRun (n : Nat) :
    ∀ (t : Str), t.length ≤ n → ∀ prev : Option Nat,
      replaceAllAux matchDigitRun 0 prev t = collapseDigitRunsAux [] t := by
  induction n with
  | zero =>
    intro t ht prev
    have : t = [] := List.length_eq_zero.mp (by omega)
    subst this
    rfl
  | succ n ih =>
    intro t ht prev
    cases t with
    | nil => rfl
    | cons c cs =>
      cases hc : isDigit c with
      | false =>
        have hnone : matchDigitRun prev (c :: cs) = none := by
          have := matchDigitRun_short prev [] (c :: cs) (by simp) (Or.inr ⟨c, cs, rfl, hc⟩)
            (by simp)
          simpa using this
        rw [replaceAllAux_zero_none _ _ _ _ hnone, collapseDigitRunsAux_cons, hc,
          ih cs (by rw [List.length_cons] at ht; omega), collapseDigitRun_nil]
        rfl
      | true =>
        have hsplit := List.takeWhile_append_dropWhile isDigit (c :: cs)
        have hd : ∀ x ∈ (c :: cs).takeWhile isDigit, isDigit x = true :=
          fun x hx => List.mem_takeWhile_imp hx
        have hrest := dropWhile_head isDigit (c :: cs)
        have hlenrest : ((c :: cs).dropWhile isDigit).length ≤ n := by
          have h1 : ((c :: cs).takeWhile isDigit).length + ((c :: cs).dropWhile isDigit).length =
              (c :: cs).length := by rw [← List.length_append, hsplit]
          have h2 : 0 < ((c :: cs).takeWhile isDigit).length := by
            rw [List.takeWhile_cons_of_pos hc]; simp
          rw [List.length_cons] at h1 ht
          omega
        have hspec := collapseDigitRunsAux_run _ hd [] _ hrest
        rw [hsplit, List.nil_append] at hspec
        rw [hspec]
        by_cases hlong : ((c :: cs).takeWhile isDigit).length ≥ 10
        · have hm := matchDigitRun_long prev _ _ hd hrest hlong
          rw [hsplit] at hm
          have hk : ((c :: cs).takeWhile isDigit).length = (cs.takeWhile isDigit).length + 1 := by
            rw [List.takeWhile_cons_of_pos hc, List.length_cons]
          rw [hk] at hm
          rw [replaceAllAux_zero_some _ _ _ _ _ _ hm]
          obtain ⟨prev', hskip⟩ := replaceAllAux_skip matchDigitRun (cs.takeWhile isDigit)
            ((c :: cs).dropWhile isDigit) (some c)
          have hcs : cs.takeWhile isDigit ++ (c :: cs).dropWhile isDigit = cs := by
            rw [List.dropWhile_cons_of_pos hc]
            exact List.takeWhile_append_dropWhile isDigit cs
          rw [hcs] at hskip
          rw [hskip, ih _ hlenrest]
        · obtain ⟨prev', hshort⟩ := replaceAllAux_digits_short _ _ prev hd hrest (by omega)
          rw [hsplit] at hshort
          rw [hshort, ih _ hlenrest]
          unfold collapseDigitRun
          rw [if_neg hlong]

theorem replaceAll_matchDigitRun (text : Str) :
    replaceAll matchDigitRun text = collapseDigitRuns text :=
  replaceAllAux_matchDigitRun text.length text (le_refl _) none

theorem isWordChar_of_isDigit (c : Nat) (h : isDigit c = true) : isWordChar c = true := by
  unfold isWordChar
  simp [h]

theorem isSpace_of_isWordChar (c : Nat) (h : isWordChar c = true) : isSpace c = false := by
  unfold isWordChar isDigit at h
  unfold isSpace
  simp only [Bool.or_eq_true, Bool.and_eq_true, decide_eq_true_eq, beq_iff_eq] at h
  simp only [Bool.or_eq_false_iff, Bool.and_eq_false_iff, decide_eq_false_iff_not, beq_eq_false_iff_ne]
  omega

theorem matchWordRepeat_of_prev_word (c : Nat) (s : Str) (h : isWordChar c = true) :
    matchWordRepeat (some c) s = none := by
  unfold matchWordRepeat
  simp [h]

theorem matchWordRepeat_of_head (prev : Option Nat) (c : Nat) (cs : Str)
    (h : isWordChar c = false) : matchWordRepeat prev (c :: cs) = none := by
  unfold matchWordRepeat
  simp [List.takeWhile_cons, h]

theorem matchWordRepeat_nil (prev : Option Nat) : matchWordRepeat prev [] = none := by
  unfold matchWordRepeat
  simp

theorem rewritesAux_zero_none (m : Option Nat → Str → Option (Nat × Str))
    (prev : Option Nat) (c : Nat) (cs : Str) (h : m prev (c :: cs) = none) :
    rewritesAux m 0 prev (c :: cs) = rewritesAux m 0 (some c) cs := by
  conv => lhs; unfold rewritesAux
  rw [h]

theorem wordRepeats_of_head (word : Str) (fuel : Nat) (c : Nat) (cs : Str)
    (h : isSpace c = false) : wordRepeats word fuel (c :: cs) = [] := by
  cases fuel with
  | zero => rfl
  | succ k =>
    unfold wordRepeats
    simp [List.takeWhile_cons, h]

theorem wordRepeats_nil (word : Str) (fuel : Nat) : wordRepeats word fuel [] = [] := by
  cases fuel with
  | zero => rfl
  | succ k =>
    unfold wordRepeats
    simp

theorem matchWordRepeat_no_repeat (prev : Option Nat) (word rest : Str)
    (hword : ∀ x ∈ word, isWordChar x = true)
    (hrest : ∃ c cs, rest = c :: cs ∧ isWordChar c = false ∧ isSpace c = false) :
    matchWordRepeat prev (word ++ rest) = none := by
  obtain ⟨c, cs, hr, hc, hs⟩ := hrest
  have htw : (word ++ rest).takeWhile isWordChar = word :=
    takeWhile_append_of_head isWordChar word rest hword (Or.inr ⟨c, cs, hr, hc⟩)
  unfold matchWordRepeat
  simp only [htw, List.drop_left]
  rw [hr, wordRepeats_of_head _ _ _ _ hs]
  simp

theorem collapseSpacesAux_cons_of_not_space (inRun : Bool) (c : Nat) (cs : Str)
    (h : isSpace c = false) :
    collapseSpacesAux inRun (c :: cs) = c :: collapseSpacesAux false cs := by
  conv => lhs; unfold collapseSpacesAux
  rw [h]
  rfl

theorem collapseRepetition_of_long_digits (d : Str) (hlen : d.length = 35)
    (hd : ∀ c ∈ d, isDigit c = true) :
    collapseRepetition d = d.take 3 ++ js "... an absurdly long number" := by
  have hne : d ≠ [] := by
    intro h0
    rw [h0] at hlen
    exact absurd hlen (by simp)
  have hdigits : replaceAll matchDigitRun d = d.take 3 ++ js "... an absurdly long number" := by
    rw [replaceAll_matchDigitRun]
    unfold collapseDigitRuns
    have := collapseDigitRunsAux_run d hd [] [] (Or.inl rfl)
    rw [List.append_nil, List.nil_append] at this
    rw [this, collapseDigitRunsAux_nil, collapseDigitRun_nil, List.append_nil]
    unfold collapseDigitRun digitRunPhrase
    rw [if_pos (by omega), if_pos (by omega), List.append_assoc]
    have e1 : js "... " ++ js "an absurdly long number" = js "... an absurdly long number" := by
      decide!
    rw [e1]
  unfold collapseRepetition
  rw [if_neg hne, hdigits]
  obtain ⟨a, b, c, rest, hd3⟩ : ∃ a b c rest, d = a :: b :: c :: rest := by
    match d, hlen with
    | a :: b :: c :: rest, _ => exact ⟨a, b, c, rest, rfl⟩
  have ha : isWordChar a = true := isWordChar_of_isDigit a (hd a (by rw [hd3]; simp))
  have hb : isWordChar b = true := isWordChar_of_isDigit b (hd b (by rw [hd3]; simp))
  have hc : isWordChar c = true := isWordChar_of_isDigit c (hd c (by rw [hd3]; simp))
  have htake : d.take 3 = [a, b, c] := by rw [hd3]; rfl
  rw [htake]
  have hK : js "... an absurdly long number" = 46 :: js ".. an absurdly long number" := by
    decide!
  have hword : rewrites matchWordRepeat ([a, b, c] ++ js "... an absurdly long number") = false := by
    unfold rewrites
    have h1 : matchWordRepeat none (a :: b :: c :: js "... an absurdly long number") = none :=
      matchWordRepeat_no_repeat none [a, b, c] _ (by simp [ha, hb, hc])
        ⟨46, js ".. an absurdly long number", hK, by decide, by decide⟩
    rw [show [a, b, c] ++ js "... an absurdly long number" =
        a :: b :: c :: js "... an absurdly long number" from rfl]
    rw [rewritesAux_zero_none _ _ _ _ h1,
      rewritesAux_zero_none _ _ _ _ (matchWordRepeat_of_prev_word a _ ha),
      rewritesAux_zero_none _ _ _ _ (matchWordRepeat_of_prev_word b _ hb), hK,
      rewritesAux_zero_none _ _ _ _ (matchWordRepeat_of_head _ 46 _ (by decide))]
    decide!
  rw [replaceAll_of_no_rewrite _ _ hword]
  unfold normalizeSpaces collapseSpaces
  have hsa : isSpace a = false := isSpace_of_isWordChar a ha
  have hsb : isSpace b = false := isSpace_of_isWordChar b hb
  have hsc : isSpace c = false := isSpace_of_isWordChar c hc
  have hcol : collapseSpacesAux false ([a, b, c] ++ js "... an absurdly long number") =
      [a, b, c] ++ js "... an absurdly long number" := by
    rw [show [a, b, c] ++ js "... an absurdly long number" =
        a :: b :: c :: js "... an absurdly long number" from rfl]
    have hk : collapseSpacesAux false (js "... an absurdly long number") =
        js "... an absurdly long number" := by decide!
    rw [collapseSpacesAux_cons_of_not_space _ _ _ hsa, collapseSpacesAux_cons_of_not_space _ _ _ hsb,
      collapseSpacesAux_cons_of_not_space _ _ _ hsc, hk]
  rw [hcol, trim_eq]
  rw [show [a, b, c] ++ js "... an absurdly long number" =
        a :: b :: c :: js "... an absurdly long number" from rfl]
  rw [List.dropWhile_cons_of_neg (by simp [hsa])]
  have hlast : js "... an absurdly long number" = js "... an absurdly long numbe" ++ [114] := by
    decide!
  rw [hlast, ← List.cons_append, ← List.cons_append, ← List.cons_append,
    List.rdropWhile_concat_neg _ _ _ (by decide)]

/-- C14, as stated: digit runs shorter than ten are not always left unchanged
by `collapseRepetition`. The digit rule leaves `7 7 7 7 7 7` as it is, and the
word-repeat rule, which runs next, turns it into `7, times 6`. -/
theorem C14_short_digit_runs_repeated :
    collapseDigitRuns (js "7 7 7 7 7 7") = js "7 7 7 7 7 7" ∧
    collapseRepetition (js "7 7 7 7 7 7") = js "7, times 6" ∧
    (sanitizeInput asciiUnicode (js "7 7 7 7 7 7") sanitizeAll).result = js "7, times 6" := by
  decide!

/-- C14, amended: the first replacement of `collapseRepetition` replaces every
maximal run of `n ≥ 10` ASCII digits by its first 3 digits, `... ` and the
severity phrase (`an absurdly long number` for `n ≥ 30`, `a very long number`
for `15 ≤ n < 30`, `a long number` for `10 ≤ n < 15`) and changes nothing else;
the word-repeat rule and the whitespace normalisation run on its result, and
when no word of that result is repeated six times `collapseRepetition` returns
it with the white space normalised; every input of 35 digits gives its first 3
digits followed by `... an absurdly long number`. -/
theorem C14_digit_runs_collapsed (text : Str) :
    replaceAll matchDigitRun text = collapseDigitRuns text ∧
    (text ≠ [] → collapseRepetition text =
      normalizeSpaces (replaceAll matchWordRepeat (collapseDigitRuns text))) ∧
    (rewrites matchWordRepeat (collapseDigitRuns text) = false →
      collapseRepetition text = normalizeSpaces (collapseDigitRuns text)) ∧
    (text.length = 35 → (∀ c ∈ text, isDigit c = true) →
      collapseRepetition text = text.take 3 ++ js "... an absurdly long number") := by
  refine ⟨replaceAll_matchDigitRun text, fun h => ?_, fun h => ?_,
    collapseRepetition_of_long_digits text⟩
  · unfold collapseRepetition
    rw [if_neg h, replaceAll_matchDigitRun]
  · unfold collapseRepetition
    by_cases ht : text = []
    · rw [if_pos ht, ht]
      rfl
    · rw [if_neg ht, replaceAll_matchDigitRun, replaceAll_of_no_rewrite _ _ h]

/-- C14, amended, at inputs: a text with runs of 35, 16, 10 and 9 digits, and
the sanitizer on a run of 35 digits. -/
theorem C14_digit_runs_collapsed_witness :
    rewrites matchWordRepeat (collapseDigitRuns
      (js "call 12345678901234567890123456789012345 or 1234567890123456, id 1234567890 x 123456789"))
      = false ∧
    collapseRepetition
      (js "call 12345678901234567890123456789012345 or 1234567890123456, id 1234567890 x 123456789")
      = js ("call 123... an absurdly long number or 123... a very long number, " ++
          "id 123... a long number x 123456789") ∧
    (sanitizeInput asciiUnicode (js "98765432109876543210987654321098765") sanitizeAll).result =
      js "987... an absurdly long number" := by
  have h := (C14_digit_runs_collapsed
    (js "call 12345678901234567890123456789012345 or 1234567890123456, id 1234567890 x 123456789")
    ).2.2.1 (by decide!)
  refine ⟨by decide!, ?_, by decide!⟩
  rw [h]
  decide!

/-! ### Whitespace normalisation as words joined by spaces -/

theorem splitWordsAux_nil (cur : Str) :
    splitWordsAux cur [] = if cur = [] then [] else [cur] := rfl

theorem splitWordsAux_cons (cur : Str) (c : Nat) (cs : Str) :
    splitWordsAux cur (c :: cs) =
      if isSpace c then (if cur = [] then splitWordsAux [] cs else cur :: splitWordsAux [] cs)
      else splitWordsAux (cur ++ [c]) cs := rfl

theorem splitWordsAux_cons_space (cur : Str) (c : Nat) (cs : Str) (h : isSpace c = true) :
    splitWordsAux cur (c :: cs) =
      if cur = [] then splitWordsAux [] cs else cur :: splitWordsAux [] cs := by
  rw [splitWordsAux_cons, if_pos h]

theorem splitWordsAux_cons_word (cur : Str) (c : Nat) (cs : Str) (h : isSpace c = false) :
    splitWordsAux cur (c :: cs) = splitWordsAux (cur ++ [c]) cs := by
  rw [splitWordsAux_cons, if_neg (by simp [h])]

theorem collapseSpacesAux_cons_of_space (inRun : Bool) (c : Nat) (cs : Str)
    (h : isSpace c = true) :
    collapseSpacesAux inRun (c :: cs) =
      if inRun then collapseSpacesAux true cs else 32 :: collapseSpacesAux true cs := by
  conv => lhs; unfold collapseSpacesAux
  rw [if_pos h]

theorem splitWordsAux_ne_nil (s : Str) : ∀ cur : Str, cur ≠ [] → splitWordsAux cur s ≠ [] := by
  induction s with
  | nil => intro cur h; rw [splitWordsAux_nil, if_neg h]; simp
  | cons c cs ih =>
    intro cur h
    cases hc : isSpace c with
    | true => rw [splitWordsAux_cons_space _ _ _ hc, if_neg h]; simp
    | false => rw [splitWordsAux_cons_word _ _ _ hc]; exact ih _ (by simp)

theorem dropWhile_collapseSpacesAux (s : Str) :
    ∀ b : Bool, (collapseSpacesAux b s).dropWhile isSpace = collapseSpacesAux true s := by
  induction s with
  | nil => intro b; rfl
  | cons c cs ih =>
    intro b
    cases hc : isSpace c with
    | true =>
      rw [collapseSpacesAux_cons_of_space _ _ _ hc, collapseSpacesAux_cons_of_space _ _ _ hc,
        if_pos rfl]
      cases b with
      | true => rw [if_pos rfl]; exact ih true
      | false =>
        rw [if_neg (by decide), List.dropWhile_cons_of_pos (by decide)]
        exact ih true
    | false =>
      rw [collapseSpacesAux_cons_of_not_space _ _ _ hc,
        collapseSpacesAux_cons_of_not_space _ _ _ hc,
        List.dropWhile_cons_of_neg (by simp [hc])]

theorem collapseSpacesAux_eq_joinSpace (s : Str) :
    (∀ cur : Str, cur ≠ [] → ∃ ts : Str, (ts = [] ∨ ts = [32]) ∧
      cur ++ collapseSpacesAux false s = joinSpace (splitWordsAux cur s) ++ ts) ∧
    (∃ ts : Str, (ts = [] ∨ ts = [32]) ∧
      collapseSpacesAux true s = joinSpace (splitWordsAux [] s) ++ ts ∧
      (splitWordsAux [] s = [] → ts = [])) := by
  induction s with
  | nil =>
    refine ⟨fun cur h => ⟨[], Or.inl rfl, ?_⟩, [], Or.inl rfl, rfl, fun _ => rfl⟩
    rw [splitWordsAux_nil, if_neg h]
    rfl
  | cons c cs ih =>
    obtain ⟨ihcur, ts, hts, hcol, hnil⟩ := ih
    cases hc : isSpace c with
    | true =>
      refine ⟨fun cur h => ?_, ts, hts, ?_, ?_⟩
      · rw [collapseSpacesAux_cons_of_space _ _ _ hc, if_neg (by decide),
          splitWordsAux_cons_space _ _ _ hc, if_neg h, hcol, joinSpace_cons]
        by_cases hw : splitWordsAux [] cs = []
        · refine ⟨[32], Or.inr rfl, ?_⟩
          rw [if_pos hw, hw, hnil hw]
          rfl
        · refine ⟨ts, hts, ?_⟩
          rw [if_neg hw]
          simp
      · rw [collapseSpacesAux_cons_of_space _ _ _ hc, if_pos rfl,
          splitWordsAux_cons_space _ _ _ hc, if_pos rfl]
        exact hcol
      · rw [splitWordsAux_cons_space _ _ _ hc, if_pos rfl]
        exact hnil
    | false =>
      refine ⟨fun cur h => ?_, ?_⟩
      · obtain ⟨ts', hts', h'⟩ := ihcur (cur ++ [c]) (by simp)
        refine ⟨ts', hts', ?_⟩
        rw [collapseSpacesAux_cons_of_not_space _ _ _ hc, splitWordsAux_cons_word _ _ _ hc, ← h']
        simp
      · obtain ⟨ts', hts', h'⟩ := ihcur [c] (by simp)
        refine ⟨ts', hts', ?_, fun h0 => ?_⟩
        · rw [collapseSpacesAux_cons_of_not_space _ _ _ hc, splitWordsAux_cons_word _ _ _ hc,
            List.nil_append, ← h']
          rfl
        · rw [splitWordsAux_cons_word _ _ _ hc] at h0
          exact absurd h0 (splitWordsAux_ne_nil cs _ (by simp))

theorem joinSpace_last (ws : List Str) (h : ∀ w ∈ ws, IsWord w) (hne : ws ≠ []) :
    ∃ (init : Str) (c : Nat), joinSpace ws = init ++ [c] ∧ isSpace c = false := by
  induction ws with
  | nil => exact absurd rfl hne
  | cons w ws ih =>
    rw [joinSpace_cons]
    by_cases hws : ws = []
    · rw [if_pos hws]
      have hw := h w (List.mem_cons_self _ _)
      have hwne : w ≠ [] := hw.1
      refine ⟨w.dropLast, w.getLast hwne, (List.dropLast_append_getLast hwne).symm, ?_⟩
      exact hw.2 _ (List.getLast_mem hwne)
    · rw [if_neg hws]
      obtain ⟨init, c, hj, hc⟩ := ih (fun x hx => h x (List.mem_cons_of_mem _ hx)) hws
      exact ⟨w ++ 32 :: init, c, by rw [hj]; simp, hc⟩

theorem normalizeSpaces_eq_joinSpace (s : Str) :
    normalizeSpaces s = joinSpace (splitWords s) := by
  unfold normalizeSpaces collapseSpaces splitWords
  rw [trim_eq, dropWhile_collapseSpacesAux]
  obtain ⟨ts, hts, hcol, hnil⟩ := (collapseSpacesAux_eq_joinSpace s).2
  rw [hcol]
  have hfix : (joinSpace (splitWordsAux [] s)).rdropWhile isSpace =
      joinSpace (splitWordsAux [] s) := by
    by_cases hw : splitWordsAux [] s = []
    · rw [hw]
      rfl
    · obtain ⟨init, c, hj, hc⟩ := joinSpace_last _
        (fun w hw' => splitWordsAux_words s [] (by simp) w hw') hw
      rw [hj, List.rdropWhile_concat_neg _ _ _ (by simp [hc])]
  rcases hts with h | h
  · rw [h, List.append_nil, hfix]
  · rw [h, List.rdropWhile_concat_pos _ _ _ (by decide), hfix]

/-! ### Repeated words -/

theorem repeatedTail_nil (w : Str) : (([] : List Str).map (· ++ w)).flatten = [] := rfl

theorem repeatedTail_cons (w s : Str) (ss : List Str) :
    ((s :: ss).map (· ++ w)).flatten = s ++ (w ++ (ss.map (· ++ w)).flatten) := by
  simp

theorem repeatedTail_head (w : Str) (seps : List Str) (hs : ∀ s ∈ seps, IsSeparator s) :
    (seps.map (· ++ w)).flatten = [] ∨
      ∃ x xs, (seps.map (· ++ w)).flatten = x :: xs ∧ isSpace x = true := by
  cases seps with
  | nil => exact Or.inl rfl
  | cons s ss =>
    right
    have hsep := hs s (List.mem_cons_self _ _)
    cases hss : s with
    | nil => exact absurd hss hsep.1
    | cons x xs =>
      refine ⟨x, xs ++ (w ++ (ss.map (· ++ w)).flatten), ?_, hsep.2 x (by rw [hss]; simp)⟩
      rw [repeatedTail_cons]
      rfl

theorem isWordChar_of_isSpace (c : Nat) (h : isSpace c = true) : isWordChar c = false := by
  cases hw : isWordChar c with
  | false => rfl
  | true =>
    have := isSpace_of_isWordChar c hw
    rw [this] at h
    exact absurd h (by decide)

theorem takeWhile_word_repeated (w : Str) (seps : List Str) (hw : IsWordChars w)
    (hs : ∀ s ∈ seps, IsSeparator s) :
    (w ++ (seps.map (· ++ w)).flatten).takeWhile isWordChar = w := by
  apply takeWhile_append_of_head isWordChar w _ hw.2
  rcases repeatedTail_head w seps hs with h | ⟨x, xs, h, hx⟩
  · exact Or.inl h
  · exact Or.inr ⟨x, xs, h, isWordChar_of_isSpace x hx⟩

theorem startsWith_append_self (a b : Str) : startsWith (a ++ b) a = true := by
  induction a with
  | nil => cases b <;> rfl
  | cons x xs ih =>
    rw [List.cons_append]
    unfold startsWith
    simp [ih]

theorem wordRepeats_succ (word : Str) (fuel : Nat) (s : Str) :
    wordRepeats word (fuel + 1) s =
      if (s.takeWhile isSpace).length ≥ 1 ∧
          startsWith ((s.drop (s.takeWhile isSpace).length).map canon) (word.map canon) then
        ((s.takeWhile isSpace).length + word.length) ::
          (wordRepeats word fuel ((s.drop (s.takeWhile isSpace).length).drop word.length)).map
            (· + ((s.takeWhile isSpace).length + word.length))
      else [] := rfl

theorem wordRepeats_repeated (w : Str) (hw : IsWordChars w) (seps : List Str) :
    ∀ fuel, seps.length ≤ fuel → (∀ s ∈ seps, IsSeparator s) →
      (wordRepeats w fuel (seps.map (· ++ w)).flatten).length = seps.length ∧
      (seps ≠ [] → (wordRepeats w fuel (seps.map (· ++ w)).flatten).getLast? =
        some ((seps.map (· ++ w)).flatten).length) := by
  induction seps with
  | nil =>
    intro fuel _ _
    rw [repeatedTail_nil, wordRepeats_nil]
    exact ⟨rfl, fun h => absurd rfl h⟩
  | cons s ss ih =>
    intro fuel hfuel hs
    obtain ⟨f, hf⟩ : ∃ f, fuel = f + 1 := ⟨fuel - 1, by rw [List.length_cons] at hfuel; omega⟩
    subst hf
    have hsep := hs s (List.mem_cons_self _ _)
    have hss : ∀ x ∈ ss, IsSeparator x := fun x hx => hs x (List.mem_cons_of_mem _ hx)
    obtain ⟨c, w', hwc⟩ : ∃ c w', w = c :: w' := by
      cases hw' : w with
      | nil => exact absurd hw' hw.1
      | cons c w' => exact ⟨c, w', rfl⟩
    have hcs : isSpace c = false :=
      isSpace_of_isWordChar c (hw.2 c (by rw [hwc]; simp))
    have htw : (s ++ (w ++ (ss.map (· ++ w)).flatten)).takeWhile isSpace = s := by
      apply takeWhile_append_of_head isSpace s _ hsep.2
      exact Or.inr ⟨c, w' ++ (ss.map (· ++ w)).flatten, by rw [hwc]; rfl, hcs⟩
    have hpos : s.length ≥ 1 := by
      have := List.length_pos.mpr hsep.1
      omega
    obtain ⟨ihlen, ihlast⟩ := ih f (by rw [List.length_cons] at hfuel; omega) hss
    rw [repeatedTail_cons, wordRepeats_succ, htw, List.drop_left, List.map_append,
      startsWith_append_self, if_pos ⟨hpos, rfl⟩, List.drop_left]
    constructor
    · rw [List.length_cons, List.length_map, ihlen, List.length_cons]
    · intro _
      by_cases hne : ss = []
      · subst hne
        rw [repeatedTail_nil, wordRepeats_nil]
        simp
      · have hlen : 0 < (wordRepeats w f (ss.map (· ++ w)).flatten).length := by
          rw [ihlen]
          exact List.length_pos.mpr hne
        have hL : wordRepeats w f (ss.map (· ++ w)).flatten ≠ [] := List.length_pos.mp hlen
        have hlast := ihlast hne
        generalize wordRepeats w f (ss.map (· ++ w)).flatten = L at hL hlast
        cases L with
        | nil => exact absurd rfl hL
        | cons a as =>
          rw [List.map_cons, List.getLast?_cons_cons]
          have hmap : (a + (s.length + w.length)) :: as.map (· + (s.length + w.length)) =
              (a :: as).map (· + (s.length + w.length)) := rfl
          rw [hmap, List.getLast?_map, hlast]
          simp only [Option.map_some', List.length_append]
          congr 1
          omega

theorem splitWordsAux_spaces (sep : Str) (h : ∀ c ∈ sep, isSpace c = true) (t : Str) :
    splitWordsAux [] (sep ++ t) = splitWordsAux [] t := by
  induction sep with
  | nil => rfl
  | cons c cs ih =>
    rw [List.cons_append, splitWordsAux_cons_space _ _ _ (h c (List.mem_cons_self _ _)),
      if_pos rfl]
    exact ih (fun x hx => h x (List.mem_cons_of_mem _ hx))

theorem splitWordsAux_separator (cur sep t : Str) (hcur : cur ≠ []) (hsep : IsSeparator sep) :
    splitWordsAux cur (sep ++ t) = cur :: splitWordsAux [] t := by
  cases hs : sep with
  | nil => exact absurd hs hsep.1
  | cons c cs =>
    have hc : isSpace c = true := hsep.2 c (by rw [hs]; simp)
    rw [List.cons_append, splitWordsAux_cons_space _ _ _ hc, if_neg hcur,
      splitWordsAux_spaces cs (fun x hx => hsep.2 x (by rw [hs]; simp [hx]))]

theorem noSpace_of_isWordChars (w : Str) (hw : IsWordChars w) : ∀ c ∈ w, isSpace c = false :=
  fun c hc => isSpace_of_isWordChar c (hw.2 c hc)

theorem splitWordsAux_repeated (w : Str) (hw : IsWordChars w) (seps : List Str)
    (hs : ∀ s ∈ seps, IsSeparator s) :
    splitWordsAux w (seps.map (· ++ w)).flatten = List.replicate (seps.length + 1) w := by
  induction seps with
  | nil =>
    rw [repeatedTail_nil, splitWordsAux_nil, if_neg hw.1]
    rfl
  | cons s ss ih =>
    rw [repeatedTail_cons, splitWordsAux_separator w s _ hw.1 (hs s (List.mem_cons_self _ _)),
      splitWordsAux_append_word w (noSpace_of_isWordChars w hw), List.nil_append,
      ih (fun x hx => hs x (List.mem_cons_of_mem _ hx))]
    rfl

theorem splitWords_repeatedWord (w : Str) (hw : IsWordChars w) (seps : List Str)
    (hs : ∀ s ∈ seps, IsSeparator s) :
    splitWords (repeatedWord w seps) = List.replicate (seps.length + 1) w := by
  unfold splitWords repeatedWord
  rw [splitWordsAux_append_word w (noSpace_of_isWordChars w hw), List.nil_append,
    splitWordsAux_repeated w hw seps hs]

theorem length_repeatedTail (w : Str) (seps : List Str) (hs : ∀ s ∈ seps, IsSeparator s) :
    seps.length ≤ ((seps.map (· ++ w)).flatten).length := by
  induction seps with
  | nil => simp
  | cons s ss ih =>
    have := ih (fun x hx => hs x (List.mem_cons_of_mem _ hx))
    have hpos := List.length_pos.mpr (hs s (List.mem_cons_self _ _)).1
    rw [repeatedTail_cons, List.length_append, List.length_append, List.length_cons]
    omega

theorem matchWordRepeat_of_few (prev : Option Nat) (s : Str)
    (h : (wordRepeats (s.takeWhile isWordChar) s.length
      (s.drop (s.takeWhile isWordChar).length)).length < 5) :
    matchWordRepeat prev s = none := by
  unfold matchWordRepeat
  dsimp only
  split
  · rfl
  · generalize wordRepeats (s.takeWhile isWordChar) s.length
      (s.drop (s.takeWhile isWordChar).length) = E at h
    have hdl : E.dropLast.length < 5 := by
      rw [List.length_dropLast]; omega
    cases hE : E.getLast? with
    | none =>
      dsimp only
      rw [hE]
    | some n =>
      dsimp only
      by_cases hcond : (Option.map isWordChar
          (List.drop ((List.takeWhile isWordChar s).length + n) s).head? == some true) = true
      · rw [if_pos hcond]
        cases hD : E.dropLast.getLast? with
        | none => rfl
        | some k =>
          dsimp only
          rw [if_neg (by omega)]
      · rw [if_neg hcond, hE]
        dsimp only
        rw [if_neg (by omega)]

theorem matchWordRepeat_repeated_few (prev : Option Nat) (w : Str) (hw : IsWordChars w)
    (seps : List Str) (hs : ∀ s ∈ seps, IsSeparator s) (hfew : seps.length < 5) :
    matchWordRepeat prev (w ++ (seps.map (· ++ w)).flatten) = none := by
  apply matchWordRepeat_of_few
  rw [takeWhile_word_repeated w seps hw hs, List.drop_left,
    (wordRepeats_repeated w hw seps _ (by
      have := length_repeatedTail w seps hs
      rw [List.length_append]; omega) hs).1]
  exact hfew

theorem matchWordRepeat_repeated_many (w : Str) (hw : IsWordChars w)
    (seps : List Str) (hs : ∀ s ∈ seps, IsSeparator s) (hmany : 5 ≤ seps.length) :
    matchWordRepeat none (repeatedWord w seps) =
      some ((repeatedWord w seps).length, wordRepeatPhrase w (seps.length + 1)) := by
  have hne : seps ≠ [] := by
    intro h0
    rw [h0] at hmany
    exact absurd hmany (by simp)
  obtain ⟨hlen, hlast⟩ := wordRepeats_repeated w hw seps (w ++ (seps.map (· ++ w)).flatten).length
    (by
      have := length_repeatedTail w seps hs
      rw [List.length_append]; omega) hs
  have hlast' := hlast hne
  have hcount : countSplitPieces (repeatedWord w seps) = seps.length + 1 := by
    unfold countSplitPieces
    rw [splitWords_repeatedWord w hw seps hs, List.length_replicate]
  unfold matchWordRepeat repeatedWord
  dsimp only
  rw [takeWhile_word_repeated w seps hw hs, List.drop_left]
  rw [if_neg (by simp [hw.1])]
  rw [hlast']
  simp only
  have hdrop : (w ++ (seps.map (· ++ w)).flatten).drop
      (w.length + ((seps.map (· ++ w)).flatten).length) = [] := by
    rw [← List.length_append]
    exact List.drop_length _
  have hcond : ((none : Option Bool) == some true) = false := by decide
  simp only [hdrop, List.head?_nil, Option.map_none', hcond, Bool.false_eq_true, if_false,
    hlast', hlen]
  rw [if_pos (by omega), ← List.length_append, List.take_length]
  unfold repeatedWord at hcount
  rw [hcount]

theorem rewritesAux_nil (m : Option Nat → Str → Option (Nat × Str)) (skip : Nat)
    (prev : Option Nat) : rewritesAux m skip prev [] = false := by
  cases skip <;> rfl

theorem rewritesAux_of_no_match (m : Option Nat → Str → Option (Nat × Str)) (t : Str) :
    (∀ i prev, m prev (t.drop i) = none) → ∀ prev, rewritesAux m 0 prev t = false := by
  induction t with
  | nil => intro _ prev; rfl
  | cons c cs ih =>
    intro h prev
    rw [rewritesAux_zero_none _ _ _ _ (h 0 prev)]
    exact ih (fun i p => h (i + 1) p) (some c)

theorem matchDigitRun_of_short (prev : Option Nat) (s : Str)
    (h : (s.takeWhile isDigit).length < 10) : matchDigitRun prev s = none := by
  unfold matchDigitRun
  simp only [ge_iff_le, Nat.not_le.mpr h, if_false]

theorem replaceAll_matchDigitRun_of_noLongDigitRun (s : Str) (h : NoLongDigitRun s) :
    replaceAll matchDigitRun s = s :=
  replaceAll_of_no_rewrite _ _
    (rewritesAux_of_no_match _ s (fun i prev => matchDigitRun_of_short prev _ (h i)) none)

theorem takeWhile_append_of_stop (p : Nat → Bool) (x b : Str)
    (hb : b = [] ∨ ∃ c cs, b = c :: cs ∧ p c = false) :
    (x ++ b).takeWhile p = x.takeWhile p := by
  induction x with
  | nil =>
    rcases hb with h | ⟨c, cs, h, hc⟩
    · rw [h]; rfl
    · rw [h, List.nil_append, List.takeWhile_cons_of_neg (by simp [hc])]; rfl
  | cons a as ih =>
    rw [List.cons_append]
    cases ha : p a with
    | true => rw [List.takeWhile_cons_of_pos ha, List.takeWhile_cons_of_pos ha, ih]
    | false =>
      rw [List.takeWhile_cons_of_neg (by simp [ha]), List.takeWhile_cons_of_neg (by simp [ha])]

theorem noLongDigitRun_append (a b : Str) (ha : NoLongDigitRun a) (hb : NoLongDigitRun b)
    (hhead : b = [] ∨ ∃ c cs, b = c :: cs ∧ isDigit c = false) : NoLongDigitRun (a ++ b) := by
  intro i
  by_cases hi : i ≤ a.length
  · rw [List.drop_append_of_le_length hi, takeWhile_append_of_stop isDigit _ b hhead]
    exact ha i
  · have : (a ++ b).drop i = b.drop (i - a.length) := by
      rw [List.drop_append_eq_append_drop, List.drop_eq_nil_of_le (by omega), List.nil_append]
    rw [this]
    exact hb _

theorem isDigit_of_isSpace (c : Nat) (h : isSpace c = true) : isDigit c = false := by
  cases hdg : isDigit c with
  | false => rfl
  | true =>
    have := isSpace_of_isWordChar c (isWordChar_of_isDigit c hdg)
    rw [this] at h
    exact absurd h (by decide)

theorem noLongDigitRun_spaces_append (s b : Str) (hs : ∀ c ∈ s, isSpace c = true)
    (hb : NoLongDigitRun b) : NoLongDigitRun (s ++ b) := by
  intro i
  by_cases hi : i < s.length
  · rw [List.drop_append_of_le_length (by omega)]
    cases hd : s.drop i with
    | nil =>
      have := congrArg List.length hd
      rw [List.length_drop] at this
      simp at this
      omega
    | cons c cs =>
      have hc : isSpace c = true := hs c (List.mem_of_mem_drop (by rw [hd]; simp))
      rw [List.cons_append, List.takeWhile_cons_of_neg (by simp [isDigit_of_isSpace c hc])]
      simp
  · have : (s ++ b).drop i = b.drop (i - s.length) := by
      rw [List.drop_append_eq_append_drop, List.drop_eq_nil_of_le (by omega), List.nil_append]
    rw [this]
    exact hb _

theorem noLongDigitRun_repeatedTail (w : Str) (hd : NoLongDigitRun w)
    (seps : List Str) (hs : ∀ s ∈ seps, IsSeparator s) :
    NoLongDigitRun (w ++ (seps.map (· ++ w)).flatten) := by
  have hstop : ∀ ss : List Str, (∀ s ∈ ss, IsSeparator s) →
      ((ss.map (· ++ w)).flatten = [] ∨
        ∃ c cs, (ss.map (· ++ w)).flatten = c :: cs ∧ isDigit c = false) := by
    intro ss hss
    rcases repeatedTail_head w ss hss with h | ⟨x, xs, h, hx⟩
    · exact Or.inl h
    · refine Or.inr ⟨x, xs, h, ?_⟩
      cases hdg : isDigit x with
      | false => rfl
      | true =>
        have := isSpace_of_isWordChar x (isWordChar_of_isDigit x hdg)
        rw [this] at hx
        exact absurd hx (by decide)
  induction seps with
  | nil =>
    rw [repeatedTail_nil, List.append_nil]
    exact hd
  | cons s ss ih =>
    have hss : ∀ x ∈ ss, IsSeparator x := fun x hx => hs x (List.mem_cons_of_mem _ hx)
    have hsep := hs s (List.mem_cons_self _ _)
    apply noLongDigitRun_append w _ hd _ (hstop (s :: ss) hs)
    rw [repeatedTail_cons]
    exact noLongDigitRun_spaces_append s _ hsep.2 (ih hss)

theorem replaceAll_matchWordRepeat_many (w : Str) (hw : IsWordChars w)
    (seps : List Str) (hs : ∀ s ∈ seps, IsSeparator s) (hmany : 5 ≤ seps.length) :
    replaceAll matchWordRepeat (repeatedWord w seps) = wordRepeatPhrase w (seps.length + 1) := by
  have hm := matchWordRepeat_repeated_many w hw seps hs hmany
  cases ht : repeatedWord w seps with
  | nil =>
    unfold repeatedWord at ht
    exact absurd (List.append_eq_nil.mp ht).1 hw.1
  | cons c cs =>
    rw [ht] at hm
    rw [List.length_cons] at hm
    unfold replaceAll
    rw [replaceAllAux_zero_some _ _ _ _ _ _ hm]
    obtain ⟨prev', hskip⟩ := replaceAllAux_skip matchWordRepeat cs [] (some c)
    rw [List.append_nil] at hskip
    rw [hskip, replaceAllAux_nil, List.append_nil]

theorem rewritesAux_word_inside (u : Str) :
    ∀ (rest : Str) (p : Nat), (∀ x ∈ u, isWordChar x = true) → isWordChar p = true →
      ∃ p', isWordChar p' = true ∧
        rewritesAux matchWordRepeat 0 (some p) (u ++ rest) =
          rewritesAux matchWordRepeat 0 (some p') rest := by
  induction u with
  | nil => intro rest p _ hp; exact ⟨p, hp, rfl⟩
  | cons a as ih =>
    intro rest p hu hp
    have ha := hu a (List.mem_cons_self _ _)
    obtain ⟨p', hp', h⟩ := ih rest a (fun x hx => hu x (List.mem_cons_of_mem _ hx)) ha
    refine ⟨p', hp', ?_⟩
    rw [List.cons_append, rewritesAux_zero_none _ _ _ _ (matchWordRepeat_of_prev_word p _ hp), h]

theorem rewritesAux_spaces (sep : Str) :
    ∀ (rest : Str) (prev : Option Nat), (∀ x ∈ sep, isSpace x = true) →
      ∃ prev', rewritesAux matchWordRepeat 0 prev (sep ++ rest) =
        rewritesAux matchWordRepeat 0 prev' rest := by
  induction sep with
  | nil => intro rest prev _; exact ⟨prev, rfl⟩
  | cons a as ih =>
    intro rest prev hs
    have ha := hs a (List.mem_cons_self _ _)
    obtain ⟨prev', h⟩ := ih rest (some a) (fun x hx => hs x (List.mem_cons_of_mem _ hx))
    refine ⟨prev', ?_⟩
    rw [List.cons_append,
      rewritesAux_zero_none _ _ _ _ (matchWordRepeat_of_head prev a _ (isWordChar_of_isSpace a ha)),
      h]

theorem rewritesAux_repeated_few (w : Str) (hw : IsWordChars w) (seps : List Str) :
    seps.length < 5 → (∀ s ∈ seps, IsSeparator s) → ∀ prev,
      rewritesAux matchWordRepeat 0 prev (w ++ (seps.map (· ++ w)).flatten) = false := by
  obtain ⟨c, w', hwc⟩ : ∃ c w', w = c :: w' := by
    cases hw' : w with
    | nil => exact absurd hw' hw.1
    | cons c w' => exact ⟨c, w', rfl⟩
  have hc : isWordChar c = true := hw.2 c (by rw [hwc]; simp)
  have hw'w : ∀ x ∈ w', isWordChar x = true := fun x hx => hw.2 x (by rw [hwc]; simp [hx])
  induction seps with
  | nil =>
    intro hfew hs prev
    have hnone := matchWordRepeat_repeated_few prev w hw [] hs hfew
    rw [repeatedTail_nil, List.append_nil] at hnone ⊢
    rw [hwc] at hnone ⊢
    rw [rewritesAux_zero_none _ _ _ _ hnone]
    obtain ⟨p', _, h⟩ := rewritesAux_word_inside w' [] c hw'w hc
    rw [List.append_nil] at h
    rw [h, rewritesAux_nil]
  | cons s ss ih =>
    intro hfew hs prev
    have hss : ∀ x ∈ ss, IsSeparator x := fun x hx => hs x (List.mem_cons_of_mem _ hx)
    have hsep := hs s (List.mem_cons_self _ _)
    have hnone := matchWordRepeat_repeated_few prev w hw (s :: ss) hs hfew
    have hcons : w ++ ((s :: ss).map (· ++ w)).flatten =
        c :: (w' ++ ((s :: ss).map (· ++ w)).flatten) := by rw [hwc]; rfl
    rw [hcons] at hnone ⊢
    rw [rewritesAux_zero_none _ _ _ _ hnone]
    obtain ⟨p', _, h⟩ := rewritesAux_word_inside w' (((s :: ss).map (· ++ w)).flatten) c hw'w hc
    rw [h, repeatedTail_cons]
    obtain ⟨prev', h2⟩ := rewritesAux_spaces s (w ++ (ss.map (· ++ w)).flatten) (some p') hsep.2
    rw [h2]
    exact ih (by rw [List.length_cons] at hfew; omega) hss prev'

theorem normalizeSpaces_phrase (w tail : Str) (hw : IsWordChars w)
    (htail : joinSpace (splitWordsAux [] tail) = tail) (hne : splitWordsAux [] tail ≠ []) :
    normalizeSpaces (w ++ 44 :: 32 :: tail) = w ++ 44 :: 32 :: tail := by
  rw [normalizeSpaces_eq_joinSpace]
  unfold splitWords
  rw [splitWordsAux_append_word w (noSpace_of_isWordChars w hw), List.nil_append,
    splitWordsAux_cons_word _ _ _ (by decide), splitWordsAux_cons_space _ _ _ (by decide),
    if_neg (by simp), joinSpace_cons, if_neg hne, htail]
  simp

theorem wordRepeatPhrase_eq (w : Str) (n : Nat) (hn : 6 ≤ n) :
    wordRepeatPhrase w n = w ++ 44 :: 32 :: repeatCountPhrase n ∧
    w ++ js ", " ++ repeatCountPhrase n = w ++ 44 :: 32 :: repeatCountPhrase n ∧
    joinSpace (splitWordsAux [] (repeatCountPhrase n)) = repeatCountPhrase n ∧
    splitWordsAux [] (repeatCountPhrase n) ≠ [] := by
  unfold wordRepeatPhrase repeatCountPhrase
  by_cases h10 : n ≥ 10
  · simp only [h10, if_true]
    exact ⟨by rw [show js ", a whole wall of them" = 44 :: 32 :: js "a whole wall of them" from by
      decide!], by rw [List.append_assoc]; rfl, by decide!, by decide!⟩
  · by_cases h7 : n ≥ 7
    · simp only [h10, h7, if_true, if_false]
      exact ⟨by rw [show js ", so many of them" = 44 :: 32 :: js "so many of them" from by
        decide!], by rw [List.append_assoc]; rfl, by decide!, by decide!⟩
    · have h6 : n = 6 := by omega
      subst h6
      simp only [h10, h7, if_false]
      exact ⟨by rw [List.append_assoc]; rfl, by rw [List.append_assoc]; rfl, by decide!,
        by decide!⟩

/-- C15, as stated: not every word repeated six times is collapsed to the word
and a count phrase, and five or fewer repeats are not always left as they are.
A word of ten digits is rewritten by the digit rule first, copy by copy, after
which no word is repeated; and two copies of `go` separated by a tab come out
separated by a space. -/
theorem C15_digit_word_not_collapsed :
    collapseRepetition
      (js "1234567890 1234567890 1234567890 1234567890 1234567890 1234567890") =
      js ("123... a long number 123... a long number 123... a long number " ++
        "123... a long number 123... a long number 123... a long number") ∧
    collapseRepetition
      (js "1234567890 1234567890 1234567890 1234567890 1234567890 1234567890") ≠
      js "1234567890, times 6" ∧
    collapseRepetition (js "go\tgo") = js "go go" := by
  decide!

/-- C15, amended: for every word `w` of ASCII letters, digits and underscores
that holds no run of ten or more digits, a text made of `n` copies of `w`
separated by white space is turned by `collapseRepetition` into `w`, `, ` and
the count phrase when `n ≥ 6` (`a whole wall of them` for `n ≥ 10`,
`so many of them` for `7 ≤ n ≤ 9`, `times 6` for `n = 6`); when `n ≤ 5` the
copies are all kept, each separator having become one space. -/
theorem C15_word_repeat_collapsed (w : Str) (seps : List Str) (hw : IsWordChars w)
    (hd : NoLongDigitRun w) (hs : ∀ s ∈ seps, IsSeparator s) :
    (6 ≤ seps.length + 1 →
      collapseRepetition (repeatedWord w seps) =
        w ++ js ", " ++ repeatCountPhrase (seps.length + 1)) ∧
    (seps.length + 1 ≤ 5 →
      collapseRepetition (repeatedWord w seps) =
        joinSpace (List.replicate (seps.length + 1) w)) := by
  have hne : repeatedWord w seps ≠ [] := by
    unfold repeatedWord
    intro h0
    exact absurd (List.append_eq_nil.mp h0).1 hw.1
  have hdigits : replaceAll matchDigitRun (repeatedWord w seps) = repeatedWord w seps :=
    replaceAll_matchDigitRun_of_noLongDigitRun _ (noLongDigitRun_repeatedTail w hd seps hs)
  constructor
  · intro hn
    obtain ⟨h1, h2, h3, h4⟩ := wordRepeatPhrase_eq w (seps.length + 1) hn
    unfold collapseRepetition
    rw [if_neg hne, hdigits, replaceAll_matchWordRepeat_many w hw seps hs (by omega), h1, h2]
    exact normalizeSpaces_phrase w _ hw h3 h4
  · intro hn
    unfold collapseRepetition
    rw [if_neg hne, hdigits]
    have hfix : replaceAll matchWordRepeat (repeatedWord w seps) = repeatedWord w seps :=
      replaceAll_of_no_rewrite _ _ (rewritesAux_repeated_few w hw seps (by omega) hs none)
    rw [hfix, normalizeSpaces_eq_joinSpace, splitWords_repeatedWord w hw seps hs]

/-- C15, amended, at an input: `GO` eight times, which the sanitizer as a whole
turns into `GO, so many of them`. -/
theorem C15_word_repeat_collapsed_witness :
    IsWordChars (js "GO") ∧ NoLongDigitRun (js "GO") ∧
    repeatedWord (js "GO") (List.replicate 7 (js " ")) = js "GO GO GO GO GO GO GO GO" ∧
    collapseRepetition (js "GO GO GO GO GO GO GO GO") = js "GO, so many of them" ∧
    (sanitizeInput asciiUnicode (js "GO GO GO GO GO GO GO GO") sanitizeAll).result =
      js "GO, so many of them" := by
  have hw : IsWordChars (js "GO") := ⟨by decide, by decide!⟩
  have hd : NoLongDigitRun (js "GO") := by
    intro i
    have h0 : ∀ s : Str, s = js "GO" ∨ s = js "O" ∨ s = [] → (s.takeWhile isDigit).length < 10 := by
      intro s hs
      rcases hs with h | h | h <;> subst h <;> decide!
    apply h0
    match i with
    | 0 => exact Or.inl rfl
    | 1 => exact Or.inr (Or.inl rfl)
    | k + 2 => exact Or.inr (Or.inr (by rw [List.drop_eq_nil_of_le]; simp [js, utf16Char]))
  have hs : ∀ s ∈ List.replicate 7 (js " "), IsSeparator s := by
    intro s hmem
    rw [List.eq_of_mem_replicate hmem]
    exact ⟨by decide, by decide!⟩
  have h := (C15_word_repeat_collapsed (js "GO") (List.replicate 7 (js " ")) hw hd hs).1
    (by simp)
  have htext : repeatedWord (js "GO") (List.replicate 7 (js " ")) =
      js "GO GO GO GO GO GO GO GO" := by decide!
  rw [htext] at h
  refine ⟨hw, hd, htext, ?_, by decide!⟩
  rw [h]
  decide!

/-! ### Director tags -/

theorem untilClose_le (x : Nat) (cs : Str) : ∀ n, untilClose x cs = some n → n ≤ cs.length ∧ 0 < n := by
  induction cs with
  | nil => intro n h; simp [untilClose] at h
  | cons c cs ih =>
    intro n h
    unfold untilClose at h
    by_cases hc : (c == x) = true
    · rw [if_pos hc] at h
      injection h with h
      subst h
      simp
    · rw [if_neg hc] at h
      cases hu : untilClose x cs with
      | none => rw [hu] at h; simp at h
      | some k =>
        rw [hu] at h
        simp only [Option.map_some', Option.some.injEq] at h
        subst h
        have := ih k hu
        simp only [List.length_cons]
        omega

theorem untilClose_none (x : Nat) (cs : Str) : untilClose x cs = none ↔ x ∉ cs := by
  induction cs with
  | nil => simp [untilClose]
  | cons c cs ih =>
    unfold untilClose
    by_cases hc : c = x
    · subst hc
      simp
    · have hb : (c == x) = false := by simpa using hc
      rw [hb]
      simp only [Bool.false_eq_true, if_false, Option.map_eq_none', ih, List.mem_cons, not_or]
      exact ⟨fun h => ⟨fun hh => hc hh.symm, h⟩, fun h => h.2⟩

theorem replaceBracketGroupsAux_open (U : Unicode) (cs : Str) :
    ∀ (group : Str) (n : Nat), untilClose 93 cs = some n →
      replaceBracketGroupsAux U (some group) cs =
        keepOrDropTag U (group ++ cs.take n) ++ replaceBracketGroupsAux U none (cs.drop n) := by
  induction cs with
  | nil => intro group n h; simp [untilClose] at h
  | cons c cs ih =>
    intro group n h
    unfold untilClose at h
    by_cases hc : c = 93
    · subst hc
      simp only [beq_self_eq_true, if_true, Option.some.injEq] at h
      subst h
      conv => lhs; unfold replaceBracketGroupsAux
      simp
    · have hb : (c == 93) = false := by simpa using hc
      rw [hb] at h
      simp only [Bool.false_eq_true, if_false, Option.map_eq_some'] at h
      obtain ⟨k, hk, hn⟩ := h
      subst hn
      conv => lhs; unfold replaceBracketGroupsAux
      rw [if_neg hc, ih (group ++ [c]) k hk]
      simp

theorem replaceBracketGroupsAux_unclosed (U : Unicode) (cs : Str) (h : 93 ∉ cs) :
    (∀ group, replaceBracketGroupsAux U (some group) cs = group ++ cs) ∧
    replaceBracketGroupsAux U none cs = cs := by
  induction cs with
  | nil => exact ⟨fun group => by simp [replaceBracketGroupsAux], rfl⟩
  | cons c cs ih =>
    have hc : c ≠ 93 := fun hh => h (by simp [hh])
    have hcs : 93 ∉ cs := fun hh => h (List.mem_cons_of_mem _ hh)
    have ih' := ih hcs
    have hopen : ∀ group, replaceBracketGroupsAux U (some group) (c :: cs) = group ++ c :: cs := by
      intro group
      conv => lhs; unfold replaceBracketGroupsAux
      rw [if_neg hc, ih'.1]
      simp
    refine ⟨hopen, ?_⟩
    conv => lhs; unfold replaceBracketGroupsAux
    by_cases h91 : c = 91
    · rw [if_pos h91, ih'.1, h91]
      rfl
    · rw [if_neg h91, ih'.2]

theorem matchUserBracketTag_of_not_open (U : Unicode) (prev : Option Nat) (c : Nat) (cs : Str)
    (h : c ≠ 91) : matchUserBracketTag U prev (c :: cs) = none := by
  unfold matchUserBracketTag
  split
  · rename_i heq
    injection heq with h1 _
    exact absurd h1 h
  · rfl

theorem matchUserBracketTag_open (U : Unicode) (prev : Option Nat) (cs : Str) :
    matchUserBracketTag U prev (91 :: cs) =
      (untilClose 93 cs).map fun n => (n + 1, keepOrDropTag U (91 :: cs.take n)) := rfl

theorem replaceAllAux_matchUserBracketTag (U : Unicode) (n : Nat) :
    ∀ (t : Str), t.length ≤ n → ∀ prev : Option Nat,
      replaceAllAux (matchUserBracketTag U) 0 prev t = replaceBracketGroupsAux U none t := by
  induction n with
  | zero =>
    intro t ht prev
    have : t = [] := List.length_eq_zero.mp (by omega)
    subst this
    rfl
  | succ n ih =>
    intro t ht prev
    cases t with
    | nil => rfl
    | cons c cs =>
      rw [List.length_cons] at ht
      by_cases hc : c = 91
      · subst hc
        cases hu : untilClose 93 cs with
        | none =>
          have hm : matchUserBracketTag U prev (91 :: cs) = none := by
            rw [matchUserBracketTag_open, hu]
            rfl
          have h93 := (untilClose_none 93 cs).mp hu
          rw [replaceAllAux_zero_none _ _ _ _ hm, ih cs (by omega),
            (replaceBracketGroupsAux_unclosed U cs h93).2]
          have := (replaceBracketGroupsAux_unclosed U (91 :: cs) (by simp [h93])).2
          rw [this]
        | some k =>
          have hm : matchUserBracketTag U prev (91 :: cs) =
              some (k + 1, keepOrDropTag U (91 :: cs.take k)) := by
            rw [matchUserBracketTag_open, hu]
            rfl
          obtain ⟨hle, hpos⟩ := untilClose_le 93 cs k hu
          rw [replaceAllAux_zero_some _ _ _ _ _ _ hm]
          obtain ⟨prev', hskip⟩ := replaceAllAux_skip (matchUserBracketTag U) (cs.take k)
            (cs.drop k) (some 91)
          rw [List.take_append_drop, List.length_take, Nat.min_eq_left hle] at hskip
          rw [hskip, ih (cs.drop k) (by rw [List.length_drop]; omega)]
          conv => rhs; unfold replaceBracketGroupsAux
          rw [if_pos rfl, replaceBracketGroupsAux_open U cs [91] k hu]
          rfl
      · rw [replaceAllAux_zero_none _ _ _ _ (matchUserBracketTag_of_not_open U prev c cs hc),
          ih cs (by omega)]
        conv => rhs; unfold replaceBracketGroupsAux
        rw [if_neg hc]

theorem stripUserBracketTags_eq (U : Unicode) (text : Str) :
    stripUserBracketTags U text = replaceBracketGroups U text :=
  replaceAllAux_matchUserBracketTag U text.length text (le_refl _) none

theorem validTag_shape : ∀ t ∈ VALID_EMOTION_TAGS,
    t = 91 :: t.tail.dropLast ++ [93] ∧ 91 ∉ t.tail.dropLast ∧ 93 ∉ t.tail.dropLast ∧
    (∀ c ∈ t, c < 128) ∧ t.map asciiLower = t := by
  decide!

theorem tagsClean_replaceBracketGroupsAux (U : Unicode) (n : Nat) :
    ∀ t : Str, t.length ≤ n → TagsClean (replaceBracketGroupsAux U none t) := by
  induction n with
  | zero =>
    intro t ht
    have : t = [] := List.length_eq_zero.mp (by omega)
    subst this
    exact TagsClean.nil
  | succ n ih =>
    intro t ht
    cases t with
    | nil => exact TagsClean.nil
    | cons c cs =>
      rw [List.length_cons] at ht
      unfold replaceBracketGroupsAux
      by_cases hc : c = 91
      · rw [if_pos hc]
        cases hu : untilClose 93 cs with
        | none =>
          have h93 := (untilClose_none 93 cs).mp hu
          rw [(replaceBracketGroupsAux_unclosed U cs h93).1]
          exact TagsClean.rest _ (by simp [h93])
        | some k =>
          obtain ⟨hle, hpos⟩ := untilClose_le 93 cs k hu
          rw [replaceBracketGroupsAux_open U cs [91] k hu]
          have hrest := ih (cs.drop k) (by rw [List.length_drop]; omega)
          unfold keepOrDropTag
          split
          · rename_i hv
            exact TagsClean.tag _ _ hv hrest
          · exact hrest
      · rw [if_neg hc]
        exact TagsClean.char c _ hc (ih cs (by omega))

theorem eq_of_append_cons_eq (x : Nat) (l₁ l₂ r₁ r₂ : Str) (h₁ : x ∉ l₁) (h₂ : x ∉ l₂)
    (h : l₁ ++ x :: r₁ = l₂ ++ x :: r₂) : l₁ = l₂ := by
  induction l₁ generalizing l₂ with
  | nil =>
    cases l₂ with
    | nil => rfl
    | cons b bs =>
      simp only [List.nil_append, List.cons_append, List.cons.injEq] at h
      exact absurd h.1 (fun hh => h₂ (by simp [hh]))
  | cons a as ih =>
    cases l₂ with
    | nil =>
      simp only [List.nil_append, List.cons_append, List.cons.injEq] at h
      exact absurd h.1.symm (fun hh => h₁ (by simp [hh]))
    | cons b bs =>
      simp only [List.cons_append, List.cons.injEq] at h
      rw [h.1, ih bs (fun hh => h₁ (List.mem_cons_of_mem _ hh))
        (fun hh => h₂ (List.mem_cons_of_mem _ hh)) h.2]

theorem tagsClean_group (s : Str) (h : TagsClean s) :
    ∀ pre inner post, s = pre ++ 91 :: (inner ++ 93 :: post) → 93 ∉ inner →
      91 :: inner ++ [93] ∈ VALID_EMOTION_TAGS := by
  induction h with
  | nil =>
    intro pre inner post heq _
    have := congrArg List.length heq
    simp at this
    omega
  | char c s hc _ ih =>
    intro pre inner post heq hin
    cases pre with
    | nil =>
      simp only [List.nil_append, List.cons_append, List.cons.injEq] at heq
      exact absurd heq.1 hc
    | cons p pre' =>
      simp only [List.cons_append, List.cons.injEq] at heq
      exact ih pre' inner post (by simpa using heq.2) hin
  | tag t s ht _ ih =>
    intro pre inner post heq hin
    obtain ⟨hshape, h91, h93, _, _⟩ := validTag_shape t ht
    rcases List.append_eq_append_iff.mp heq with ⟨a', hpre, hs⟩ | ⟨c', ht', hrest⟩
    · exact ih a' inner post (by simpa using hs) hin
    · cases c' with
      | nil =>
        rw [List.append_nil] at ht'
        rw [List.nil_append] at hrest
        exact ih [] inner post (by simpa using hrest.symm) hin
      | cons x c'' =>
        have hx : x = 91 := by
          simp only [List.cons_append, List.cons.injEq] at hrest
          exact hrest.1.symm
        subst hx
        cases pre with
        | nil =>
          rw [List.nil_append] at ht'
          subst ht'
          simp only [List.tail_cons] at hshape h93
          have hc'' : c'' = c''.dropLast ++ [93] := by simpa using hshape
          have hsplit : inner ++ 93 :: post = c''.dropLast ++ 93 :: s := by
            simp only [List.cons_append, List.cons.injEq, true_and] at hrest
            rw [hrest]
            conv => lhs; rw [hc'']
            simp
          have hinner := eq_of_append_cons_eq 93 inner c''.dropLast post s hin h93 hsplit
          have hgroup : 91 :: inner ++ [93] = 91 :: c'' := by
            rw [hinner, List.cons_append, ← hc'']
          rw [hgroup]
          exact ht
        | cons p pre' =>
          exfalso
          apply h91
          have htail : t.tail = pre' ++ 91 :: c'' := by rw [ht']; rfl
          have hmem : (91 : Nat) ∈ t.tail := by rw [htail]; simp
          have ht2 : t.tail = t.tail.dropLast ++ [93] := by
            conv => lhs; rw [hshape]
            simp
          rw [ht2] at hmem
          rcases List.mem_append.mp hmem with hm | hm
          · exact hm
          · simp at hm
  | rest s hs =>
    intro pre inner post heq _
    exact absurd (by rw [heq]; simp) hs

/-- C16: for every text, `stripUserBracketTags` replaces each bracketed group,
from a `[` to the next `]`, by its lower-cased form when that form is in
`VALID_EMOTION_TAGS`, deletes every other group, and leaves the text outside
the groups unchanged; and every complete group `[...]` of its output is a member
of the allow-list, in lower case. -/
theorem C16_director_tag_allow_list (U : Unicode) (text : Str) :
    stripUserBracketTags U text = replaceBracketGroups U text ∧
    ∀ pre inner post, stripUserBracketTags U text = pre ++ 91 :: (inner ++ 93 :: post) →
      93 ∉ inner →
      91 :: inner ++ [93] ∈ VALID_EMOTION_TAGS ∧
      U.toLowerCase (91 :: inner ++ [93]) = 91 :: inner ++ [93] := by
  refine ⟨stripUserBracketTags_eq U text, fun pre inner post heq hin => ?_⟩
  have hclean : TagsClean (stripUserBracketTags U text) := by
    rw [stripUserBracketTags_eq]
    exact tagsClean_replaceBracketGroupsAux U text.length text (le_refl _)
  have hmem := tagsClean_group _ hclean pre inner post heq hin
  obtain ⟨_, _, _, hascii, hlower⟩ := validTag_shape _ hmem
  exact ⟨hmem, by rw [U.lower_ascii _ hascii, hlower]⟩

/-- C16 at an input: an upper-case tag is kept in lower case, a user tag is
deleted, the text around them stays, and the group that remains is on the
list. -/
theorem C16_director_tag_allow_list_witness :
    stripUserBracketTags asciiUnicode (js "so [LAUGHS] funny [evil voice] ok") =
      js "so [laughs] funny  ok" ∧
    js "[laughs]" ∈ VALID_EMOTION_TAGS := by
  have h := (C16_director_tag_allow_list asciiUnicode (js "so [LAUGHS] funny [evil voice] ok")).2
    (js "so ") (js "laughs") (js " funny  ok") (by decide!) (by decide!)
  exact ⟨by decide!, h.1⟩

/-! ### Cancellation -/

theorem cancel_of_cancellable (s : State) (id : Nat) (h : Cancellable s id) :
    cancel s id = State.emit
      { addToHistory ((sendRefundAction s id).1.setItem id fun it =>
          { it with refunded := (sendRefundAction s id).2 })
          (createHistoryEntry id { s.item id with refunded := (sendRefundAction s id).2 }
            HistoryStatus.cancelled (some (js "Cancelled by streamer")))
        with ttsQueue := s.ttsQueue.erase id }
      (Effect.reply true none) := by
  obtain ⟨index, hi⟩ := findIndexById_of_mem _ _ h.1
  have herase := (findIndexById_some _ _ index hi).2
  unfold cancel
  rw [hi]
  have hcond : ¬ ((s.item id).status ≠ Status.queued ∧
      (s.item id).status ≠ Status.pending_moderation) := by
    rcases h.2 with h | h <;> simp [h]
  simp only [hcond, if_false]
  simp [herase]

theorem cancel_of_not_cancellable (s : State) (id : Nat) (h : ¬ Cancellable s id) :
    ∃ error, cancel s id = s.emit (Effect.reply false (some error)) := by
  unfold cancel
  cases hi : findIndexById id s.ttsQueue with
  | none => exact ⟨_, rfl⟩
  | some index =>
    have hmem := (findIndexById_some _ _ index hi).1
    have hcond : (s.item id).status ≠ Status.queued ∧
        (s.item id).status ≠ Status.pending_moderation := by
      constructor
      · intro hq; exact h ⟨hmem, Or.inl hq⟩
      · intro hq; exact h ⟨hmem, Or.inr hq⟩
    dsimp only
    rw [if_pos hcond]
    exact ⟨_, rfl⟩

/-- C21: for every scheduler state and id, `queue:cancel` returns success when
the item is in the work list with status `queued` or `pending_moderation`, and a
failure with an error otherwise. On success the work list is the old one without
that item, no other item object is changed and the item itself only gets its
`refunded` flag, exactly one History Entry is added, with status `cancelled`,
`sendRefundAction` is called once (a refund request is sent exactly when the
item can be refunded) and the flags are unchanged. On failure the state is the
old one but for the reply. -/
theorem C21_cancellation_frame (s : State) (id : Nat) :
    (Cancellable s id →
      repliesAdded s (cancel s id) = [(true, none)] ∧
      (cancel s id).ttsQueue = s.ttsQueue.erase id ∧
      (∀ j, j ≠ id → (cancel s id).item j = s.item j) ∧
      (cancel s id).item id = { s.item id with refunded := canRefund s id } ∧
      (∃ e, historyAdded s (cancel s id) = [e] ∧ e.id = id ∧
        e.status = HistoryStatus.cancelled ∧ e.refunded = canRefund s id) ∧
      refundsAdded s (cancel s id) = (if canRefund s id = true then [id] else []) ∧
      (cancel s id).isProcessing = s.isProcessing ∧ (cancel s id).isPaused = s.isPaused ∧
      (cancel s id).currentTtsId = s.currentTtsId) ∧
    (¬ Cancellable s id →
      ∃ error, cancel s id = s.emit (Effect.reply false (some error)) ∧
        repliesAdded s (cancel s id) = [(false, some error)] ∧
        historyAdded s (cancel s id) = [] ∧ refundsAdded s (cancel s id) = []) := by
  constructor
  · intro h
    have hlog : (cancel s id).log = s.log ++
        ((if canRefund s id = true then [Effect.refund id] else []) ++
          [Effect.history (createHistoryEntry id { s.item id with refunded := canRefund s id }
            HistoryStatus.cancelled (some (js "Cancelled by streamer"))),
           Effect.reply true none]) := by
      rw [cancel_of_cancellable s id h]
      simp [sendRefundAction_log_eq, sendRefundAction_snd]
    rw [cancel_of_cancellable s id h] at hlog ⊢
    refine ⟨?_, rfl, ?_, ?_, ?_, ?_, ?_, ?_, ?_⟩
    · unfold repliesAdded
      rw [hlog, List.drop_left]
      split <;> rfl
    · intro j hj
      simp [setItem_item_other _ _ _ _ hj]
    · simp [sendRefundAction_snd]
    · refine ⟨createHistoryEntry id { s.item id with refunded := canRefund s id }
        HistoryStatus.cancelled (some (js "Cancelled by streamer")), ?_, rfl, rfl, rfl⟩
      unfold historyAdded
      rw [hlog, List.drop_left, historyEntries_append]
      split <;> rfl
    · unfold refundsAdded
      rw [hlog, List.drop_left, refundsSent_append]
      split <;> rfl
    · simp
    · simp
    · simp
  · intro h
    obtain ⟨error, he⟩ := cancel_of_not_cancellable s id h
    refine ⟨error, he, ?_, ?_, ?_⟩
    · unfold repliesAdded
      rw [he, emit_log, List.drop_left]
      rfl
    · unfold historyAdded
      rw [he, emit_log, List.drop_left]
      rfl
    · unfold refundsAdded
      rw [he, emit_log, List.drop_left]
      rfl

/-- C21 at an input: of two refundable requests the second, still queued, is
cancelled and refunded; the first, which is in the pipeline, cannot be
cancelled. -/
theorem C21_cancellation_frame_witness :
    Cancellable (run (State.empty autoSettings) [Event.enqueue true, Event.enqueue true]) 1 ∧
    (cancel (run (State.empty autoSettings) [Event.enqueue true, Event.enqueue true]) 1).ttsQueue
      = [0] ∧
    refundsAdded (run (State.empty autoSettings) [Event.enqueue true, Event.enqueue true])
      (cancel (run (State.empty autoSettings) [Event.enqueue true, Event.enqueue true]) 1) = [1] ∧
    ¬ Cancellable (run (State.empty autoSettings) [Event.enqueue true, Event.enqueue true]) 0 ∧
    repliesAdded (run (State.empty autoSettings) [Event.enqueue true, Event.enqueue true])
      (cancel (run (State.empty autoSettings) [Event.enqueue true, Event.enqueue true]) 0) =
      [(false, some "Can only cancel queued or pending items")] := by
  have h := (C21_cancellation_frame
    (run (State.empty autoSettings) [Event.enqueue true, Event.enqueue true]) 1).1 (by decide!)
  refine ⟨by decide!, ?_, ?_, by decide!, by decide!⟩
  · rw [h.2.1]
    decide!
  · rw [h.2.2.2.2.2.1]
    decide!

/-! ### Pause -/

theorem processQueue_of_paused (s : State) (h : s.isPaused = true) : processQueue s = s := by
  rcases processQueue_cases s with hp | ⟨id, _, _, _, hpaused, _⟩
  · exact hp
  · rw [h] at hpaused
    exact absurd hpaused (by simp)

theorem nothingStarted_refl (s : State) : NothingStarted s s := ⟨fun _ h => h, fun h => h⟩

theorem nothingStarted_of_item {s s' : State} (id : Nat) (it : Item)
    (hst : it.status ≠ Status.processing)
    (hitem : ∀ j, j ≠ id → s'.item j = s.item j) (hid : s'.item id = it)
    (hproc : s'.isProcessing = true → s.isProcessing = true) : NothingStarted s s' := by
  refine ⟨fun j hj => ?_, hproc⟩
  by_cases h : j = id
  · subst h
    rw [hid] at hj
    exact absurd hj hst
  · rw [hitem j h] at hj
    exact hj

theorem nothingStarted_of_eq {s s' : State} (hitem : s'.item = s.item)
    (hproc : s'.isProcessing = true → s.isProcessing = true) : NothingStarted s s' :=
  ⟨fun j hj => by rw [hitem] at hj; exact hj, hproc⟩

theorem enqueue_paused (s : State) (refundable : Bool) (hp : s.isPaused = true) :
    enqueue s refundable =
      State.emit
        { s with nextId := s.nextId + 1,
                 item := Function.update s.item s.nextId { blankItem with refundable := refundable },
                 ttsQueue := s.ttsQueue ++ [s.nextId] }
        (Effect.queued s.nextId (s.ttsQueue.length + 1)) := by
  unfold enqueue
  dsimp only
  split
  · rw [processQueue_of_paused _ (by simpa using hp)]
    simp
  · simp

theorem step_paused (s : State) (e : Event) (hp : s.isPaused = true) (he : e ≠ Event.resume) :
    (step s e).isPaused = true ∧ NothingStarted s (step s e) := by
  cases e with
  | resume => exact absurd rfl he
  | enqueue refundable =>
    rw [step_enqueue, enqueue_paused s refundable hp]
    refine ⟨by simpa using hp, nothingStarted_of_item s.nextId
      { blankItem with refundable := refundable } (by simp [blankItem]) ?_ ?_ ?_⟩
    · intro j hj
      simp [Function.update_noteq hj]
    · simp
    · simp
  | clear => exact ⟨hp, nothingStarted_refl _⟩
  | pause => exact ⟨rfl, nothingStarted_refl _⟩
  | configure settings => exact ⟨hp, nothingStarted_refl _⟩
  | gptDone id b =>
    rw [step_gptDone]
    split
    · unfold resumeAfterGPT
      cases b with
      | none => exact ⟨hp, nothingStarted_of_eq rfl (fun h => h)⟩
      | some reason =>
        dsimp only
        split
        · rw [processQueue_of_paused _ (by simpa [State.setStatus] using hp)]
          refine ⟨by simpa [State.setStatus] using hp, nothingStarted_of_item id
            { s.item id with blockReason := some reason, status := Status.pending_moderation }
            (by simp) ?_ ?_ ?_⟩
          · intro j hj
            simp [State.setStatus, setItem_item_other _ _ _ _ hj]
          · simp [State.setStatus]
          · simp
        · rw [processQueue_of_paused _ (by simpa [State.setStatus] using hp)]
          refine ⟨by simpa [State.setStatus] using hp, nothingStarted_of_item id
            { s.item id with blockReason := some reason, status := Status.blocked,
                             refunded := canRefund (s.settle (Cont.afterGPT id)) id }
            (by simp) ?_ ?_ ?_⟩
          · intro j hj
            simp [State.setStatus, setItem_item_other _ _ _ _ hj]
          · simp [State.setStatus, sendRefundAction_snd, canRefund]
          · simp
    · exact ⟨hp, nothingStarted_refl _⟩
  | ttsDone id o =>
    rw [step_ttsDone]
    split
    · unfold resumeAfterTTS
      cases o with
      | ok historyItemId =>
        dsimp only
        split
        · refine ⟨by simpa using hp, fun j hj => ?_, fun h => by simpa using h⟩
          by_cases hji : j = id
          · subst hji
            simp at hj
          · simpa [setItem_item_other _ _ _ _ hji] using hj
        · refine ⟨by simpa [startPlaying, State.setStatus] using hp, fun j hj => ?_,
            fun h => by simpa [startPlaying, State.setStatus] using h⟩
          by_cases hji : j = id
          · subst hji
            simp [startPlaying, State.setStatus] at hj
          · simpa [startPlaying, State.setStatus, setItem_item_other _ _ _ _ hji] using hj
      | failed message =>
        dsimp only
        rw [processQueue_of_paused _ (by simpa using hp)]
        refine ⟨by simpa using hp, fun j hj => ?_, fun h => by simp at h⟩
        by_cases hji : j = id
        · subst hji
          simp at hj
        · simpa [setItem_item_other _ _ _ _ hji] using hj
    · exact ⟨hp, nothingStarted_refl _⟩
  | animationDone id =>
    rw [step_animationDone]
    split
    · refine ⟨by simpa [startPlaying, State.setStatus] using hp, fun j hj => ?_,
        fun h => by simpa [startPlaying, State.setStatus] using h⟩
      by_cases hji : j = id
      · subst hji
        simp [startPlaying, State.setStatus] at hj
      · simpa [startPlaying, State.setStatus, setItem_item_other _ _ _ _ hji] using hj
    · exact ⟨hp, nothingStarted_refl _⟩
  | lingerTimeout handle =>
    rw [step_lingerTimeout]
    split
    · exact ⟨hp, nothingStarted_of_eq rfl (fun h => h)⟩
    · exact ⟨hp, nothingStarted_refl _⟩
  | audioFinished id =>
    rw [step_audioFinished]
    unfold audioFinished
    simp only [processQueueIfQueued_eq]
    split
    · split
      · rw [processQueue_of_paused _ (by simpa using hp)]
        refine ⟨by simpa using hp, fun j hj => ?_, fun h => by simp at h⟩
        rw [beginLinger_item] at hj
        by_cases hji : j = id
        · subst hji
          simp at hj
        · simpa [hji] using hj
      · split
        · split
          · rw [processQueue_of_paused _ (by simpa using hp)]
            refine ⟨by simpa using hp, fun j hj => ?_, fun h => by simp at h⟩
            rw [beginLinger_item] at hj
            by_cases hji : j = id
            · subst hji
              simp at hj
            · simpa [hji] using hj
          · rw [processQueue_of_paused _ (by simpa using hp)]
            exact ⟨by simpa using hp, fun j hj => by simpa using hj, fun h => by simp at h⟩
        · rw [processQueue_of_paused _ (by simpa using hp)]
          refine ⟨by simpa using hp, fun j hj => ?_, fun h => by simp at h⟩
          rw [beginLinger_item] at hj
          by_cases hji : j = id
          · subst hji
            simp at hj
          · simpa [hji] using hj
    · rw [processQueue_of_paused _ (by simpa using hp)]
      exact ⟨by simpa using hp, fun j hj => by simpa using hj, fun h => by simp at h⟩
  | cancel id =>
    rw [step_cancel]
    by_cases hc : Cancellable s id
    · rw [cancel_of_cancellable s id hc]
      refine ⟨by simpa using hp, fun j hj => ?_, fun h => by simpa using h⟩
      by_cases hji : j = id
      · subst hji
        simpa using hj
      · simpa [setItem_item_other _ _ _ _ hji] using hj
    · obtain ⟨error, he⟩ := cancel_of_not_cancellable s id hc
      rw [he]
      exact ⟨hp, nothingStarted_of_eq rfl (fun h => h)⟩
  | replay historyId position useShowHide =>
    rw [step_replay]
    unfold replay
    split
    · exact ⟨hp, nothingStarted_of_eq rfl (fun h => h)⟩
    · split
      · exact ⟨hp, nothingStarted_of_eq rfl (fun h => h)⟩
      · split
        · exact ⟨hp, nothingStarted_of_eq rfl (fun h => h)⟩
        · exact ⟨hp, nothingStarted_of_eq rfl (fun h => h)⟩
  | moderate id action position =>
    rw [step_moderate]
    unfold moderate
    split
    · exact ⟨hp, nothingStarted_of_eq rfl (fun h => h)⟩
    · split
      · exact ⟨hp, nothingStarted_of_eq rfl (fun h => h)⟩
      · cases action with
        | refund =>
          dsimp only
          refine ⟨by simpa using hp, fun j hj => ?_, fun h => by simpa using h⟩
          by_cases hji : j = id
          · subst hji
            simp at hj
          · simpa [setItem_item_other _ _ _ _ hji] using hj
        | allow => exact ⟨hp, nothingStarted_of_eq rfl (fun h => h)⟩
        | other => exact ⟨hp, nothingStarted_of_eq rfl (fun h => h)⟩
  | allowDone id index position o =>
    rw [step_allowDone]
    split
    · unfold resumeAllow
      cases o with
      | failed message => exact ⟨hp, nothingStarted_of_eq rfl (fun h => h)⟩
      | ok historyItemId =>
        dsimp only
        cases position with
        | front =>
          dsimp only
          rw [if_neg (by simp [hp])]
          refine ⟨by simpa using hp, fun j hj => ?_, fun h => by simpa using h⟩
          by_cases hji : j = id
          · subst hji
            simp at hj
          · simpa [setItem_item_other _ _ _ _ hji] using hj
        | back =>
          dsimp only
          rw [if_neg (by simp [hp])]
          refine ⟨by simpa using hp, fun j hj => ?_, fun h => by simpa using h⟩
          by_cases hji : j = id
          · subst hji
            simp at hj
          · simpa [setItem_item_other _ _ _ _ hji] using hj
    · exact ⟨hp, nothingStarted_refl _⟩
  | replayDone entry position useShowHide ok =>
    rw [step_replayDone]
    split
    · unfold resumeReplay
      split
      · exact ⟨hp, nothingStarted_of_eq rfl (fun h => h)⟩
      · cases position with
        | front =>
          dsimp only
          rw [if_neg (by simp [hp])]
          refine ⟨by simpa using hp, fun j hj => ?_, fun h => by simpa using h⟩
          by_cases hji : j = s.nextId
          · subst hji
            simp [blankItem] at hj
          · simpa [Function.update_noteq hji] using hj
        | back =>
          dsimp only
          rw [if_neg (by simp [hp])]
          refine ⟨by simpa using hp, fun j hj => ?_, fun h => by simpa using h⟩
          by_cases hji : j = s.nextId
          · subst hji
            simp [blankItem] at hj
          · simpa [Function.update_noteq hji] using hj
    · exact ⟨hp, nothingStarted_refl _⟩

theorem run_paused (events : List Event) :
    ∀ s : State, s.isPaused = true → Event.resume ∉ events →
      (run s events).isPaused = true ∧ NothingStarted s (run s events) := by
  induction events with
  | nil => exact fun s hp _ => ⟨hp, nothingStarted_refl s⟩
  | cons e es ih =>
    intro s hp hr
    have he : e ≠ Event.resume := fun h => hr (by simp [h])
    obtain ⟨h1, h2⟩ := step_paused s e hp he
    obtain ⟨h3, h4⟩ := ih (step s e) h1 (fun h => hr (List.mem_cons_of_mem _ h))
    exact ⟨h3, fun id h => h2.1 id (h4.1 id h), fun h => h2.2 (h4.2 h)⟩

/-- C23: in every scheduler state with `isPaused = true`, an enqueue appends the
new item at the end of the work list with status `queued` and acknowledges it
with `TTS_QUEUED`; `processQueue` does nothing; and along every sequence of
events without `queue:resume` (enqueue, `audio:finished`, moderator actions,
replay, the settling of what the handlers await) the scheduler stays paused, no
item turns `processing`, and the processing slot is not taken. -/
theorem C23_pause (s : State) (hp : s.isPaused = true) :
    (∀ refundable,
      (enqueue s refundable).ttsQueue = s.ttsQueue ++ [s.nextId] ∧
      ((enqueue s refundable).item s.nextId).status = Status.queued ∧
      (enqueue s refundable).log = s.log ++ [Effect.queued s.nextId (s.ttsQueue.length + 1)]) ∧
    processQueue s = s ∧
    (∀ events, Event.resume ∉ events →
      (run s events).isPaused = true ∧ NothingStarted s (run s events)) := by
  refine ⟨fun refundable => ?_, processQueue_of_paused s hp, fun events hr =>
    run_paused events s hp hr⟩
  rw [enqueue_paused s refundable hp]
  refine ⟨rfl, ?_, rfl⟩
  simp [blankItem]

/-- C23 at an input: a scheduler paused while idle takes two requests and a
replay of nothing, and starts neither request; once resumed it starts the
first. -/
theorem C23_pause_witness :
    (run (State.empty plainSettings) [Event.pause]).isPaused = true ∧
    NothingStarted (run (State.empty plainSettings) [Event.pause])
      (run (run (State.empty plainSettings) [Event.pause])
        [Event.enqueue false, Event.enqueue false, Event.replay 5 Position.front false]) ∧
    ((run (run (State.empty plainSettings) [Event.pause])
        [Event.enqueue false, Event.enqueue false, Event.replay 5 Position.front false]).ttsQueue.map fun i =>
      ((run (run (State.empty plainSettings) [Event.pause])
        [Event.enqueue false, Event.enqueue false, Event.replay 5 Position.front false]).item i).status) =
      [Status.queued, Status.queued] ∧
    ((run (run (State.empty plainSettings) [Event.pause])
        [Event.enqueue false, Event.enqueue false, Event.resume]).item 0).status =
      Status.processing :=
  ⟨by decide!,
   ((C23_pause (run (State.empty plainSettings) [Event.pause]) (by decide!)).2.2
      [Event.enqueue false, Event.enqueue false, Event.replay 5 Position.front false] (by decide)).2,
   by decide!, by decide!⟩

/-! ### FIFO service -/

/-- What `processQueue` does, with the place of the item it starts: the first
queued item of the work list. -/
theorem processQueue_first (s : State) :
    processQueue s = s ∨
    ∃ pre id post, s.ttsQueue = pre ++ id :: post ∧ (s.item id).status = Status.queued ∧
      (∀ j ∈ pre, (s.item j).status ≠ Status.queued) ∧ processQueue s = startItem s id := by
  unfold processQueue
  by_cases h1 : s.isProcessing = true ∨ s.ttsQueue.length = 0
  · left; rw [if_pos h1]
  · rw [if_neg h1]
    by_cases h2 : s.isPaused = true
    · left; rw [if_pos h2]
    · rw [if_neg h2]
      cases hf : s.ttsQueue.find? fun i => (s.item i).status = Status.queued with
      | none => left; rfl
      | some id =>
        right
        obtain ⟨hq, pre, post, hsplit, hpre⟩ := List.find?_eq_some.mp hf
        refine ⟨pre, id, post, hsplit, by simpa using hq, fun j hj => ?_, rfl⟩
        have := hpre j hj
        simpa using this

theorem mem_startedBetween (s s' : State) (i : Nat) :
    i ∈ startedBetween s s' ↔ i ∈ s'.ttsQueue ∧
      ((s'.item i).status = Status.processing ∨ (s'.item i).status = Status.playing) ∧
      ((s.item i).status = Status.queued ∨ s.nextId ≤ i) := by
  unfold startedBetween
  simp [List.mem_filter]

theorem startedBetween_eq_nil (s s' : State)
    (h : ∀ j ∈ s'.ttsQueue,
      (s'.item j).status = Status.processing ∨ (s'.item j).status = Status.playing →
      ¬ ((s.item j).status = Status.queued ∨ s.nextId ≤ j)) :
    startedBetween s s' = [] := by
  apply List.eq_nil_iff_forall_not_mem.mpr
  intro j hj
  rw [mem_startedBetween] at hj
  exact h j hj.1 hj.2.1 hj.2.2

theorem ArrivalOrder.congr {a b : State} {served : List Nat} (h : ArrivalOrder a served)
    (hi : b.item = a.item) (hq : b.ttsQueue = a.ttsQueue) (hn : b.nextId = a.nextId)
    (hp : b.pending = a.pending) : ArrivalOrder b served where
  sorted := by rw [hq]; exact h.sorted
  fresh := by rw [hq, hn]; exact h.fresh
  slot := by rw [hp, hi, hn]; exact h.slot
  conts := by rw [hp]; exact h.conts
  servedFirst := by rw [hq, hi, hn]; exact h.servedFirst
  order := h.order

theorem startedBetween_congr (s a b : State) (hi : b.item = a.item)
    (hq : b.ttsQueue = a.ttsQueue) : startedBetween s b = startedBetween s a := by
  unfold startedBetween
  rw [hi, hq]

theorem ArrivalOrder.sorted_append {s : State} {served : List Nat} (h : ArrivalOrder s served) :
    (s.ttsQueue ++ [s.nextId]).Pairwise (· < ·) := by
  rw [List.pairwise_append]
  refine ⟨h.sorted, List.pairwise_singleton _ _, fun a ha b hb => ?_⟩
  rw [List.mem_singleton] at hb
  rw [hb]
  exact h.fresh a ha

/-- The handler's work before `processQueue` keeps the invariant and starts
nothing. -/
theorem ArrivalOrder.prepared {s t : State} {served : List Nat} (h : ArrivalOrder s served)
    (p : Prepares s t) : ArrivalOrder t (served ++ startedBetween s t) := by
  rw [startedBetween_eq_nil s t p.started, List.append_nil]
  refine ⟨h.sorted_append.sublist p.queue, p.fresh, p.slot, p.conts, fun a ha => ?_, h.order⟩
  refine ⟨Nat.lt_of_lt_of_le (h.servedFirst a ha).1 p.nextId_le, fun b hb hbq => ?_⟩
  have hmem := p.queue.subset hb
  rcases List.mem_append.mp hmem with hb' | hb'
  · rcases p.queued b hbq with hq | hq
    · exact (h.servedFirst a ha).2 b hb' hq
    · exact absurd (h.fresh b hb') (by omega)
  · rw [List.mem_singleton] at hb'
    rw [hb']
    exact (h.servedFirst a ha).1

/-- The handler's work followed by `processQueue` keeps the invariant, the item
started, if any, being the next to serve. -/
theorem ArrivalOrder.processed {s t : State} {served : List Nat} (h : ArrivalOrder s served)
    (p : Prepares s t) :
    ArrivalOrder (processQueue t) (served ++ startedBetween s (processQueue t)) := by
  have ht := h.prepared p
  rw [startedBetween_eq_nil s t p.started, List.append_nil] at ht
  rcases processQueue_first t with hpq | ⟨pre, id, post, hsplit, hq, hpre, hpq⟩
  · rw [hpq]
    exact h.prepared p
  · rw [hpq]
    have hid : id ∈ t.ttsQueue := by rw [hsplit]; simp
    have hstatus : ((startItem t id).item id).status ≠ Status.queued := by
      rw [startItem_item, if_pos rfl]
      dsimp only
      split <;> simp
    have hmem : ∀ j ∈ startedBetween s (startItem t id), j = id := by
      intro j hj
      rw [mem_startedBetween] at hj
      by_contra hne
      rw [startItem_item_other t id j hne, startItem_ttsQueue] at hj
      exact p.started j hj.1 hj.2.1 hj.2.2
    have hafter : ∀ b ∈ t.ttsQueue, ((startItem t id).item b).status = Status.queued →
        (t.item b).status = Status.queued ∧ id < b := by
      intro b hb hbq
      have hne : b ≠ id := by
        intro hbid
        rw [hbid] at hbq
        exact hstatus hbq
      rw [startItem_item_other t id b hne] at hbq
      refine ⟨hbq, ?_⟩
      have hs := ht.sorted
      rw [hsplit, List.pairwise_append, List.pairwise_cons] at hs
      rw [hsplit] at hb
      rcases List.mem_append.mp hb with hb' | hb'
      · exact absurd hbq (hpre b hb')
      · rcases List.mem_cons.mp hb' with hb'' | hb''
        · exact absurd hb'' hne
        · exact hs.2.1.1 b hb''
    refine ⟨by rw [startItem_ttsQueue]; exact ht.sorted,
      by rw [startItem_ttsQueue, startItem_nextId]; exact ht.fresh, ?_, ?_, ?_, ?_⟩
    · intro c hc cid hcid
      rw [startItem_nextId]
      have hcases : c ∈ t.pending ∨ cid = id := by
        unfold startItem at hc
        dsimp only at hc
        split at hc
        · split at hc
          · left; simpa [State.setStatus] using hc
          · left; simpa [State.setStatus] using hc
        · simp only [State.setStatus, setItem_pending, setItem_settings, List.mem_append,
            List.mem_singleton] at hc
          rcases hc with hc | hc
          · exact Or.inl hc
          · right
            split at hc <;> (rw [hc] at hcid; simp [Cont.slotId] at hcid; exact hcid.symm)
      by_cases hci : cid = id
      · rw [hci]
        exact ⟨hstatus, ht.fresh id hid⟩
      · rcases hcases with hc' | hc'
        · rw [startItem_item_other t id cid hci]
          exact ht.slot c hc' cid hcid
        · exact absurd hc' hci
    · intro c hc
      unfold startItem at hc
      dsimp only at hc
      split at hc
      · split at hc
        · exact ht.conts c (by simpa [State.setStatus] using hc)
        · exact ht.conts c (by simpa [State.setStatus] using hc)
      · simp only [State.setStatus, setItem_pending, setItem_settings, List.mem_append,
          List.mem_singleton] at hc
        rcases hc with hc | hc
        · exact ht.conts c hc
        · split at hc <;> (rw [hc]; rfl)
    · intro a ha
      rw [startItem_nextId, startItem_ttsQueue]
      rcases List.mem_append.mp ha with ha' | ha'
      · exact ⟨(ht.servedFirst a ha').1, fun b hb hbq =>
          (ht.servedFirst a ha').2 b hb (hafter b hb hbq).1⟩
      · rw [hmem a ha']
        exact ⟨ht.fresh id hid, fun b hb hbq => (hafter b hb hbq).2⟩
    · rw [List.pairwise_append]
      refine ⟨h.order, ?_, fun a ha b hb => ?_⟩
      · unfold startedBetween
        rw [startItem_ttsQueue]
        exact ht.sorted.filter _
      · rw [hmem b hb]
        exact (ht.servedFirst a ha).2 id hid hq

theorem Prepares.keep {s t : State} {served : List Nat} (h : ArrivalOrder s served)
    (hn : t.nextId = s.nextId) (hq : t.ttsQueue.Sublist s.ttsQueue)
    (hitem : ∀ j, (t.item j).status = (s.item j).status ∨
      ((t.item j).status ≠ Status.queued ∧ (t.item j).status ≠ Status.processing ∧
        ((t.item j).status = Status.playing → ∃ c ∈ s.pending, c.slotId = some j)))
    (hpend : ∀ c ∈ t.pending, c ∈ s.pending ∨
      (c.keepsArrivalOrder = true ∧
        ∀ id, c.slotId = some id → ∃ c' ∈ s.pending, c'.slotId = some id)) :
    Prepares s t := by
  have hfresh : ∀ i ∈ t.ttsQueue, i < s.nextId := fun i hi => h.fresh i (hq.subset hi)
  refine ⟨by omega, hq.trans (List.sublist_append_left _ _), by rw [hn]; exact hfresh,
    fun j hj => ?_, fun j hj hst => ?_, fun c hc id hid => ?_, fun c hc => ?_⟩
  · rcases hitem j with he | he
    · rw [he] at hj
      exact Or.inl hj
    · exact absurd hj he.1
  · have hlt := hfresh j hj
    rintro (hq' | hq')
    · rcases hitem j with he | he
      · rw [he, hq'] at hst
        simp at hst
      · rcases hst with hst | hst
        · exact he.2.1 hst
        · obtain ⟨c, hc, hcj⟩ := he.2.2 hst
          exact (h.slot c hc j hcj).1 hq'
    · omega
  · have hold : ∃ c' ∈ s.pending, c'.slotId = some id := by
      rcases hpend c hc with hc' | hc'
      · exact ⟨c, hc', hid⟩
      · exact hc'.2 id hid
    obtain ⟨c', hc', hid'⟩ := hold
    have hs := h.slot c' hc' id hid'
    refine ⟨?_, by rw [hn]; exact hs.2⟩
    rcases hitem id with he | he
    · rw [he]
      exact hs.1
    · exact he.1
  · rcases hpend c hc with hc' | hc'
    · exact h.conts c hc'
    · exact hc'.1

theorem Prepares.append {s t : State} {served : List Nat} (h : ArrivalOrder s served)
    (hn : t.nextId = s.nextId + 1) (hq : t.ttsQueue = s.ttsQueue ++ [s.nextId])
    (hitem : ∀ j, j ≠ s.nextId → t.item j = s.item j)
    (hnew : (t.item s.nextId).status = Status.queued)
    (hpend : ∀ c ∈ t.pending, c ∈ s.pending) : Prepares s t := by
  refine ⟨by omega, by rw [hq], fun i hi => ?_, fun j hj => ?_, fun j hj hst => ?_,
    fun c hc id hid => ?_, fun c hc => h.conts c (hpend c hc)⟩
  · rw [hq] at hi
    rcases List.mem_append.mp hi with hi' | hi'
    · have := h.fresh i hi'
      omega
    · rw [List.mem_singleton] at hi'
      omega
  · by_cases hjn : j = s.nextId
    · exact Or.inr (by omega)
    · rw [hitem j hjn] at hj
      exact Or.inl hj
  · by_cases hjn : j = s.nextId
    · rw [hjn, hnew] at hst
      simp at hst
    · rw [hitem j hjn] at hst
      rw [hq] at hj
      rcases List.mem_append.mp hj with hj' | hj'
      · have := h.fresh j hj'
        rintro (hq' | hq')
        · rw [hq'] at hst
          simp at hst
        · omega
      · rw [List.mem_singleton] at hj'
        exact absurd hj' hjn
  · have hs := h.slot c (hpend c hc) id hid
    have hne : id ≠ s.nextId := by omega
    rw [hitem id hne]
    exact ⟨hs.1, by omega⟩

theorem Prepares.refl {s : State} {served : List Nat} (h : ArrivalOrder s served) :
    Prepares s s :=
  Prepares.keep h rfl (List.Sublist.refl _) (fun _ => Or.inl rfl) (fun _ hc => Or.inl hc)

theorem ArrivalOrder.emit {s a : State} {served : List Nat} (e : Effect)
    (h : ArrivalOrder a (served ++ startedBetween s a)) :
    ArrivalOrder (a.emit e) (served ++ startedBetween s (a.emit e)) := by
  rw [startedBetween_congr s a (a.emit e) rfl rfl]
  exact h.congr rfl rfl rfl rfl

theorem ArrivalOrder.same {s : State} {served : List Nat} (h : ArrivalOrder s served) :
    ArrivalOrder s (served ++ startedBetween s s) :=
  h.prepared (Prepares.refl h)

theorem removeFirstWithStatus_sublist (item : Nat → Item) (status : Status) (l : List Nat) :
    (removeFirstWithStatus item status l).Sublist l := by
  induction l with
  | nil => exact List.Sublist.refl _
  | cons a as ih =>
    unfold removeFirstWithStatus
    split
    · exact List.sublist_cons_self _ _
    · exact ih.cons₂ _

theorem step_arrivalOrder (s : State) (e : Event) (served : List Nat)
    (h : ArrivalOrder s served) (he : e.keepsArrivalOrder = true) :
    ArrivalOrder (step s e) (served ++ startedBetween s (step s e)) := by
  cases e with
  | enqueue refundable =>
    rw [step_enqueue]
    unfold enqueue
    dsimp only
    have p : Prepares s (State.emit
        { s with nextId := s.nextId + 1,
                 item := Function.update s.item s.nextId { blankItem with refundable := refundable },
                 ttsQueue := s.ttsQueue ++ [s.nextId] }
        (Effect.queued s.nextId (s.ttsQueue ++ [s.nextId]).length)) :=
      Prepares.append h rfl rfl (fun j hj => by simp [Function.update_noteq hj])
        (by simp [blankItem]) (fun c hc => hc)
    split
    · exact h.processed p
    · exact h.prepared p
  | clear =>
    exact h.prepared (Prepares.keep h rfl (List.nil_sublist _) (fun _ => Or.inl rfl)
      (fun _ hc => Or.inl hc))
  | pause =>
    exact h.prepared (Prepares.keep h rfl (List.Sublist.refl _) (fun _ => Or.inl rfl)
      (fun _ hc => Or.inl hc))
  | configure settings =>
    exact h.prepared (Prepares.keep h rfl (List.Sublist.refl _) (fun _ => Or.inl rfl)
      (fun _ hc => Or.inl hc))
  | resume =>
    rw [step_resume]
    exact h.processed (Prepares.keep h rfl (List.Sublist.refl _) (fun _ => Or.inl rfl)
      (fun _ hc => Or.inl hc))
  | gptDone id b =>
    rw [step_gptDone]
    split
    · rename_i hc
      unfold resumeAfterGPT
      cases b with
      | none =>
        refine h.prepared (Prepares.keep h rfl (List.Sublist.refl _) (fun _ => Or.inl rfl)
          (fun c hc' => ?_))
        simp only [settle_pending, List.mem_append, List.mem_singleton] at hc'
        rcases hc' with hc' | hc'
        · exact Or.inl (List.mem_of_mem_erase hc')
        · refine Or.inr ⟨by rw [hc']; rfl, fun cid hcid => ⟨Cont.afterGPT id, hc, ?_⟩⟩
          rw [hc'] at hcid
          exact hcid
      | some reason =>
        dsimp only
        split
        · refine h.processed (Prepares.keep h rfl (List.Sublist.refl _) (fun j => ?_)
            (fun c hc' => Or.inl (List.mem_of_mem_erase hc')))
          by_cases hj : j = id
          · subst hj
            right
            simp [State.setStatus]
          · left
            simp [State.setStatus, setItem_item_other _ _ _ _ hj]
        · refine h.processed (Prepares.keep h (by simp [State.setStatus]) ?_ (fun j => ?_)
            (fun c hc' => Or.inl (List.mem_of_mem_erase (by simpa [State.setStatus] using hc'))))
          · simp only [State.setStatus, addToHistory_ttsQueue, setItem_ttsQueue,
              sendRefundAction_ttsQueue, settle_ttsQueue]
            exact List.erase_sublist _ _
          · by_cases hj : j = id
            · subst hj
              right
              simp [State.setStatus]
            · left
              simp [State.setStatus, setItem_item_other _ _ _ _ hj]
    · exact h.same
  | ttsDone id o =>
    rw [step_ttsDone]
    split
    · rename_i hc
      unfold resumeAfterTTS
      cases o with
      | ok historyItemId =>
        dsimp only
        split
        · refine h.prepared (Prepares.keep h rfl ?_ (fun j => ?_) (fun c hc' => ?_))
          · exact removeFirstWithStatus_sublist _ _ _
          · by_cases hj : j = id
            · subst hj
              right
              simp
            · left
              simp [setItem_item_other _ _ _ _ hj]
          · simp only [emit_pending, setItem_pending, settle_pending, List.mem_append,
              List.mem_singleton] at hc'
            rcases hc' with hc' | hc'
            · exact Or.inl (List.mem_of_mem_erase hc')
            · refine Or.inr ⟨by rw [hc']; rfl, fun cid hcid => ⟨Cont.afterTTS id, hc, ?_⟩⟩
              rw [hc'] at hcid
              exact hcid
        · refine h.prepared (Prepares.keep h rfl (List.Sublist.refl _) (fun j => ?_)
            (fun c hc' => Or.inl (List.mem_of_mem_erase
              (by simpa [startPlaying, State.setStatus] using hc'))))
          by_cases hj : j = id
          · subst hj
            right
            simp only [startPlaying, State.setStatus, emit_item, setItem_item_same]
            exact ⟨by simp, by simp, fun _ => ⟨Cont.afterTTS j, hc, rfl⟩⟩
          · left
            simp [startPlaying, State.setStatus, setItem_item_other _ _ _ _ hj]
      | failed message =>
        dsimp only
        refine h.processed (Prepares.keep h (by simp) ?_ (fun j => ?_)
          (fun c hc' => Or.inl (List.mem_of_mem_erase (by simpa using hc'))))
        · simp only [addToHistory_ttsQueue, setItem_ttsQueue, sendRefundAction_ttsQueue,
            settle_ttsQueue]
          exact List.erase_sublist _ _
        · by_cases hj : j = id
          · subst hj
            right
            simp
          · left
            simp [setItem_item_other _ _ _ _ hj]
    · exact h.same
  | animationDone id =>
    rw [step_animationDone]
    split
    · rename_i hc
      refine h.prepared (Prepares.keep h rfl (List.Sublist.refl _) (fun j => ?_)
        (fun c hc' => Or.inl (List.mem_of_mem_erase
          (by simpa [startPlaying, State.setStatus] using hc'))))
      by_cases hj : j = id
      · subst hj
        right
        simp only [startPlaying, State.setStatus, emit_item, setItem_item_same]
        exact ⟨by simp, by simp, fun _ => ⟨Cont.afterAnimation j, hc, rfl⟩⟩
      · left
        simp [startPlaying, State.setStatus, setItem_item_other _ _ _ _ hj]
    · exact h.same
  | lingerTimeout handle =>
    rw [step_lingerTimeout]
    split
    · exact h.prepared (Prepares.keep h rfl (List.erase_sublist _ _) (fun _ => Or.inl rfl)
        (fun _ hc => Or.inl hc))
    · exact h.same
  | audioFinished id =>
    rw [step_audioFinished]
    unfold audioFinished
    simp only [processQueueIfQueued_eq]
    have hlinger : ∀ t : State, t.item = s.item → ∀ j,
        ((beginLinger t id).item j).status = (s.item j).status ∨
        (((beginLinger t id).item j).status ≠ Status.queued ∧
          ((beginLinger t id).item j).status ≠ Status.processing ∧
          (((beginLinger t id).item j).status = Status.playing →
            ∃ c ∈ s.pending, c.slotId = some j)) := by
      intro t ht j
      rw [beginLinger_item, ht]
      by_cases hj : j = id
      · subst hj
        right
        simp
      · left
        simp [hj]
    split
    · split
      · exact h.processed (Prepares.keep h rfl (List.Sublist.refl _) (hlinger _ rfl)
          (fun _ hc => Or.inl hc))
      · split
        · split
          · exact h.processed (Prepares.keep h rfl (List.Sublist.refl _) (hlinger _ rfl)
              (fun _ hc => Or.inl hc))
          · exact h.processed (Prepares.keep h rfl (List.erase_sublist _ _)
              (fun _ => Or.inl rfl) (fun _ hc => Or.inl hc))
        · exact h.processed (Prepares.keep h rfl (List.Sublist.refl _) (hlinger _ rfl)
            (fun _ hc => Or.inl hc))
    · exact h.processed (Prepares.keep h rfl (List.Sublist.refl _) (fun _ => Or.inl rfl)
        (fun _ hc => Or.inl hc))
  | cancel id =>
    rw [step_cancel]
    by_cases hc : Cancellable s id
    · rw [cancel_of_cancellable s id hc]
      refine ArrivalOrder.emit _ (h.prepared (Prepares.keep h (by simp) ?_ (fun j => ?_)
        (fun c hc' => Or.inl (by simpa using hc'))))
      · exact List.erase_sublist _ _
      · by_cases hj : j = id
        · subst hj
          left
          simp
        · left
          simp [setItem_item_other _ _ _ _ hj]
    · obtain ⟨error, he'⟩ := cancel_of_not_cancellable s id hc
      rw [he']
      exact ArrivalOrder.emit _ h.same
  | moderate id action position =>
    rw [step_moderate]
    unfold moderate
    split
    · exact ArrivalOrder.emit _ h.same
    · split
      · exact ArrivalOrder.emit _ h.same
      · cases action with
        | refund =>
          dsimp only
          refine ArrivalOrder.emit _ (h.prepared (Prepares.keep h (by simp) ?_ (fun j => ?_)
            (fun c hc' => Or.inl (by simpa using hc'))))
          · simp only [addToHistory_ttsQueue, setItem_ttsQueue, sendRefundAction_ttsQueue]
            exact List.eraseIdx_sublist _ _
          · by_cases hj : j = id
            · subst hj
              right
              simp
            · left
              simp [setItem_item_other _ _ _ _ hj]
        | allow => exact absurd he (by simp [Event.keepsArrivalOrder])
        | other => exact ArrivalOrder.emit _ h.same
  | allowDone id index position o =>
    rw [step_allowDone]
    split
    · rename_i hc
      exact absurd (h.conts _ hc) (by simp [Cont.keepsArrivalOrder])
    · exact h.same
  | replay historyId position useShowHide =>
    rw [step_replay]
    unfold replay
    split
    · exact ArrivalOrder.emit _ h.same
    · split
      · exact ArrivalOrder.emit _ h.same
      · split
        · exact ArrivalOrder.emit _ h.same
        · refine h.prepared (Prepares.keep h rfl (List.Sublist.refl _) (fun _ => Or.inl rfl)
            (fun c hc' => ?_))
          simp only [List.mem_append, List.mem_singleton] at hc'
          rcases hc' with hc' | hc'
          · exact Or.inl hc'
          · refine Or.inr ⟨?_, fun cid hcid => ?_⟩
            · rw [hc']
              cases position with
              | front => exact absurd he (by simp [Event.keepsArrivalOrder])
              | back => rfl
            · rw [hc'] at hcid
              simp [Cont.slotId] at hcid
  | replayDone entry position useShowHide ok =>
    rw [step_replayDone]
    split
    · rename_i hc
      cases position with
      | front => exact absurd (h.conts _ hc) (by simp [Cont.keepsArrivalOrder])
      | back =>
        unfold resumeReplay
        split
        · exact ArrivalOrder.emit _ (h.prepared (Prepares.keep h rfl (List.Sublist.refl _)
            (fun _ => Or.inl rfl) (fun c hc' => Or.inl (List.mem_of_mem_erase hc'))))
        · dsimp only
          have p : Prepares s
              { s.settle (Cont.replayFetch entry Position.back useShowHide) with
                nextId := s.nextId + 1,
                item := Function.update s.item s.nextId
                  { blankItem with source := Source.replay, useShowHide := useShowHide },
                ttsQueue := s.ttsQueue ++ [s.nextId] } :=
            Prepares.append h rfl rfl (fun j hj => by simp [Function.update_noteq hj])
              (by simp [blankItem]) (fun c hc' => List.mem_of_mem_erase hc')
          split
          · exact ArrivalOrder.emit _ (h.processed p)
          · exact ArrivalOrder.emit _ (h.prepared p)
    · exact h.same

theorem empty_arrivalOrder (settings : Settings) : ArrivalOrder (State.empty settings) [] where
  sorted := List.Pairwise.nil
  fresh := fun _ h => absurd h (by simp [State.empty])
  slot := fun _ h => absurd h (by simp [State.empty])
  conts := fun _ h => absurd h (by simp [State.empty])
  servedFirst := fun _ h => absurd h (by simp)
  order := List.Pairwise.nil

theorem run_startOrder (events : List Event) :
    ∀ (s : State) (served : List Nat), ArrivalOrder s served →
      (∀ e ∈ events, e.keepsArrivalOrder = true) →
      (served ++ startOrder s events).Pairwise (· < ·) := by
  induction events with
  | nil =>
    intro s served h _
    simpa [startOrder] using h.order
  | cons e es ih =>
    intro s served h he
    have h1 := step_arrivalOrder s e served h (he e (List.mem_cons_self _ _))
    have h2 := ih (step s e) _ h1 (fun e' he' => he e' (List.mem_cons_of_mem _ he'))
    simpa [startOrder, List.append_assoc] using h2

/-- C22: whenever `processQueue` starts an item, it is the first item of the
work list with status `queued`; an enqueue gives the new item the next id and
appends it at the end of the work list; and in every run from the start without
a moderator `allow` and without a replay inserted at the front, the items enter
processing in the order of their ids, which is their arrival order. -/
theorem C22_fifo_service (s : State) (settings : Settings) (events : List Event) :
    (processQueue s = s ∨
      ∃ pre id post, s.ttsQueue = pre ++ id :: post ∧ (s.item id).status = Status.queued ∧
        (∀ j ∈ pre, (s.item j).status ≠ Status.queued) ∧ processQueue s = startItem s id) ∧
    (∀ refundable, (enqueue s refundable).ttsQueue = s.ttsQueue ++ [s.nextId] ∧
      (enqueue s refundable).nextId = s.nextId + 1) ∧
    ((∀ e ∈ events, e.keepsArrivalOrder = true) →
      (startOrder (State.empty settings) events).Pairwise (· < ·)) := by
  refine ⟨processQueue_first s, fun refundable => ?_, fun he => ?_⟩
  · unfold enqueue
    dsimp only
    split <;> simp
  · simpa using run_startOrder events (State.empty settings) [] (empty_arrivalOrder settings) he

/-- C22 at an input: four requests, the second cancelled while it waits and the
third blocked by the moderation stage; the first, the third and the fourth
enter processing in this order. -/
theorem C22_fifo_service_witness :
    startOrder (State.empty autoSettings)
      [Event.enqueue false, Event.enqueue false, Event.enqueue true, Event.enqueue false,
        Event.cancel 1, Event.gptDone 0 none, Event.ttsDone 0 (TtsOutcome.ok none),
        Event.audioFinished 0, Event.gptDone 2 (some (js "HATE SPEECH - slur"))] = [0, 2, 3] ∧
    (startOrder (State.empty autoSettings)
      [Event.enqueue false, Event.enqueue false, Event.enqueue true, Event.enqueue false,
        Event.cancel 1, Event.gptDone 0 none, Event.ttsDone 0 (TtsOutcome.ok none),
        Event.audioFinished 0, Event.gptDone 2 (some (js "HATE SPEECH - slur"))]).Pairwise
      (· < ·) :=
  ⟨by decide!,
   (C22_fifo_service (State.empty autoSettings) autoSettings
      [Event.enqueue false, Event.enqueue false, Event.enqueue true, Event.enqueue false,
        Event.cancel 1, Event.gptDone 0 none, Event.ttsDone 0 (TtsOutcome.ok none),
        Event.audioFinished 0, Event.gptDone 2 (some (js "HATE SPEECH - slur"))]).2.2
      (by decide)⟩

/-! ### Classifier answers -/

theorem startsWith_iff_take (s p : Str) : startsWith s p = true ↔ s.take p.length = p := by
  induction p generalizing s with
  | nil => simp [startsWith]
  | cons a as ih =>
    cases s with
    | nil => simp [startsWith]
    | cons c cs =>
      simp only [startsWith, Bool.and_eq_true, beq_iff_eq, ih, List.length_cons, List.take_succ_cons,
        List.cons.injEq]

theorem isAscii_trim (s : Str) (h : IsAscii s) : IsAscii (trim s) := by
  intro c hc
  apply h c
  rw [trim_eq] at hc
  exact (List.dropWhile_sublist _).subset ((List.rdropWhile_prefix _ _).subset hc)

theorem checkIfBlocked_blocked (U : Unicode) (response : Str) :
    (checkIfBlocked U response).blocked = true ↔
      response ≠ [] ∧ startsWith (U.toUpperCase (trim response)) (js "BLOCKED:") = true := by
  unfold checkIfBlocked
  by_cases h : response = []
  · simp [h]
  · rw [if_neg h]
    dsimp only
    split <;> simp_all

/-- C24: for every classifier response, `checkIfBlocked` reports `blocked`
exactly when the response is not empty and its trimmed form, upper-cased,
starts with `BLOCKED:`; for an ASCII response this is: the first eight code
units of the trimmed response are `BLOCKED:` up to the case of the letters. The
reason is then what follows the prefix, trimmed, or the default reason when
nothing follows; otherwise there is no reason. An empty response and `PASS`
are not blocked, and the aggregation of `processWithGPTParallel` leaves its
result unchanged for a classifier that succeeded with an empty or missing
output. -/
theorem C24_classifier_answer (U : Unicode) (response : Str) :
    ((checkIfBlocked U response).blocked = true ↔
      response ≠ [] ∧ startsWith (U.toUpperCase (trim response)) (js "BLOCKED:") = true) ∧
    (UpperAscii U → IsAscii response →
      ((checkIfBlocked U response).blocked = true ↔
        ((trim response).take 8).map canon = js "BLOCKED:")) ∧
    ((checkIfBlocked U response).blocked = true →
      (checkIfBlocked U response).reason = some (reasonOf response)) ∧
    ((checkIfBlocked U response).blocked = false → (checkIfBlocked U response).reason = none) ∧
    (checkIfBlocked U []).blocked = false ∧
    (UpperAscii U → (checkIfBlocked U (js "PASS")).blocked = false) ∧
    (∀ (acc : Aggregate) (label : TaskLabel) (error : Option Str), UpperAscii U →
      label ≠ TaskLabel.voice →
      aggregateStep U acc (label, ⟨true, none, error⟩) = acc ∧
      aggregateStep U acc (label, ⟨true, some [], error⟩) = acc) := by
  refine ⟨checkIfBlocked_blocked U response, fun hU ha => ?_, fun hb => ?_, fun hb => ?_, ?_,
    fun hU => ?_, fun acc label error hU hl => ?_⟩
  · rw [checkIfBlocked_blocked, hU _ (isAscii_trim _ ha), startsWith_iff_take, ← List.map_take]
    have hlen : (js "BLOCKED:").length = 8 := by decide
    rw [hlen]
    constructor
    · exact fun h => h.2
    · intro h
      refine ⟨fun h0 => ?_, h⟩
      rw [h0] at h
      exact absurd h (by decide)
  · have h := (checkIfBlocked_blocked U response).mp hb
    unfold checkIfBlocked reasonOf defaultBlockReason
    rw [if_neg h.1]
    dsimp only
    rw [if_pos h.2]
  · have h : ¬ (response ≠ [] ∧
        startsWith (U.toUpperCase (trim response)) (js "BLOCKED:") = true) := by
      rw [← checkIfBlocked_blocked, hb]
      simp
    unfold checkIfBlocked
    by_cases h0 : response = []
    · rw [if_pos h0]
    · rw [if_neg h0]
      dsimp only
      rw [if_neg (fun hs => h ⟨h0, hs⟩)]
  · rfl
  · have hpass : ¬ ((checkIfBlocked U (js "PASS")).blocked = true) := by
      rw [checkIfBlocked_blocked, hU _ (isAscii_trim _ (by decide))]
      decide
    simpa using hpass
  · have hpass : (checkIfBlocked U (js "PASS")).blocked = false := by
      have hpass : ¬ ((checkIfBlocked U (js "PASS")).blocked = true) := by
        rw [checkIfBlocked_blocked, hU _ (isAscii_trim _ (by decide))]
        decide
      simpa using hpass
    constructor <;> simp [aggregateStep, outputOrPass, hl, hpass]

/-- C24 at an input: a lower-case `blocked:` answer with white space around it
is a block, with the trimmed remainder as reason. -/
theorem C24_classifier_answer_witness :
    UpperAscii asciiUnicode ∧ IsAscii (js "  blocked:  HATE SPEECH - slur \n") ∧
    (checkIfBlocked asciiUnicode (js "  blocked:  HATE SPEECH - slur \n")).blocked = true ∧
    (checkIfBlocked asciiUnicode (js "  blocked:  HATE SPEECH - slur \n")).reason =
      some (js "HATE SPEECH - slur") ∧
    (checkIfBlocked asciiUnicode (js "PASS")).blocked = false := by
  have hU : UpperAscii asciiUnicode := fun _ _ => rfl
  have h := C24_classifier_answer asciiUnicode (js "  blocked:  HATE SPEECH - slur \n")
  have hb := (h.2.1 hU (by decide)).mpr (by decide!)
  refine ⟨hU, by decide, hb, ?_, (C24_classifier_answer asciiUnicode []).2.2.2.2.2.1 hU⟩
  rw [h.2.2.1 hb]
  decide!

/-! ### The spam collapse always runs -/

theorem sanitizeStep_result (enabled : Bool) (f : Str → Str) (name : String)
    (r : SanitizeResult) :
    (sanitizeStep enabled f name r).result = optionalStep enabled f r.result := by
  unfold sanitizeStep optionalStep
  cases enabled with
  | false => rfl
  | true =>
    simp only [if_true]
    split <;> rfl

theorem normalizeSpaces_collapseRepetition (text : Str) :
    normalizeSpaces (collapseRepetition text) = collapseRepetition text := by
  unfold collapseRepetition
  by_cases h : text = []
  · rw [if_pos h, h]
    rfl
  · rw [if_neg h]
    exact normalizeSpaces_idem _

/-- C25: for every text and every sanitization config, `sanitizeInput` applies
`collapseRepetition`: its result for a non-empty text is the spam collapse of
what the enabled steps before it leave, followed by the bracket-tag step when
that is on and by the whitespace normalisation. A voice with
`ignoreSanitization` gets the config with every toggle off, whatever the global
settings, and with every toggle off the result of `sanitizeInput` is
`collapseRepetition(text)` with its white space normalised, which is
`collapseRepetition(text)` itself. -/
theorem C25_spam_collapse_always_runs (U : Unicode) (text : Str) (config : SanitizationConfig)
    (voiceConfig : VoiceSanitization) (globalConfig : GlobalSanitization) :
    (text ≠ [] → (sanitizeInput U text config).result =
      normalizeSpaces (optionalStep config.stripUserBracketTags (stripUserBracketTags U)
        (collapseRepetition (beforeSpamCollapse U text config)))) ∧
    (voiceConfig.ignoreSanitization = true →
      getEffectiveSanitization voiceConfig globalConfig = sanitizeNothing) ∧
    (sanitizeInput U text sanitizeNothing).result = normalizeSpaces (collapseRepetition text) ∧
    (sanitizeInput U text sanitizeNothing).result = collapseRepetition text := by
  have hoff : (sanitizeInput U text sanitizeNothing).result =
      normalizeSpaces (collapseRepetition text) := by
    unfold sanitizeInput
    by_cases h : text = []
    · rw [if_pos h, h]
      rfl
    · rw [if_neg h]
      simp only [sanitizeStep_result, sanitizeNothing, optionalStep, Bool.false_eq_true, if_false,
        if_true]
  refine ⟨fun h => ?_, fun h => ?_, hoff, ?_⟩
  · unfold sanitizeInput
    rw [if_neg h]
    simp only [sanitizeStep_result, beforeSpamCollapse]
    rfl
  · unfold getEffectiveSanitization
    rw [if_pos h]
    rfl
  · rw [hoff, normalizeSpaces_collapseRepetition]

/-- C25 at an input: a voice that ignores sanitization keeps the markup and the
bracket tag of its text, and still has the repeated word collapsed. -/
theorem C25_spam_collapse_always_runs_witness :
    getEffectiveSanitization ⟨true, false, false, false⟩ ⟨none, some true, none, none, none⟩ =
      sanitizeNothing ∧
    (sanitizeInput asciiUnicode (js "<b>go</b> [shout] no no no no no no no")
      (getEffectiveSanitization ⟨true, false, false, false⟩
        ⟨none, some true, none, none, none⟩)).result =
      js "<b>go</b> [shout] no, so many of them" := by
  have h := C25_spam_collapse_always_runs asciiUnicode
    (js "<b>go</b> [shout] no no no no no no no") sanitizeNothing ⟨true, false, false, false⟩
    ⟨none, some true, none, none, none⟩
  refine ⟨h.2.1 rfl, ?_⟩
  rw [h.2.1 rfl, h.2.2.2]
  decide!

/-! ### Emoji runs -/

theorem emojiMap_keys_nodup : (EMOJI_MAP.map Prod.fst).Nodup := by decide!

theorem emojiMap_keyShape : ∀ entry ∈ EMOJI_MAP, keyShape entry.1 = true := by decide!

theorem emojiMap_ascii : ∀ entry ∈ EMOJI_MAP, IsAscii entry.2 := by decide!

theorem emojiMap_no_prefix :
    ∀ a ∈ EMOJI_MAP, ∀ b ∈ EMOJI_MAP, a.1 = b.1 ∨ startsWith b.1 a.1 = false := by decide!

theorem emojiMap_normal : ∀ entry ∈ EMOJI_MAP,
    normalizeSpaces (js " " ++ entry.2 ++ js " ") = entry.2 ∧
    normalizeSpaces (js " double " ++ entry.2 ++ js " ") = js "double " ++ entry.2 ∧
    normalizeSpaces (js " " ++ entry.2 ++ js " times " ++ js (toString 3) ++ js " ") =
      entry.2 ++ js " times 3" ∧
    normalizeSpaces (js " so many " ++ entry.2 ++ js " ") = js "so many " ++ entry.2 ∧
    normalizeSpaces (js " a whole wall of " ++ entry.2 ++ js " ") =
      js "a whole wall of " ++ entry.2 := by decide!

theorem repeatedWord_nil (e : Str) : repeatedWord e [] = e := by
  simp [repeatedWord]

theorem repeatedWord_cons (e s : Str) (seps : List Str) :
    repeatedWord e (s :: seps) = e ++ (s ++ repeatedWord e seps) := by
  simp [repeatedWord]

theorem isKeyTail_not_space (c : Nat) (h : isKeyTail c = true) : isSpace c = false := by
  unfold isKeyTail isLowSurrogate at h
  unfold isSpace
  simp only [Bool.or_eq_true, Bool.and_eq_true, decide_eq_true_eq, beq_iff_eq] at h
  simp only [Bool.or_eq_false_iff, Bool.and_eq_false_imp, beq_eq_false_iff_ne, ne_eq,
    decide_eq_true_eq, decide_eq_false_iff_not]
  omega

theorem keyShape_cons (k : Str) (h : keyShape k = true) :
    ∃ c t, k = c :: t ∧ 128 ≤ c ∧ isSpace c = false ∧ isKeyTail c = false ∧
      ∀ x ∈ t, isKeyTail x = true := by
  cases k with
  | nil => simp [keyShape] at h
  | cons c t =>
    simp only [keyShape, Bool.and_eq_true, decide_eq_true_eq, Bool.not_eq_true',
      List.all_eq_true] at h
    exact ⟨c, t, rfl, h.1.1.1, h.1.1.2, h.1.2, h.2⟩

theorem includes_cons (c : Nat) (cs p : Str) :
    includes (c :: cs) p = (startsWith (c :: cs) p || includes cs p) := rfl

theorem startsWith_cons_cons (c : Nat) (cs : Str) (p : Nat) (ps : Str) :
    startsWith (c :: cs) (p :: ps) = (c == p && startsWith cs ps) := rfl

/-- Code units other than the first of the pattern can be passed over. -/
theorem includes_append_of_no_head (h : Nat) (kt : Str) (x y : Str) (hx : ∀ c ∈ x, c ≠ h) :
    includes (x ++ y) (h :: kt) = includes y (h :: kt) := by
  induction x with
  | nil => rfl
  | cons c cs ih =>
    rw [List.cons_append, includes_cons, startsWith_cons_cons,
      ih (fun c' hc' => hx c' (List.mem_cons_of_mem _ hc'))]
    have : (c == h) = false := by simpa using hx c (List.mem_cons_self _ _)
    rw [this]
    rfl

/-- A pattern that starts a text made of `e` and a rest either starts `e` (or
is used up within it) or goes on into the rest. -/
theorem startsWith_append_cases (e r k : Str) (h : startsWith (e ++ r) k = true) :
    startsWith e k = true ∨ ∃ c cs, r = c :: cs ∧ c ∈ k.drop e.length := by
  induction e generalizing k with
  | nil =>
    cases k with
    | nil => exact Or.inl rfl
    | cons c k' =>
      cases r with
      | nil => simp [startsWith] at h
      | cons d ds =>
        rw [List.nil_append, startsWith_cons_cons, Bool.and_eq_true, beq_iff_eq] at h
        exact Or.inr ⟨d, ds, rfl, by simp [h.1]⟩
  | cons a as ih =>
    cases k with
    | nil => exact Or.inl rfl
    | cons c k' =>
      rw [List.cons_append, startsWith_cons_cons, Bool.and_eq_true] at h
      rcases ih k' h.2 with h' | ⟨d, ds, hr, hd⟩
      · left
        rw [startsWith_cons_cons, Bool.and_eq_true]
        exact ⟨h.1, h'⟩
      · exact Or.inr ⟨d, ds, hr, by simpa using hd⟩

/-- The text that follows a copy of the emoji: nothing, or white space, or the
next copy. It does not start with a continuation. -/
theorem repeatedTail_no_keyTail (e : Str) (he : keyShape e = true) (seps : List Str)
    (hs : ∀ s ∈ seps, IsBlank s) :
    ∀ c cs, (seps.map (· ++ e)).flatten = c :: cs → isKeyTail c = false := by
  obtain ⟨a, t, hk, _, _, ha, _⟩ := keyShape_cons e he
  induction seps with
  | nil => intro c cs h; simp at h
  | cons s ss ih =>
    intro c cs h
    rw [repeatedTail_cons] at h
    cases s with
    | nil =>
      rw [List.nil_append, hk, List.cons_append] at h
      rw [← (List.cons.inj h).1]
      exact ha
    | cons x xs =>
      rw [List.cons_append] at h
      have hx := hs (x :: xs) (List.mem_cons_self _ _) x (List.mem_cons_self _ _)
      rw [← (List.cons.inj h).1]
      cases hkt : isKeyTail x with
      | false => rfl
      | true => rw [isKeyTail_not_space x hkt] at hx; exact absurd hx (by simp)

theorem startsWith_repeated_other (e k : Str) (he : keyShape e = true) (hk : keyShape k = true)
    (hne : startsWith e k = false) (seps : List Str) (hs : ∀ s ∈ seps, IsBlank s) :
    startsWith (repeatedWord e seps) k = false := by
  cases hst : startsWith (repeatedWord e seps) k with
  | false => rfl
  | true =>
    exfalso
    unfold repeatedWord at hst
    rcases startsWith_append_cases _ _ _ hst with h | ⟨c, cs, hr, hc⟩
    · rw [h] at hne
      exact absurd hne (by simp)
    · obtain ⟨a, t, hke, _⟩ := keyShape_cons e he
      obtain ⟨b, u, hkk, _, _, _, hu⟩ := keyShape_cons k hk
      have hmem : c ∈ u := by
        rw [hkk, hke, List.length_cons, List.drop_succ_cons] at hc
        exact List.mem_of_mem_drop hc
      have := repeatedTail_no_keyTail e he seps hs c cs hr
      rw [hu c hmem] at this
      exact absurd this (by simp)

/-- No other key of the shape occurs in a text made of copies of the emoji and
white space. -/
theorem includes_repeated_other (e k : Str) (he : keyShape e = true) (hk : keyShape k = true)
    (hne : startsWith e k = false) (seps : List Str) (hs : ∀ s ∈ seps, IsBlank s) :
    includes (repeatedWord e seps) k = false := by
  obtain ⟨a, t, hke, _, _, _, ht⟩ := keyShape_cons e he
  obtain ⟨b, u, hkk, _, hbs, hbt, _⟩ := keyShape_cons k hk
  induction seps with
  | nil =>
    have h1 := startsWith_repeated_other e k he hk hne [] hs
    rw [repeatedWord_nil] at h1 ⊢
    rw [hke] at h1 ⊢
    rw [includes_cons, h1, Bool.false_or, hkk]
    have := includes_append_of_no_head b u t [] (fun c hc hcb => by
      rw [hcb] at hc
      rw [ht b hc] at hbt
      exact absurd hbt (by simp))
    rw [List.append_nil] at this
    rw [this]
    rfl
  | cons s ss ih =>
    have h1 := startsWith_repeated_other e k he hk hne (s :: ss) hs
    have h2 := ih (fun x hx => hs x (List.mem_cons_of_mem _ hx))
    rw [repeatedWord_cons] at h1 ⊢
    rw [hke] at h1 ⊢
    rw [List.cons_append] at h1 ⊢
    rw [includes_cons, h1, Bool.false_or, hkk, ← List.append_assoc,
      includes_append_of_no_head b u (t ++ s) _ (fun c hc hcb => by
        rcases List.mem_append.mp hc with hc' | hc'
        · rw [hcb] at hc'
          rw [ht b hc'] at hbt
          exact absurd hbt (by simp)
        · rw [hcb] at hc'
          rw [hs s (List.mem_cons_self _ _) b hc'] at hbs
          exact absurd hbs (by simp)),
      ← hkk, ← hke]
    exact h2

/-- No key of the shape occurs in an ASCII text. -/
theorem includes_ascii (r k : Str) (hr : IsAscii r) (hk : keyShape k = true) :
    includes r k = false := by
  obtain ⟨b, u, hkk, hb, _⟩ := keyShape_cons k hk
  have := includes_append_of_no_head b u r [] (fun c hc hcb => by
    have := hr c hc
    omega)
  rw [List.append_nil] at this
  rw [hkk, this]
  rfl

theorem startsWith_of_head_ne (c : Nat) (cs : Str) (a : Nat) (t : Str) (h : c ≠ a) :
    startsWith (c :: cs) (a :: t) = false := by
  rw [startsWith_cons_cons]
  have : (c == a) = false := by simpa using h
  rw [this]
  rfl

theorem emojiRun_zero (emoji s : Str) : emojiRun emoji 0 s = (0, 0) := rfl

theorem emojiRun_succ (emoji : Str) (fuel : Nat) (s : Str) :
    emojiRun emoji (fuel + 1) s =
      if emoji ≠ [] ∧ startsWith s emoji then
        (emoji.length + ((s.drop emoji.length).takeWhile isSpace).length +
          (emojiRun emoji fuel ((s.drop emoji.length).drop
            ((s.drop emoji.length).takeWhile isSpace).length)).1,
         (emojiRun emoji fuel ((s.drop emoji.length).drop
            ((s.drop emoji.length).takeWhile isSpace).length)).2 + 1)
      else (0, 0) := rfl

theorem emojiRun_of_not_startsWith (emoji : Str) (fuel : Nat) (s : Str)
    (h : startsWith s emoji = false) : emojiRun emoji fuel s = (0, 0) := by
  cases fuel with
  | zero => rfl
  | succ f =>
    rw [emojiRun_succ, if_neg]
    simp [h]

theorem takeWhile_blank_append (s : Str) (hs : IsBlank s) (e r : Str) (he : keyShape e = true) :
    (s ++ (e ++ r)).takeWhile isSpace = s := by
  obtain ⟨a, t, hke, _, ha, _⟩ := keyShape_cons e he
  apply takeWhile_append_of_head isSpace s _ hs
  right
  exact ⟨a, t ++ r, by rw [hke]; rfl, ha⟩

/-- The run pattern of an emoji matches the whole of a text made of its copies
and white space, and counts the copies. -/
theorem emojiRun_repeated (e : Str) (he : keyShape e = true) (seps : List Str)
    (hs : ∀ s ∈ seps, IsBlank s) :
    ∀ fuel, seps.length + 1 ≤ fuel →
      emojiRun e fuel (repeatedWord e seps) = ((repeatedWord e seps).length, seps.length + 1) := by
  obtain ⟨a, t, hke, _⟩ := keyShape_cons e he
  have hne : e ≠ [] := by rw [hke]; simp
  induction seps with
  | nil =>
    intro fuel hf
    obtain ⟨f, rfl⟩ : ∃ f, fuel = f + 1 := ⟨fuel - 1, by omega⟩
    rw [emojiRun_succ, repeatedWord_nil, if_pos ⟨hne, by simpa using startsWith_append_self e []⟩]
    have hdrop : e.drop e.length = [] := List.drop_length e
    rw [hdrop]
    have h0 : emojiRun e f [] = (0, 0) :=
      emojiRun_of_not_startsWith e f [] (by rw [hke]; rfl)
    simp [h0]
  | cons s ss ih =>
    intro fuel hf
    obtain ⟨f, rfl⟩ : ∃ f, fuel = f + 1 := ⟨fuel - 1, by omega⟩
    have hs' : ∀ x ∈ ss, IsBlank x := fun x hx => hs x (List.mem_cons_of_mem _ hx)
    rw [emojiRun_succ, repeatedWord_cons, if_pos ⟨hne, startsWith_append_self e _⟩]
    have hdrop : (e ++ (s ++ repeatedWord e ss)).drop e.length = s ++ repeatedWord e ss :=
      List.drop_left _ _
    rw [hdrop]
    have htake : (s ++ repeatedWord e ss).takeWhile isSpace = s := by
      unfold repeatedWord
      exact takeWhile_blank_append s (hs s (List.mem_cons_self _ _)) e _ he
    rw [htake, List.drop_left, ih hs' f (by simp at hf; omega)]
    simp only [List.length_append, List.length_cons]
    congr 1
    omega

theorem countOccurrencesAux_nil (emoji : Str) (skip : Nat) :
    countOccurrencesAux emoji skip [] = 0 := by
  cases skip <;> rfl

theorem countOccurrencesAux_succ (emoji : Str) (skip c : Nat) (cs : Str) :
    countOccurrencesAux emoji (skip + 1) (c :: cs) = countOccurrencesAux emoji skip cs := rfl

theorem countOccurrencesAux_zero (emoji : Str) (c : Nat) (cs : Str) :
    countOccurrencesAux emoji 0 (c :: cs) =
      if startsWith (c :: cs) emoji then 1 + countOccurrencesAux emoji (emoji.length - 1) cs
      else countOccurrencesAux emoji 0 cs := rfl

theorem countOccurrencesAux_skip (emoji : Str) (xs : Str) :
    ∀ rest, countOccurrencesAux emoji xs.length (xs ++ rest) = countOccurrencesAux emoji 0 rest := by
  induction xs with
  | nil => intro rest; rfl
  | cons x xs ih =>
    intro rest
    rw [List.length_cons, List.cons_append, countOccurrencesAux_succ]
    exact ih rest

theorem countOccurrencesAux_blank (e : Str) (he : keyShape e = true) (s : Str) (hs : IsBlank s) :
    ∀ rest, countOccurrencesAux e 0 (s ++ rest) = countOccurrencesAux e 0 rest := by
  obtain ⟨a, t, hke, _, ha, _⟩ := keyShape_cons e he
  induction s with
  | nil => intro rest; rfl
  | cons c cs ih =>
    intro rest
    rw [List.cons_append, countOccurrencesAux_zero]
    have hc : c ≠ a := by
      intro hca
      rw [← hca, hs c (List.mem_cons_self _ _)] at ha
      exact absurd ha (by simp)
    have hst : startsWith (c :: (cs ++ rest)) e = false := by
      rw [hke]
      exact startsWith_of_head_ne c _ a t hc
    rw [hst]
    simp only [Bool.false_eq_true, if_false]
    exact ih (fun x hx => hs x (List.mem_cons_of_mem _ hx)) rest

theorem countOccurrencesAux_copy (e : Str) (he : keyShape e = true) (rest : Str) :
    countOccurrencesAux e 0 (e ++ rest) = 1 + countOccurrencesAux e 0 rest := by
  obtain ⟨a, t, hke, _⟩ := keyShape_cons e he
  have hst := startsWith_append_self e rest
  rw [hke, List.cons_append] at hst ⊢
  rw [countOccurrencesAux_zero, if_pos hst]
  have hlen : (a :: t).length - 1 = t.length := by simp
  rw [hlen, countOccurrencesAux_skip]

/-- The `indexOf` loop counts the copies. -/
theorem countOccurrences_repeated (e : Str) (he : keyShape e = true) (seps : List Str)
    (hs : ∀ s ∈ seps, IsBlank s) :
    countOccurrences e (repeatedWord e seps) = seps.length + 1 := by
  unfold countOccurrences
  induction seps with
  | nil =>
    have := countOccurrencesAux_copy e he []
    rw [List.append_nil] at this
    rw [repeatedWord_nil, this, countOccurrencesAux_nil]
    rfl
  | cons s ss ih =>
    rw [repeatedWord_cons, countOccurrencesAux_copy e he,
      countOccurrencesAux_blank e he s (hs s (List.mem_cons_self _ _)),
      ih (fun x hx => hs x (List.mem_cons_of_mem _ hx))]
    simp only [List.length_cons]
    omega

theorem length_repeatedWord_ge (e : Str) (he : e ≠ []) (seps : List Str) :
    seps.length + 1 ≤ (repeatedWord e seps).length := by
  have hpos := List.length_pos.mpr he
  induction seps with
  | nil => rw [repeatedWord_nil]; simpa using hpos
  | cons s ss ih =>
    rw [repeatedWord_cons]
    simp only [List.length_append, List.length_cons]
    omega

theorem replaceAll_whole (m : Option Nat → Str → Option (Nat × Str)) (s r : Str) (hs : s ≠ [])
    (h : m none s = some (s.length, r)) : replaceAll m s = r := by
  unfold replaceAll
  cases s with
  | nil => exact absurd rfl hs
  | cons c cs =>
    rw [replaceAllAux_zero_some m none c cs cs.length r (by simpa using h)]
    obtain ⟨prev', hp⟩ := replaceAllAux_skip m cs [] (some c)
    rw [List.append_nil] at hp
    rw [hp, replaceAllAux_nil, List.append_nil]

/-- Phase 1 for the emoji's own entry, two copies or more: the whole text is one
run. -/
theorem collapseEmojiRuns_repeated (e d : Str) (he : keyShape e = true) (seps : List Str)
    (hs : ∀ s ∈ seps, IsBlank s) (hn : 2 ≤ seps.length + 1) :
    collapseEmojiRuns (repeatedWord e seps) (e, d) = emojiRunPhrase d (seps.length + 1) := by
  obtain ⟨a, t, hke, _⟩ := keyShape_cons e he
  have hne : e ≠ [] := by rw [hke]; simp
  have hT : repeatedWord e seps ≠ [] := by
    unfold repeatedWord
    simp [hne]
  have hrun := emojiRun_repeated e he seps hs (repeatedWord e seps).length
    (length_repeatedWord_ge e hne seps)
  have hm : matchEmojiRun e d none (repeatedWord e seps) =
      some ((repeatedWord e seps).length, emojiRunPhrase d (seps.length + 1)) := by
    unfold matchEmojiRun
    simp only [hrun, ge_iff_le, hn, if_true, List.take_length,
      countOccurrences_repeated e he seps hs]
  have hall := replaceAll_whole _ _ _ hT hm
  unfold collapseEmojiRuns
  dsimp only
  rw [hall]
  split
  · rfl
  · rename_i hinc
    exfalso
    apply hinc
    have hst : startsWith (repeatedWord e seps) e = true := by
      unfold repeatedWord
      exact startsWith_append_self e _
    cases hTT : repeatedWord e seps with
    | nil => exact absurd hTT hT
    | cons c cs =>
      rw [hTT] at hst
      rw [includes_cons, hst]
      rfl

theorem length_le_of_startsWith (s p : Str) (h : startsWith s p = true) : p.length ≤ s.length := by
  have := (startsWith_iff_take s p).mp h
  have hlen := congrArg List.length this
  rw [List.length_take] at hlen
  omega

/-- Phase 1 for the emoji's own entry, one copy: no run of two. -/
theorem collapseEmojiRuns_single (e d : Str) (he : keyShape e = true) :
    collapseEmojiRuns e (e, d) = e := by
  obtain ⟨a, t, hke, _⟩ := keyShape_cons e he
  have hne : e ≠ [] := by rw [hke]; simp
  have hno : ∀ i prev, matchEmojiRun e d prev (e.drop i) = none := by
    intro i prev
    unfold matchEmojiRun
    cases i with
    | zero =>
      have hrun := emojiRun_repeated e he [] (fun _ h => absurd h (by simp)) e.length
        (by simpa using List.length_pos.mpr hne)
      rw [repeatedWord_nil] at hrun
      rw [List.drop_zero]
      simp [hrun]
    | succ j =>
      have hst : startsWith (e.drop (j + 1)) e = false := by
        cases h : startsWith (e.drop (j + 1)) e with
        | false => rfl
        | true =>
          have := length_le_of_startsWith _ _ h
          rw [List.length_drop] at this
          have hpos := List.length_pos.mpr hne
          omega
      rw [emojiRun_of_not_startsWith e _ _ hst]
      simp
  unfold collapseEmojiRuns
  dsimp only
  rw [replaceAll_of_no_rewrite _ _ (rewritesAux_of_no_match _ e hno none)]
  split <;> rfl

/-- Phase 2 for the emoji's own entry, one copy. -/
theorem replaceSingleEmoji_single (e d : Str) (he : keyShape e = true) :
    replaceSingleEmoji e (e, d) = js " " ++ d ++ js " " := by
  obtain ⟨a, t, hke, _⟩ := keyShape_cons e he
  have hne : e ≠ [] := by rw [hke]; simp
  unfold replaceSingleEmoji
  apply replaceAll_whole _ _ _ hne
  unfold matchLiteral
  have := startsWith_append_self e []
  rw [List.append_nil] at this
  rw [if_pos this]

theorem isEmojiCodePoint_ascii (c : Nat) (h : c < 128) : isEmojiCodePoint c = false := by
  unfold isEmojiCodePoint
  simp only [Bool.or_eq_false_iff, Bool.and_eq_false_imp, beq_eq_false_iff_ne, ne_eq,
    decide_eq_true_eq, decide_eq_false_iff_not]
  omega

/-- Phase 3 leaves an ASCII text as it is. -/
theorem stripEmoji_ascii (r : Str) (hr : IsAscii r) :
    replaceAll (matchCodePoint isEmojiCodePoint) r = r := by
  apply replaceAll_of_no_rewrite
  apply rewritesAux_of_no_match
  intro i prev
  cases hd : r.drop i with
  | nil => rfl
  | cons c cs =>
    have hc : c < 128 := hr c (List.mem_of_mem_drop (by rw [hd]; exact List.mem_cons_self _ _))
    unfold matchCodePoint
    have h1 : isHighSurrogate c = false := by
      unfold isHighSurrogate
      simp only [Bool.and_eq_false_imp, decide_eq_true_eq, decide_eq_false_iff_not]
      omega
    have h2 : isLowSurrogate c = false := by
      unfold isLowSurrogate
      simp only [Bool.and_eq_false_imp, decide_eq_true_eq, decide_eq_false_iff_not]
      omega
    simp [h1, h2, isEmojiCodePoint_ascii c hc]

theorem emojiMap_split (entry : Str × Str) (h : entry ∈ EMOJI_MAP) :
    ∃ pre post, EMOJI_MAP = pre ++ entry :: post ∧
      (∀ x ∈ pre, x ∈ EMOJI_MAP ∧ x.1 ≠ entry.1) ∧
      (∀ x ∈ post, x ∈ EMOJI_MAP ∧ x.1 ≠ entry.1) := by
  obtain ⟨pre, post, hsplit⟩ := List.append_of_mem h
  have hnd := emojiMap_keys_nodup
  rw [hsplit, List.map_append, List.map_cons, List.nodup_append] at hnd
  obtain ⟨_, hnd2, hdisj⟩ := hnd
  rw [List.nodup_cons] at hnd2
  refine ⟨pre, post, hsplit, fun x hx => ⟨by rw [hsplit]; simp [hx], fun hxe => ?_⟩,
    fun x hx => ⟨by rw [hsplit]; simp [hx], fun hxe => ?_⟩⟩
  · exact hdisj (List.mem_map_of_mem Prod.fst hx) (by rw [hxe]; exact List.mem_cons_self _ _)
  · exact hnd2.1 (by rw [← hxe]; exact List.mem_map_of_mem Prod.fst hx)

theorem isAscii_append (a b : Str) (ha : IsAscii a) (hb : IsAscii b) : IsAscii (a ++ b) := by
  intro c hc
  rcases List.mem_append.mp hc with h | h
  · exact ha c h
  · exact hb c h

theorem isAscii_emojiRunPhrase (d : Str) (hd : IsAscii d) (n : Nat) (hn : 2 ≤ n) :
    IsAscii (emojiRunPhrase d n) := by
  unfold emojiRunPhrase
  split
  · exact isAscii_append _ _ (isAscii_append _ _ (by decide) hd) (by decide)
  · split
    · exact isAscii_append _ _ (isAscii_append _ _ (by decide) hd) (by decide)
    · split
      · have h3 : n = 3 := by omega
        subst h3
        exact isAscii_append _ _ (isAscii_append _ _ (isAscii_append _ _
          (isAscii_append _ _ (by decide) hd) (by decide)) (by decide)) (by decide)
      · exact isAscii_append _ _ (isAscii_append _ _ (by decide) hd) (by decide)

theorem normalizeSpaces_emojiRunPhrase (entry : Str × Str) (h : entry ∈ EMOJI_MAP) (n : Nat)
    (hn : 2 ≤ n) : normalizeSpaces (emojiRunPhrase entry.2 n) = emojiCountPhrase entry.2 n := by
  obtain ⟨_, h2, h3, h4, h7⟩ := emojiMap_normal entry h
  unfold emojiRunPhrase emojiCountPhrase
  by_cases c7 : n ≥ 7
  · rw [if_pos c7, if_pos c7, h7]
  · rw [if_neg c7, if_neg c7]
    by_cases c4 : n ≥ 4
    · rw [if_pos c4, if_pos c4, h4]
    · rw [if_neg c4, if_neg c4]
      by_cases c3 : n = 3
      · subst c3
        rw [if_pos (by omega), if_pos rfl, h3]
      · have c2 : n = 2 := by omega
        subst c2
        rw [if_neg (by omega), if_neg (by omega), if_pos rfl, h2]

/-- The text made of `n` copies of a mapped emoji, with white space or nothing
between them, becomes the phrase for `n`. -/
theorem replaceEmojis_repeated (entry : Str × Str) (h : entry ∈ EMOJI_MAP) (seps : List Str)
    (hs : ∀ s ∈ seps, IsBlank s) :
    replaceEmojis (repeatedWord entry.1 seps) = emojiCountPhrase entry.2 (seps.length + 1) := by
  have he := emojiMap_keyShape entry h
  have hd := emojiMap_ascii entry h
  obtain ⟨a, t, hke, _⟩ := keyShape_cons entry.1 he
  have hT : repeatedWord entry.1 seps ≠ [] := by
    unfold repeatedWord
    rw [hke]
    simp
  obtain ⟨pre, post, hsplit, hpre, hpost⟩ := emojiMap_split entry h
  have hother : ∀ x, x ∈ EMOJI_MAP ∧ x.1 ≠ entry.1 →
      includes (repeatedWord entry.1 seps) x.1 = false := by
    intro x hx
    apply includes_repeated_other entry.1 x.1 he (emojiMap_keyShape x hx.1) _ seps hs
    rcases emojiMap_no_prefix x hx.1 entry h with heq | hno
    · exact absurd heq hx.2
    · exact hno
  have hascii : ∀ (r : Str), IsAscii r → ∀ table : List (Str × Str),
      (∀ x ∈ table, x ∈ EMOJI_MAP) →
      table.foldl collapseEmojiRuns r = r ∧ table.foldl replaceSingleEmoji r = r := by
    intro r hr table htable
    exact ⟨foldl_collapseEmojiRuns r table fun x hx =>
        includes_ascii r x.1 hr (emojiMap_keyShape x (htable x hx)),
      foldl_replaceSingleEmoji r table fun x hx =>
        includes_ascii r x.1 hr (emojiMap_keyShape x (htable x hx))⟩
  unfold replaceEmojis
  rw [if_neg hT]
  dsimp only
  by_cases hn : 2 ≤ seps.length + 1
  · have hP := isAscii_emojiRunPhrase entry.2 hd (seps.length + 1) hn
    have h1 : EMOJI_MAP.foldl collapseEmojiRuns (repeatedWord entry.1 seps) =
        emojiRunPhrase entry.2 (seps.length + 1) := by
      rw [hsplit, List.foldl_append, List.foldl_cons,
        foldl_collapseEmojiRuns _ pre (fun x hx => hother x (hpre x hx)),
        collapseEmojiRuns_repeated entry.1 entry.2 he seps hs hn]
      exact (hascii _ hP post (fun x hx => (hpost x hx).1)).1
    rw [h1, (hascii _ hP EMOJI_MAP (fun x hx => hx)).2, stripEmoji_ascii _ hP]
    exact normalizeSpaces_emojiRunPhrase entry h _ hn
  · have hseps : seps = [] := List.length_eq_zero.mp (by omega)
    subst hseps
    have hother' : ∀ x, x ∈ EMOJI_MAP ∧ x.1 ≠ entry.1 → includes entry.1 x.1 = false := by
      intro x hx
      have := hother x hx
      rw [repeatedWord_nil] at this
      exact this
    have hP : IsAscii (js " " ++ entry.2 ++ js " ") :=
      isAscii_append _ _ (isAscii_append _ _ (by decide) hd) (by decide)
    rw [repeatedWord_nil]
    have h1 : EMOJI_MAP.foldl collapseEmojiRuns entry.1 = entry.1 := by
      rw [hsplit, List.foldl_append, List.foldl_cons,
        foldl_collapseEmojiRuns _ pre (fun x hx => hother' x (hpre x hx)),
        collapseEmojiRuns_single entry.1 entry.2 he,
        foldl_collapseEmojiRuns _ post (fun x hx => hother' x (hpost x hx))]
    have h2 : EMOJI_MAP.foldl replaceSingleEmoji entry.1 = js " " ++ entry.2 ++ js " " := by
      rw [hsplit, List.foldl_append, List.foldl_cons,
        foldl_replaceSingleEmoji _ pre (fun x hx => hother' x (hpre x hx)),
        replaceSingleEmoji_single entry.1 entry.2 he]
      exact (hascii _ hP post (fun x hx => (hpost x hx).1)).2
    rw [h1, h2, stripEmoji_ascii _ hP, (emojiMap_normal entry h).1]
    unfold emojiCountPhrase
    simp

/-- C26, the divergence: phase 3 of `replaceEmojis` strips the code points of
its ranges only, and emoji outside them that the map does not hold stay in the
output: the watch U+231A, alone and within a text, and the mahjong tile
U+1F004. An unmapped emoji of the ranges, as U+1F600, is removed. The scaling
of runs is as claimed: for every entry of `EMOJI_MAP` and every `n ≥ 1`, the
text of `n` copies of the emoji, with white space or nothing between them,
becomes the description for `n = 1`, `double X` for 2, `X times 3` for 3,
`so many X` for 4 to 6 and `a whole wall of X` from 7 on. -/
theorem C26_emoji_outside_ranges_kept (entry : Str × Str) (seps : List Str) :
    (entry ∈ EMOJI_MAP → (∀ s ∈ seps, IsBlank s) →
      replaceEmojis (repeatedWord entry.1 seps) =
        emojiCountPhrase entry.2 (seps.length + 1)) ∧
    isEmojiCodePoint 0x231A = false ∧
    (∀ e ∈ EMOJI_MAP, includes [0x231A] e.1 = false) ∧
    replaceEmojis [0x231A] = [0x231A] ∧
    replaceEmojis (js "at " ++ [0x231A] ++ js " sharp") = js "at " ++ [0x231A] ++ js " sharp" ∧
    (∀ e ∈ EMOJI_MAP, includes [0xD83C, 0xDC04] e.1 = false) ∧
    replaceEmojis [0xD83C, 0xDC04] = [0xD83C, 0xDC04] ∧
    replaceEmojis (js "hi " ++ [0xD83D, 0xDE00]) = js "hi" :=
  ⟨fun h hs => replaceEmojis_repeated entry h seps hs, by decide!, by decide!, by decide!,
    by decide!, by decide!, by decide!, by decide!⟩

/-- C26 at an input: five fires, with white space between some of them. -/
theorem C26_emoji_outside_ranges_kept_witness :
    ([0xD83D, 0xDD25], js "fire") ∈ EMOJI_MAP ∧
    repeatedWord [0xD83D, 0xDD25] [[], js " ", [], js "\t "] =
      [0xD83D, 0xDD25, 0xD83D, 0xDD25, 32, 0xD83D, 0xDD25, 0xD83D, 0xDD25, 9, 32,
        0xD83D, 0xDD25] ∧
    replaceEmojis [0xD83D, 0xDD25, 0xD83D, 0xDD25, 32, 0xD83D, 0xDD25, 0xD83D, 0xDD25, 9, 32,
        0xD83D, 0xDD25] = js "so many fire" := by
  have hmem : ([0xD83D, 0xDD25], js "fire") ∈ EMOJI_MAP := by decide!
  have hrep : repeatedWord [0xD83D, 0xDD25] [[], js " ", [], js "\t "] =
      [0xD83D, 0xDD25, 0xD83D, 0xDD25, 32, 0xD83D, 0xDD25, 0xD83D, 0xDD25, 9, 32,
        0xD83D, 0xDD25] := by decide!
  have h := (C26_emoji_outside_ranges_kept ([0xD83D, 0xDD25], js "fire")
    [[], js " ", [], js "\t "]).1 hmem (by decide!)
  refine ⟨hmem, hrep, ?_⟩
  rw [← hrep, h]
  decide!

/-! ### Topic layering -/

theorem valueOf_setKey (obj : List (String × Option Bool)) (key : String) (value : Option Bool)
    (k : String) :
    valueOf (setKey obj key value) k = if k = key then some value else valueOf obj k := by
  induction obj with
  | nil =>
    simp only [setKey, valueOf, List.find?_cons, List.find?_nil]
    by_cases h : k = key
    · subst h; simp
    · have : (key == k) = false := by simpa using Ne.symm h
      simp [this, h]
  | cons e rest ih =>
    obtain ⟨k', v'⟩ := e
    unfold setKey
    by_cases hk : k' = key
    · subst hk
      rw [if_pos rfl]
      by_cases h : k = k'
      · subst h; simp [valueOf]
      · have : (k' == k) = false := by simpa using Ne.symm h
        simp [valueOf, List.find?_cons, this, h]
    · rw [if_neg hk]
      by_cases h : k' = k
      · subst h
        have : ¬ (k' = key) := hk
        simp [valueOf, this]
      · have h1 : (k' == k) = false := by simpa using h
        unfold valueOf at ih ⊢
        simp only [List.find?_cons, h1]
        exact ih

theorem keys_setKey (obj : List (String × Option Bool)) (key : String) (value : Option Bool) :
    (setKey obj key value).map Prod.fst =
      if key ∈ obj.map Prod.fst then obj.map Prod.fst else obj.map Prod.fst ++ [key] := by
  induction obj with
  | nil => simp [setKey]
  | cons e rest ih =>
    obtain ⟨k', v'⟩ := e
    unfold setKey
    by_cases hk : k' = key
    · subst hk
      simp
    · rw [if_neg hk, List.map_cons, ih]
      have hne : ¬ key = k' := fun h => hk h.symm
      by_cases hm : key ∈ rest.map Prod.fst
      · simp [hm]
      · simp [hm, hne]

theorem isObject_setKey (obj : List (String × Option Bool)) (key : String) (value : Option Bool)
    (h : IsObject obj) : IsObject (setKey obj key value) := by
  unfold IsObject at h ⊢
  rw [keys_setKey]
  split
  · exact h
  · rename_i hm
    rw [List.nodup_append]
    exact ⟨h, List.nodup_singleton _, by
      intro a ha hb
      rw [List.mem_singleton] at hb
      exact hm (hb ▸ ha)⟩

/-- In a spread the later object wins per key: a key it has gets its last value
there, any other key keeps the value of the earlier object. -/
theorem valueOf_spread (b : List (String × Option Bool)) :
    ∀ (a : List (String × Option Bool)) (k : String),
      valueOf (spread a b) k =
        match valueOf b.reverse k with
        | some v => some v
        | none => valueOf a k := by
  induction b with
  | nil => intro a k; rfl
  | cons e rest ih =>
    intro a k
    unfold spread at ih ⊢
    rw [List.foldl_cons, ih, valueOf_setKey]
    have hrev : valueOf (e :: rest).reverse k =
        match valueOf rest.reverse k with
        | some v => some v
        | none => if k = e.1 then some e.2 else none := by
      unfold valueOf
      rw [List.reverse_cons, List.find?_append]
      cases hf : rest.reverse.find? fun entry => entry.1 == k with
      | some x => rfl
      | none =>
        simp only [Option.none_or, List.find?_cons, List.find?_nil, Option.map_none']
        by_cases h : k = e.1
        · subst h; simp
        · have : (e.1 == k) = false := by simpa using Ne.symm h
          simp [this, h]
    rw [hrev]
    cases valueOf rest.reverse k with
    | some v => rfl
    | none =>
      dsimp only
      split <;> rfl

theorem valueOf_of_mem (obj : List (String × Option Bool)) (h : IsObject obj) (k : String)
    (v : Option Bool) (hm : (k, v) ∈ obj) : valueOf obj k = some v := by
  induction obj with
  | nil => simp at hm
  | cons e rest ih =>
    unfold IsObject at h
    rw [List.map_cons, List.nodup_cons] at h
    unfold valueOf
    rw [List.find?_cons]
    rcases List.mem_cons.mp hm with he | he
    · rw [← he]
      simp
    · have hne : e.1 ≠ k := by
        intro hek
        apply h.1
        rw [hek]
        exact List.mem_map_of_mem Prod.fst he
      have : (e.1 == k) = false := by simpa using hne
      rw [this]
      exact ih h.2 he

theorem valueOf_none_iff (obj : List (String × Option Bool)) (k : String) :
    valueOf obj k = none ↔ k ∉ obj.map Prod.fst := by
  unfold valueOf
  simp only [Option.map_eq_none', List.find?_eq_none, beq_iff_eq, List.mem_map, Prod.exists,
    exists_and_right, exists_eq_right, not_exists]
  constructor
  · intro h v hv
    exact h (k, v) hv rfl
  · intro h x hx hxk
    exact h x.2 (by rw [← hxk]; exact hx)

theorem isObject_reverse (obj : List (String × Option Bool)) (h : IsObject obj) :
    IsObject obj.reverse := by
  unfold IsObject at h ⊢
  rw [List.map_reverse]
  exact List.nodup_reverse.mpr h

/-- The spread of an object into the empty object is a copy of it. -/
theorem spread_nil (b : List (String × Option Bool)) (h : IsObject b) :
    ∀ a : List (String × Option Bool),
      (∀ k ∈ b.map Prod.fst, k ∉ a.map Prod.fst) → spread a b = a ++ b := by
  induction b with
  | nil => intro a _; simp [spread]
  | cons e rest ih =>
    intro a ha
    unfold IsObject at h
    rw [List.map_cons, List.nodup_cons] at h
    unfold spread at ih ⊢
    rw [List.foldl_cons]
    have hset : setKey a e.1 e.2 = a ++ [e] := by
      have hnot : e.1 ∉ a.map Prod.fst := ha e.1 (by simp)
      clear ih ha
      induction a with
      | nil => rfl
      | cons x xs ihx =>
        obtain ⟨k', v'⟩ := x
        unfold setKey
        have hne : ¬ k' = e.1 := by
          intro hk
          apply hnot
          simp [hk]
        rw [if_neg hne, ihx (fun hm => hnot (by simp [List.mem_map] at hm ⊢; exact Or.inr hm))]
        rfl
    rw [hset, ih h.2 (a ++ [e])]
    · simp
    · intro k hk hka
      rw [List.map_append, List.mem_append] at hka
      rcases hka with hka | hka
      · exact ha k (by simp [List.mem_map] at hk ⊢; exact Or.inr hk) hka
      · simp only [List.map_cons, List.map_nil, List.mem_singleton] at hka
        rw [hka] at hk
        exact h.1 hk

theorem isObject_spread (b a : List (String × Option Bool)) (h : IsObject a) :
    IsObject (spread a b) := by
  unfold spread
  induction b generalizing a with
  | nil => exact h
  | cons e rest ih =>
    rw [List.foldl_cons]
    exact ih _ (isObject_setKey a e.1 e.2 h)

theorem applyTopicsOverride_some (topics : BlockedTopics) (o : TopicsOverride) :
    applyTopicsOverride topics (some o) =
      if o.mode ≠ [] then
        if o.mode = js "override" then ⟨o.presets, o.custom⟩
        else if o.mode = js "additive" then
          ⟨spread topics.presets o.presets, topics.custom ++ o.custom⟩
        else topics
      else ⟨spread topics.presets o.presets, topics.custom ++ o.custom⟩ := rfl

theorem getEffectiveGPTConfig_blockedTopics (voiceConfig : VoiceGPTConfig)
    (override : GPTProcessingOverride) (globalConfig : GlobalGPTConfig)
    (hv : voiceConfig.ignoreGPTProcessing = false)
    (ho : voiceConfig.gptProcessingOverride = some override)
    (hg : IsObject globalConfig.blockedTopics.presets) :
    (getEffectiveGPTConfig (some voiceConfig) globalConfig true).blockedTopics =
      applyTopicsOverride globalConfig.blockedTopics override.blockedTopics := by
  have hcopy : spread defaultBlockedTopics.presets globalConfig.blockedTopics.presets =
      globalConfig.blockedTopics.presets := by
    have := spread_nil globalConfig.blockedTopics.presets hg [] (fun _ _ h => by simp at h)
    simpa [defaultBlockedTopics] using this
  unfold getEffectiveGPTConfig
  have hbind : (some voiceConfig).bind VoiceGPTConfig.gptProcessingOverride = some override := by
    simpa using ho
  simp only [hv, Bool.true_eq_false, if_false, Bool.false_eq_true, hbind, hcopy]

/-- C27: for every global config and every voice that is not bypassed and
carries a blocked-topics override with a mode, with an API key given,
`getEffectiveGPTConfig` resolves the blocked topics by the mode. `override`:
the presets and the custom list are the voice's. `additive`: the presets are
the spread of the global presets and the voice's, in which a key of the voice
has the voice's value and any other key its global value, and the custom list
is the global list followed by the voice's. `inherit`: the topics are the global
ones. -/
theorem C27_topic_layering (voiceConfig : VoiceGPTConfig) (override : GPTProcessingOverride)
    (o : TopicsOverride) (globalConfig : GlobalGPTConfig)
    (hv : voiceConfig.ignoreGPTProcessing = false)
    (ho : voiceConfig.gptProcessingOverride = some override)
    (ht : override.blockedTopics = some o)
    (hg : IsObject globalConfig.blockedTopics.presets) (hvo : IsObject o.presets) :
    (o.mode = js "override" →
      (getEffectiveGPTConfig (some voiceConfig) globalConfig true).blockedTopics =
        ⟨o.presets, o.custom⟩) ∧
    (o.mode = js "additive" →
      (getEffectiveGPTConfig (some voiceConfig) globalConfig true).blockedTopics =
        ⟨spread globalConfig.blockedTopics.presets o.presets,
          globalConfig.blockedTopics.custom ++ o.custom⟩ ∧
      IsObject (spread globalConfig.blockedTopics.presets o.presets) ∧
      (∀ k v, (k, v) ∈ o.presets →
        valueOf (spread globalConfig.blockedTopics.presets o.presets) k = some v) ∧
      (∀ k, k ∉ o.presets.map Prod.fst →
        valueOf (spread globalConfig.blockedTopics.presets o.presets) k =
          valueOf globalConfig.blockedTopics.presets k)) ∧
    (o.mode = js "inherit" →
      (getEffectiveGPTConfig (some voiceConfig) globalConfig true).blockedTopics =
        globalConfig.blockedTopics) := by
  have hb := getEffectiveGPTConfig_blockedTopics voiceConfig override globalConfig hv ho hg
  rw [ht] at hb
  refine ⟨fun hm => ?_, fun hm => ⟨?_, isObject_spread _ _ hg, fun k v hkv => ?_, fun k hk => ?_⟩,
    fun hm => ?_⟩
  · rw [hb, applyTopicsOverride_some, hm]
    rfl
  · rw [hb, applyTopicsOverride_some, hm]
    rfl
  · rw [valueOf_spread, valueOf_of_mem _ (isObject_reverse _ hvo) k v (List.mem_reverse.mpr hkv)]
  · have hnone : valueOf o.presets.reverse k = none := by
      rw [valueOf_none_iff, List.map_reverse, List.mem_reverse]
      exact hk
    rw [valueOf_spread, hnone]
  · rw [hb, applyTopicsOverride_some, hm]
    rfl

/-- C27 at an input: a voice that adds the topic `religion` and lifts the block
of `politics`, over a global config that blocks `politics` and `drugs`. -/
theorem C27_topic_layering_witness :
    (getEffectiveGPTConfig
      (some ⟨false, some ⟨none, some ⟨js "additive",
        [("religion", some true), ("politics", some false)], [js "my ex"]⟩, none⟩⟩)
      ⟨some true, none, ⟨[("politics", some true), ("drugs", some true)], [js "spoilers"]⟩, none⟩
      true).blockedTopics =
      ⟨[("politics", some false), ("drugs", some true), ("religion", some true)],
        [js "spoilers", js "my ex"]⟩ := by
  have h := (C27_topic_layering
    ⟨false, some ⟨none, some ⟨js "additive",
      [("religion", some true), ("politics", some false)], [js "my ex"]⟩, none⟩⟩
    ⟨none, some ⟨js "additive",
      [("religion", some true), ("politics", some false)], [js "my ex"]⟩, none⟩
    ⟨js "additive", [("religion", some true), ("politics", some false)], [js "my ex"]⟩
    ⟨some true, none, ⟨[("politics", some true), ("drugs", some true)], [js "spoilers"]⟩, none⟩
    rfl rfl rfl (by decide) (by decide)).2.1 rfl
  rw [h.1]
  decide!

/-! ### Trailing tags -/

/-- C28, the divergence: `postProcessEmotionTags` strips one trailing tag, the
last. Of two tags at the end of a text the first stays, and the result ends
with it; a text made of two tags comes out as the first of them. A single
trailing tag is stripped, as the comment in the source says, and so a second
pass strips the tag that the first pass left. -/
theorem C28_second_trailing_tag_kept :
    (postProcessEmotionTags asciiUnicode (js "Hello world! [excited] [laughs]")).result =
      js "Hello world! [excited]" ∧
    (postProcessEmotionTags asciiUnicode (js "[sighs] [laughs]")).result = js "[sighs]" ∧
    (postProcessEmotionTags asciiUnicode (js "Hello world! [final alarm]")).result =
      js "Hello world!" ∧
    (postProcessEmotionTags asciiUnicode
      (postProcessEmotionTags asciiUnicode (js "Hello world! [excited] [laughs]")).result).result =
      js "Hello world!" := by
  decide!

/-! ### The replacement word in the word-preservation check -/

theorem length_of_mem_getSignificantWords (U : Unicode) (text w : Str)
    (h : w ∈ getSignificantWords U text) : w.length > 2 := by
  unfold getSignificantWords at h
  simp only [List.mem_dedup, List.mem_filter, Bool.and_eq_true, decide_eq_true_eq] at h
  exact h.2.2

/-- C29: for every original and transformed text on which the length rule does
not fire, if the profanity mode is `replace` and the configured replacement
word, in lower case, is among the significant words of the transformed text's
spoken form, `checkWordPreservation` returns `preserved = true` with
`preservationRatio = 1`: every significant word of the original counts, as found
or as replaced, whatever the other words of the transformed text are. -/
theorem C29_replacement_word_overrides (U : Unicode) (original processed : Str)
    (profanityConfig : ProfanityConfig) (word : Str)
    (hlen : ¬ lengthRuleFires U original processed)
    (hmode : profanityConfig.mode = js "replace")
    (hword : profanityConfig.replacementWord = some word)
    (hocc : U.toLowerCase word ∈ spokenSignificantWords U processed) :
    checkWordPreservation U original processed (some profanityConfig) = ⟨true, 1⟩ := by
  have hne : U.toLowerCase word ≠ [] := by
    intro h0
    have := length_of_mem_getSignificantWords U _ _ hocc
    rw [h0] at this
    simp at this
  have hrep : replacementWordOf U (some profanityConfig) = some (U.toLowerCase word) := by
    unfold replacementWordOf
    simp only [hmode, if_true, hword, if_neg hne]
  unfold lengthRuleFires at hlen
  unfold spokenSignificantWords at hocc
  unfold checkWordPreservation
  simp only [hlen, if_false, hrep]
  by_cases h0 : (getSignificantWords U (extractSpokenWords U original)).length = 0
  · rw [if_pos h0]
  · rw [if_neg h0]
    have hcontains : (getSignificantWords U (extractSpokenWords U processed)).contains
        (U.toLowerCase word) = true := by
      simpa using hocc
    have htotal : ((getSignificantWords U (extractSpokenWords U original)).filter fun w =>
          (getSignificantWords U (extractSpokenWords U processed)).contains w).length +
        ((getSignificantWords U (extractSpokenWords U original)).filter fun w =>
          !((getSignificantWords U (extractSpokenWords U processed)).contains w) &&
            (getSignificantWords U (extractSpokenWords U processed)).contains
              (U.toLowerCase word)).length =
        (getSignificantWords U (extractSpokenWords U original)).length := by
      rw [hcontains]
      simp only [Bool.and_true]
      generalize getSignificantWords U (extractSpokenWords U original) = l
      induction l with
      | nil => rfl
      | cons a as ih =>
        simp only [List.filter_cons]
        cases (getSignificantWords U (extractSpokenWords U processed)).contains a <;>
          simp only [Bool.not_false, Bool.not_true, if_true, Bool.false_eq_true, if_false,
            List.length_cons] <;> omega
    have hpos : (0 : ℚ) < ((getSignificantWords U (extractSpokenWords U original)).length : ℚ) := by
      have : 0 < (getSignificantWords U (extractSpokenWords U original)).length := by omega
      exact_mod_cast this
    have hratio : (((((getSignificantWords U (extractSpokenWords U original)).filter fun w =>
          (getSignificantWords U (extractSpokenWords U processed)).contains w).length +
        ((getSignificantWords U (extractSpokenWords U original)).filter fun w =>
          !((getSignificantWords U (extractSpokenWords U processed)).contains w) &&
            (getSignificantWords U (extractSpokenWords U processed)).contains
              (U.toLowerCase word)).length : ℕ) : ℚ)) /
        ((getSignificantWords U (extractSpokenWords U original)).length : ℚ) = 1 := by
      rw [htotal]
      exact div_self (ne_of_gt hpos)
    rw [hratio]
    norm_num

/-- C29 at an input: every word of the original but one is replaced, and the
replacement word is there. -/
theorem C29_replacement_word_overrides_witness :
    ¬ lengthRuleFires asciiUnicode (js "good morning dear friends")
      (js "quack everyone goodbye") ∧
    asciiUnicode.toLowerCase (js "Quack") ∈
      spokenSignificantWords asciiUnicode (js "quack everyone goodbye") ∧
    checkWordPreservation asciiUnicode (js "good morning dear friends")
      (js "quack everyone goodbye") (some ⟨js "replace", none, some (js "Quack"), []⟩) =
      ⟨true, 1⟩ ∧
    checkWordPreservation asciiUnicode (js "good morning dear friends")
      (js "quack everyone goodbye") none = ⟨false, 0⟩ := by
  have h1 : ¬ lengthRuleFires asciiUnicode (js "good morning dear friends")
      (js "quack everyone goodbye") := by
    unfold lengthRuleFires
    decide!
  have h2 : asciiUnicode.toLowerCase (js "Quack") ∈
      spokenSignificantWords asciiUnicode (js "quack everyone goodbye") := by decide!
  exact ⟨h1, h2, C29_replacement_word_overrides asciiUnicode _ _
    ⟨js "replace", none, some (js "Quack"), []⟩ (js "Quack") h1 rfl rfl h2, by decide!⟩


/-! ### Case mode of a literal rule -/

/-- A replacement text without a dollar sign stands for itself. -/
theorem getSubstitution_of_no_dollar (matched before after : Str) (r : Str) (h : 36 ∉ r) :
    getSubstitution matched before after r = r := by
  induction r with
  | nil => rfl
  | cons c cs ih =>
    have hc : c ≠ 36 := fun hc => h (by simp [hc])
    have hcs : 36 ∉ cs := fun hm => h (List.mem_cons_of_mem _ hm)
    have hstep : getSubstitution matched before after (c :: cs) =
        c :: getSubstitution matched before after cs := by
      conv => lhs; unfold getSubstitution
      split
      · rename_i heq; exact absurd heq (by simp)
      · rename_i heq; exact absurd (List.cons.inj heq).1 hc
      · rename_i heq; exact absurd (List.cons.inj heq).1 hc
      · rename_i heq; exact absurd (List.cons.inj heq).1 hc
      · rename_i heq; exact absurd (List.cons.inj heq).1 hc
      · rename_i heq
        rw [(List.cons.inj heq).1, (List.cons.inj heq).2]
    rw [hstep, ih hcs]

theorem map_of_fixed (canonicalize : Nat → Nat) (s : Str) (h : ∀ c ∈ s, canonicalize c = c) :
    s.map canonicalize = s := by
  induction s with
  | nil => rfl
  | cons c cs ih =>
    rw [List.map_cons, h c (List.mem_cons_self _ _),
      ih (fun x hx => h x (List.mem_cons_of_mem _ hx))]

/-- On a text and a pattern whose code units are their own canonical forms, and
with a replacement without `$`, the regular expression of the literal replaces
what `split` and `join` replace. -/
theorem replaceLiteralAux_eq (canonicalize : Nat → Nat) (p r : Str) (hp : p ≠ [])
    (hpat : ∀ c ∈ p, canonicalize c = c) (hr : 36 ∉ r) (rest : Str) :
    (∀ c ∈ rest, canonicalize c = c) → ∀ (skip : Nat) (before : Str) (prev : Option Nat),
      replaceLiteralAux canonicalize p r skip before rest =
        replaceAllAux (matchLiteral p r) skip prev rest := by
  induction rest with
  | nil =>
    intro _ skip before prev
    rw [replaceAllAux_nil]
    cases skip <;> rfl
  | cons c cs ih =>
    intro hfix skip before prev
    have hcs : ∀ x ∈ cs, canonicalize x = x := fun x hx => hfix x (List.mem_cons_of_mem _ hx)
    cases skip with
    | succ k =>
      rw [replaceAllAux_succ]
      show replaceLiteralAux canonicalize p r k (before ++ [c]) cs = _
      exact ih hcs k _ _
    | zero =>
      have hunf : replaceLiteralAux canonicalize p r 0 before (c :: cs) =
          if startsWith ((c :: cs).map canonicalize) (p.map canonicalize) then
            getSubstitution ((c :: cs).take p.length) before ((c :: cs).drop p.length) r ++
              replaceLiteralAux canonicalize p r (p.length - 1) (before ++ [c]) cs
          else c :: replaceLiteralAux canonicalize p r 0 (before ++ [c]) cs := rfl
      rw [hunf, map_of_fixed canonicalize _ hfix, map_of_fixed canonicalize _ hpat,
        getSubstitution_of_no_dollar _ _ _ r hr]
      by_cases hst : startsWith (c :: cs) p = true
      · rw [if_pos hst]
        obtain ⟨n, hn⟩ : ∃ n, p.length = n + 1 :=
          ⟨p.length - 1, by have := List.length_pos.mpr hp; omega⟩
        have hm : matchLiteral p r prev (c :: cs) = some (n + 1, r) := by
          unfold matchLiteral
          rw [if_pos hst, hn]
        rw [replaceAllAux_zero_some _ _ _ _ _ _ hm, hn, Nat.add_sub_cancel, ih hcs n _ (some c)]
      · rw [if_neg hst]
        have hm : matchLiteral p r prev (c :: cs) = none := by
          unfold matchLiteral
          rw [if_neg hst]
        rw [replaceAllAux_zero_none _ _ _ _ hm, ih hcs 0 _ (some c)]

theorem replaceLiteral_eq (canonicalize : Nat → Nat) (p r text : Str) (hp : p ≠ [])
    (hpat : ∀ c ∈ p, canonicalize c = c) (hr : 36 ∉ r)
    (ht : ∀ c ∈ text, canonicalize c = c) :
    replaceLiteral canonicalize p text r = replaceAll (matchLiteral p r) text :=
  replaceLiteralAux_eq canonicalize p r hp hpat hr text ht 0 [] none


theorem unescapeLiteral_escapeRegExp (p : Str) : unescapeLiteral (escapeRegExp p) = some p := by
  induction p with
  | nil => rfl
  | cons c cs ih =>
    have hcons : escapeRegExp (c :: cs) =
        (if isRegExpSpecial c then [92, c] else [c]) ++ escapeRegExp cs := by
      simp [escapeRegExp]
    rw [hcons]
    cases hc : isRegExpSpecial c with
    | true =>
      rw [if_pos rfl, List.cons_append, List.cons_append, List.nil_append]
      conv => lhs; unfold unescapeLiteral
      simp only [if_true, hc, ih, Option.map_some']
    | false =>
      have hne : c ≠ 92 := by
        intro h92
        rw [h92] at hc
        exact absurd hc (by decide)
      rw [if_neg (by simp), List.cons_append, List.nil_append]
      conv => lhs; unfold unescapeLiteral
      simp only [hne, if_false, hc, Bool.false_eq_true, ih, Option.map_some']

/-- The engine for evaluation follows the builtins on escaped literals. -/
theorem literalRegExp_law : EscapedLiteralLaw literalRegExp canon := by
  intro p hp
  show (match unescapeLiteral (escapeRegExp p) with
    | some lit =>
      if lit = [] then none
      else some (replaceLiteral (if 105 ∈ [103, 105] then canon else id) lit)
    | none => none) = _
  rw [unescapeLiteral_escapeRegExp]
  dsimp only
  rw [if_neg hp, if_pos (by decide)]

theorem applyReplacementStep_literalRule (E : RegExpEngine) (canonicalize : Nat → Nat)
    (hE : EscapedLiteralLaw E canonicalize) (pattern replacement text : Str)
    (hp : pattern ≠ []) :
    applyReplacementStep E text (literalRule pattern replacement true) =
      replaceAll (matchLiteral pattern replacement) text ∧
    applyReplacementStep E text (literalRule pattern replacement false) =
      replaceLiteral canonicalize pattern text replacement := by
  unfold applyReplacementStep applyRule literalRule
  simp only [Bool.true_eq_false, if_false, if_neg hp, Bool.false_eq_true, if_true, hE pattern hp,
    Option.map_some']
  exact ⟨trivial, trivial⟩

/-- Without a dollar sign in the replacement string the two branches of a
literal rule agree: for every enabled literal rule with a non-empty pattern and
a replacement string without a dollar sign, and every text such that every code
unit of the text and of the pattern is its own canonical form (no letter that
upper-casing changes), the rule replaces the same occurrences, by the same
text, whether it is case-sensitive (`split` and `join`) or case-insensitive
(the regular expression of the escaped pattern): one turn of the loop of
`applyReplacements` gives the same text, and so does `applyReplacements` for the
rule alone. The branches part only in how they read the replacement string. -/
theorem literalRule_case_modes_agree (E : RegExpEngine) (canonicalize : Nat → Nat)
    (pattern replacement text : Str) (hE : EscapedLiteralLaw E canonicalize)
    (hp : pattern ≠ []) (hr : 36 ∉ replacement)
    (ht : ∀ c ∈ text, canonicalize c = c) (hpat : ∀ c ∈ pattern, canonicalize c = c) :
    applyReplacementStep E text (literalRule pattern replacement false) =
      applyReplacementStep E text (literalRule pattern replacement true) ∧
    applyReplacements E text [literalRule pattern replacement false] =
      applyReplacements E text [literalRule pattern replacement true] ∧
    applyReplacements E text [literalRule pattern replacement true] =
      replaceAll (matchLiteral pattern replacement) text := by
  obtain ⟨h1, h2⟩ := applyReplacementStep_literalRule E canonicalize hE pattern replacement text hp
  have hstep : applyReplacementStep E text (literalRule pattern replacement false) =
      applyReplacementStep E text (literalRule pattern replacement true) := by
    rw [h1, h2, replaceLiteral_eq canonicalize pattern replacement text hp hpat hr ht]
  refine ⟨hstep, ?_, ?_⟩
  · unfold applyReplacements
    by_cases h0 : text = []
    · simp [h0]
    · simp [h0, hstep]
  · unfold applyReplacements
    by_cases h0 : text = []
    · simp only [h0, true_or, if_true]
      rfl
    · simp [h0, h1]

/-- The two branches of a literal rule at an input without a dollar sign: the
plus signs of a sum, a special character of regular expressions, are spelled
out in both modes. -/
theorem literalRule_case_modes_agree_example :
    EscapedLiteralLaw literalRegExp canon ∧
    applyReplacements literalRegExp (js "1 + 1 + 2") [literalRule (js "+") (js "plus") false] =
      js "1 plus 1 plus 2" ∧
    applyReplacements literalRegExp (js "1 + 1 + 2") [literalRule (js "+") (js "plus") true] =
      js "1 plus 1 plus 2" := by
  have h := literalRule_case_modes_agree literalRegExp canon (js "+") (js "plus") (js "1 + 1 + 2")
    literalRegExp_law (by decide) (by decide) (by decide) (by decide)
  have h2 : applyReplacements literalRegExp (js "1 + 1 + 2")
      [literalRule (js "+") (js "plus") true] = js "1 plus 1 plus 2" := by decide!
  exact ⟨literalRegExp_law, by rw [h.2.1]; exact h2, h2⟩


/-- C30, the divergence: the case mode of a literal rule changes the result
for a replacement string with a dollar sign, with no letter in text or pattern.
The case-sensitive branch joins the pieces with the replacement string as it
is, and `1 + 1` with `1` replaced by `$$` becomes `$$ + $$`. The
case-insensitive branch escapes the pattern but hands the replacement string to
`replace` unescaped, where `$$` stands for one `$` and `$&` for the matched
text, and the same rule gives `$ + $`. Both branches stand under the comment
`Plain text replacement` of the source. -/
theorem C30_dollar_in_replacement :
    applyReplacements literalRegExp (js "1 + 1") [literalRule (js "1") (js "$$") true] =
      js "$$ + $$" ∧
    applyReplacements literalRegExp (js "1 + 1") [literalRule (js "1") (js "$$") false] =
      js "$ + $" ∧
    applyReplacements literalRegExp (js "1 + 1") [literalRule (js "1") (js "<$&>") true] =
      js "<$&> + <$&>" ∧
    applyReplacements literalRegExp (js "1 + 1") [literalRule (js "1") (js "<$&>") false] =
      js "<1> + <1>" := by
  decide!
end VoiceForge
